import Mathlib

/-!
# MIROS kernel: thread pool, dispatcher, semaphore and event flags

A shallow embedding of the scheduling and synchronisation kernel of MIROS
(`multithreading_sched.c`, `semaphore.c`, `evt_driven_sched.c`, `os_start.c`).

Conventions of the embedding:

* A pointer to a `thrd_tcb_t` is an `Option ThrdRef`: `none` is `NULL`,
  `some .common` is `&common_thread`, `some (.slot i)` is `&thrd_TCB[i]`.
* Functions that may dereference `NULL` or loop for ever return an `Option`;
  `none` stands for "no defined result" (null dereference or a walk that
  never ends).  List walks carry a fuel of `WALK_FUEL` steps: there are only
  `MAX_THREAD_NUM + 1` TCB objects, so a walk that is still running after
  that many nodes is inside a cycle.
* Machine integers are `Nat`/`Int` reduced explicitly to their width
  (`uint16_t`, `int8_t`, 16-bit `int` and data pointers of the AVR target);
  a conversion to a narrower signed type wraps modulo `2^8`, as avr-gcc
  defines it.
* The interrupt flag (critical sections) and the contents of RAM reached
  through the stack pointer are outside the model; the stack pointer value
  itself is tracked.
-/

namespace Miros

/-! ## Data model (`multithreading_sched.h`, `semaphore.h`, `kernel.h`) -/

/-- Number of pre-reserved thread control blocks (`MAX_THREAD_NUM`). -/
abbrev MAX_THREAD_NUM : Nat := 8

/-- Bytes of stack reserved per thread (`THREAD_CONTEXT_SIZE`). -/
abbrev THREAD_CONTEXT_SIZE : Nat := 128

/-- Iterations granted to a walk along `next` / `semQ_next` links. -/
abbrev WALK_FUEL : Nat := MAX_THREAD_NUM + 2

/-- Thread status (`thrd_status_t`); `THRD_UNUSED` is the value 0 of
zero-initialised storage. -/
inductive thrd_status_t
  | THRD_UNUSED
  | THRD_ACTIVE
  | THRD_SUSPENDED
  | THRD_SLEEPING
  deriving DecidableEq, Repr

open thrd_status_t

/-- The objects a non-null `thrd_tcb_t *` can point to. -/
inductive ThrdRef
  | common
  | slot (i : Fin MAX_THREAD_NUM)
  deriving DecidableEq, Repr

/-- Thread control block (`thrd_tcb_t`). -/
structure thrd_tcb_t where
  next : Option ThrdRef
  thrd_sp : Nat
  thrd_tsk : Nat
  semQ_next : Option ThrdRef
  thrd_period : Nat
  status : thrd_status_t
  deriving DecidableEq, Repr

/-- Zero-initialised TCB, the content of static storage at start-up. -/
def tcb_zero : thrd_tcb_t :=
  { next := none, thrd_sp := 0, thrd_tsk := 0, semQ_next := none,
    thrd_period := 0, status := THRD_UNUSED }

/-- Global kernel state: the TCB table, `common_thread`, the priority list
head `thrd_lstQ`, `curThrd`, `heapSaddr`, the hardware stack pointer and the
bytes written to USART channel 1. -/
structure Kernel where
  thrd_TCB : Fin MAX_THREAD_NUM → thrd_tcb_t
  common_thread : thrd_tcb_t
  thrd_lstQ : Option ThrdRef
  curThrd : Option ThrdRef
  heapSaddr : Nat
  SP : Nat
  usart : List Nat

/-- Read the TCB a pointer refers to. -/
def Kernel.deref (k : Kernel) : ThrdRef → thrd_tcb_t
  | .common => k.common_thread
  | .slot i => k.thrd_TCB i

/-- Overwrite the TCB a pointer refers to. -/
def Kernel.store (k : Kernel) (r : ThrdRef) (t : thrd_tcb_t) : Kernel :=
  match r with
  | .common => { k with common_thread := t }
  | .slot i => { k with thrd_TCB := Function.update k.thrd_TCB i t }

/-- Assignment `r->next = p`. -/
def Kernel.setNext (k : Kernel) (r : ThrdRef) (p : Option ThrdRef) : Kernel :=
  k.store r { k.deref r with next := p }

/-- Assignment `r->status = st`. -/
def Kernel.setStatus (k : Kernel) (r : ThrdRef) (st : thrd_status_t) : Kernel :=
  k.store r { k.deref r with status := st }

/-- Assignment `r->thrd_sp = sp`. -/
def Kernel.setSp (k : Kernel) (r : ThrdRef) (sp : Nat) : Kernel :=
  k.store r { k.deref r with thrd_sp := sp }

/-- Assignment `r->semQ_next = p`. -/
def Kernel.setSemQNext (k : Kernel) (r : ThrdRef) (p : Option ThrdRef) : Kernel :=
  k.store r { k.deref r with semQ_next := p }

/-- Reduction of an address to the 16-bit data pointer width. -/
def ptr16 (a : Int) : Nat := (a % 65536).toNat

/-- State right after `software_init` has set `curThrd = &common_thread` and
`heapSaddr = &_sys_data_end`: every TCB is zero-initialised, the priority list
is empty. -/
def Kernel.boot (sys_data_end sp : Nat) : Kernel :=
  { thrd_TCB := fun _ => tcb_zero, common_thread := tcb_zero, thrd_lstQ := none,
    curThrd := some .common, heapSaddr := sys_data_end, SP := sp, usart := [] }

/-! ## Thread creation (`thrd_contextPrep`) -/

/-- The scan `for(id = 0; id < MAX_THREAD_NUM; id++) if(status == THRD_UNUSED) break;`
started at `id`; the result is the value of `id` when the loop is left. -/
def scanUnused (tcb : Fin MAX_THREAD_NUM → thrd_tcb_t) : Nat → Nat → Nat
  | 0, id => id
  | fuel + 1, id =>
    if h : id < MAX_THREAD_NUM then
      if (tcb ⟨id, h⟩).status = THRD_UNUSED then id else scanUnused tcb fuel (id + 1)
    else id

/-- The insertion walk of `thrd_contextPrep` (source lines 106-132), entered
with the loop variables `thrd_prev` and `thrd`; `id` is the new TCB. -/
def insertWalk (id : Fin MAX_THREAD_NUM) :
    Nat → Kernel → Option ThrdRef → Option ThrdRef → Option Kernel
  | 0, _, _, _ => none
  | _ + 1, k, thrd_prev, none =>
    -- loop left with thrd == NULL: insert to the tail
    match thrd_prev with
    | none => none
    | some p => some (k.setNext p (some (.slot id)))
  | fuel + 1, k, thrd_prev, some thrd =>
    if (k.thrd_TCB id).thrd_period < (k.deref thrd).thrd_period then
      if some thrd = k.thrd_lstQ then
        -- insert to the head
        let k1 := k.setNext (.slot id) k.thrd_lstQ
        some { k1 with thrd_lstQ := some (.slot id) }
      else
        match thrd_prev with
        | none => none
        | some p =>
          let k1 := k.setNext p (some (.slot id))
          some (k1.setNext (.slot id) (some thrd))
    else insertWalk id fuel k (some thrd) (k.deref thrd).next

/-- Lines 92-98 of `thrd_contextPrep`: the stack of the new thread is carved
from `heapSaddr` and the TCB `thrd_TCB[id]` is initialised. -/
def initTCB (k : Kernel) (id : Fin MAX_THREAD_NUM) (thrd_tsk tsk_period : Nat) : Kernel :=
  let heap := ptr16 (k.heapSaddr + THREAD_CONTEXT_SIZE)
  let k1 : Kernel := { k with heapSaddr := heap }
  k1.store (.slot id)
    { k1.thrd_TCB id with
      thrd_sp := ptr16 ((heap : Int) - 1), next := none, thrd_tsk := thrd_tsk,
      thrd_period := tsk_period % 65536, status := THRD_ACTIVE }

/-- Lines 102-133 of `thrd_contextPrep`: the new TCB is added to the thread
queue in the order of the priority. -/
def linkTCB (k : Kernel) (id : Fin MAX_THREAD_NUM) : Option Kernel :=
  match k.thrd_lstQ with
  | none => some { k with thrd_lstQ := some (.slot id) }
  | some hd => insertWalk id WALK_FUEL k (some hd) (some hd)

/-- Lines 147-186 of `thrd_contextPrep`: the stack pointer is saved into the
current thread `cur`, the return address (2 bytes) and 33 zero bytes are
pushed on the new stack, the resulting stack pointer is stored in the new
TCB and the stack pointer of `cur` is restored. -/
def initContext (k : Kernel) (id : Fin MAX_THREAD_NUM) (cur : ThrdRef) : Kernel :=
  let k1 := k.setSp cur k.SP
  let sp_new := ptr16 (((k1.thrd_TCB id).thrd_sp : Int) - 2 - 33)
  let k2 := k1.setSp (.slot id) sp_new
  { k2 with SP := (k2.deref cur).thrd_sp }

/-- Model of `thrd_contextPrep(thrd_tsk, tsk_period)`.  The result is the new
state and the returned pointer (`none` for `NULL`); the bytes 77 and 69 are
the characters 'M' and 'E' sent to the USART. -/
def thrd_contextPrep (k : Kernel) (thrd_tsk tsk_period : Nat) :
    Option (Kernel × Option ThrdRef) :=
  if h : scanUnused k.thrd_TCB MAX_THREAD_NUM 0 < MAX_THREAD_NUM then
    match linkTCB (initTCB k ⟨_, h⟩ thrd_tsk tsk_period) ⟨_, h⟩ with
    | none => none
    | some k3 =>
      match k3.curThrd with
      | none => some ({ k3 with usart := k3.usart ++ [69] }, none)
      | some cur => some (initContext k3 ⟨_, h⟩ cur, some (.slot ⟨_, h⟩))
  else
    some ({ k with usart := k.usart ++ [77] }, none)

/-! ## Selection and dispatch (`getNextThread`, `thread_dispatcher`) -/

/-- The scan of `getNextThread` entered with loop variable `thr`. -/
def getNextThread_walk (k : Kernel) : Nat → Option ThrdRef → Option ThrdRef
  | 0, _ => none
  | _ + 1, none => some .common
  | fuel + 1, some thr =>
    if (k.deref thr).status = THRD_ACTIVE then some thr
    else getNextThread_walk k fuel (k.deref thr).next

/-- Model of `getNextThread()`. -/
def getNextThread (k : Kernel) : Option ThrdRef :=
  getNextThread_walk k WALK_FUEL k.thrd_lstQ

/-- Model of `thread_dispatcher()`, from entry up to the final `RET`: the 33
context bytes are pushed, the stack pointer is saved into `curThrd`, the next
thread is selected and its stack pointer and context are restored. -/
def thread_dispatcher (k : Kernel) : Option Kernel :=
  match k.curThrd with
  | none => none
  | some cur =>
    let k1 := k.setSp cur (ptr16 ((k.SP : Int) - 33))
    match getNextThread k1 with
    | none => none
    | some nxt =>
      some { k1 with curThrd := some nxt, SP := ptr16 (((k1.deref nxt).thrd_sp : Int) + 33) }

/-- Model of `thread_create`: context creation followed by a forced dispatch. -/
def thread_create (k : Kernel) (thrd_tsk tsk_period : Nat) :
    Option (Kernel × Option ThrdRef) :=
  match thrd_contextPrep k thrd_tsk tsk_period with
  | none => none
  | some (k1, thrd) =>
    match thread_dispatcher k1 with
    | none => none
    | some k2 => some (k2, thrd)

/-- Model of `active_Thread(thrd)`. -/
def active_Thread (k : Kernel) (thrd : Option ThrdRef) : Option Kernel :=
  match thrd with
  | none => thread_dispatcher k
  | some t => thread_dispatcher (k.setStatus t THRD_ACTIVE)

/-- Model of `yield_Thread(thrd)`. -/
def yield_Thread (k : Kernel) (thrd : Option ThrdRef) : Option Kernel :=
  match thrd with
  | none => thread_dispatcher k
  | some t => thread_dispatcher (k.setStatus t THRD_SUSPENDED)

/-! ## Semaphore (`semaphore.c`) -/

/-- Conversion of an integer to `int8_t` (two's complement wrap). -/
def toInt8 (v : Int) : Int := (v + 128) % 256 - 128

/-- Semaphore object (`semaphore_t`): `val` is an `int8_t`. -/
structure semaphore_t where
  val : Int
  semQ_hdr : Option ThrdRef
  deriving DecidableEq, Repr

/-- Action argument of `sem_post` (`sem_action_t`). -/
abbrev DISPATCHER : Nat := 0

/-- Action argument of `sem_post` (`sem_action_t`). -/
abbrev NO_DISPATCHER : Nat := 1

/-- Enumerator `ERROR` of `kRuntime_status_t`. -/
abbrev ERROR : Nat := 0

/-- Outcome of a semaphore call: the kernel state, the semaphore object and
the returned byte.  For `sem_acquire`, `blocked` records which branch of
`if(s->val >= 1)` ran: `true` for the branch that queues the caller and calls
the dispatcher. -/
structure SemOut where
  k : Kernel
  s : semaphore_t
  ret : Nat
  blocked : Bool

/-- Model of `sem_init(s, value)`; `s` is the object behind the pointer. -/
def sem_init (s : Option semaphore_t) (value : Int) : Option semaphore_t :=
  match s with
  | none => none
  | some _ => some { val := toInt8 value, semQ_hdr := none }

/-- Model of `sem_post(s, action)`. -/
def sem_post (k : Kernel) (s : Option semaphore_t) (action : Nat) : Option SemOut :=
  match s with
  | none => none
  | some s =>
    let s1 : semaphore_t := { s with val := toInt8 (s.val + 1) }
    match s1.semQ_hdr with
    | none => some { k := k, s := s1, ret := 0, blocked := false }
    | some thrd =>
      let s2 : semaphore_t := { s1 with semQ_hdr := (k.deref thrd).semQ_next }
      if (k.deref thrd).status = THRD_SUSPENDED then
        let k1 := k.setStatus thrd THRD_ACTIVE
        if action = DISPATCHER then
          match thread_dispatcher k1 with
          | none => none
          | some k2 => some { k := k2, s := s2, ret := 0, blocked := false }
        else some { k := k1, s := s2, ret := 0, blocked := false }
      else some { k := k, s := s2, ret := 0, blocked := false }

/-- The loop `for(thrd = s->semQ_hdr; thrd->semQ_next == NULL; thrd = thrd->semQ_next);`
of `sem_acquire`, entered with loop variable `thrd`; the result is `thrd` when
the loop is left. -/
def semQ_walk (k : Kernel) : Nat → Option ThrdRef → Option ThrdRef
  | 0, _ => none
  | _ + 1, none => none
  | fuel + 1, some thrd =>
    if (k.deref thrd).semQ_next = none then semQ_walk k fuel (k.deref thrd).semQ_next
    else some thrd

/-- Model of `sem_acquire(s)`. -/
def sem_acquire (k : Kernel) (s : Option semaphore_t) : Option SemOut :=
  match s with
  | none => none
  | some s =>
    if s.val ≥ 1 then
      some { k := k, s := { s with val := toInt8 (s.val - 1) }, ret := ERROR, blocked := false }
    else
      -- add into the semaphore queue
      let queued : Option (Kernel × semaphore_t) :=
        match s.semQ_hdr with
        | none => some (k, { s with semQ_hdr := k.curThrd })
        | some hd =>
          match semQ_walk k WALK_FUEL (some hd) with
          | none => none
          | some thrd => some (k.setSemQNext thrd k.curThrd, s)
      match queued with
      | none => none
      | some (k1, s1) =>
        match k1.curThrd with
        | none => none
        | some cur =>
          match thread_dispatcher (k1.setStatus cur THRD_SUSPENDED) with
          | none => none
          | some k2 => some { k := k2, s := s1, ret := 0, blocked := true }

/-! ## Event flags (`evt_driven_sched.c`) -/

/-- Model of `taskPost(task_ID)` on the 16-bit word `task_flags`:
`task_flags ^= (0x01 << task_ID)`.  For `task_ID < 16` the shifted operand is
the single bit `task_ID`; a shift by 16 or more (undefined in C) is given the
value whose low 16 bits are zero. -/
def taskPost (task_flags task_ID : Nat) : Nat :=
  (task_flags ^^^ (1 <<< task_ID)) % 65536

/-! ## Semaphore calls through a pointer

`sem_init`, `sem_post` and `sem_acquire` contain no test of their pointer
argument `s`: every access `s->val`, `s->semQ_hdr` goes to the address the
pointer holds.  The null pointer is address 0, which on the AVR target is the
start of the register file and can be loaded from and stored to like any
other address.  A call reaches memory through its one pointer only, so the
memory is given as the pair of fields read at each address. -/

/-- Outcome of one call of `event_driven_scheduling`: the flags word, the
addresses called through `tsk_exec` (in order) and whether
`hardware_sleep()` was executed. -/
structure EvtOut where
  task_flags : Nat
  calls : List Nat
  slept : Bool
  deriving DecidableEq, Repr

/-- The polling loop `for(i = 0, fb = 0x01; i < 16; i++, fb = fb << 1)` of
`event_driven_scheduling`, entered with the loop variables `i` and `fb`.
`tsk_hd_table` is the address of the dispatch table; `run a f` is the value
the code called at address `a` leaves in `task_flags` when entered with
`task_flags = f` (handlers are application code). -/
def evtPoll (tsk_hd_table : Nat) (run : Nat → Nat → Nat) (task_flags : Nat) :
    Nat → Nat → Nat → EvtOut
  | 0, _, _ => { task_flags := task_flags, calls := [], slept := false }
  | fuel + 1, i, fb =>
    if i < 16 then
      if task_flags &&& fb ≠ 0 then
        -- get the task handler address from the task table and execute it
        let tsk_exec := (tsk_hd_table + 4 * i) % 65536
        let flags1 := run tsk_exec task_flags
        -- clear the task flag, then break
        { task_flags := flags1 &&& (65535 ^^^ ((1 <<< i) % 65536)),
          calls := [tsk_exec], slept := false }
      else evtPoll tsk_hd_table run task_flags fuel (i + 1) ((fb <<< 1) % 65536)
    else { task_flags := task_flags, calls := [], slept := false }

/-- Model of `event_driven_scheduling()`. -/
def event_driven_scheduling (tsk_hd_table : Nat) (run : Nat → Nat → Nat) (task_flags : Nat) :
    EvtOut :=
  if task_flags = 0 then { task_flags := task_flags, calls := [], slept := true }
  else evtPoll tsk_hd_table run task_flags 16 0 1

/-! ## Queue primitives (`qlist_proc.c`), single link queue

The functions below work on any record whose first field is the `next`
pointer (`sQList`).  Entries are named by a type `α`; a pointer is an
`Option α`.  Walks carry a fuel; the timer modules call them with one more
than the number of timer objects, so that a walk still running when the fuel
is spent is inside a cycle. -/

/-- A single link queue as the generic functions see it: the head pointer
variable and the `next` field of every entry. -/
structure SQ (α : Type) where
  head : Option α
  next : α → Option α

/-- Model of `isAlreadyInQueue(Qhead, item)`, entered with `p = Qhead`. -/
def isAlreadyInQueue {α : Type} [DecidableEq α] (next : α → Option α) :
    Nat → Option α → Option α → Option Bool
  | 0, _, _ => none
  | _ + 1, none, _ => some false
  | fuel + 1, some p, item =>
    if some p = item then some true else isAlreadyInQueue next fuel (next p) item

/-- Model of `findPrevEntry(Qhead, item)`, entered with `t = Qhead`; the inner
option is the returned pointer. -/
def findPrevEntry {α : Type} [DecidableEq α] (next : α → Option α) :
    Nat → Option α → Option α → Option (Option α)
  | 0, _, _ => none
  | _ + 1, none, _ => some none
  | fuel + 1, some t, item =>
    if next t = item then some (some t) else findPrevEntry next fuel (next t) item

/-- Model of `RemoveEntryFromQ(head, prev, item)`. -/
def RemoveEntryFromQ {α : Type} [DecidableEq α] (q : SQ α) (prev item : Option α) :
    Option (SQ α) :=
  match item with
  | none => none
  | some it =>
    if some it = q.head then
      -- removing first element of list
      let q1 : SQ α := { q with head := q.next it }
      some { q1 with next := Function.update q1.next it none }
    else
      match prev with
      | none => none
      | some p =>
        let q1 : SQ α := { q with next := Function.update q.next p (q.next it) }
        some { q1 with next := Function.update q1.next it none }

/-! ## Software timers -/

/-- Timer mode `TIMER_REPEAT_MODE` (`TimerMode_t`). -/
abbrev TIMER_REPEAT_MODE : Nat := 0

/-- Timer mode `TIMER_ONE_SHOT_MODE` (`TimerMode_t`). -/
abbrev TIMER_ONE_SHOT_MODE : Nat := 1

/-- Reduction of an integer to `uint32_t`. -/
def u32 (x : Int) : Nat := (x % 4294967296).toNat

/-- Reduction of an integer to `uint64_t`. -/
def u64 (x : Int) : Nat := (x % 18446744073709551616).toNat

/-- The constant `UINT32_MAX`. -/
abbrev UINT32_MAX : Nat := 4294967295

namespace ACV

/-! ### Absolute counter value strategy (`timer_ACV.c`) -/

/-- Timer object of the ACV strategy (`timer_t` of `timer_ACV.h`); the timer
objects are named by `Fin N`. -/
structure timer_t (N : Nat) where
  next : Option (Fin N)
  sysTimeLabel : Nat
  interval : Nat
  callback : Nat
  cb_data : Nat
  mode : Nat
  deriving DecidableEq, Repr

/-- State of the ACV timer module: the timer objects, the queue head
`sysTimerQhead` and the system time `sysAbsTime`. -/
structure State (N : Nat) where
  timers : Fin N → timer_t N
  sysTimerQhead : Option (Fin N)
  sysAbsTime : Nat

/-- The timer queue as a single link queue. -/
def State.sq {N : Nat} (s : State N) : SQ (Fin N) :=
  { head := s.sysTimerQhead, next := fun i => (s.timers i).next }

/-- Write the head and the `next` fields of a single link queue back. -/
def State.putSq {N : Nat} (s : State N) (q : SQ (Fin N)) : State N :=
  { s with sysTimerQhead := q.head,
           timers := fun i => { s.timers i with next := q.next i } }

/-- Assignment `t->next = p`. -/
def State.setNext {N : Nat} (s : State N) (t : Fin N) (p : Option (Fin N)) : State N :=
  { s with timers := Function.update s.timers t { s.timers t with next := p } }

/-- Assignment `t->sysTimeLabel = v`. -/
def State.setLabel {N : Nat} (s : State N) (t : Fin N) (v : Nat) : State N :=
  { s with timers := Function.update s.timers t { s.timers t with sysTimeLabel := v } }

/-- Model of `GetSysTime()`. -/
def GetSysTime {N : Nat} (s : State N) : Nat := s.sysAbsTime

/-- The 64-bit value `remain` computed in the loop of `AddTimer` for a queued
timer with the given label and interval. -/
def remain (sysTimeLabel interval sysTime : Nat) : Nat :=
  if sysTimeLabel ≤ sysTime then
    u64 ((sysTimeLabel : Int) + interval - sysTime)
  else
    u64 ((interval : Int) - u32 ((UINT32_MAX : Int) - sysTimeLabel + 1) - sysTime)

/-- The loop of `AddTimer`, entered with the loop variables `prev` and `it`;
the result is the pair `(prev, it)` when the loop is left. -/
def addWalk {N : Nat} (s : State N) (newTimer : Fin N) (sysTime : Nat) :
    Nat → Option (Fin N) → Option (Fin N) → Option (Option (Fin N) × Option (Fin N))
  | 0, _, _ => none
  | _ + 1, prev, none => some (prev, none)
  | fuel + 1, prev, some it =>
    if remain (s.timers it).sysTimeLabel (s.timers it).interval sysTime ≤ UINT32_MAX ∧
        remain (s.timers it).sysTimeLabel (s.timers it).interval sysTime ≥
          (s.timers newTimer).interval then
      some (prev, some it)
    else addWalk s newTimer sysTime fuel (some it) (s.timers it).next

/-- Model of `AddTimer(&sysTimerQhead, newTimer, sysTime)`. -/
def AddTimer {N : Nat} (s : State N) (newTimer : Fin N) (sysTime : Nat) : Option (State N) :=
  match s.sysTimerQhead with
  | none => some { s with sysTimerQhead := some newTimer }
  | some hd =>
    match addWalk s newTimer sysTime (N + 1) none (some hd) with
    | none => none
    | some (prev, it) =>
      if it = s.sysTimerQhead then
        let s1 := s.setNext newTimer s.sysTimerQhead
        some { s1 with sysTimerQhead := some newTimer }
      else
        match prev with
        | none => none
        | some p => some ((s.setNext p (some newTimer)).setNext newTimer it)

/-- Model of `startTimer(Timer)`; the result is the new state and the
returned `int`. -/
def startTimer {N : Nat} (s : State N) (Timer : Option (Fin N)) : Option (State N × Int) :=
  match Timer with
  | none => some (s, -1)
  | some t =>
    match isAlreadyInQueue s.sq.next (N + 1) s.sysTimerQhead (some t) with
    | none => none
    | some true => some (s, 0)
    | some false =>
      let sysTime := GetSysTime s
      let s1 := (s.setNext t none).setLabel t sysTime
      match AddTimer s1 t sysTime with
      | none => none
      | some s2 => some (s2, 0)

/-- Model of `stopTimer(Timer)`; the result is the new state and the
returned `int`. -/
def stopTimer {N : Nat} (s : State N) (Timer : Option (Fin N)) : Option (State N × Int) :=
  match Timer with
  | none => some (s, -1)
  | some t =>
    if s.sysTimerQhead ≠ some t then
      match findPrevEntry s.sq.next (N + 1) s.sysTimerQhead (some t) with
      | none => none
      | some none => some (s, -1)
      | some (some prev) =>
        match RemoveEntryFromQ s.sq (some prev) (some t) with
        | none => none
        | some q => some (s.putSq q, 0)
    else
      match RemoveEntryFromQ s.sq none (some t) with
      | none => none
      | some q => some (s.putSq q, 0)

/-- Model of `timerService()`.  Each loop iteration spends one unit of fuel.
A callback is application code and is taken not to touch the timer module;
its invocation is recorded as the timer together with the state in which the
callback is entered. -/
def timerService {N : Nat} : Nat → State N → Option (State N × List (Fin N × State N))
  | 0, _ => none
  | fuel + 1, s =>
    match s.sysTimerQhead with
    | none => some (s, [])
    | some p =>
      let sysTime := GetSysTime s
      if u32 ((sysTime : Int) - (s.timers p).sysTimeLabel) ≥ (s.timers p).interval then
        -- remove this fired timer from the timer queue
        match RemoveEntryFromQ s.sq none (some p) with
        | none => none
        | some q =>
          let s1 := s.putSq q
          -- a periodical timer is added into the timer queue again
          let readd : Option (State N) :=
            if (s1.timers p).mode = TIMER_REPEAT_MODE then
              AddTimer (s1.setLabel p sysTime) p sysTime
            else some s1
          match readd with
          | none => none
          | some s2 =>
            match timerService fuel s2 with
            | none => none
            | some (s3, calls) => some (s3, (p, s2) :: calls)
      else some (s, [])

/-- Model of the interrupt handler `ISR(TIMER4_COMPA_vect)`: the system time
advances by `APPTIMERINTERVAL`, then `timerService()` runs. -/
def timerISR {N : Nat} (APPTIMERINTERVAL : Nat) (fuel : Nat) (s : State N) :
    Option (State N × List (Fin N × State N)) :=
  timerService fuel { s with sysAbsTime := u32 ((s.sysAbsTime : Int) + APPTIMERINTERVAL) }

end ACV

namespace RCV

/-! ### Relative counter value strategy (`timer_RCV.c`) -/

/-- Timer object of the RCV strategy (`timer_t` of `timer_RCV.h`). -/
structure timer_t (N : Nat) where
  next : Option (Fin N)
  interval : Nat
  callback : Nat
  cb_data : Nat
  mode : Nat
  deriving DecidableEq, Repr

/-- State of the RCV timer module: the timer objects and the queue head. -/
structure State (N : Nat) where
  timers : Fin N → timer_t N
  sysTimerQhead : Option (Fin N)

/-- The timer queue as a single link queue. -/
def State.sq {N : Nat} (s : State N) : SQ (Fin N) :=
  { head := s.sysTimerQhead, next := fun i => (s.timers i).next }

/-- Write the head and the `next` fields of a single link queue back. -/
def State.putSq {N : Nat} (s : State N) (q : SQ (Fin N)) : State N :=
  { s with sysTimerQhead := q.head,
           timers := fun i => { s.timers i with next := q.next i } }

/-- Assignment `t->next = p`. -/
def State.setNext {N : Nat} (s : State N) (t : Fin N) (p : Option (Fin N)) : State N :=
  { s with timers := Function.update s.timers t { s.timers t with next := p } }

/-- Assignment `t->interval = v`. -/
def State.setInterval {N : Nat} (s : State N) (t : Fin N) (v : Nat) : State N :=
  { s with timers := Function.update s.timers t { s.timers t with interval := v } }

/-- Model of `startTimer(Timer)`. -/
def startTimer {N : Nat} (s : State N) (Timer : Option (Fin N)) : Option (State N × Int) :=
  match Timer with
  | none => some (s, -1)
  | some t =>
    match isAlreadyInQueue s.sq.next (N + 1) s.sysTimerQhead (some t) with
    | none => none
    | some true => some (s, 0)
    | some false =>
      -- insert the new timer to the head of timer queue
      let s1 := s.setNext t s.sysTimerQhead
      some ({ s1 with sysTimerQhead := some t }, 0)

/-- Model of `stopTimer(Timer)`. -/
def stopTimer {N : Nat} (s : State N) (Timer : Option (Fin N)) : Option (State N × Int) :=
  match Timer with
  | none => some (s, -1)
  | some t =>
    if s.sysTimerQhead ≠ some t then
      match findPrevEntry s.sq.next (N + 1) s.sysTimerQhead (some t) with
      | none => none
      | some none => some (s, -1)
      | some (some prev) =>
        match RemoveEntryFromQ s.sq (some prev) (some t) with
        | none => none
        | some q => some (s.putSq q, 0)
    else
      match RemoveEntryFromQ s.sq none (some t) with
      | none => none
      | some q => some (s.putSq q, 0)

/-- The loop `for(t = sysTimerQhead; t != NULL; t = t->next)` of
`timerService`, entered with the loop variable `t`.  Each iteration spends
one unit of fuel; a callback invocation is recorded as the timer together
with the state in which the callback is entered. -/
def serviceWalk {N : Nat} (APPTIMERINTERVAL : Nat) :
    Nat → State N → Option (Fin N) → Option (State N × List (Fin N × State N))
  | 0, _, _ => none
  | _ + 1, s, none => some (s, [])
  | fuel + 1, s, some t =>
    if (s.timers t).interval < APPTIMERINTERVAL then
      match stopTimer s (some t) with
      | none => none
      | some (s1, _) =>
        let restart : Option (State N × Int) :=
          if (s1.timers t).mode = TIMER_REPEAT_MODE then startTimer s1 (some t)
          else some (s1, 0)
        match restart with
        | none => none
        | some (s2, _) =>
          match serviceWalk APPTIMERINTERVAL fuel s2 (s2.timers t).next with
          | none => none
          | some (s3, calls) => some (s3, (t, s2) :: calls)
    else
      let s1 := s.setInterval t ((s.timers t).interval - APPTIMERINTERVAL)
      serviceWalk APPTIMERINTERVAL fuel s1 (s1.timers t).next

/-- Model of `timerService()`. -/
def timerService {N : Nat} (APPTIMERINTERVAL : Nat) (fuel : Nat) (s : State N) :
    Option (State N × List (Fin N × State N)) :=
  serviceWalk APPTIMERINTERVAL fuel s s.sysTimerQhead

end RCV

/-! ## Double link queue (`qlist_proc.c`)

The entries of a double link queue (`dlist`) are named by a type `α`; a
pointer is an `Option α`.  The free-chunk queues of the allocators are rings:
`next` of the last entry is the first entry. -/

/-- A double link queue as `dlst_del` and `dlst_merge` see it: the head
pointer variable `*Qhead` and the fields `prev`, `next` and `size` of every
entry. -/
structure DQ (α : Type) where
  head : Option α
  prev : α → Option α
  next : α → Option α
  size : α → Nat

/-- Model of `dlst_del(Qhead, list)`. -/
def dlst_del {α : Type} [DecidableEq α] (q : DQ α) (list : Option α) : Option (DQ α) :=
  match list with
  | none => none
  | some x =>
    -- if only one exist, the queue becomes empty
    if q.next x = some x then some { q with head := none }
    else
      match q.prev x with
      | none => none
      | some p =>
        -- list->prev->next = list->next
        let q1 : DQ α := { q with next := Function.update q.next p (q.next x) }
        match q1.next x with
        | none => none
        | some n =>
          -- list->next->prev = list->prev
          let q2 : DQ α := { q1 with prev := Function.update q1.prev n (q1.prev x) }
          -- update the queue header
          if q2.head = some x then some { q2 with head := q2.next x }
          else some q2

/-- The 16-bit value of a `dlist` pointer: `addr` gives the address of every
entry, `NULL` is 0. -/
def ptrAddr {α : Type} (addr : α → Nat) : Option α → Nat
  | none => 0
  | some x => addr x

/-- Model of `dlst_merge(Qhead, listA, listB)`; `addr` gives the address of
every entry. -/
def dlst_merge {α : Type} [DecidableEq α] (addr : α → Nat) (q : DQ α) (listA listB : Option α) :
    Option (DQ α) :=
  match listA with
  | none => none
  | some a =>
    if (addr a + q.size a) % 65536 = ptrAddr addr listB then
      -- delete "listB"
      match dlst_del q listB with
      | none => none
      | some q1 =>
        -- update "listA" size
        match listB with
        | none => none
        | some b =>
          some { q1 with size := Function.update q1.size a ((q1.size a + q1.size b) % 65536) }
    else some q

/-! ## Context save and restore (`thrdContextSave`, `thrdContextRestore`)

The inline assembly of `multithreading_sched.c` on a machine with the 32
working registers, the status register and the run-time stack as a list of
bytes, top of the stack first. -/

/-- The part of the AVR machine state the context switch works on. -/
structure Cpu where
  reg : Fin 32 → Nat
  sreg : Nat
  stack : List Nat

/-- The instructions used by the context switch code.  `pushv b` stands for
the push of a register operand chosen by the compiler that holds the byte
`b` (`push %A0`, `push %B0`). -/
inductive Instr
  | push (r : Fin 32)
  | pop (r : Fin 32)
  | in_sreg (r : Fin 32)
  | out_sreg (r : Fin 32)
  | cli
  | sei
  | pushv (b : Nat)
  deriving DecidableEq, Repr

/-- Execution of one instruction; `none` for a pop from an empty stack.
`cli` clears and `sei` sets the global interrupt flag, bit 7 of `SREG`. -/
def Instr.step (c : Cpu) : Instr → Option Cpu
  | .push r => some { c with stack := c.reg r :: c.stack }
  | .pop r =>
    match c.stack with
    | [] => none
    | b :: rest => some { c with reg := Function.update c.reg r b, stack := rest }
  | .in_sreg r => some { c with reg := Function.update c.reg r c.sreg }
  | .out_sreg r => some { c with sreg := c.reg r }
  | .cli => some { c with sreg := c.sreg % 128 }
  | .sei => some { c with sreg := c.sreg % 128 + 128 }
  | .pushv b => some { c with stack := b :: c.stack }

/-- Execution of a sequence of instructions. -/
def exec : List Instr → Cpu → Option Cpu
  | [], c => some c
  | i :: is, c =>
    match i.step c with
    | none => none
    | some c1 => exec is c1

/-- The instructions of `thrdContextSave`. -/
def thrdContextSave : List Instr :=
  [.push 24, .in_sreg 24, .cli, .push 24,
   .push 31, .push 30, .push 29, .push 28, .push 27, .push 26, .push 25,
   .push 23, .push 22, .push 21, .push 20, .push 19, .push 18, .push 17, .push 16,
   .push 15, .push 14, .push 13, .push 12, .push 11, .push 10, .push 9, .push 8,
   .push 7, .push 6, .push 5, .push 4, .push 3, .push 2, .push 1, .push 0]

/-- The instructions of `thrdContextRestore`. -/
def thrdContextRestore : List Instr :=
  [.pop 0, .pop 1, .pop 2, .pop 3, .pop 4, .pop 5, .pop 6, .pop 7,
   .pop 8, .pop 9, .pop 10, .pop 11, .pop 12, .pop 13, .pop 14, .pop 15,
   .pop 16, .pop 17, .pop 18, .pop 19, .pop 20, .pop 21, .pop 22, .pop 23,
   .pop 25, .pop 26, .pop 27, .pop 28, .pop 29, .pop 30, .pop 31,
   .pop 24, .out_sreg 24, .pop 24, .sei]

/-- The instructions with which `thrd_contextPrep` builds the first frame on
the stack of a new thread (source lines 160-173): the two bytes of the
address of `thrd_start_wrapper`, low byte first, then 33 times
`push __zero_reg__`; `__zero_reg__` is `r1`. -/
def initFrame (thrd_start_wrapper : Nat) : List Instr :=
  [.pushv (thrd_start_wrapper % 256), .pushv (thrd_start_wrapper / 256 % 256)] ++
    List.replicate 33 (.push 1)

/-- The instruction `RET` at the end of `thread_dispatcher`: the return
address is popped, high byte first; the result is the state and the address
execution continues at. -/
def ret (c : Cpu) : Option (Cpu × Nat) :=
  match c.stack with
  | hi :: lo :: rest => some ({ c with stack := rest }, hi * 256 + lo)
  | _ => none

/-! ## Abstractions used by the statements -/

/-- `n` successive calls `taskPost(task_ID)`. -/
def taskPost_n (task_ID : Nat) : Nat → Nat → Nat
  | 0, task_flags => task_flags
  | n + 1, task_flags => taskPost (taskPost_n task_ID n task_flags) task_ID

/-- The nodes met when following `link` from `p` up to `NULL`; `none` when
the walk has not reached `NULL` after `fuel` steps. -/
def chainFrom (link : ThrdRef → Option ThrdRef) : Nat → Option ThrdRef → Option (List ThrdRef)
  | 0, _ => none
  | _ + 1, none => some []
  | fuel + 1, some r =>
    match chainFrom link fuel (link r) with
    | none => none
    | some l => some (r :: l)

/-- The priority list: the TCBs reached from `thrd_lstQ` through `next`. -/
def Kernel.prioList (k : Kernel) : Option (List ThrdRef) :=
  chainFrom (fun r => (k.deref r).next) WALK_FUEL k.thrd_lstQ

/-- The wait queue of a semaphore: the TCBs reached from `semQ_hdr` through
`semQ_next`. -/
def Kernel.waitQueue (k : Kernel) (s : semaphore_t) : Option (List ThrdRef) :=
  chainFrom (fun r => (k.deref r).semQ_next) WALK_FUEL s.semQ_hdr

/-- `n` consecutive calls of `sem_acquire` on one semaphore, each made in the
state the previous call left; the list collects the `blocked` marks. -/
def sem_acquire_n : Nat → Kernel → semaphore_t → Option (Kernel × semaphore_t × List Bool)
  | 0, k, s => some (k, s, [])
  | n + 1, k, s =>
    match sem_acquire k (some s) with
    | none => none
    | some r =>
      match sem_acquire_n n r.k r.s with
      | none => none
      | some (k1, s1, bs) => some (k1, s1, r.blocked :: bs)

/-- What `getNextThread` yields on a finite priority list: its first Active
node, or the common thread. -/
def firstActive (k : Kernel) (l : List ThrdRef) : ThrdRef :=
  match l.find? (fun r => decide ((k.deref r).status = THRD_ACTIVE)) with
  | some r => r
  | none => .common

/-- A thread body as in `demoTasks.c`: the thread is created and, once it
runs, yields itself (`yield_Thread(curThrd)`). -/
def spawn (k : Kernel) (thrd_tsk tsk_period : Nat) : Option (Kernel × Option ThrdRef) :=
  match thread_create k thrd_tsk tsk_period with
  | none => none
  | some (k1, t) =>
    match yield_Thread k1 k1.curThrd with
    | none => none
    | some k2 => some (k2, t)

/-- The start-up of the demo: three threads with periods 48000, 16000 and
12000 are created from the boot state and each yields; control is back in
the common thread. -/
def demoStart : Option (Kernel × Option ThrdRef × Option ThrdRef × Option ThrdRef) :=
  match spawn (Kernel.boot 0x0200 0x10FF) 1 48000 with
  | none => none
  | some (k1, t1) =>
    match spawn k1 2 16000 with
    | none => none
    | some (k2, t2) =>
      match spawn k2 3 12000 with
      | none => none
      | some (k3, t3) => some (k3, t1, t2, t3)

/-- Binary-semaphore scenario up to the second thread's blocking acquire:
`sem_init(s, 1)`; the first thread is activated and acquires; the second
thread is activated (it preempts the first) and acquires. The result holds
the outcomes of both acquires and the three thread pointers. -/
def semScenario2 : Option (SemOut × SemOut × Option ThrdRef × Option ThrdRef × Option ThrdRef) :=
  match demoStart with
  | none => none
  | some (k, t1, t2, t3) =>
    match sem_init (some ⟨0, none⟩) 1 with
    | none => none
    | some s =>
      match active_Thread k t1 with
      | none => none
      | some ka =>
        match sem_acquire ka (some s) with
        | none => none
        | some r1 =>
          match active_Thread r1.k t2 with
          | none => none
          | some kb =>
            match sem_acquire kb (some r1.s) with
            | none => none
            | some r2 => some (r1, r2, t1, t2, t3)

/-- Continuation of `semScenario2`: the first thread posts with dispatch
requested, then the third thread is activated and acquires. The result holds
the outcome of the post and of the third acquire. -/
def semScenario4 : Option (SemOut × SemOut) :=
  match semScenario2 with
  | none => none
  | some (_, r2, _, _, t3) =>
    match sem_post r2.k (some r2.s) DISPATCHER with
    | none => none
    | some r3 =>
      match active_Thread r3.k t3 with
      | none => none
      | some kc =>
        match sem_acquire kc (some r3.s) with
        | none => none
        | some r4 => some (r3, r4)

/-- Continuation of `semScenario2` for the third thread alone: it is activated
while the second thread is still queued, and acquires. The result holds the
wait queue at the time of the call and whether the call has a defined result. -/
def semScenario3 : Option (Option (List ThrdRef) × Bool) :=
  match semScenario2 with
  | none => none
  | some (_, r2, _, _, t3) =>
    match active_Thread r2.k t3 with
    | none => none
    | some kc => some (kc.waitQueue r2.s, (sem_acquire kc (some r2.s)).isSome)

/-- A state in which `thrd_TCB[0]` and `thrd_TCB[1]` are suspended and linked,
in that order, through `semQ_next`, and `thrd_TCB[2]` is running. -/
def twoWaitersK : Kernel :=
  let k0 := Kernel.boot 0x0200 0x10FF
  let k1 := (k0.setStatus (.slot 0) THRD_SUSPENDED).setSemQNext (.slot 0) (some (.slot 1))
  let k2 := (k1.setStatus (.slot 1) THRD_SUSPENDED).setStatus (.slot 2) THRD_ACTIVE
  { k2 with curThrd := some (.slot 2) }

/-- A state in which `thrd_TCB[0]` is suspended and `thrd_TCB[1]` is running. -/
def runningK : Kernel :=
  let k0 := Kernel.boot 0x0200 0x10FF
  let k1 := (k0.setStatus (.slot 0) THRD_SUSPENDED).setStatus (.slot 1) THRD_ACTIVE
  { k1 with curThrd := some (.slot 1) }

/-- `Seg nxt p l q`: following the links `nxt` from the pointer `p` passes
exactly through the nodes `l`, in order, and arrives at the pointer `q`. -/
def Seg (nxt : ThrdRef → Option ThrdRef) : Option ThrdRef → List ThrdRef → Option ThrdRef → Prop
  | p, [], q => p = q
  | p, a :: l, q => p = some a ∧ Seg nxt (nxt a) l q

/-- The `next` link of each TCB, as a function of the pointer. -/
def Kernel.links (k : Kernel) : ThrdRef → Option ThrdRef :=
  fun r => (k.deref r).next

/-- The period of the TCB behind a pointer. -/
def Kernel.period (k : Kernel) (r : ThrdRef) : Nat :=
  (k.deref r).thrd_period

/-- `FrameNext k k'`: the state `k'` differs from `k` at most in `next`
links and in the list head `thrd_lstQ`. -/
def FrameNext (k k' : Kernel) : Prop :=
  (∀ r, (k'.deref r).status = (k.deref r).status ∧
    (k'.deref r).thrd_period = (k.deref r).thrd_period ∧
    (k'.deref r).semQ_next = (k.deref r).semQ_next ∧
    (k'.deref r).thrd_sp = (k.deref r).thrd_sp ∧
    (k'.deref r).thrd_tsk = (k.deref r).thrd_tsk) ∧
  k'.curThrd = k.curThrd ∧ k'.heapSaddr = k.heapSaddr ∧ k'.SP = k.SP ∧ k'.usart = k.usart

/-- Successive `thrd_contextPrep` calls, one per `(thrd_tsk, tsk_period)`
request, all of which succeed (return a non-null TCB); the result is the
final state and the returned TCBs in the order of creation. -/
def createAll : Kernel → List (Nat × Nat) → Option (Kernel × List ThrdRef)
  | k, [] => some (k, [])
  | k, (tsk, per) :: reqs =>
    match thrd_contextPrep k tsk per with
    | some (k1, some t) =>
      match createAll k1 reqs with
      | some (k2, ts) => some (k2, t :: ts)
      | none => none
    | _ => none

/-- Order of two nodes `a` before `b` of the priority list, `ts` being the
TCBs in the order of their creation: the period of `a` does not exceed that
of `b`, and when the periods are equal `a` was created before `b`. -/
def PrioOrder (per : ThrdRef → Nat) (ts : List ThrdRef) (a b : ThrdRef) : Prop :=
  per a ≤ per b ∧ (per a = per b → [a, b].Sublist ts)

/-- Invariant of the priority list `l` of a state in which the TCBs `ts`
have been created, in that order. -/
def PrioInv (k : Kernel) (ts l : List ThrdRef) : Prop :=
  Seg k.links k.thrd_lstQ l none ∧ l.Perm ts ∧ ts.Nodup ∧
  (∀ r ∈ ts, ∃ i, r = .slot i ∧ (k.thrd_TCB i).status ≠ THRD_UNUSED) ∧
  l.Pairwise (PrioOrder k.period ts)

/-- States built from an empty thread table by thread creation.  `Built k ts`:
`k` is reached from a state with an empty priority list and all TCBs Unused
by successful `thrd_contextPrep` calls returning the TCBs `ts` in that order,
interleaved with dispatches (`thread_dispatcher`), with status writes to a
created TCB or to the common thread (as `active_Thread`, `yield_Thread`,
`sem_post` and `sem_acquire` perform) and with writes of wait-queue links. -/
inductive Built : Kernel → List ThrdRef → Prop
  | boot (k : Kernel) : k.thrd_lstQ = none →
      (∀ i, (k.thrd_TCB i).status = THRD_UNUSED) → Built k []
  | create (k k' : Kernel) (ts : List ThrdRef) (tsk per : Nat) (t : ThrdRef) :
      Built k ts → thrd_contextPrep k tsk per = some (k', some t) → Built k' (ts ++ [t])
  | dispatch (k k' : Kernel) (ts : List ThrdRef) :
      Built k ts → thread_dispatcher k = some k' → Built k' ts
  | status (k : Kernel) (ts : List ThrdRef) (r : ThrdRef) (st : thrd_status_t) :
      Built k ts → (r ∈ ts ∨ r = .common) → st ≠ THRD_UNUSED → Built (k.setStatus r st) ts
  | semq (k : Kernel) (ts : List ThrdRef) (r : ThrdRef) (p : Option ThrdRef) :
      Built k ts → Built (k.setSemQNext r p) ts

/-- The creation requests of the demo (`start_RT_tasks`): task handlers 1, 2, 3
with periods 48000, 12000 and 16000. -/
def demoReqs : List (Nat × Nat) := [(1, 48000), (2, 12000), (3, 16000)]

/-- The state and the TCBs obtained by serving `demoReqs` from the boot state. -/
def demoCreated : Kernel × List ThrdRef :=
  match createAll (Kernel.boot 0x0200 0x10FF) demoReqs with
  | some x => x
  | none => (Kernel.boot 0x0200 0x10FF, [])

/-- The state after one thread with period 500 has been created from the
boot state. -/
def tieK1 : Kernel :=
  match thrd_contextPrep (Kernel.boot 0x0200 0x10FF) 1 500 with
  | some (k, _) => k
  | none => Kernel.boot 0x0200 0x10FF

/-- The state after a second thread with the same period 500 has been created. -/
def tieK2 : Kernel :=
  match thrd_contextPrep tieK1 2 500 with
  | some (k, _) => k
  | none => tieK1

/-! ## Abstractions for the timer queues -/

/-- `Linked next p l q`: following the links `next` from the pointer `p`
passes exactly through the entries `l`, in order, and arrives at the pointer
`q`. -/
def Linked {α : Type} (next : α → Option α) : Option α → List α → Option α → Prop
  | p, [], q => p = q
  | p, a :: l, q => p = some a ∧ Linked next (next a) l q

/-- The entries met when following `next` from `p` up to `NULL`; `none` when
the walk has not reached `NULL` after `fuel` steps. -/
def linkList {α : Type} (next : α → Option α) : Nat → Option α → Option (List α)
  | 0, _ => none
  | _ + 1, none => some []
  | fuel + 1, some a =>
    match linkList next fuel (next a) with
    | none => none
    | some l => some (a :: l)

/-- The timer queue of an ACV state as a list, head first; `none` when the
links form a cycle. -/
def ACV.State.queue {N : Nat} (s : ACV.State N) : Option (List (Fin N)) :=
  linkList s.sq.next (N + 1) s.sysTimerQhead

/-- The timer queue of an RCV state as a list, head first; `none` when the
links form a cycle. -/
def RCV.State.queue {N : Nat} (s : RCV.State N) : Option (List (Fin N)) :=
  linkList s.sq.next (N + 1) s.sysTimerQhead

/-- Elapsed time of timer `x` at time `now`: `(now - label) mod 2^32`. -/
def ACV.State.elapsed {N : Nat} (s : ACV.State N) (now : Nat) (x : Fin N) : Nat :=
  u32 ((now : Int) - (s.timers x).sysTimeLabel)

/-- The fields of an ACV state are 32-bit values (`uint32_t`). -/
def ACV.State.Typed {N : Nat} (s : ACV.State N) : Prop :=
  s.sysAbsTime < 4294967296 ∧
    ∀ i, (s.timers i).sysTimeLabel < 4294967296 ∧ (s.timers i).interval < 4294967296

/-- The condition under which the loop of `AddTimer` stops at the queued
timer `it`. -/
def ACV.stopsAt {N : Nat} (s : ACV.State N) (newTimer : Fin N) (sysTime : Nat) (it : Fin N) :
    Prop :=
  ACV.remain (s.timers it).sysTimeLabel (s.timers it).interval sysTime ≤ UINT32_MAX ∧
    ACV.remain (s.timers it).sysTimeLabel (s.timers it).interval sysTime ≥
      (s.timers newTimer).interval

/-- Two ACV states agree on the system time and on every timer field other
than the `next` link. -/
def ACV.SameData {N : Nat} (s s' : ACV.State N) : Prop :=
  s'.sysAbsTime = s.sysAbsTime ∧
    ∀ i, (s'.timers i).sysTimeLabel = (s.timers i).sysTimeLabel ∧
      (s'.timers i).interval = (s.timers i).interval ∧
      (s'.timers i).callback = (s.timers i).callback ∧
      (s'.timers i).cb_data = (s.timers i).cb_data ∧
      (s'.timers i).mode = (s.timers i).mode

/-- Two RCV states agree on every timer field other than the `next` link. -/
def RCV.SameData {N : Nat} (s s' : RCV.State N) : Prop :=
  ∀ i, (s'.timers i).interval = (s.timers i).interval ∧
    (s'.timers i).callback = (s.timers i).callback ∧
    (s'.timers i).cb_data = (s.timers i).cb_data ∧
    (s'.timers i).mode = (s.timers i).mode

/-- The entry `t` is queued: following the links from the head reaches it. -/
def Queued {α : Type} (next : α → Option α) (head : Option α) (t : α) : Prop :=
  ∃ path, Linked next head path (some t)

/-- Signed remaining time to fire of timer `x` at time `now`:
`interval - ((now - label) mod 2^32)`, negative for an overdue timer. -/
def ACV.State.remaining {N : Nat} (s : ACV.State N) (now : Nat) (x : Fin N) : Int :=
  ((s.timers x).interval : Int) - s.elapsed now x

/-- Insertion position as worded in the specification of `AddTimer`: before
the first queued timer whose remaining time is less than the interval of the
new timer, at the tail when there is none. -/
def ACV.insertBeforeFirstShorter {N : Nat} (s : ACV.State N) (newTimer : Fin N) (now : Nat)
    (l : List (Fin N)) : List (Fin N) :=
  l.takeWhile (fun x => ! decide (s.remaining now x < (s.timers newTimer).interval)) ++
    newTimer :: l.dropWhile (fun x => ! decide (s.remaining now x < (s.timers newTimer).interval))

/-- Example ACV state: three timers armed at tick `4294967290` with intervals
30, 10 and 20, queued in the order 1, 2, 0; timer 1 is repeating. -/
def ACV.exQueue : ACV.State 3 :=
  { timers := fun i =>
      { next := if i = 1 then some 2 else if i = 2 then some 0 else none,
        sysTimeLabel := 4294967290,
        interval := if i = 0 then 30 else if i = 1 then 10 else 20,
        callback := 0, cb_data := 0,
        mode := if i = 1 then TIMER_REPEAT_MODE else TIMER_ONE_SHOT_MODE },
    sysTimerQhead := some 1,
    sysAbsTime := 4294967290 }

/-- Example ACV state: timer 0 with interval 100 armed at tick 0 is queued,
timer 1 with interval 50 is not. -/
def ACV.exSingle : ACV.State 2 :=
  { timers := fun i =>
      { next := none, sysTimeLabel := 0, interval := if i = 0 then 100 else 50,
        callback := 0, cb_data := 0, mode := TIMER_ONE_SHOT_MODE },
    sysTimerQhead := some 0,
    sysAbsTime := 0 }

/-- Example RCV state: timers 1 and 0 are queued in this order with countdowns
7 and 25, timer 2 is not queued. -/
def RCV.exQueue : RCV.State 3 :=
  { timers := fun i =>
      { next := if i = 1 then some 0 else none,
        interval := if i = 0 then 25 else if i = 1 then 7 else 40,
        callback := 0, cb_data := 0, mode := TIMER_REPEAT_MODE },
    sysTimerQhead := some 1 }

/-- Timer `x` is expired at the current system time: the test of the `while`
loop of `timerService`. -/
def ACV.State.due {N : Nat} (s : ACV.State N) (x : Fin N) : Prop :=
  u32 ((s.sysAbsTime : Int) - (s.timers x).sysTimeLabel) ≥ (s.timers x).interval

instance ACV.State.decDue {N : Nat} (s : ACV.State N) (x : Fin N) : Decidable (s.due x) := by
  unfold ACV.State.due
  exact inferInstance

/-- The body of the `while` loop of `timerService` up to the call of the
callback, for the head `p`: the state in which the callback is entered. -/
def ACV.fireHead {N : Nat} (s : ACV.State N) (p : Fin N) : Option (ACV.State N) :=
  match RemoveEntryFromQ s.sq none (some p) with
  | none => none
  | some q =>
    if ((s.putSq q).timers p).mode = TIMER_REPEAT_MODE then
      ACV.AddTimer ((s.putSq q).setLabel p s.sysAbsTime) p s.sysAbsTime
    else some (s.putSq q)

/-- Well-formed ACV state: 32-bit fields, a queue that ends in `NULL`, and no
queued repeating timer with interval 0. -/
def ACV.State.WF {N : Nat} (s : ACV.State N) : Prop :=
  s.Typed ∧ ∃ l, s.queue = some l ∧
    ∀ x ∈ l, (s.timers x).mode = TIMER_REPEAT_MODE → 0 < (s.timers x).interval

/-- Number of expired timers in the queue. -/
def ACV.State.dueCount {N : Nat} (s : ACV.State N) : Nat :=
  ((s.queue.getD []).filter (fun x => decide (s.due x))).length

/-- Example ACV state: the example queue after the counter has wrapped to 4,
ten ticks after the timers were armed; timer 1 (interval 10) is expired. -/
def ACV.exDue : ACV.State 3 := { ACV.exQueue with sysAbsTime := 4 }

/-- Example RCV state: one repeating timer with interval 25 is queued. -/
def RCV.exRepeat : RCV.State 1 :=
  { timers := fun _ =>
      { next := none, interval := 25, callback := 0, cb_data := 0,
        mode := TIMER_REPEAT_MODE },
    sysTimerQhead := some 0 }

/-- Timer `x` does not fire later than timer `y`: the signed remaining times
at the current system time are ordered. -/
def ACV.State.sooner {N : Nat} (s : ACV.State N) (x y : Fin N) : Prop :=
  s.remaining s.sysAbsTime x ≤ s.remaining s.sysAbsTime y

/-- The timer queue ends in `NULL` and the signed remaining times to fire are
non-decreasing from head to tail. -/
def ACV.State.Sorted {N : Nat} (s : ACV.State N) : Prop :=
  ∃ l, s.queue = some l ∧ l.Pairwise s.sooner

/-- The states of the ACV timer module reachable from an empty queue by
`startTimer`, `stopTimer` and ticks of the hardware timer (the interrupt
handler with `timerService`), for timers with intervals that are positive and
below `2^31`. -/
inductive ACV.Reach {N : Nat} (APPTIMERINTERVAL : Nat) : ACV.State N → Prop
  | init (s : ACV.State N) : s.Typed → s.sysTimerQhead = none →
      (∀ i, 0 < (s.timers i).interval ∧ (s.timers i).interval < 2147483648) →
      ACV.Reach APPTIMERINTERVAL s
  | start (s s' : ACV.State N) (Timer : Option (Fin N)) (r : Int) :
      ACV.Reach APPTIMERINTERVAL s → ACV.startTimer s Timer = some (s', r) →
      ACV.Reach APPTIMERINTERVAL s'
  | stop (s s' : ACV.State N) (Timer : Option (Fin N)) (r : Int) :
      ACV.Reach APPTIMERINTERVAL s → ACV.stopTimer s Timer = some (s', r) →
      ACV.Reach APPTIMERINTERVAL s'
  | tick (s s' : ACV.State N) (calls : List (Fin N × ACV.State N)) :
      ACV.Reach APPTIMERINTERVAL s →
      ACV.timerISR APPTIMERINTERVAL (N + 1) s = some (s', calls) →
      ACV.Reach APPTIMERINTERVAL s'

/-- Invariant of the ACV timer module between the calls: 32-bit fields,
intervals positive and below `2^31`, a sorted queue, and no queued timer whose
elapsed time would wrap at the next tick. -/
def ACV.Inv {N : Nat} (APPTIMERINTERVAL : Nat) (s : ACV.State N) : Prop :=
  s.Typed ∧ (∀ i, 0 < (s.timers i).interval ∧ (s.timers i).interval < 2147483648) ∧
    ∃ l, s.queue = some l ∧ l.Pairwise s.sooner ∧
      ∀ x ∈ l, s.elapsed s.sysAbsTime x + APPTIMERINTERVAL % 4294967296 < 4294967296

/-- Invariant of the loop of `timerService` after a tick: as `ACV.Inv`, but
a queued timer has either just been re-armed or has seen the whole tick. -/
def ACV.InvService {N : Nat} (APPTIMERINTERVAL : Nat) (s : ACV.State N) : Prop :=
  s.Typed ∧ (∀ i, 0 < (s.timers i).interval ∧ (s.timers i).interval < 2147483648) ∧
    ∃ l, s.queue = some l ∧ l.Pairwise s.sooner ∧
      ∀ x ∈ l, s.elapsed s.sysAbsTime x = 0 ∨
        APPTIMERINTERVAL % 4294967296 ≤ s.elapsed s.sysAbsTime x

/-- Example ACV state: no timer is queued, the three timers have intervals
30, 10 and 20, and the system time is `4294967290`. -/
def ACV.exInit : ACV.State 3 :=
  { timers := fun i =>
      { next := none, sysTimeLabel := 0,
        interval := if i = 0 then 30 else if i = 1 then 10 else 20,
        callback := 0, cb_data := 0,
        mode := if i = 1 then TIMER_REPEAT_MODE else TIMER_ONE_SHOT_MODE },
    sysTimerQhead := none,
    sysAbsTime := 4294967290 }

/-- Timer `x` expires no later than timer `y` at every time: the delay of the
label of `x` behind the label of `y`, plus the interval of `x`, does not
exceed the interval of `y`. -/
def ACV.State.Good {N : Nat} (s : ACV.State N) (x y : Fin N) : Prop :=
  u32 (((s.timers x).sysTimeLabel : Int) - (s.timers y).sysTimeLabel) + (s.timers x).interval ≤
    (s.timers y).interval

/-- The state after `n` ticks of the hardware timer, each served by the
interrupt handler. -/
def ACV.afterTicks {N : Nat} (APPTIMERINTERVAL : Nat) : Nat → ACV.State N → Option (ACV.State N)
  | 0, s => some s
  | n + 1, s =>
    match ACV.afterTicks APPTIMERINTERVAL n s with
    | none => none
    | some s1 => (ACV.timerISR APPTIMERINTERVAL (N + 1) s1).map Prod.fst

/-- The timers selected by `U` were armed at tick `T` and have not fired yet:
they are queued with label `T`, and every timer queued ahead of one of them
expires no later than it. -/
def ACV.Armed {N : Nat} (T : Nat) (U : Fin N → Prop) (s : ACV.State N) : Prop :=
  s.WF ∧ ∃ l, s.queue = some l ∧
    (∀ x, U x → x ∈ l ∧ (s.timers x).sysTimeLabel = T) ∧
    l.Pairwise (fun x y => U y → s.Good x y)

/-- The property kept by the loop of `timerService`, entered in state `s`,
for the timers selected by `U` (armed at tick `T`, not fired before this
call): `acc` are the callback invocations made so far and `st` is the
current state. -/
def ACV.ArmedService {N : Nat} (T : Nat) (U : Fin N → Prop) (s : ACV.State N)
    (acc : List (Fin N × ACV.State N)) (st : ACV.State N) : Prop :=
  (st.sysAbsTime = s.sysAbsTime ∧
    ∀ i, (st.timers i).mode = (s.timers i).mode ∧
      (st.timers i).interval = (s.timers i).interval) ∧
  (∃ l, st.queue = some l ∧
    (∀ x, U x → x ∉ acc.map Prod.fst → x ∈ l ∧ (st.timers x).sysTimeLabel = T) ∧
    l.Pairwise (fun x y => (U y ∧ y ∉ acc.map Prod.fst) → st.Good x y)) ∧
  (∀ x, U x → x ∈ acc.map Prod.fst →
    (s.timers x).interval ≤ u32 ((s.sysAbsTime : Int) - T)) ∧
  (∀ x y, U x → U y → (s.timers x).interval < (s.timers y).interval →
    ∀ pre suf, acc.map Prod.fst = pre ++ suf → y ∈ pre → x ∈ pre)

/-- Insertion of `t` into a list of timers before the first entry whose
interval is at least the interval of `t`. -/
def insertByInterval {N : Nat} (I : Fin N → Nat) (t : Fin N) : List (Fin N) → List (Fin N)
  | [] => [t]
  | b :: l => if I t ≤ I b then t :: b :: l else b :: insertByInterval I t l

/-- The value of the system time at the `j`-th service call after tick `T`. -/
def ACV.tickTime (APPTIMERINTERVAL T j : Nat) : Nat :=
  u32 ((T : Int) + j * APPTIMERINTERVAL)

/-- Example ACV state: no timer is queued; timer 0 is repeating with interval
0, timers 1 and 2 are one-shot timers with intervals 10 and 20; the system
time is `4294967290`. -/
def ACV.exZeroInit : ACV.State 3 :=
  { timers := fun i =>
      { next := none, sysTimeLabel := 0,
        interval := if i = 0 then 0 else if i = 1 then 10 else 20,
        callback := 0, cb_data := 0,
        mode := if i = 0 then TIMER_REPEAT_MODE else TIMER_ONE_SHOT_MODE },
    sysTimerQhead := none,
    sysAbsTime := 4294967290 }

/-! ## Abstractions for the double link queue -/

/-- The links `f` lead from the first entry of `l` through `l`, in order, and
back to the first entry. -/
def Cyc {α : Type} (f : α → Option α) (l : List α) : Prop :=
  ∀ a, l.head? = some a → Linked f (some a) l (some a)

/-- Well-formed ring: the entries `l`, head first, are distinct, `next` leads
through them in this order and back to the head, and `prev` leads through
them in the opposite order; the empty ring has a null head. -/
def Ring {α : Type} (q : DQ α) (l : List α) : Prop :=
  l.Nodup ∧ q.head = l.head? ∧ Cyc q.next l ∧ Cyc q.prev l.reverse

/-- Example ring of three chunks at the addresses 256, 320 and 512 with
sizes 64, 100 and 32; chunk 1 starts where chunk 0 ends. -/
def exRing : DQ (Fin 3) :=
  { head := some 0,
    prev := fun i => if i = 0 then some 2 else if i = 1 then some 0 else some 1,
    next := fun i => if i = 0 then some 1 else if i = 1 then some 2 else some 0,
    size := fun i => if i = 0 then 64 else if i = 1 then 100 else 32 }

/-- Addresses of the chunks of `exRing`. -/
def exAddr : Fin 3 → Nat := fun i => if i = 0 then 256 else if i = 1 then 320 else 512


/-- Example RCV state: the queue is `[0, 1, 2]` with countdowns 5, 25 and 35;
all three are one-shot timers. -/
def RCV.exOneShotHead : RCV.State 3 :=
  { timers := fun i =>
      { next := if i = 0 then some 1 else if i = 1 then some 2 else none,
        interval := if i = 0 then 5 else if i = 1 then 25 else 35,
        callback := 0, cb_data := 0, mode := TIMER_ONE_SHOT_MODE },
    sysTimerQhead := some 0 }

/-- Example RCV state: the queue is `[0, 1, 2]` with countdowns 25, 5 and 35;
all three are repeating timers. -/
def RCV.exRepeatMiddle : RCV.State 3 :=
  { timers := fun i =>
      { next := if i = 0 then some 1 else if i = 1 then some 2 else none,
        interval := if i = 0 then 25 else if i = 1 then 5 else 35,
        callback := 0, cb_data := 0, mode := TIMER_REPEAT_MODE },
    sysTimerQhead := some 0 }


/-! ## Abstractions for the reachable states of the thread kernel -/

/-- The states of the thread kernel reachable from an initial state (empty
priority list, every TCB of the table Unused) by `thread_create`,
`active_Thread`, `yield_Thread`, `sem_acquire` and `sem_post`, called with
any arguments and on any semaphore object. -/
inductive KReach : Kernel → Prop
  | init (k : Kernel) : k.thrd_lstQ = none →
      (∀ i, (k.thrd_TCB i).status = THRD_UNUSED) → KReach k
  | create (k k' : Kernel) (tsk per : Nat) (r : Option ThrdRef) :
      KReach k → thread_create k tsk per = some (k', r) → KReach k'
  | active (k k' : Kernel) (thrd : Option ThrdRef) :
      KReach k → active_Thread k thrd = some k' → KReach k'
  | yield (k k' : Kernel) (thrd : Option ThrdRef) :
      KReach k → yield_Thread k thrd = some k' → KReach k'
  | acquire (k : Kernel) (s : Option semaphore_t) (o : SemOut) :
      KReach k → sem_acquire k s = some o → KReach o.k
  | post (k : Kernel) (s : Option semaphore_t) (action : Nat) (o : SemOut) :
      KReach k → sem_post k s action = some o → KReach o.k

/-- The priority list is a `NULL`-terminated chain of TCBs of the thread
table, each with status Active or Suspended. -/
def ListOK (k : Kernel) : Prop :=
  ∃ l, Seg k.links k.thrd_lstQ l none ∧
    ∀ r ∈ l, (∃ i, r = ThrdRef.slot i) ∧
      ((k.deref r).status = THRD_ACTIVE ∨ (k.deref r).status = THRD_SUSPENDED)

/-- `StatusStep k k'`: the priority list head and every `next` link are the
same in `k'` as in `k`, and a status that differs is Active or Suspended. -/
def StatusStep (k k' : Kernel) : Prop :=
  k'.thrd_lstQ = k.thrd_lstQ ∧
    ∀ r, (k'.deref r).next = (k.deref r).next ∧
      ((k'.deref r).status = (k.deref r).status ∨ (k'.deref r).status = THRD_ACTIVE ∨
        (k'.deref r).status = THRD_SUSPENDED)

/-- The thread kernel together with semaphore objects named by `ι`. -/
structure SemSys (ι : Type) where
  k : Kernel
  sem : ι → semaphore_t

/-- The thread `t` is in the wait queue of some semaphore. -/
def SemSys.waiting {ι : Type} (S : SemSys ι) (t : ThrdRef) : Prop :=
  ∃ i l, S.k.waitQueue (S.sem i) = some l ∧ t ∈ l

/-- The states reachable from an initial state (empty priority list, every
TCB Unused, every `semQ_next` link and every wait queue head null) by
`thread_create`, `yield_Thread`, `sem_init`, `sem_post`, by `active_Thread`
applied to a thread that is in no wait queue, and by `sem_acquire` called by
a thread that is in no wait queue. -/
inductive SemReach {ι : Type} [DecidableEq ι] : SemSys ι → Prop
  | init (S : SemSys ι) : S.k.thrd_lstQ = none →
      (∀ i, (S.k.thrd_TCB i).status = THRD_UNUSED) →
      (∀ r, (S.k.deref r).semQ_next = none) → (∀ i, (S.sem i).semQ_hdr = none) → SemReach S
  | create (S : SemSys ι) (k' : Kernel) (tsk per : Nat) (r : Option ThrdRef) :
      SemReach S → thread_create S.k tsk per = some (k', r) → SemReach { S with k := k' }
  | active (S : SemSys ι) (k' : Kernel) (thrd : Option ThrdRef) :
      SemReach S → (∀ t, thrd = some t → ¬ S.waiting t) →
      active_Thread S.k thrd = some k' → SemReach { S with k := k' }
  | yield (S : SemSys ι) (k' : Kernel) (thrd : Option ThrdRef) :
      SemReach S → yield_Thread S.k thrd = some k' → SemReach { S with k := k' }
  | seminit (S : SemSys ι) (i : ι) (value : Int) (s' : semaphore_t) :
      SemReach S → sem_init (some (S.sem i)) value = some s' →
      SemReach { S with sem := Function.update S.sem i s' }
  | acquire (S : SemSys ι) (i : ι) (o : SemOut) :
      SemReach S → (∀ cur, S.k.curThrd = some cur → ¬ S.waiting cur) →
      sem_acquire S.k (some (S.sem i)) = some o →
      SemReach { k := o.k, sem := Function.update S.sem i o.s }
  | post (S : SemSys ι) (i : ι) (action : Nat) (o : SemOut) :
      SemReach S → sem_post S.k (some (S.sem i)) action = some o →
      SemReach { k := o.k, sem := Function.update S.sem i o.s }

/-- Invariant of `SemReach`: every `semQ_next` link is null, the head of every
wait queue is Suspended, and no thread heads two wait queues. -/
def SemInv {ι : Type} (S : SemSys ι) : Prop :=
  (∀ r, (S.k.deref r).semQ_next = none) ∧
    (∀ i t, (S.sem i).semQ_hdr = some t → (S.k.deref t).status = THRD_SUSPENDED) ∧
    (∀ i j t, (S.sem i).semQ_hdr = some t → (S.sem j).semQ_hdr = some t → i = j)

/-- A state in which every TCB of the table is in use (Active). -/
def poolFullK : Kernel :=
  { Kernel.boot 0x0200 0x10FF with thrd_TCB := fun _ => { tcb_zero with status := THRD_ACTIVE } }

/-- The state after `thread_create` of a thread with period 48000 in the boot
state. -/
def runK1 : Kernel :=
  match thread_create (Kernel.boot 0x0200 0x10FF) 1 48000 with
  | some (k, _) => k
  | none => Kernel.boot 0x0200 0x10FF

/-- The state after `thread_create` of a second thread, with period 12000, in
`runK1`. -/
def runK2 : Kernel :=
  match thread_create runK1 2 12000 with
  | some (k, _) => k
  | none => runK1

/-- The state after the running thread of `runK2` has yielded. -/
def runK3 : Kernel :=
  match yield_Thread runK2 runK2.curThrd with
  | some k => k
  | none => runK2

/-- The state after `thread_create` of a thread with period 100 in the boot
state: that thread is running. -/
def prioK1 : Kernel :=
  match thread_create (Kernel.boot 0x0200 0x10FF) 1 100 with
  | some (k, _) => k
  | none => Kernel.boot 0x0200 0x10FF


/-- One semaphore object, zero-initialised, with the kernel in its boot
state. -/
def semS0 : SemSys Unit :=
  { k := Kernel.boot 0x0200 0x10FF, sem := fun _ => { val := 0, semQ_hdr := none } }

/-- The state after `thread_create` of a thread with period 100 in `semS0`:
that thread is running. -/
def semS1 : SemSys Unit :=
  match thread_create semS0.k 1 100 with
  | some (k, _) => { semS0 with k := k }
  | none => semS0

/-- The state after the running thread of `semS1` has called `sem_acquire`
on the semaphore, whose value is 0: the thread is blocked. -/
def semS2 : SemSys Unit :=
  match sem_acquire semS1.k (some (semS1.sem ())) with
  | some o => { k := o.k, sem := Function.update semS1.sem () o.s }
  | none => semS1


/-! ## The dispatch table of the event-driven scheduler -/

/-- Task control block of a non-RT task (`task_TCB_t`): the handler address
and the data pointer, two 16-bit words. -/
structure task_TCB_t where
  tsk : Nat
  data : Nat
  deriving DecidableEq, Repr

/-- Address of entry `i` of a dispatch table that starts at address `base`
(`sizeof(task_TCB_t)` is 4). -/
def entryAddr (base i : Nat) : Nat := (base + 4 * i) % 65536

/-- Example dispatch table with two entries, as `tsk_hd_table` in
`evt_driven_sched.c`: the handlers are at the addresses `0x1234` and
`0x2345`, the data pointers are null. -/
def exTaskTable : List task_TCB_t :=
  [{ tsk := 0x1234, data := 0 }, { tsk := 0x2345, data := 0 }]

/-! ## Abstractions for the saved context -/

/-- The 33 bytes of a saved context, top of the stack first: `r0` to `r23`,
`r25` to `r31`, the status register, `r24`. -/
def contextBytes (c : Cpu) : List Nat :=
  (List.finRange 32).filterMap (fun r => if r = 24 then none else some (c.reg r)) ++
    [c.sreg, c.reg 24]

/-- Example machine state in C code: `r1` (`__zero_reg__`) is 0; the stack
pointer has been set to the empty stack of a new thread. -/
def exCpuNew : Cpu :=
  { reg := fun r => if r = 1 then 0 else r.val + 1, sreg := 130, stack := [] }

/-! ## Abstractions for the thread stacks -/

/-- Record of one successful thread creation: the returned TCB, the value of
`heapSaddr` before and after the call, and the stack pointer saved in the
TCB for the first resume. -/
structure Creation where
  t : ThrdRef
  base : Nat
  heap : Nat
  sp : Nat

/-- `HeapRun k0 k log`: the state `k` is reached from `k0` by calls of
`thrd_contextPrep`, interleaved with dispatches (`thread_dispatcher`), writes
of the status Active, Suspended or Sleeping and writes of wait-queue links
(as `thread_create`, `active_Thread`, `yield_Thread`, `sem_post` and
`sem_acquire` perform); `log` records the calls of `thrd_contextPrep` that
returned a TCB, in order. -/
inductive HeapRun (k0 : Kernel) : Kernel → List Creation → Prop
  | start : HeapRun k0 k0 []
  | created (k k' : Kernel) (log : List Creation) (tsk per : Nat) (t : ThrdRef) :
      HeapRun k0 k log → thrd_contextPrep k tsk per = some (k', some t) →
      HeapRun k0 k'
        (log ++ [{ t := t, base := k.heapSaddr, heap := k'.heapSaddr,
                   sp := (k'.deref t).thrd_sp }])
  | failed (k k' : Kernel) (log : List Creation) (tsk per : Nat) :
      HeapRun k0 k log → thrd_contextPrep k tsk per = some (k', none) → HeapRun k0 k' log
  | dispatch (k k' : Kernel) (log : List Creation) :
      HeapRun k0 k log → thread_dispatcher k = some k' → HeapRun k0 k' log
  | status (k : Kernel) (log : List Creation) (r : ThrdRef) (st : thrd_status_t) :
      HeapRun k0 k log → st ≠ THRD_UNUSED → HeapRun k0 (k.setStatus r st) log
  | semq (k : Kernel) (log : List Creation) (r : ThrdRef) (p : Option ThrdRef) :
      HeapRun k0 k log → HeapRun k0 (k.setSemQNext r p) log

/-- The current thread is the common thread or a TCB of the table that is in
use. -/
def CurInUse (k : Kernel) : Prop :=
  k.curThrd = some .common ∨
    ∃ i, k.curThrd = some (.slot i) ∧ (k.thrd_TCB i).status ≠ THRD_UNUSED

/-- The state after `thrd_contextPrep` for a thread with period 48000 in the
boot state. -/
def heapK1 : Kernel :=
  match thrd_contextPrep (Kernel.boot 0x0200 0x10FF) 1 48000 with
  | some (k, _) => k
  | none => Kernel.boot 0x0200 0x10FF

/-- The state after `thrd_contextPrep` for a second thread, with period
12000. -/
def heapK2 : Kernel :=
  match thrd_contextPrep heapK1 2 12000 with
  | some (k, _) => k
  | none => heapK1

/-- The state after `thrd_contextPrep` for a third thread, with period
16000. -/
def heapK3 : Kernel :=
  match thrd_contextPrep heapK2 3 16000 with
  | some (k, _) => k
  | none => heapK2

/-- The record of the three creations that lead to `heapK3`. -/
def heapLog3 : List Creation :=
  [{ t := .slot 0, base := 0x0200, heap := heapK1.heapSaddr,
     sp := (heapK1.deref (.slot 0)).thrd_sp },
   { t := .slot 1, base := heapK1.heapSaddr, heap := heapK2.heapSaddr,
     sp := (heapK2.deref (.slot 1)).thrd_sp },
   { t := .slot 2, base := heapK2.heapSaddr, heap := heapK3.heapSaddr,
     sp := (heapK3.deref (.slot 2)).thrd_sp }]

/-- The state of the zero-initialised kernel variables before
`software_init` has run: `curThrd` and `heapSaddr` are null. -/
def preInitK : Kernel :=
  { thrd_TCB := fun _ => tcb_zero, common_thread := tcb_zero, thrd_lstQ := none,
    curThrd := none, heapSaddr := 0, SP := 0x10FF, usart := [] }

/-- Example ACV state: no timer is queued; timer 0 is a one-shot timer with
interval `2^32 - 5`, timer 1 a one-shot timer with interval 10; the system
time is 0. -/
def ACV.exWrapInit : ACV.State 2 :=
  { timers := fun i =>
      { next := none, sysTimeLabel := 0,
        interval := if i = 0 then 4294967291 else 10,
        callback := 0, cb_data := 0, mode := TIMER_ONE_SHOT_MODE },
    sysTimerQhead := none,
    sysAbsTime := 0 }

/-- The state after `startTimer` on timer 0 of `ACV.exWrapInit`. -/
def ACV.exWrap1 : ACV.State 2 :=
  match ACV.startTimer ACV.exWrapInit (some 0) with
  | some (s, _) => s
  | none => ACV.exWrapInit

/-- The state after timers 0 and 1 of `ACV.exInit` (intervals 30 and 10) have
been started at time `4294967290`. -/
def ACV.exArmed2 : ACV.State 3 :=
  match ACV.startTimer ACV.exInit (some 0) with
  | none => ACV.exInit
  | some (s1, _) =>
    match ACV.startTimer s1 (some 1) with
    | none => s1
    | some (s2, _) => s2

/-- Example RCV state: the queue is `[0, 1]`, both timers are Repeating with
a countdown of 5. -/
def RCV.exTwoRepeat : RCV.State 2 :=
  { timers := fun i =>
      { next := if i = 0 then some 1 else none,
        interval := 5, callback := 0, cb_data := 0, mode := TIMER_REPEAT_MODE },
    sysTimerQhead := some 0 }

/-- A state of the thread table and priority list in which the list is a
cycle: `thrd_TCB[0]` is Suspended, it is the list head and its `next` link
points to itself; no TCB is Active. -/
def cycK : Kernel :=
  { Kernel.boot 0x0200 0x10FF with
    thrd_TCB := fun i =>
      if i = 0 then { tcb_zero with next := some (.slot 0), status := THRD_SUSPENDED }
      else tcb_zero,
    thrd_lstQ := some (.slot 0) }

theorem taskPost_eq_xor (f id : Nat) (hid : id < 16) (hf : f < 65536) :
    taskPost f id = f ^^^ 2 ^ id := by
  unfold taskPost
  rw [Nat.one_shiftLeft]
  apply Nat.mod_eq_of_lt
  have h2 : 2 ^ id < 2 ^ 16 := Nat.pow_lt_pow_right (by norm_num) hid
  exact Nat.xor_lt_two_pow (n := 16) hf h2

theorem taskPost_lt (f id : Nat) : taskPost f id < 65536 := by
  unfold taskPost
  exact Nat.mod_lt _ (by norm_num)

theorem taskPost_testBit (f id j : Nat) (hid : id < 16) (hf : f < 65536) :
    (taskPost f id).testBit j = xor (f.testBit j) (decide (id = j)) := by
  rw [taskPost_eq_xor f id hid hf, Nat.testBit_xor, Nat.testBit_two_pow]

theorem taskPost_n_lt (id n f : Nat) (hf : f < 65536) : taskPost_n id n f < 65536 := by
  cases n with
  | zero => exact hf
  | succ n => exact taskPost_lt _ _

/-! ## Pointer store lemmas -/

@[simp] theorem deref_store_same (k : Kernel) (r : ThrdRef) (t : thrd_tcb_t) :
    (k.store r t).deref r = t := by
  cases r <;> simp [Kernel.store, Kernel.deref]

theorem deref_store_ne (k : Kernel) (r r' : ThrdRef) (t : thrd_tcb_t) (h : r' ≠ r) :
    (k.store r t).deref r' = k.deref r' := by
  cases r <;> cases r' <;> simp_all [Kernel.store, Kernel.deref, Function.update]

theorem deref_store (k : Kernel) (r r' : ThrdRef) (t : thrd_tcb_t) :
    (k.store r t).deref r' = if r' = r then t else k.deref r' := by
  by_cases h : r' = r
  · subst h; simp
  · simp [h, deref_store_ne k r r' t h]

@[simp] theorem store_thrd_lstQ (k : Kernel) (r : ThrdRef) (t : thrd_tcb_t) :
    (k.store r t).thrd_lstQ = k.thrd_lstQ := by cases r <;> rfl

@[simp] theorem store_curThrd (k : Kernel) (r : ThrdRef) (t : thrd_tcb_t) :
    (k.store r t).curThrd = k.curThrd := by cases r <;> rfl

@[simp] theorem store_heapSaddr (k : Kernel) (r : ThrdRef) (t : thrd_tcb_t) :
    (k.store r t).heapSaddr = k.heapSaddr := by cases r <;> rfl

@[simp] theorem store_SP (k : Kernel) (r : ThrdRef) (t : thrd_tcb_t) :
    (k.store r t).SP = k.SP := by cases r <;> rfl

@[simp] theorem store_usart (k : Kernel) (r : ThrdRef) (t : thrd_tcb_t) :
    (k.store r t).usart = k.usart := by cases r <;> rfl

theorem chainFrom_congr (f g : ThrdRef → Option ThrdRef) (h : ∀ r, f r = g r) (n : Nat)
    (p : Option ThrdRef) : chainFrom f n p = chainFrom g n p := by
  have : f = g := funext h
  rw [this]

/-- The status, period, next and semQ_next fields after `thread_dispatcher`. -/
theorem thread_dispatcher_deref (k k' : Kernel) (h : thread_dispatcher k = some k') (r : ThrdRef) :
    (k'.deref r).status = (k.deref r).status ∧ (k'.deref r).next = (k.deref r).next ∧
    (k'.deref r).semQ_next = (k.deref r).semQ_next ∧
    (k'.deref r).thrd_period = (k.deref r).thrd_period ∧
    (k'.deref r).thrd_tsk = (k.deref r).thrd_tsk := by
  unfold thread_dispatcher at h
  split at h
  · exact absurd h (by simp)
  · rename_i cur hcur
    simp only at h
    split at h
    · exact absurd h (by simp)
    · rename_i nxt hn
      injection h with h
      subst h
      have : ∀ (k0 : Kernel) (c n : Option ThrdRef) (sp : Nat), ({ k0 with curThrd := c, SP := sp } : Kernel).deref r = k0.deref r := by
        intro k0 c n sp; cases r <;> rfl
      rw [this _ _ none]
      simp only [Kernel.setSp, deref_store]
      split <;> simp_all

theorem deref_setStatus (k : Kernel) (r r' : ThrdRef) (st : thrd_status_t) :
    (k.setStatus r st).deref r' =
      if r' = r then { k.deref r with status := st } else k.deref r' := by
  simp [Kernel.setStatus, deref_store]

theorem deref_setSp (k : Kernel) (r r' : ThrdRef) (sp : Nat) :
    (k.setSp r sp).deref r' =
      if r' = r then { k.deref r with thrd_sp := sp } else k.deref r' := by
  simp [Kernel.setSp, deref_store]

theorem deref_setNext (k : Kernel) (r r' : ThrdRef) (p : Option ThrdRef) :
    (k.setNext r p).deref r' =
      if r' = r then { k.deref r with next := p } else k.deref r' := by
  simp [Kernel.setNext, deref_store]

theorem deref_setSemQNext (k : Kernel) (r r' : ThrdRef) (p : Option ThrdRef) :
    (k.setSemQNext r p).deref r' =
      if r' = r then { k.deref r with semQ_next := p } else k.deref r' := by
  simp [Kernel.setSemQNext, deref_store]

theorem getNextThread_walk_congr (k k' : Kernel)
    (h : ∀ r, (k'.deref r).status = (k.deref r).status ∧ (k'.deref r).next = (k.deref r).next)
    (n : Nat) (p : Option ThrdRef) :
    getNextThread_walk k' n p = getNextThread_walk k n p := by
  induction n generalizing p with
  | zero => rfl
  | succ n ih =>
    cases p with
    | none => rfl
    | some r => simp only [getNextThread_walk, (h r).1, (h r).2, ih]

theorem getNextThread_walk_chain (k : Kernel) (n : Nat) (p : Option ThrdRef) (l : List ThrdRef)
    (h : chainFrom (fun r => (k.deref r).next) n p = some l) :
    getNextThread_walk k n p = some (firstActive k l) := by
  induction n generalizing p l with
  | zero => simp [chainFrom] at h
  | succ n ih =>
    cases p with
    | none =>
      simp [chainFrom] at h
      subst h
      rfl
    | some r =>
      simp only [chainFrom] at h
      split at h
      · exact absurd h (by simp)
      · rename_i l' hl'
        injection h with h
        subst h
        simp only [getNextThread_walk, firstActive, List.find?]
        by_cases hs : (k.deref r).status = THRD_ACTIVE
        · simp [hs]
        · simp only [hs, if_false, decide_False]
          exact ih _ _ hl'

theorem getNextThread_walk_sound (k : Kernel) (n : Nat) (p : Option ThrdRef) (r : ThrdRef)
    (h : getNextThread_walk k n p = some r) :
    (k.deref r).status = THRD_ACTIVE ∨ r = .common := by
  induction n generalizing p with
  | zero => simp [getNextThread_walk] at h
  | succ n ih =>
    cases p with
    | none =>
      simp [getNextThread_walk] at h
      exact Or.inr h.symm
    | some t =>
      simp only [getNextThread_walk] at h
      split at h
      · injection h with h
        subst h
        left; assumption
      · exact ih _ h

/-- Success and effect of `thread_dispatcher` on a state with a current
thread and a finite priority list. -/
theorem thread_dispatcher_some (k : Kernel) (cur : ThrdRef) (l : List ThrdRef)
    (hcur : k.curThrd = some cur) (hl : k.prioList = some l) :
    ∃ k', thread_dispatcher k = some k' ∧ k'.curThrd = some (firstActive k l) := by
  have hd : ∀ r, ((k.setSp cur (ptr16 ((k.SP : Int) - 33))).deref r).status = (k.deref r).status ∧
      ((k.setSp cur (ptr16 ((k.SP : Int) - 33))).deref r).next = (k.deref r).next := by
    intro r
    rw [deref_setSp]
    split <;> simp_all
  have hg : getNextThread (k.setSp cur (ptr16 ((k.SP : Int) - 33))) = some (firstActive k l) := by
    unfold getNextThread
    rw [getNextThread_walk_congr k _ hd]
    have : (k.setSp cur (ptr16 ((k.SP : Int) - 33))).thrd_lstQ = k.thrd_lstQ := by
      simp [Kernel.setSp]
    rw [this]
    exact getNextThread_walk_chain k _ _ l hl
  unfold thread_dispatcher
  simp only [hcur, hg]
  exact ⟨_, rfl, rfl⟩

theorem thread_dispatcher_curThrd (k k' : Kernel) (h : thread_dispatcher k = some k') :
    ∃ nxt, k'.curThrd = some nxt ∧ ((k.deref nxt).status = THRD_ACTIVE ∨ nxt = .common) := by
  unfold thread_dispatcher at h
  split at h
  · exact absurd h (by simp)
  · rename_i cur hcur
    simp only at h
    split at h
    · exact absurd h (by simp)
    · rename_i nxt hn
      injection h with h
      subst h
      refine ⟨nxt, rfl, ?_⟩
      rcases getNextThread_walk_sound _ _ _ _ hn with h1 | h1
      · left
        rw [deref_setSp] at h1
        split at h1 <;> simp_all
      · exact Or.inr h1

theorem toInt8_id (v : Int) (hlo : -128 ≤ v) (hhi : v ≤ 127) : toInt8 v = v := by
  unfold toInt8
  omega

theorem prioList_congr (k k' : Kernel) (h : ∀ r, (k'.deref r).next = (k.deref r).next)
    (hq : k'.thrd_lstQ = k.thrd_lstQ) : k'.prioList = k.prioList := by
  unfold Kernel.prioList
  rw [hq]
  exact chainFrom_congr _ _ h _ _

theorem waitQueue_congr (k k' : Kernel) (s : semaphore_t)
    (h : ∀ r, (k'.deref r).semQ_next = (k.deref r).semQ_next) :
    k'.waitQueue s = k.waitQueue s := by
  unfold Kernel.waitQueue
  exact chainFrom_congr _ _ h _ _

theorem thread_dispatcher_thrd_lstQ (k k' : Kernel) (h : thread_dispatcher k = some k') :
    k'.thrd_lstQ = k.thrd_lstQ := by
  unfold thread_dispatcher at h
  split at h
  · exact absurd h (by simp)
  · simp only at h
    split at h
    · exact absurd h (by simp)
    · injection h with h
      subst h
      simp [Kernel.setSp]

theorem chainFrom_mono (link : ThrdRef → Option ThrdRef) (n : Nat) (p : Option ThrdRef)
    (l : List ThrdRef) (h : chainFrom link n p = some l) :
    chainFrom link (n + 1) p = some l := by
  induction n generalizing p l with
  | zero => simp [chainFrom] at h
  | succ n ih =>
    cases p with
    | none => simpa [chainFrom] using h
    | some r =>
      simp only [chainFrom] at h
      split at h
      · exact absurd h (by simp)
      · rename_i l' hl'
        injection h with h
        subst h
        have := ih _ _ hl'
        rw [chainFrom, this]

/-- The non-blocking branch of `sem_acquire`. -/
theorem sem_acquire_immediate (k : Kernel) (s : semaphore_t) (h1 : 1 ≤ s.val) (h127 : s.val ≤ 127) :
    sem_acquire k (some s) =
      some { k := k, s := { s with val := s.val - 1 }, ret := ERROR, blocked := false } := by
  have : toInt8 (s.val - 1) = s.val - 1 := toInt8_id _ (by omega) (by omega)
  simp [sem_acquire, h1, this]

/-- A call of `sem_acquire` with `val < 1` never takes the non-blocking branch. -/
theorem sem_acquire_blocked (k : Kernel) (s : semaphore_t) (h : s.val < 1) (r : SemOut)
    (hr : sem_acquire k (some s) = some r) : r.blocked = true ∧ r.s.val = s.val := by
  have hn : ¬ s.val ≥ 1 := by omega
  simp only [sem_acquire, hn, if_false] at hr
  split at hr
  · exact absurd hr (by simp)
  · rename_i k1 s1 hq
    split at hr
    · exact absurd hr (by simp)
    · split at hr
      · exact absurd hr (by simp)
      · injection hr with hr
        subst hr
        refine ⟨rfl, ?_⟩
        simp only
        split at hq
        · injection hq with hq
          injection hq with _ hq
          rw [← hq]
        · split at hq
          · exact absurd hq (by simp)
          · injection hq with hq
            injection hq with _ hq
            rw [← hq]

theorem sem_acquire_n_immediate (k : Kernel) (hdr : Option ThrdRef) (i : Nat) (v : Int)
    (hi : (i : Int) ≤ v) (h127 : v ≤ 127) :
    sem_acquire_n i k ⟨v, hdr⟩ = some (k, ⟨v - i, hdr⟩, List.replicate i false) := by
  induction i generalizing v with
  | zero => simp [sem_acquire_n]
  | succ i ih =>
    have h1 : (1 : Int) ≤ v := by omega
    rw [sem_acquire_n, sem_acquire_immediate k ⟨v, hdr⟩ h1 h127]
    simp only
    rw [ih (v - 1) (by omega) (by omega)]
    have hv : v - 1 - (i : Int) = v - ((i + 1 : Nat) : Int) := by
      push_cast
      omega
    rw [hv]
    rfl

/-- The blocking branch of `sem_acquire` on an empty wait queue. -/
theorem sem_acquire_block_empty (k : Kernel) (s : semaphore_t) (cur : ThrdRef)
    (l : List ThrdRef) (hv : s.val < 1) (hq : s.semQ_hdr = none)
    (hcur : k.curThrd = some cur) (hl : k.prioList = some l) :
    ∃ k', thread_dispatcher (k.setStatus cur THRD_SUSPENDED) = some k' ∧
      sem_acquire k (some s) =
        some { k := k', s := { s with semQ_hdr := some cur }, ret := 0, blocked := true } := by
  have hn : ¬ s.val ≥ 1 := by omega
  have hl' : (k.setStatus cur THRD_SUSPENDED).prioList = some l := by
    rw [prioList_congr k _ _ (by simp [Kernel.setStatus])]
    · exact hl
    · intro r
      rw [deref_setStatus]
      split <;> simp_all
  have hc' : (k.setStatus cur THRD_SUSPENDED).curThrd = some cur := by
    simp [Kernel.setStatus, hcur]
  obtain ⟨k', hk', _⟩ := thread_dispatcher_some _ cur l hc' hl'
  refine ⟨k', hk', ?_⟩
  simp only [sem_acquire, hn, if_false, hq, hcur, hk']

/-! ## Linked segments -/

theorem seg_append (nxt : ThrdRef → Option ThrdRef) (l1 l2 : List ThrdRef)
    (p q : Option ThrdRef) :
    Seg nxt p (l1 ++ l2) q ↔ ∃ m, Seg nxt p l1 m ∧ Seg nxt m l2 q := by
  induction l1 generalizing p with
  | nil => simp [Seg]
  | cons a l1 ih =>
    show (p = some a ∧ Seg nxt (nxt a) (l1 ++ l2) q) ↔
      ∃ m, (p = some a ∧ Seg nxt (nxt a) l1 m) ∧ Seg nxt m l2 q
    rw [ih]
    constructor
    · rintro ⟨h1, m, h2, h3⟩
      exact ⟨m, ⟨h1, h2⟩, h3⟩
    · rintro ⟨m, ⟨h1, h2⟩, h3⟩
      exact ⟨h1, m, h2, h3⟩

theorem seg_congr (nxt nxt' : ThrdRef → Option ThrdRef) (l : List ThrdRef)
    (p q : Option ThrdRef) (h : ∀ a ∈ l, nxt' a = nxt a) (hs : Seg nxt p l q) :
    Seg nxt' p l q := by
  induction l generalizing p with
  | nil => exact hs
  | cons a l ih =>
    obtain ⟨h1, h2⟩ := hs
    refine ⟨h1, ?_⟩
    rw [h a (List.mem_cons_self _ _)]
    exact ih _ (fun b hb => h b (List.mem_cons_of_mem _ hb)) h2

theorem chainFrom_of_seg (nxt : ThrdRef → Option ThrdRef) (l : List ThrdRef) (n : Nat)
    (p : Option ThrdRef) (hs : Seg nxt p l none) (hn : l.length < n) :
    chainFrom nxt n p = some l := by
  induction l generalizing p n with
  | nil =>
    cases n with
    | zero => exact absurd hn (by simp)
    | succ n =>
      have : p = none := hs
      subst this
      rfl
  | cons a l ih =>
    cases n with
    | zero => exact absurd hn (by simp)
    | succ n =>
      obtain ⟨h1, h2⟩ := hs
      subst h1
      have := ih n _ h2 (by simpa using hn)
      simp [chainFrom, this]

theorem seg_of_chainFrom (nxt : ThrdRef → Option ThrdRef) (n : Nat) (p : Option ThrdRef)
    (l : List ThrdRef) (h : chainFrom nxt n p = some l) : Seg nxt p l none := by
  induction n generalizing p l with
  | zero => simp [chainFrom] at h
  | succ n ih =>
    cases p with
    | none =>
      simp [chainFrom] at h
      subst h
      rfl
    | some r =>
      simp only [chainFrom] at h
      split at h
      · exact absurd h (by simp)
      · rename_i l' hl'
        injection h with h
        subst h
        exact ⟨rfl, ih _ _ hl'⟩

theorem frameNext_refl (k : Kernel) : FrameNext k k :=
  ⟨fun _ => ⟨rfl, rfl, rfl, rfl, rfl⟩, rfl, rfl, rfl, rfl⟩

theorem frameNext_trans (k1 k2 k3 : Kernel) (h12 : FrameNext k1 k2) (h23 : FrameNext k2 k3) :
    FrameNext k1 k3 := by
  obtain ⟨a1, b1, c1, d1, e1⟩ := h12
  obtain ⟨a2, b2, c2, d2, e2⟩ := h23
  refine ⟨fun r => ?_, b2.trans b1, c2.trans c1, d2.trans d1, e2.trans e1⟩
  obtain ⟨x1, x2, x3, x4, x5⟩ := a1 r
  obtain ⟨y1, y2, y3, y4, y5⟩ := a2 r
  exact ⟨y1.trans x1, y2.trans x2, y3.trans x3, y4.trans x4, y5.trans x5⟩

theorem frameNext_setNext (k : Kernel) (r : ThrdRef) (p : Option ThrdRef) :
    FrameNext k (k.setNext r p) := by
  refine ⟨fun t => ?_, by simp [Kernel.setNext], by simp [Kernel.setNext],
    by simp [Kernel.setNext], by simp [Kernel.setNext]⟩
  rw [deref_setNext]
  split
  · rename_i h; subst h; exact ⟨rfl, rfl, rfl, rfl, rfl⟩
  · exact ⟨rfl, rfl, rfl, rfl, rfl⟩

theorem frameNext_setHead (k : Kernel) (p : Option ThrdRef) :
    FrameNext k { k with thrd_lstQ := p } :=
  ⟨fun r => by cases r <;> exact ⟨rfl, rfl, rfl, rfl, rfl⟩, rfl, rfl, rfl, rfl⟩

theorem links_setNext (k : Kernel) (r : ThrdRef) (p : Option ThrdRef) (t : ThrdRef) :
    (k.setNext r p).links t = if t = r then p else k.links t := by
  unfold Kernel.links
  rw [deref_setNext]
  split <;> rfl

theorem links_setHead (k : Kernel) (p : Option ThrdRef) (t : ThrdRef) :
    ({ k with thrd_lstQ := p } : Kernel).links t = k.links t := by
  cases t <;> rfl

theorem seg_setNext_frame (k : Kernel) (r : ThrdRef) (v : Option ThrdRef) (l : List ThrdRef)
    (p q : Option ThrdRef) (hs : Seg k.links p l q) (hr : r ∉ l) :
    Seg (k.setNext r v).links p l q := by
  apply seg_congr k.links _ l p q _ hs
  intro a ha
  rw [links_setNext]
  have : a ≠ r := fun h => hr (h ▸ ha)
  simp [this]

theorem seg_setHead_frame (k : Kernel) (h : Option ThrdRef) (l : List ThrdRef)
    (p q : Option ThrdRef) (hs : Seg k.links p l q) :
    Seg ({ k with thrd_lstQ := h } : Kernel).links p l q :=
  seg_congr k.links _ l p q (fun a _ => links_setHead k h a) hs

/-- Effect of the insertion walk of `thrd_contextPrep`, entered after the
nodes `pre` with `rest` still ahead: the new TCB is linked in after the
leading nodes of `rest` whose period does not exceed its own. -/
theorem insertWalk_spec (id : Fin MAX_THREAD_NUM) (k : Kernel)
    (hnew : k.links (.slot id) = none) :
    ∀ (rest pre : List ThrdRef) (fuel : Nat) (thrd_prev thrd : Option ThrdRef),
      rest.length < fuel →
      Seg k.links k.thrd_lstQ pre thrd → Seg k.links thrd rest none →
      (pre ++ rest).Nodup → ThrdRef.slot id ∉ pre ++ rest → pre ++ rest ≠ [] →
      (∀ pre' x, pre = pre' ++ [x] → thrd_prev = some x) →
      ∃ k', insertWalk id fuel k thrd_prev thrd = some k' ∧
        Seg k'.links k'.thrd_lstQ
          (pre ++ (rest.takeWhile (fun r => decide (k.period r ≤ k.period (.slot id))) ++
            .slot id :: rest.dropWhile (fun r => decide (k.period r ≤ k.period (.slot id)))))
          none ∧
        FrameNext k k' := by
  intro rest
  induction rest with
  | nil =>
    intro pre fuel thrd_prev thrd hf hpre hrest hnd hnotin hne hprev
    have hthrd : thrd = none := hrest
    subst hthrd
    have hpre_ne : pre ≠ [] := by simpa using hne
    obtain ⟨pre', x, rfl⟩ : ∃ pre' x, pre = pre' ++ [x] :=
      ⟨pre.dropLast, pre.getLast hpre_ne, (List.dropLast_append_getLast hpre_ne).symm⟩
    have hp := hprev pre' x rfl
    subst hp
    cases fuel with
    | zero => exact absurd hf (by simp)
    | succ fuel =>
      refine ⟨k.setNext x (some (.slot id)), rfl, ?_, frameNext_setNext _ _ _⟩
      rw [seg_append] at hpre
      obtain ⟨m, h1, hm, _⟩ := hpre
      subst hm
      have hx_pre : x ∉ pre' := by
        intro hx
        have := hnd
        simp only [List.append_nil] at this
        rw [List.nodup_append] at this
        exact this.2.2 hx (List.mem_singleton_self x) 
      have hx_new : ThrdRef.slot id ≠ x := by
        intro h
        apply hnotin
        simp [h]
      have key : Seg (k.setNext x (some (.slot id))).links k.thrd_lstQ
          (pre' ++ [x, .slot id]) none := by
        rw [seg_append]
        refine ⟨some x, seg_setNext_frame k x _ pre' _ _ h1 hx_pre, rfl, ?_, ?_⟩
        · rw [links_setNext]; simp
        · show (k.setNext x (some (.slot id))).links (.slot id) = none
          rw [links_setNext]; simp [hx_new, hnew]
      simpa [Kernel.setNext] using key
  | cons t rest' ih =>
    intro pre fuel thrd_prev thrd hf hpre hrest hnd hnotin hne hprev
    obtain ⟨hthrd, hrest'⟩ := hrest
    subst hthrd
    cases fuel with
    | zero => exact absurd hf (by simp)
    | succ fuel =>
      have hf' : rest'.length < fuel := by simpa using hf
      have hnew_rest : ThrdRef.slot id ∉ t :: rest' := fun h => hnotin (List.mem_append_right _ h)
      have hnew_pre : ThrdRef.slot id ∉ pre := fun h => hnotin (List.mem_append_left _ h)
      by_cases hlt : (k.thrd_TCB id).thrd_period < (k.deref t).thrd_period
      · have hdec : decide (k.period t ≤ k.period (.slot id)) = false := by
          have e1 : k.period (.slot id) = (k.thrd_TCB id).thrd_period := rfl
          have e2 : k.period t = (k.deref t).thrd_period := rfl
          simp only [decide_eq_false_iff_not]
          omega
        have htw : (t :: rest').takeWhile (fun r => decide (k.period r ≤ k.period (.slot id)))
            = [] := by
          simp [List.takeWhile_cons, hdec]
        have hdw : (t :: rest').dropWhile (fun r => decide (k.period r ≤ k.period (.slot id)))
            = t :: rest' := by
          simp [List.dropWhile_cons, hdec]
        rw [htw, hdw]
        by_cases hhead : some t = k.thrd_lstQ
        · -- insertion at the head
          have hpre_nil : pre = [] := by
            cases pre with
            | nil => rfl
            | cons a pre'' =>
              exfalso
              obtain ⟨ha, _⟩ := hpre
              rw [ha] at hhead
              injection hhead with hhead
              subst hhead
              rw [List.nodup_append] at hnd
              exact hnd.2.2 (List.mem_cons_self _ _) (List.mem_cons_self _ _)
          subst hpre_nil
          refine ⟨{ k.setNext (.slot id) k.thrd_lstQ with thrd_lstQ := some (.slot id) }, ?_, ?_,
            frameNext_trans _ _ _ (frameNext_setNext _ _ _) (frameNext_setHead _ _)⟩
          · simp [insertWalk, hlt, hhead]
          · have h1 : Seg (k.setNext (.slot id) k.thrd_lstQ).links (some t) (t :: rest') none :=
              seg_setNext_frame k _ _ _ _ _ ⟨rfl, hrest'⟩ hnew_rest
            have h2 := seg_setHead_frame _ (some (.slot id)) _ _ _ h1
            have h3 : ({ k.setNext (.slot id) k.thrd_lstQ with
                thrd_lstQ := some (.slot id) } : Kernel).links (.slot id) = some t := by
              rw [links_setHead, links_setNext]
              simp only [if_true]
              exact hhead.symm
            refine ⟨rfl, ?_⟩
            rw [h3]
            exact h2
        · -- insertion after `thrd_prev`
          have hpre_ne : pre ≠ [] := by
            intro h
            subst h
            exact hhead hpre.symm
          obtain ⟨pre', x, rfl⟩ : ∃ pre' x, pre = pre' ++ [x] :=
            ⟨pre.dropLast, pre.getLast hpre_ne, (List.dropLast_append_getLast hpre_ne).symm⟩
          have hp := hprev pre' x rfl
          subst hp
          refine ⟨(k.setNext x (some (.slot id))).setNext (.slot id) (some t), ?_, ?_,
            frameNext_trans _ _ _ (frameNext_setNext _ _ _) (frameNext_setNext _ _ _)⟩
          · simp [insertWalk, hlt, hhead]
          · rw [seg_append] at hpre
            obtain ⟨m, h1, hm, _⟩ := hpre
            subst hm
            have hnd' := hnd
            rw [List.nodup_append] at hnd'
            obtain ⟨hndpre, _, hdisj⟩ := hnd'
            have hx_pre : x ∉ pre' := by
              intro hx
              rw [List.nodup_append] at hndpre
              exact hndpre.2.2 hx (List.mem_singleton_self x)
            have hx_rest : x ∉ t :: rest' := fun h => hdisj (by simp) h
            have hx_new : ThrdRef.slot id ≠ x := fun h => hnew_pre (by simp [h])
            have hnp : ThrdRef.slot id ∉ pre' := fun h => hnew_pre (by simp [h])
            have key : Seg ((k.setNext x (some (.slot id))).setNext (.slot id) (some t)).links
                k.thrd_lstQ (pre' ++ (x :: .slot id :: t :: rest')) none := by
              rw [seg_append]
              have hA : ((k.setNext x (some (.slot id))).setNext (.slot id) (some t)).links x
                  = some (.slot id) := by
                rw [links_setNext, links_setNext]
                simp [hx_new.symm]
              have hB : ((k.setNext x (some (.slot id))).setNext (.slot id) (some t)).links
                  (.slot id) = some t := by
                rw [links_setNext]
                simp
              have hC := seg_setNext_frame _ (.slot id) (some t) _ _ _
                  (seg_setNext_frame k x (some (.slot id)) _ _ _
                    (show Seg k.links (some t) (t :: rest') none from ⟨rfl, hrest'⟩) hx_rest)
                  hnew_rest
              refine ⟨some x, ?_, rfl, ?_⟩
              · exact seg_setNext_frame _ _ _ _ _ _ (seg_setNext_frame k x _ pre' _ _ h1 hx_pre) hnp
              · rw [hA]
                refine ⟨rfl, ?_⟩
                rw [hB]
                exact hC
            simpa [Kernel.setNext] using key
      · have hdec : decide (k.period t ≤ k.period (.slot id)) = true := by
          have e1 : k.period (.slot id) = (k.thrd_TCB id).thrd_period := rfl
          have e2 : k.period t = (k.deref t).thrd_period := rfl
          simp only [decide_eq_true_eq]
          omega
        have htw : (t :: rest').takeWhile (fun r => decide (k.period r ≤ k.period (.slot id)))
            = t :: rest'.takeWhile (fun r => decide (k.period r ≤ k.period (.slot id))) := by
          simp [List.takeWhile_cons, hdec]
        have hdw : (t :: rest').dropWhile (fun r => decide (k.period r ≤ k.period (.slot id)))
            = rest'.dropWhile (fun r => decide (k.period r ≤ k.period (.slot id))) := by
          simp [List.dropWhile_cons, hdec]
        rw [htw, hdw]
        have hstep : insertWalk id (fuel + 1) k thrd_prev (some t) =
            insertWalk id fuel k (some t) (k.deref t).next := by
          simp [insertWalk, hlt]
        rw [hstep]
        have hpre2 : Seg k.links k.thrd_lstQ (pre ++ [t]) (k.links t) := by
          rw [seg_append]
          exact ⟨some t, hpre, rfl, rfl⟩
        have := ih (pre ++ [t]) fuel (some t) (k.links t) hf' hpre2 hrest'
          (by simpa using hnd) (by simpa using hnotin) (by simp)
          (by
            intro pre' x hx
            have := List.append_inj_right' hx rfl
            simp at this
            rw [this])
        obtain ⟨k', h1, h2, h3⟩ := this
        refine ⟨k', h1, ?_, h3⟩
        simpa using h2
/-! ## Thread creation -/

/-- Encoding of pointers used to bound the length of duplicate-free lists. -/
theorem nodup_length_le (l : List ThrdRef) (h : l.Nodup) : l.length ≤ MAX_THREAD_NUM + 1 := by
  let f : ThrdRef → Option (Fin MAX_THREAD_NUM) := fun r =>
    match r with
    | .common => none
    | .slot i => some i
  have hf : Function.Injective f := by
    intro a b hab
    cases a <;> cases b <;> simp_all [f]
  have h1 : (l.map f).Nodup := h.map hf
  have h2 := List.Nodup.length_le_card h1
  simpa using h2

theorem scanUnused_spec (tcb : Fin MAX_THREAD_NUM → thrd_tcb_t) (fuel id n : Nat)
    (hn : n < MAX_THREAD_NUM) (h : scanUnused tcb fuel id = n) (hf : MAX_THREAD_NUM ≤ fuel + id) :
    (tcb ⟨n, hn⟩).status = THRD_UNUSED := by
  induction fuel generalizing id with
  | zero =>
    simp only [scanUnused] at h
    omega
  | succ fuel ih =>
    simp only [scanUnused] at h
    split at h
    · rename_i hid
      split at h
      · rename_i hs
        subst h
        exact hs
      · exact ih (id + 1) h (by omega)
    · omega

theorem deref_initTCB_ne (k : Kernel) (id : Fin MAX_THREAD_NUM) (tsk per : Nat) (r : ThrdRef)
    (hr : r ≠ .slot id) : (initTCB k id tsk per).deref r = k.deref r := by
  unfold initTCB
  simp only
  rw [deref_store_ne _ _ _ _ hr]
  cases r <;> rfl

theorem deref_initTCB_same (k : Kernel) (id : Fin MAX_THREAD_NUM) (tsk per : Nat) :
    ((initTCB k id tsk per).deref (.slot id)).status = THRD_ACTIVE ∧
    ((initTCB k id tsk per).deref (.slot id)).thrd_period = per % 65536 ∧
    ((initTCB k id tsk per).deref (.slot id)).next = none ∧
    ((initTCB k id tsk per).deref (.slot id)).semQ_next = (k.thrd_TCB id).semQ_next ∧
    ((initTCB k id tsk per).deref (.slot id)).thrd_tsk = tsk := by
  unfold initTCB
  simp

theorem initTCB_globals (k : Kernel) (id : Fin MAX_THREAD_NUM) (tsk per : Nat) :
    (initTCB k id tsk per).thrd_lstQ = k.thrd_lstQ ∧
    (initTCB k id tsk per).curThrd = k.curThrd ∧
    (initTCB k id tsk per).SP = k.SP ∧
    (initTCB k id tsk per).usart = k.usart ∧
    (initTCB k id tsk per).heapSaddr = ptr16 (k.heapSaddr + THREAD_CONTEXT_SIZE) := by
  unfold initTCB
  simp

theorem deref_setSp_fields (k : Kernel) (c r : ThrdRef) (sp : Nat) :
    ((k.setSp c sp).deref r).status = (k.deref r).status ∧
    ((k.setSp c sp).deref r).thrd_period = (k.deref r).thrd_period ∧
    ((k.setSp c sp).deref r).next = (k.deref r).next ∧
    ((k.setSp c sp).deref r).semQ_next = (k.deref r).semQ_next ∧
    ((k.setSp c sp).deref r).thrd_tsk = (k.deref r).thrd_tsk := by
  rw [deref_setSp]
  split
  · rename_i h; subst h; exact ⟨rfl, rfl, rfl, rfl, rfl⟩
  · exact ⟨rfl, rfl, rfl, rfl, rfl⟩

theorem deref_initContext (k : Kernel) (id : Fin MAX_THREAD_NUM) (cur r : ThrdRef) :
    ((initContext k id cur).deref r).status = (k.deref r).status ∧
    ((initContext k id cur).deref r).thrd_period = (k.deref r).thrd_period ∧
    ((initContext k id cur).deref r).next = (k.deref r).next ∧
    ((initContext k id cur).deref r).semQ_next = (k.deref r).semQ_next ∧
    ((initContext k id cur).deref r).thrd_tsk = (k.deref r).thrd_tsk := by
  have h0 : ∀ (k0 : Kernel) (sp : Nat), ({ k0 with SP := sp } : Kernel).deref r = k0.deref r := by
    intro k0 sp; cases r <;> rfl
  unfold initContext
  simp only [h0]
  obtain ⟨a1, a2, a3, a4, a5⟩ := deref_setSp_fields k cur r k.SP
  obtain ⟨b1, b2, b3, b4, b5⟩ := deref_setSp_fields (k.setSp cur k.SP) (.slot id) r
    (ptr16 ((((k.setSp cur k.SP).thrd_TCB id).thrd_sp : Int) - 2 - 33))
  exact ⟨b1.trans a1, b2.trans a2, b3.trans a3, b4.trans a4, b5.trans a5⟩

theorem initContext_globals (k : Kernel) (id : Fin MAX_THREAD_NUM) (cur : ThrdRef) :
    (initContext k id cur).thrd_lstQ = k.thrd_lstQ ∧
    (initContext k id cur).curThrd = k.curThrd ∧
    (initContext k id cur).usart = k.usart ∧
    (initContext k id cur).heapSaddr = k.heapSaddr := by
  unfold initContext
  simp [Kernel.setSp]

theorem takeWhile_congr_mem {α : Type} (f g : α → Bool) (l : List α)
    (h : ∀ a ∈ l, f a = g a) : l.takeWhile f = l.takeWhile g ∧ l.dropWhile f = l.dropWhile g := by
  induction l with
  | nil => exact ⟨rfl, rfl⟩
  | cons a l ih =>
    have ha := h a (List.mem_cons_self _ _)
    have ih' := ih (fun b hb => h b (List.mem_cons_of_mem _ hb))
    simp only [List.takeWhile_cons, List.dropWhile_cons, ha, ih'.1, ih'.2]
    exact ⟨trivial, trivial⟩

/-- Effect of the linking stage on a state whose priority list is the
duplicate-free chain `l`, the new TCB being outside it with a null link. -/
theorem linkTCB_spec (k : Kernel) (id : Fin MAX_THREAD_NUM) (l : List ThrdRef)
    (hl : Seg k.links k.thrd_lstQ l none) (hnd : l.Nodup) (hnotin : ThrdRef.slot id ∉ l)
    (hnew : k.links (.slot id) = none) :
    ∃ k', linkTCB k id = some k' ∧
      Seg k'.links k'.thrd_lstQ
        (l.takeWhile (fun r => decide (k.period r ≤ k.period (.slot id))) ++
          .slot id :: l.dropWhile (fun r => decide (k.period r ≤ k.period (.slot id)))) none ∧
      FrameNext k k' := by
  unfold linkTCB
  cases hq : k.thrd_lstQ with
  | none =>
    have hnil : l = [] := by
      cases l with
      | nil => rfl
      | cons a l =>
        rw [hq] at hl
        cases hl.1
    subst hnil
    refine ⟨_, rfl, ?_, frameNext_setHead _ _⟩
    refine ⟨rfl, ?_⟩
    rw [links_setHead, hnew]
    rfl
  | some hd =>
    have hne : l ≠ [] := by
      intro h
      subst h
      rw [hq] at hl
      cases hl
    have hlen : l.length < WALK_FUEL := by
      have h9 : (ThrdRef.slot id :: l).length ≤ 8 + 1 :=
        nodup_length_le (.slot id :: l) (List.nodup_cons.mpr ⟨hnotin, hnd⟩)
      show l.length < 8 + 2
      simp only [List.length_cons] at h9
      omega
    have := insertWalk_spec id k hnew l [] WALK_FUEL (some hd) (some hd) hlen
      (by rw [hq]; rfl) (by rw [← hq]; exact hl) (by simpa using hnd) (by simpa using hnotin)
      (by simpa using hne) (by intro pre' x hx; exact absurd hx (by simp))
    simpa using this
/-- Effect of a successful `thrd_contextPrep` on a state whose priority list
is the duplicate-free chain `l` of TCBs that are in use: the returned TCB
was Unused, it is linked in after the leading nodes whose period does not
exceed its own, and no other TCB changes status, period or wait link. -/
theorem thrd_contextPrep_spec (k k' : Kernel) (tsk per : Nat) (t : ThrdRef) (l : List ThrdRef)
    (hl : Seg k.links k.thrd_lstQ l none) (hnd : l.Nodup)
    (hused : ∀ r ∈ l, ∃ i, r = .slot i ∧ (k.thrd_TCB i).status ≠ THRD_UNUSED)
    (h : thrd_contextPrep k tsk per = some (k', some t)) :
    (∃ i, t = .slot i ∧ (k.thrd_TCB i).status = THRD_UNUSED) ∧
    Seg k'.links k'.thrd_lstQ
      (l.takeWhile (fun r => decide (k.period r ≤ per % 65536)) ++
        t :: l.dropWhile (fun r => decide (k.period r ≤ per % 65536))) none ∧
    (∀ r, r ≠ t → (k'.deref r).status = (k.deref r).status ∧
      (k'.deref r).thrd_period = (k.deref r).thrd_period ∧
      (k'.deref r).semQ_next = (k.deref r).semQ_next) ∧
    (k'.deref t).status = THRD_ACTIVE ∧ (k'.deref t).thrd_period = per % 65536 ∧
    (k'.deref t).semQ_next = (k.deref t).semQ_next ∧
    k'.curThrd = k.curThrd ∧ k.curThrd ≠ none := by
  unfold thrd_contextPrep at h
  split at h
  · rename_i hn
    generalize hid : (⟨scanUnused k.thrd_TCB MAX_THREAD_NUM 0, hn⟩ : Fin MAX_THREAD_NUM) = id at h
    have hun : (k.thrd_TCB id).status = THRD_UNUSED := by
      rw [← hid]
      exact scanUnused_spec _ MAX_THREAD_NUM 0 _ hn rfl (by simp)
    have hnotin : ThrdRef.slot id ∉ l := by
      intro hm
      obtain ⟨i, hi, hs⟩ := hused _ hm
      injection hi with hi
      subst hi
      exact hs hun
    have hg := initTCB_globals k id tsk per
    have hsame := deref_initTCB_same k id tsk per
    have hne : ∀ r ∈ l, r ≠ ThrdRef.slot id := fun r hr h => hnotin (h ▸ hr)
    have hseg2 : Seg (initTCB k id tsk per).links (initTCB k id tsk per).thrd_lstQ l none := by
      rw [hg.1]
      apply seg_congr k.links _ l _ _ _ hl
      intro a ha
      show ((initTCB k id tsk per).deref a).next = (k.deref a).next
      rw [deref_initTCB_ne k id tsk per a (hne a ha)]
    obtain ⟨k3, hk3, hseg3, hfr⟩ := linkTCB_spec (initTCB k id tsk per) id l hseg2 hnd hnotin
      hsame.2.2.1
    rw [hk3] at h
    simp only at h
    have hcur3 : k3.curThrd = k.curThrd := hfr.2.1.trans hg.2.1
    split at h
    · injection h with h
      injection h with _ h
      cases h
    · rename_i cur hcur
      injection h with h
      injection h with h1 h2
      injection h2 with h2
      subst h1
      subst h2
      have hper : ∀ a ∈ l,
          decide ((initTCB k id tsk per).period a ≤ (initTCB k id tsk per).period (.slot id)) =
          decide (k.period a ≤ per % 65536) := by
        intro a ha
        have e1 : (initTCB k id tsk per).period a = k.period a := by
          show ((initTCB k id tsk per).deref a).thrd_period = (k.deref a).thrd_period
          rw [deref_initTCB_ne k id tsk per a (hne a ha)]
        have e2 : (initTCB k id tsk per).period (.slot id) = per % 65536 := hsame.2.1
        rw [e1, e2]
      obtain ⟨htw, hdw⟩ := takeWhile_congr_mem _ _ l hper
      rw [htw, hdw] at hseg3
      have hic := initContext_globals k3 id cur
      refine ⟨⟨id, rfl, hun⟩, ?_, ?_, ?_, ?_, ?_, ?_, ?_⟩
      · rw [hic.1]
        apply seg_congr k3.links _ _ _ _ _ hseg3
        intro a _
        exact (deref_initContext k3 id cur a).2.2.1
      · intro r hr
        obtain ⟨a1, a2, _, a4, _⟩ := deref_initContext k3 id cur r
        obtain ⟨b1, b2, b3, _, _⟩ := hfr.1 r
        rw [a1, a2, a4, b1, b2, b3, deref_initTCB_ne k id tsk per r hr]
        exact ⟨rfl, rfl, rfl⟩
      · rw [(deref_initContext k3 id cur _).1, (hfr.1 _).1]
        exact hsame.1
      · rw [(deref_initContext k3 id cur _).2.1, (hfr.1 _).2.1]
        exact hsame.2.1
      · rw [(deref_initContext k3 id cur _).2.2.2.1, (hfr.1 _).2.2.1]
        exact hsame.2.2.2.1
      · rw [hic.2.1, hcur3]
      · rw [← hcur3, hcur]
        simp
  · injection h with h
    injection h with _ h
    cases h
/-! ## Order of the priority list -/

theorem dropWhile_head_false {α : Type} (p : α → Bool) (l : List α) (h : α) (d : List α)
    (hd : l.dropWhile p = h :: d) : p h = false := by
  induction l with
  | nil => simp at hd
  | cons a l ih =>
    rw [List.dropWhile_cons] at hd
    split at hd
    · exact ih hd
    · rename_i hp
      injection hd with h1 _
      subst h1
      simpa using hp

/-- Inserting a new node `t` with period `P` after the leading nodes whose
period does not exceed `P` keeps the list in priority order. -/
theorem insert_pairwise (per per' : ThrdRef → Nat) (P : Nat) (t : ThrdRef)
    (l ts : List ThrdRef) (hper : ∀ a ∈ l, per' a = per a) (hP : per' t = P)
    (hmem : ∀ a ∈ l, a ∈ ts) (hpw : l.Pairwise (PrioOrder per ts)) :
    (l.takeWhile (fun r => decide (per r ≤ P)) ++
      t :: l.dropWhile (fun r => decide (per r ≤ P))).Pairwise (PrioOrder per' (ts ++ [t])) := by
  have hsplit := List.takeWhile_append_dropWhile (fun r => decide (per r ≤ P)) l
  have htw_mem : ∀ a ∈ l.takeWhile (fun r => decide (per r ≤ P)), a ∈ l :=
    fun a ha => (List.takeWhile_sublist _).subset ha
  have hdw_mem : ∀ a ∈ l.dropWhile (fun r => decide (per r ≤ P)), a ∈ l :=
    fun a ha => (List.dropWhile_sublist _).subset ha
  -- an old pair in order stays in order
  have hold : ∀ a b, a ∈ l → b ∈ l → PrioOrder per ts a b → PrioOrder per' (ts ++ [t]) a b := by
    intro a b ha hb hab
    unfold PrioOrder at hab ⊢
    rw [hper a ha, hper b hb]
    exact ⟨hab.1, fun h => (hab.2 h).trans (List.sublist_append_left _ _)⟩
  have hpw' : (l.takeWhile (fun r => decide (per r ≤ P)) ++
      l.dropWhile (fun r => decide (per r ≤ P))).Pairwise (PrioOrder per ts) := by
    rw [hsplit]; exact hpw
  rw [List.pairwise_append] at hpw'
  obtain ⟨h1, h2, h3⟩ := hpw'
  -- every node after the insertion point has a larger period
  have hlarge : ∀ b ∈ l.dropWhile (fun r => decide (per r ≤ P)), P < per b := by
    intro b hb
    cases hdw : l.dropWhile (fun r => decide (per r ≤ P)) with
    | nil => rw [hdw] at hb; simp at hb
    | cons h d =>
      have hh := dropWhile_head_false _ l h d hdw
      simp only [decide_eq_false_iff_not, not_le] at hh
      rw [hdw] at hb h2
      rcases List.mem_cons.mp hb with hb | hb
      · rw [hb]; exact hh
      · have := (List.pairwise_cons.mp h2).1 b hb
        exact lt_of_lt_of_le hh this.1
  rw [List.pairwise_append]
  refine ⟨?_, ?_, ?_⟩
  · exact h1.imp_of_mem (fun {a b} ha hb hab => hold a b (htw_mem a ha) (htw_mem b hb) hab)
  · rw [List.pairwise_cons]
    refine ⟨?_, ?_⟩
    · intro b hb
      have hlt := hlarge b hb
      unfold PrioOrder
      rw [hP, hper b (hdw_mem b hb)]
      exact ⟨le_of_lt hlt, fun h => absurd h (ne_of_lt hlt)⟩
    · exact h2.imp_of_mem (fun {a b} ha hb hab => hold a b (hdw_mem a ha) (hdw_mem b hb) hab)
  · intro a ha b hb
    rcases List.mem_cons.mp hb with hb | hb
    · subst hb
      have hle : per a ≤ P := by
        have := List.mem_takeWhile_imp ha
        simpa using this
      unfold PrioOrder
      rw [hP, hper a (htw_mem a ha)]
      refine ⟨hle, fun _ => ?_⟩
      have h1 : [a].Sublist ts := List.singleton_sublist.mpr (hmem a (htw_mem a ha))
      exact h1.append (List.Sublist.refl [b])
    · exact hold a b (htw_mem a ha) (hdw_mem b hb) (h3 a ha b hb)

/-- A successful creation keeps the priority-list invariant: the new TCB `t`
is outside the old list `l = l1 ++ l2` and the new list is `l1 ++ t :: l2`. -/
theorem prioInv_create (k k' : Kernel) (ts l : List ThrdRef) (tsk per : Nat) (t : ThrdRef)
    (hinv : PrioInv k ts l) (h : thrd_contextPrep k tsk per = some (k', some t)) :
    t ∉ ts ∧ ∃ l1 l2, l = l1 ++ l2 ∧ PrioInv k' (ts ++ [t]) (l1 ++ t :: l2) := by
  obtain ⟨hseg, hperm, hnd, hused, hpw⟩ := hinv
  have hndl : l.Nodup := hperm.nodup_iff.mpr hnd
  have husedl : ∀ r ∈ l, ∃ i, r = .slot i ∧ (k.thrd_TCB i).status ≠ THRD_UNUSED :=
    fun r hr => hused r (hperm.subset hr)
  obtain ⟨⟨i, hti, hun⟩, hseg', hframe, hst, hpt, _, _, _⟩ :=
    thrd_contextPrep_spec k k' tsk per t l hseg hndl husedl h
  have htn : t ∉ ts := by
    intro hm
    obtain ⟨j, hj, hs⟩ := hused t hm
    rw [hti] at hj
    injection hj with hj
    subst hj
    exact hs hun
  have htl : t ∉ l := fun hm => htn (hperm.subset hm)
  refine ⟨htn, l.takeWhile (fun r => decide (k.period r ≤ per % 65536)),
    l.dropWhile (fun r => decide (k.period r ≤ per % 65536)),
    (List.takeWhile_append_dropWhile _ l).symm, hseg', ?_, ?_, ?_, ?_⟩
  · -- permutation
    have h1 : (l.takeWhile (fun r => decide (k.period r ≤ per % 65536)) ++
        t :: l.dropWhile (fun r => decide (k.period r ≤ per % 65536))).Perm (t :: l) := by
      have := @List.perm_middle _ t (l.takeWhile (fun r => decide (k.period r ≤ per % 65536)))
        (l.dropWhile (fun r => decide (k.period r ≤ per % 65536)))
      rwa [List.takeWhile_append_dropWhile] at this
    exact h1.trans ((hperm.cons t).trans (List.perm_append_singleton t ts).symm)
  · rw [List.nodup_append]
    refine ⟨hnd, List.nodup_singleton t, ?_⟩
    intro a ha hb
    rw [List.mem_singleton] at hb
    subst hb
    exact htn ha
  · intro r hr
    rcases List.mem_append.mp hr with hr | hr
    · obtain ⟨j, hj, hs⟩ := hused r hr
      refine ⟨j, hj, ?_⟩
      have hne : r ≠ t := fun h => htn (h ▸ hr)
      have := (hframe r hne).1
      rw [hj] at this
      show (k'.deref (.slot j)).status ≠ THRD_UNUSED
      rw [this]
      exact hs
    · rw [List.mem_singleton] at hr
      subst hr
      refine ⟨i, hti, ?_⟩
      rw [hti] at hst
      show (k'.deref (.slot i)).status ≠ THRD_UNUSED
      rw [hst]
      decide
  · apply insert_pairwise k.period k'.period (per % 65536) t l ts _ hpt
      (fun a ha => hperm.subset ha) hpw
    intro a ha
    have hne : a ≠ t := fun h => htl (h ▸ ha)
    exact (hframe a hne).2.1

/-- The priority-list invariant only depends on the list head, the `next`
links, the periods and on which TCBs are Unused. -/
theorem prioInv_congr (k k' : Kernel) (ts l : List ThrdRef) (hinv : PrioInv k ts l)
    (hq : k'.thrd_lstQ = k.thrd_lstQ)
    (hf : ∀ r, (k'.deref r).next = (k.deref r).next ∧
      (k'.deref r).thrd_period = (k.deref r).thrd_period)
    (hs : ∀ r ∈ ts, (k.deref r).status ≠ THRD_UNUSED → (k'.deref r).status ≠ THRD_UNUSED) :
    PrioInv k' ts l := by
  obtain ⟨hseg, hperm, hnd, hused, hpw⟩ := hinv
  refine ⟨?_, hperm, hnd, ?_, ?_⟩
  · rw [hq]
    exact seg_congr k.links _ l _ _ (fun a _ => (hf a).1) hseg
  · intro r hr
    obtain ⟨i, hi, hst⟩ := hused r hr
    refine ⟨i, hi, ?_⟩
    have := hs r hr
    rw [hi] at this
    exact this hst
  · have : k'.period = k.period := funext (fun r => (hf r).2)
    rw [this]
    exact hpw

theorem prioInv_prioList (k : Kernel) (ts l : List ThrdRef) (hinv : PrioInv k ts l) :
    k.prioList = some l := by
  obtain ⟨hseg, hperm, hnd, _, _⟩ := hinv
  have hndl : l.Nodup := hperm.nodup_iff.mpr hnd
  have hlen : l.length ≤ 8 + 1 := nodup_length_le l hndl
  exact chainFrom_of_seg _ l WALK_FUEL _ hseg (by show l.length < 8 + 2; omega)

theorem createAll_inv (reqs : List (Nat × Nat)) :
    ∀ (k0 k : Kernel) (ts0 ts l0 : List ThrdRef), PrioInv k0 ts0 l0 →
      createAll k0 reqs = some (k, ts) → ∃ l, PrioInv k (ts0 ++ ts) l := by
  induction reqs with
  | nil =>
    intro k0 k ts0 ts l0 hinv h
    simp only [createAll] at h
    injection h with h
    injection h with h1 h2
    subst h1; subst h2
    exact ⟨l0, by simpa using hinv⟩
  | cons rq reqs ih =>
    intro k0 k ts0 ts l0 hinv h
    obtain ⟨tsk, per⟩ := rq
    simp only [createAll] at h
    split at h
    · rename_i k1 t hcp
      split at h
      · rename_i k2 ts2 hca
        injection h with h
        injection h with h1 h2
        subst h1; subst h2
        obtain ⟨_, l1, l2, _, hinv1⟩ := prioInv_create k0 k1 ts0 l0 tsk per t hinv hcp
        obtain ⟨l, hl⟩ := ih k1 k2 (ts0 ++ [t]) ts2 _ hinv1 hca
        exact ⟨l, by simpa using hl⟩
      · exact absurd h (by simp)
    · exact absurd h (by simp)

/-- Invariants of the states built by thread creation. -/
theorem built_inv (k : Kernel) (ts : List ThrdRef) (hb : Built k ts) :
    (∃ l, PrioInv k ts l) ∧ (∀ i, (k.thrd_TCB i).status ≠ THRD_UNUSED → ThrdRef.slot i ∈ ts) ∧
    (ts ≠ [] → k.curThrd ≠ none) := by
  induction hb with
  | boot k hq hun =>
    refine ⟨⟨[], hq, List.Perm.refl _, List.nodup_nil, ?_, List.Pairwise.nil⟩, ?_, ?_⟩
    · intro r hr; simp at hr
    · intro i hi; exact absurd (hun i) hi
    · intro h; exact absurd rfl h
  | create k k' ts tsk per t _ hcp ih =>
    obtain ⟨⟨l, hinv⟩, hall, _⟩ := ih
    obtain ⟨_, l1, l2, _, hinv'⟩ := prioInv_create k k' ts l tsk per t hinv hcp
    obtain ⟨hseg, hperm, hnd, hused, _⟩ := hinv
    obtain ⟨⟨j, htj, _⟩, _, hframe, _, _, _, hcur, hcurne⟩ :=
      thrd_contextPrep_spec k k' tsk per t l hseg (hperm.nodup_iff.mpr hnd)
        (fun r hr => hused r (hperm.subset hr)) hcp
    refine ⟨⟨_, hinv'⟩, ?_, ?_⟩
    · intro i hi
      by_cases hit : ThrdRef.slot i = t
      · simp [hit]
      · have := (hframe (.slot i) hit).1
        have h2 : (k.thrd_TCB i).status ≠ THRD_UNUSED := by
          intro h
          apply hi
          show (k'.deref (.slot i)).status = THRD_UNUSED
          rw [this]
          exact h
        exact List.mem_append_left _ (hall i h2)
    · intro _
      rw [hcur]
      exact hcurne
  | dispatch k k' ts _ hd ih =>
    obtain ⟨⟨l, hinv⟩, hall, _⟩ := ih
    have hfields := thread_dispatcher_deref k k' hd
    refine ⟨⟨l, prioInv_congr k k' ts l hinv (thread_dispatcher_thrd_lstQ k k' hd)
      (fun r => ⟨(hfields r).2.1, (hfields r).2.2.2.1⟩)
      (fun r _ h => by rw [(hfields r).1]; exact h)⟩, ?_, ?_⟩
    · intro i hi
      apply hall i
      have := (hfields (.slot i)).1
      intro h
      apply hi
      show (k'.deref (.slot i)).status = THRD_UNUSED
      rw [this]
      exact h
    · intro _
      obtain ⟨nxt, hn, _⟩ := thread_dispatcher_curThrd k k' hd
      rw [hn]
      simp
  | status k ts r st _ hr hst ih =>
    obtain ⟨⟨l, hinv⟩, hall, hcur⟩ := ih
    refine ⟨⟨l, prioInv_congr k _ ts l hinv (by simp [Kernel.setStatus]) ?_ ?_⟩, ?_, ?_⟩
    · intro a
      rw [deref_setStatus]
      split
      · rename_i h; subst h; exact ⟨rfl, rfl⟩
      · exact ⟨rfl, rfl⟩
    · intro a _ ha
      rw [deref_setStatus]
      split
      · exact hst
      · exact ha
    · intro i hi
      by_cases hir : ThrdRef.slot i = r
      · rcases hr with hr | hr
        · rw [hir]; exact hr
        · rw [hr] at hir; cases hir
      · apply hall i
        intro h
        apply hi
        show ((k.setStatus r st).deref (.slot i)).status = THRD_UNUSED
        rw [deref_setStatus]
        simp only [hir, if_false]
        exact h
    · intro h
      have := hcur h
      simpa [Kernel.setStatus] using this
  | semq k ts r p _ ih =>
    obtain ⟨⟨l, hinv⟩, hall, hcur⟩ := ih
    have hfields : ∀ a, ((k.setSemQNext r p).deref a).next = (k.deref a).next ∧
        ((k.setSemQNext r p).deref a).thrd_period = (k.deref a).thrd_period ∧
        ((k.setSemQNext r p).deref a).status = (k.deref a).status := by
      intro a
      rw [deref_setSemQNext]
      split
      · rename_i h; subst h; exact ⟨rfl, rfl, rfl⟩
      · exact ⟨rfl, rfl, rfl⟩
    refine ⟨⟨l, prioInv_congr k _ ts l hinv (by simp [Kernel.setSemQNext])
      (fun a => ⟨(hfields a).1, (hfields a).2.1⟩)
      (fun a _ h => by rw [(hfields a).2.2]; exact h)⟩, ?_, ?_⟩
    · intro i hi
      apply hall i
      intro h
      apply hi
      show ((k.setSemQNext r p).deref (.slot i)).status = THRD_UNUSED
      rw [(hfields (.slot i)).2.2]
      exact h
    · intro h
      have := hcur h
      simpa [Kernel.setSemQNext] using this
/-! ## Wait-queue links -/

theorem insertWalk_frame (id : Fin MAX_THREAD_NUM) (fuel : Nat) :
    ∀ (k k' : Kernel) (thrd_prev thrd : Option ThrdRef),
      insertWalk id fuel k thrd_prev thrd = some k' → FrameNext k k' := by
  induction fuel with
  | zero =>
    intro k k' a b h
    simp [insertWalk] at h
  | succ fuel ih =>
    intro k k' thrd_prev thrd h
    cases thrd with
    | none =>
      cases thrd_prev with
      | none => simp [insertWalk] at h
      | some p =>
        simp only [insertWalk] at h
        injection h with h
        subst h
        exact frameNext_setNext _ _ _
    | some t =>
      simp only [insertWalk] at h
      split at h
      · split at h
        · injection h with h
          subst h
          exact frameNext_trans _ _ _ (frameNext_setNext _ _ _) (frameNext_setHead _ _)
        · cases thrd_prev with
          | none => simp at h
          | some p =>
            simp only at h
            injection h with h
            subst h
            exact frameNext_trans _ _ _ (frameNext_setNext _ _ _) (frameNext_setNext _ _ _)
      · exact ih _ _ _ _ h

/-- When the `semQ_next` link of the queue head is null, the tail walk of
`sem_acquire` steps to the null pointer and reads `semQ_next` through it:
it yields no node, whatever the fuel. -/
theorem semQ_walk_null_link (k : Kernel) (h : ThrdRef) (hn : (k.deref h).semQ_next = none)
    (fuel : Nat) : semQ_walk k fuel (some h) = none := by
  cases fuel with
  | zero => rfl
  | succ fuel =>
    rw [semQ_walk]
    simp only [hn, if_true]
    cases fuel <;> rfl

/-- With the only waiter's `semQ_next` link null, the tail walk of
`sem_acquire` reads through the null pointer: the call has no defined
result. -/
theorem sem_acquire_nonempty_none (k : Kernel) (s : semaphore_t) (h : ThrdRef)
    (hv : s.val < 1) (hq : s.semQ_hdr = some h) (hn : (k.deref h).semQ_next = none) :
    sem_acquire k (some s) = none := by
  have hv' : ¬ s.val ≥ 1 := by omega
  have hw : semQ_walk k WALK_FUEL (some h) = none := by
    show semQ_walk k (9 + 1) (some h) = none
    rw [semQ_walk]
    simp only [hn, if_true]
    rfl
  simp [sem_acquire, hv', hq, hw]

/-- No kernel operation makes a `semQ_next` link non-null: when every link is
null before `thrd_contextPrep`, `thread_dispatcher`, `sem_post` or
`sem_acquire`, every link is null afterwards. -/
theorem semQ_next_stays_null (k : Kernel) (hnull : ∀ r, (k.deref r).semQ_next = none) :
    (∀ tsk per k' t, thrd_contextPrep k tsk per = some (k', t) →
      ∀ r, (k'.deref r).semQ_next = none) ∧
    (∀ k', thread_dispatcher k = some k' → ∀ r, (k'.deref r).semQ_next = none) ∧
    (∀ s a o, sem_post k s a = some o → ∀ r, (o.k.deref r).semQ_next = none) ∧
    (∀ s o, sem_acquire k s = some o → ∀ r, (o.k.deref r).semQ_next = none) := by
  have hdisp : ∀ k0 k', (∀ r, (k0.deref r).semQ_next = none) → thread_dispatcher k0 = some k' →
      ∀ r, (k'.deref r).semQ_next = none := by
    intro k0 k' h0 hd r
    rw [(thread_dispatcher_deref k0 k' hd r).2.2.1]
    exact h0 r
  have hstat : ∀ (c : ThrdRef) (st : thrd_status_t) (r : ThrdRef),
      ((k.setStatus c st).deref r).semQ_next = none := by
    intro c st r
    rw [deref_setStatus]
    split
    · exact hnull c
    · exact hnull r
  refine ⟨?_, fun k' hd => hdisp k k' hnull hd, ?_, ?_⟩
  · intro tsk per k' t h r
    unfold thrd_contextPrep at h
    split at h
    · rename_i hn
      generalize (⟨scanUnused k.thrd_TCB MAX_THREAD_NUM 0, hn⟩ : Fin MAX_THREAD_NUM) = id at h
      have h2 : ∀ r, ((initTCB k id tsk per).deref r).semQ_next = none := by
        intro r
        by_cases hr : r = .slot id
        · subst hr
          rw [(deref_initTCB_same k id tsk per).2.2.2.1]
          exact hnull (.slot id)
        · rw [deref_initTCB_ne k id tsk per r hr]
          exact hnull r
      split at h
      · exact absurd h (by simp)
      · rename_i k3 hk3
        have h3 : ∀ r, (k3.deref r).semQ_next = none := by
          intro r
          have hfr : FrameNext (initTCB k id tsk per) k3 := by
            unfold linkTCB at hk3
            split at hk3
            · injection hk3 with hk3
              subst hk3
              exact frameNext_setHead _ _
            · exact insertWalk_frame _ _ _ _ _ _ hk3
          rw [(hfr.1 r).2.2.1]
          exact h2 r
        split at h
        · injection h with h
          injection h with h _
          subst h
          have : ({ k3 with usart := k3.usart ++ [69] } : Kernel).deref r = k3.deref r := by
            cases r <;> rfl
          rw [this]
          exact h3 r
        · injection h with h
          injection h with h _
          subst h
          rw [(deref_initContext k3 id _ r).2.2.2.1]
          exact h3 r
    · injection h with h
      injection h with h _
      subst h
      have : ({ k with usart := k.usart ++ [77] } : Kernel).deref r = k.deref r := by
        cases r <;> rfl
      rw [this]
      exact hnull r
  · intro s a o h r
    unfold sem_post at h
    split at h
    · exact absurd h (by simp)
    · simp only at h
      split at h
      · injection h with h
        subst h
        exact hnull r
      · split at h
        · split at h
          · split at h
            · exact absurd h (by simp)
            · rename_i k2 hk2
              injection h with h
              subst h
              exact hdisp _ k2 (hstat _ _) hk2 r
          · injection h with h
            subst h
            exact hstat _ _ r
        · injection h with h
          subst h
          exact hnull r
  · intro s o h r
    unfold sem_acquire at h
    split at h
    · exact absurd h (by simp)
    · rename_i s0
      split at h
      · injection h with h
        subst h
        exact hnull r
      · simp only at h
        split at h
        · exact absurd h (by simp)
        · rename_i k1 s1 hq
          have hk1 : k1 = k := by
            split at hq
            · injection hq with hq
              injection hq with hq _
              exact hq.symm
            · rename_i hd hhd
              exfalso
              have hw : semQ_walk k WALK_FUEL (some hd) = none := by
                show semQ_walk k (9 + 1) (some hd) = none
                rw [semQ_walk]
                simp only [hnull hd, if_true]
                rfl
              rw [hw] at hq
              exact absurd hq (by simp)
          subst hk1
          split at h
          · exact absurd h (by simp)
          · split at h
            · exact absurd h (by simp)
            · rename_i k2 hk2
              injection h with h
              subst h
              exact hdisp _ k2 (hstat _ _) hk2 r
theorem scanUnused_lt (tcb : Fin MAX_THREAD_NUM → thrd_tcb_t) (fuel id : Nat)
    (h : ∃ i : Fin MAX_THREAD_NUM, id ≤ i.val ∧ i.val < id + fuel ∧ (tcb i).status = THRD_UNUSED) :
    scanUnused tcb fuel id < MAX_THREAD_NUM := by
  induction fuel generalizing id with
  | zero =>
    obtain ⟨i, h1, h2, _⟩ := h
    omega
  | succ fuel ih =>
    obtain ⟨i, h1, h2, h3⟩ := h
    have hid : id < MAX_THREAD_NUM := lt_of_le_of_lt h1 i.isLt
    simp only [scanUnused, hid, dite_true]
    split
    · exact hid
    · rename_i hs
      apply ih
      refine ⟨i, ?_, by omega, h3⟩
      by_contra hlt
      have : i = ⟨id, hid⟩ := Fin.ext (by simp only; omega)
      rw [this] at h3
      exact hs h3

/-- On a state that satisfies the priority-list invariant `thrd_contextPrep`
always returns, and it returns a TCB whenever some TCB is Unused and
`curThrd` is not null. -/
theorem thrd_contextPrep_total (k : Kernel) (ts l : List ThrdRef) (tsk per : Nat)
    (hinv : PrioInv k ts l) :
    (∃ res, thrd_contextPrep k tsk per = some res) ∧
    ((∃ i, (k.thrd_TCB i).status = THRD_UNUSED) → k.curThrd ≠ none →
      ∃ k' t, thrd_contextPrep k tsk per = some (k', some t)) := by
  obtain ⟨hseg, hperm, hnd, hused, _⟩ := hinv
  have hndl : l.Nodup := hperm.nodup_iff.mpr hnd
  by_cases hn : scanUnused k.thrd_TCB MAX_THREAD_NUM 0 < MAX_THREAD_NUM
  · have key : ∃ k3, linkTCB (initTCB k ⟨_, hn⟩ tsk per) ⟨_, hn⟩ = some k3 ∧
        k3.curThrd = k.curThrd := by
      generalize hid : (⟨scanUnused k.thrd_TCB MAX_THREAD_NUM 0, hn⟩ : Fin MAX_THREAD_NUM) = id
      have hun : (k.thrd_TCB id).status = THRD_UNUSED := by
        rw [← hid]
        exact scanUnused_spec _ MAX_THREAD_NUM 0 _ hn rfl (by simp)
      have hnotin : ThrdRef.slot id ∉ l := by
        intro hm
        obtain ⟨i, hi, hs⟩ := hused _ (hperm.subset hm)
        injection hi with hi
        subst hi
        exact hs hun
      have hg := initTCB_globals k id tsk per
      have hseg2 : Seg (initTCB k id tsk per).links (initTCB k id tsk per).thrd_lstQ l none := by
        rw [hg.1]
        apply seg_congr k.links _ l _ _ _ hseg
        intro a ha
        show ((initTCB k id tsk per).deref a).next = (k.deref a).next
        rw [deref_initTCB_ne k id tsk per a (fun h => hnotin (h ▸ ha))]
      obtain ⟨k3, hk3, _, hfr⟩ := linkTCB_spec (initTCB k id tsk per) id l hseg2 hndl hnotin
        (deref_initTCB_same k id tsk per).2.2.1
      exact ⟨k3, hk3, hfr.2.1.trans hg.2.1⟩
    obtain ⟨k3, hk3, hc3⟩ := key
    refine ⟨?_, ?_⟩
    · unfold thrd_contextPrep
      simp only [hn, dite_true, hk3]
      cases k3.curThrd <;> exact ⟨_, rfl⟩
    · intro _ hcur
      obtain ⟨cur, hc⟩ := Option.ne_none_iff_exists'.mp hcur
      unfold thrd_contextPrep
      simp only [hn, dite_true, hk3, hc3, hc]
      exact ⟨_, _, rfl⟩
  · refine ⟨?_, ?_⟩
    · unfold thrd_contextPrep
      simp only [hn, dite_false]
      exact ⟨_, rfl⟩
    · intro ⟨i, hi⟩ _
      exact absurd (scanUnused_lt k.thrd_TCB MAX_THREAD_NUM 0
        ⟨i, Nat.zero_le _, by simp, hi⟩) hn
/-! ## Event-driven scheduler -/

theorem linked_append {α : Type} (next : α → Option α) (l1 l2 : List α) (p q : Option α) :
    Linked next p (l1 ++ l2) q ↔ ∃ m, Linked next p l1 m ∧ Linked next m l2 q := by
  induction l1 generalizing p with
  | nil => simp [Linked]
  | cons a l1 ih =>
    show (p = some a ∧ Linked next (next a) (l1 ++ l2) q) ↔
      ∃ m, (p = some a ∧ Linked next (next a) l1 m) ∧ Linked next m l2 q
    rw [ih]
    constructor
    · rintro ⟨h1, m, h2, h3⟩
      exact ⟨m, ⟨h1, h2⟩, h3⟩
    · rintro ⟨m, ⟨h1, h2⟩, h3⟩
      exact ⟨h1, m, h2, h3⟩

theorem linked_congr {α : Type} (next next' : α → Option α) (l : List α) (p q : Option α)
    (h : ∀ a ∈ l, next' a = next a) (hs : Linked next p l q) : Linked next' p l q := by
  induction l generalizing p with
  | nil => exact hs
  | cons a l ih =>
    obtain ⟨h1, h2⟩ := hs
    refine ⟨h1, ?_⟩
    rw [h a (List.mem_cons_self _ _)]
    exact ih _ (fun b hb => h b (List.mem_cons_of_mem _ hb)) h2

theorem linked_unique {α : Type} (next : α → Option α) (l l' : List α) (p : Option α)
    (h : Linked next p l none) (h' : Linked next p l' none) : l = l' := by
  induction l generalizing p l' with
  | nil =>
    have hp : p = none := h
    subst hp
    cases l' with
    | nil => rfl
    | cons b l' => cases h'.1
  | cons a l ih =>
    obtain ⟨h1, h2⟩ := h
    subst h1
    cases l' with
    | nil => cases (show some a = none from h')
    | cons b l' =>
      obtain ⟨h3, h4⟩ := h'
      injection h3 with h3
      subst h3
      rw [ih _ _ h2 h4]

theorem linked_nodup {α : Type} (next : α → Option α) (l : List α) (p : Option α)
    (h : Linked next p l none) : l.Nodup := by
  induction l generalizing p with
  | nil => exact List.nodup_nil
  | cons a l ih =>
    obtain ⟨_, h2⟩ := h
    refine List.nodup_cons.mpr ⟨?_, ih _ h2⟩
    intro ha
    obtain ⟨l1, l2, hl⟩ := List.append_of_mem ha
    rw [hl, linked_append] at h2
    obtain ⟨m, _, hm, h3⟩ := h2
    have h4 : Linked next (next a) l none := by
      rw [hl, linked_append]
      exact ⟨m, by assumption, hm, h3⟩
    have := linked_unique next _ _ _ h4 h3
    have hlen := congrArg List.length this
    rw [hl] at hlen
    simp at hlen
    omega

theorem linkList_of_linked {α : Type} (next : α → Option α) (l : List α) (n : Nat)
    (p : Option α) (hs : Linked next p l none) (hn : l.length < n) :
    linkList next n p = some l := by
  induction l generalizing p n with
  | nil =>
    cases n with
    | zero => exact absurd hn (by simp)
    | succ n =>
      have : p = none := hs
      subst this
      rfl
  | cons a l ih =>
    cases n with
    | zero => exact absurd hn (by simp)
    | succ n =>
      obtain ⟨h1, h2⟩ := hs
      subst h1
      have := ih n _ h2 (by simpa using hn)
      simp [linkList, this]

theorem linked_of_linkList {α : Type} (next : α → Option α) (n : Nat) (p : Option α)
    (l : List α) (h : linkList next n p = some l) : Linked next p l none := by
  induction n generalizing p l with
  | zero => simp [linkList] at h
  | succ n ih =>
    cases p with
    | none =>
      simp [linkList] at h
      subst h
      rfl
    | some r =>
      simp only [linkList] at h
      split at h
      · exact absurd h (by simp)
      · rename_i l' hl'
        injection h with h
        subst h
        exact ⟨rfl, ih _ _ hl'⟩

theorem linked_head {α : Type} (next : α → Option α) (p : Option α) (l : List α)
    (h : Linked next p l none) : p = l.head? := by
  cases l with
  | nil => exact h
  | cons a l => exact h.1

theorem fin_nodup_length {N : Nat} (l : List (Fin N)) (h : l.Nodup) : l.length ≤ N := by
  have := List.Nodup.length_le_card h
  simpa using this

/-- On timer objects named by `Fin N`, a walk with fuel `N + 1` yields the
list of a queue exactly when the links from the head end in `NULL`. -/
theorem linkList_iff_linked {N : Nat} (next : Fin N → Option (Fin N)) (p : Option (Fin N))
    (l : List (Fin N)) : linkList next (N + 1) p = some l ↔ Linked next p l none := by
  constructor
  · exact linked_of_linkList next _ p l
  · intro h
    have := fin_nodup_length l (linked_nodup next l p h)
    exact linkList_of_linked next l _ p h (by omega)

/-- A path to an entry can be shortened to one that does not pass through any
entry twice, nor through its end. -/
theorem linked_shorten {α : Type} [DecidableEq α] (next : α → Option α) (t : α) (l : List α) :
    ∀ p, Linked next p l (some t) →
      ∃ l', Linked next p l' (some t) ∧ t ∉ l' ∧ l'.Nodup := by
  induction l with
  | nil =>
    intro p h
    exact ⟨[], h, by simp, List.nodup_nil⟩
  | cons a l ih =>
    intro p h
    obtain ⟨h1, h2⟩ := h
    obtain ⟨l0, hl0, ht0, hnd0⟩ := ih _ h2
    by_cases hat : a = t
    · subst hat
      exact ⟨[], h1, by simp, List.nodup_nil⟩
    · by_cases hmem : a ∈ l0
      · obtain ⟨l1, l2, hl⟩ := List.append_of_mem hmem
        rw [hl, linked_append] at hl0
        obtain ⟨m, _, _, h3⟩ := hl0
        refine ⟨a :: l2, ⟨h1, h3⟩, ?_, ?_⟩
        · intro hm
          rcases List.mem_cons.mp hm with hm | hm
          · exact hat hm.symm
          · apply ht0
            rw [hl]
            simp [hm]
        · rw [hl] at hnd0
          exact (List.nodup_append.mp hnd0).2.1
      · refine ⟨a :: l0, ⟨h1, hl0⟩, ?_, List.nodup_cons.mpr ⟨hmem, hnd0⟩⟩
        intro hm
        rcases List.mem_cons.mp hm with hm | hm
        · exact hat hm.symm
        · exact ht0 hm

/-! ## `isAlreadyInQueue`, `findPrevEntry`, `RemoveEntryFromQ` -/

/-- When the walk from `p` reaches `t` after the entries `l`, none of which is
`t`, `isAlreadyInQueue` answers true. -/
theorem isAlreadyInQueue_of_path {α : Type} [DecidableEq α] (next : α → Option α) (t : α)
    (l : List α) :
    ∀ (fuel : Nat) (p : Option α), Linked next p l (some t) → t ∉ l → l.length < fuel →
      isAlreadyInQueue next fuel p (some t) = some true := by
  induction l with
  | nil =>
    intro fuel p h _ hf
    have hp : p = some t := h
    subst hp
    cases fuel with
    | zero => exact absurd hf (by simp)
    | succ fuel => simp [isAlreadyInQueue]
  | cons a l ih =>
    intro fuel p h hn hf
    obtain ⟨h1, h2⟩ := h
    subst h1
    cases fuel with
    | zero => exact absurd hf (by simp)
    | succ fuel =>
      have hat : ¬ a = t := fun h => hn (by simp [h])
      have hne : ¬ some a = some t := fun h => hat (Option.some.inj h)
      simp only [isAlreadyInQueue, hne, if_false]
      exact ih fuel _ h2 (fun hm => hn (List.mem_cons_of_mem _ hm)) (by simpa using hf)

/-- On a queue that ends in `NULL`, `isAlreadyInQueue` decides membership. -/
theorem isAlreadyInQueue_of_list {α : Type} [DecidableEq α] (next : α → Option α) (t : α)
    (l : List α) :
    ∀ (fuel : Nat) (p : Option α), Linked next p l none → l.length < fuel →
      isAlreadyInQueue next fuel p (some t) = some (decide (t ∈ l)) := by
  induction l with
  | nil =>
    intro fuel p h hf
    have hp : p = none := h
    subst hp
    cases fuel with
    | zero => exact absurd hf (by simp)
    | succ fuel => simp [isAlreadyInQueue]
  | cons a l ih =>
    intro fuel p h hf
    obtain ⟨h1, h2⟩ := h
    subst h1
    cases fuel with
    | zero => exact absurd hf (by simp)
    | succ fuel =>
      by_cases hat : a = t
      · subst hat
        simp [isAlreadyInQueue]
      · have hne : ¬ some a = some t := fun h => hat (Option.some.inj h)
        simp only [isAlreadyInQueue, hne, if_false]
        rw [ih fuel _ h2 (by simpa using hf)]
        have : ¬ t = a := fun h => hat h.symm
        simp [this]

/-- `findPrevEntry` on a queue that ends in `NULL` and does not hold `t`. -/
theorem findPrevEntry_notin {α : Type} [DecidableEq α] (next : α → Option α) (t : α)
    (l : List α) :
    ∀ (fuel : Nat) (p : Option α), Linked next p l none → t ∉ l → l.length < fuel →
      findPrevEntry next fuel p (some t) = some none := by
  induction l with
  | nil =>
    intro fuel p h _ hf
    have hp : p = none := h
    subst hp
    cases fuel with
    | zero => exact absurd hf (by simp)
    | succ fuel => simp [findPrevEntry]
  | cons a l ih =>
    intro fuel p h hn hf
    obtain ⟨h1, h2⟩ := h
    subst h1
    cases fuel with
    | zero => exact absurd hf (by simp)
    | succ fuel =>
      have hnext : ¬ next a = some t := by
        intro hna
        rw [hna] at h2
        cases l with
        | nil => cases h2
        | cons b l =>
          have := h2.1
          injection this with this
          apply hn
          simp [this]
      simp only [findPrevEntry, hnext, if_false]
      exact ih fuel _ h2 (fun hm => hn (List.mem_cons_of_mem _ hm)) (by simpa using hf)

/-- `findPrevEntry` on a queue `l1 ++ x :: t :: l2` returns `x`. -/
theorem findPrevEntry_found {α : Type} [DecidableEq α] (next : α → Option α) (t x : α)
    (l1 l2 : List α) :
    ∀ (fuel : Nat) (p : Option α), Linked next p (l1 ++ x :: t :: l2) none →
      (l1 ++ x :: t :: l2).length < fuel →
      findPrevEntry next fuel p (some t) = some (some x) := by
  induction l1 with
  | nil =>
    intro fuel p h hf
    obtain ⟨h1, h2, _⟩ := h
    subst h1
    cases fuel with
    | zero => exact absurd hf (by simp)
    | succ fuel => simp [findPrevEntry, h2]
  | cons a l1 ih =>
    intro fuel p h hf
    have hnd := linked_nodup next _ p h
    obtain ⟨h1, h2⟩ := h
    subst h1
    cases fuel with
    | zero => exact absurd hf (by simp)
    | succ fuel =>
      have hnext : ¬ next a = some t := by
        intro hna
        rw [hna] at h2
        -- the entry after `a` would be `t`, which occurs later in the list
        cases l1 with
        | nil =>
          have := h2.1
          injection this with this
          subst this
          simp at hnd
        | cons b l1 =>
          have := h2.1
          injection this with this
          subst this
          simp at hnd
      simp only [findPrevEntry, hnext, if_false]
      exact ih fuel _ h2 (by simpa using hf)

/-- Removing the head `t` of the queue `t :: l2`. -/
theorem removeEntry_head {α : Type} [DecidableEq α] (q : SQ α) (t : α) (l2 : List α)
    (prev : Option α) (h : Linked q.next q.head (t :: l2) none) :
    ∃ q', RemoveEntryFromQ q prev (some t) = some q' ∧ Linked q'.next q'.head l2 none ∧
      q'.next t = none ∧ ∀ a, a ≠ t → q'.next a = q.next a := by
  have hnd := linked_nodup q.next _ _ h
  obtain ⟨h1, h2⟩ := h
  refine ⟨{ head := q.next t, next := Function.update q.next t none }, ?_, ?_, ?_, ?_⟩
  · simp [RemoveEntryFromQ, h1]
  · apply linked_congr q.next _ l2 _ _ _ h2
    intro a ha
    have : a ≠ t := fun h => (List.nodup_cons.mp hnd).1 (h ▸ ha)
    simp [Function.update, this]
  · simp
  · intro a ha
    simp [Function.update, ha]

/-- Removing the entry `t` that follows `x` in the queue `l1 ++ x :: t :: l2`. -/
theorem removeEntry_inner {α : Type} [DecidableEq α] (q : SQ α) (t x : α) (l1 l2 : List α)
    (h : Linked q.next q.head (l1 ++ x :: t :: l2) none) :
    ∃ q', RemoveEntryFromQ q (some x) (some t) = some q' ∧
      Linked q'.next q'.head (l1 ++ x :: l2) none ∧ q'.head = q.head ∧
      q'.next t = none ∧ ∀ a, a ≠ t → a ≠ x → q'.next a = q.next a := by
  have hnd := linked_nodup q.next _ _ h
  have hhead : ¬ some t = q.head := by
    intro hh
    cases l1 with
    | nil =>
      have := h.1
      rw [← hh] at this
      injection this with this
      subst this
      simp at hnd
    | cons b l1 =>
      have := h.1
      rw [← hh] at this
      injection this with this
      subst this
      simp at hnd
  rw [linked_append] at h
  obtain ⟨m, h1, hm, hx, h2⟩ := h
  have hnd' := List.nodup_append.mp hnd
  have hx_l1 : x ∉ l1 := fun hm => hnd'.2.2 hm (by simp)
  have ht_l1 : t ∉ l1 := fun hm => hnd'.2.2 hm (by simp)
  have hnd2 : (x :: t :: l2).Nodup := hnd'.2.1
  have hxt : x ≠ t := by
    intro h
    subst h
    simp at hnd2
  have hx_l2 : x ∉ l2 := by
    intro h
    simp [h] at hnd2
  have ht_l2 : t ∉ l2 := by
    intro h
    simp [h] at hnd2
  refine ⟨{ head := q.head,
            next := Function.update (Function.update q.next x (q.next t)) t none }, ?_, ?_, rfl,
    ?_, ?_⟩
  · simp [RemoveEntryFromQ, hhead]
  · rw [linked_append]
    refine ⟨m, ?_, hm, ?_⟩
    · apply linked_congr q.next _ l1 _ _ _ h1
      intro a ha
      have h1 : a ≠ t := fun h => ht_l1 (h ▸ ha)
      have h2 : a ≠ x := fun h => hx_l1 (h ▸ ha)
      simp [Function.update, h1, h2]
    · have hnx : Function.update (Function.update q.next x (q.next t)) t none x = q.next t := by
        simp [Function.update, hxt]
      show Linked _ (Function.update (Function.update q.next x (q.next t)) t none x) l2 none
      rw [hnx]
      apply linked_congr q.next _ l2 _ _ _ h2
      intro a ha
      have h1 : a ≠ t := fun h => ht_l2 (h ▸ ha)
      have h2 : a ≠ x := fun h => hx_l2 (h ▸ ha)
      simp [Function.update, h1, h2]
  · simp
  · intro a h1 h2
    simp [Function.update, h1, h2]

/-! ## ACV: remaining time and insertion -/

namespace ACV

theorem remain_eq (L I now : Nat) (hL : L < 4294967296) (hn : now < 4294967296) :
    remain L I now = u64 ((I : Int) - u32 ((now : Int) - L)) := by
  unfold remain u64 u32 UINT32_MAX
  split <;> omega

theorem remain_exact (L I now : Nat) (hL : L < 4294967296) (hI : I < 4294967296)
    (hn : now < 4294967296) (he : u32 ((now : Int) - L) ≤ I) :
    remain L I now = I - u32 ((now : Int) - L) := by
  rw [remain_eq L I now hL hn]
  unfold u64 u32 at *
  omega

theorem stopsAt_iff {N : Nat} (s : State N) (t : Fin N) (now : Nat) (x : Fin N)
    (hs : s.Typed) (hn : now < 4294967296) :
    stopsAt s t now x ↔
      s.elapsed now x ≤ (s.timers x).interval ∧
        (s.timers x).interval - s.elapsed now x ≥ (s.timers t).interval := by
  unfold stopsAt State.elapsed
  rw [remain_eq _ _ now (hs.2 x).1 hn]
  have h1 := (hs.2 x).2
  unfold u64 u32 UINT32_MAX
  omega

theorem addWalk_spec {N : Nat} (s : State N) (t : Fin N) (now : Nat) (rest : List (Fin N)) :
    ∀ (fuel : Nat) (prev p : Option (Fin N)), Linked s.sq.next p rest none →
      rest.length < fuel →
      ∃ l1 l2 prev', rest = l1 ++ l2 ∧ (∀ x ∈ l1, ¬ stopsAt s t now x) ∧
        (∀ x, l2.head? = some x → stopsAt s t now x) ∧
        ((l1 = [] ∧ prev' = prev) ∨ ∃ l0 x, l1 = l0 ++ [x] ∧ prev' = some x) ∧
        addWalk s t now fuel prev p = some (prev', l2.head?) := by
  induction rest with
  | nil =>
    intro fuel prev p h hf
    have hp : p = none := h
    subst hp
    cases fuel with
    | zero => exact absurd hf (by simp)
    | succ fuel =>
      exact ⟨[], [], prev, rfl, by simp, by simp, Or.inl ⟨rfl, rfl⟩, rfl⟩
  | cons a rest ih =>
    intro fuel prev p h hf
    obtain ⟨h1, h2⟩ := h
    subst h1
    cases fuel with
    | zero => exact absurd hf (by simp)
    | succ fuel =>
      by_cases hb : stopsAt s t now a
      · refine ⟨[], a :: rest, prev, rfl, by simp, ?_, Or.inl ⟨rfl, rfl⟩, ?_⟩
        · intro x hx
          simp at hx
          subst hx
          exact hb
        · have hb' := hb
          unfold stopsAt at hb'
          simp only [addWalk, hb', and_self, if_true, List.head?_cons]
      · obtain ⟨l1, l2, prev', hl, hl1, hl2, hprev, hw⟩ :=
          ih fuel (some a) _ h2 (by simpa using hf)
        refine ⟨a :: l1, l2, prev', by rw [hl]; rfl, ?_, hl2, Or.inr ?_, ?_⟩
        · intro x hx
          rcases List.mem_cons.mp hx with hx | hx
          · subst hx
            exact hb
          · exact hl1 x hx
        · rcases hprev with ⟨h3, h4⟩ | ⟨l0, x, h3, h4⟩
          · exact ⟨[], a, by rw [h3]; rfl, h4⟩
          · exact ⟨a :: l0, x, by rw [h3]; rfl, h4⟩
        · have hb' := hb
          unfold stopsAt at hb'
          simp only [addWalk, hb', if_false]
          exact hw

end ACV
namespace ACV

theorem setNext_next {N : Nat} (s : State N) (t : Fin N) (p : Option (Fin N)) (i : Fin N) :
    ((s.setNext t p).timers i).next = if i = t then p else (s.timers i).next := by
  unfold State.setNext
  by_cases h : i = t
  · subst h
    simp
  · simp [Function.update, h]

theorem setNext_sameData {N : Nat} (s : State N) (t : Fin N) (p : Option (Fin N)) :
    SameData s (s.setNext t p) := by
  refine ⟨rfl, fun i => ?_⟩
  unfold State.setNext
  by_cases h : i = t
  · subst h
    simp
  · simp [Function.update, h]

theorem putSq_sameData {N : Nat} (s : State N) (q : SQ (Fin N)) : SameData s (s.putSq q) :=
  ⟨rfl, fun _ => ⟨rfl, rfl, rfl, rfl, rfl⟩⟩

theorem sameData_refl {N : Nat} (s : State N) : SameData s s :=
  ⟨rfl, fun _ => ⟨rfl, rfl, rfl, rfl, rfl⟩⟩

theorem sameData_trans {N : Nat} {s1 s2 s3 : State N} (h1 : SameData s1 s2)
    (h2 : SameData s2 s3) : SameData s1 s3 := by
  refine ⟨h2.1.trans h1.1, fun i => ?_⟩
  obtain ⟨a1, a2, a3, a4, a5⟩ := h1.2 i
  obtain ⟨b1, b2, b3, b4, b5⟩ := h2.2 i
  exact ⟨b1.trans a1, b2.trans a2, b3.trans a3, b4.trans a4, b5.trans a5⟩

theorem queue_iff {N : Nat} (s : State N) (l : List (Fin N)) :
    s.queue = some l ↔ Linked s.sq.next s.sysTimerQhead l none :=
  linkList_iff_linked _ _ _

/-- `AddTimer` on a queue that ends in `NULL`, for a timer outside the queue
whose `next` link is `NULL`: the timer is linked in where the loop stops. -/
theorem AddTimer_spec {N : Nat} (s : State N) (t : Fin N) (now : Nat) (l : List (Fin N))
    (hq : s.queue = some l) (ht : t ∉ l) (hn : (s.timers t).next = none) :
    ∃ s' l1 l2, AddTimer s t now = some s' ∧ l = l1 ++ l2 ∧
      s'.queue = some (l1 ++ t :: l2) ∧ (∀ x ∈ l1, ¬ stopsAt s t now x) ∧
      (∀ x, l2.head? = some x → stopsAt s t now x) ∧ SameData s s' := by
  rw [queue_iff] at hq
  have hnd := linked_nodup _ _ _ hq
  have hlen := fin_nodup_length l hnd
  cases hhd : s.sysTimerQhead with
  | none =>
    rw [hhd] at hq
    have hl : l = [] := by
      cases l with
      | nil => rfl
      | cons a l => cases hq.1
    subst hl
    refine ⟨{ s with sysTimerQhead := some t }, [], [], ?_, rfl, ?_, by simp, by simp,
      sameData_refl s⟩
    · simp [AddTimer, hhd]
    · rw [queue_iff]
      exact ⟨rfl, hn⟩
  | some hd =>
    obtain ⟨l1, l2, prev', hl, hl1, hl2, hprev, hw⟩ :=
      addWalk_spec s t now l (N + 1) none (some hd) (hhd ▸ hq) (by omega)
    have hhead := linked_head _ _ _ hq
    rcases hprev with ⟨h3, h4⟩ | ⟨l0, x, h3, h4⟩
    · -- the loop stops at the head
      subst h3 h4
      simp only [List.nil_append] at hl
      subst hl
      refine ⟨{ s.setNext t s.sysTimerQhead with sysTimerQhead := some t }, [], l, ?_, rfl,
        ?_, hl1, hl2, setNext_sameData s t _⟩
      · simp only [AddTimer, hhd, hw]
        rw [← hhd, hhead]
        simp
      · rw [queue_iff]
        refine ⟨rfl, ?_⟩
        show Linked _ ((s.setNext t s.sysTimerQhead).timers t).next l none
        rw [setNext_next, if_pos rfl]
        apply linked_congr s.sq.next _ l _ _ _ hq
        intro a ha
        have : a ≠ t := fun h => ht (h ▸ ha)
        show ((s.setNext t s.sysTimerQhead).timers a).next = _
        rw [setNext_next, if_neg this]
        rfl
    · -- the loop stops behind `x`
      subst h3 h4
      subst hl
      have hne : l2.head? ≠ s.sysTimerQhead := by
        rw [hhead]
        intro h
        cases l0 with
        | nil =>
          cases l2 with
          | nil => simp at h
          | cons b l2 =>
            simp at h
            subst h
            simp at hnd
        | cons a l0 =>
          cases l2 with
          | nil => simp at h
          | cons b l2 =>
            simp at h
            subst h
            simp at hnd
      have hq' := hq
      rw [List.append_assoc, linked_append] at hq'
      obtain ⟨m, hA, hm, hB⟩ := hq'
      have hnd' := List.nodup_append.mp (List.append_assoc l0 [x] l2 ▸ hnd)
      have hx0 : x ∉ l0 := fun h => hnd'.2.2 h (by simp)
      have hx2 : x ∉ l2 := by
        intro h
        have := hnd'.2.1
        simp [h] at this
      have hxt : x ≠ t := fun h => ht (by simp [h])
      have ht0 : t ∉ l0 := fun h => ht (by simp [h])
      have ht2 : t ∉ l2 := fun h => ht (by simp [h])
      have hB' : Linked s.sq.next (s.timers x).next l2 none := hB
      have hit := linked_head _ _ _ hB'
      refine ⟨(s.setNext x (some t)).setNext t l2.head?, l0 ++ [x], l2, ?_, rfl, ?_, hl1, hl2,
        sameData_trans (setNext_sameData s x _) (setNext_sameData _ t _)⟩
      · simp only [AddTimer, hhd, hw]
        rw [← hhd, if_neg hne]
      · rw [queue_iff, List.append_assoc, linked_append]
        have hnext : ∀ a, a ≠ x → a ≠ t →
            (((s.setNext x (some t)).setNext t l2.head?).timers a).next = (s.timers a).next := by
          intro a h1 h2
          rw [setNext_next, if_neg h2, setNext_next, if_neg h1]
        refine ⟨m, ?_, hm, ?_, ?_⟩
        · apply linked_congr s.sq.next _ l0 _ _ _ hA
          intro a ha
          exact hnext a (fun h => hx0 (h ▸ ha)) (fun h => ht0 (h ▸ ha))
        · show (((s.setNext x (some t)).setNext t l2.head?).timers x).next = some t
          rw [setNext_next, if_neg hxt, setNext_next, if_pos rfl]
        · show Linked _ (((s.setNext x (some t)).setNext t l2.head?).timers t).next l2 none
          rw [setNext_next, if_pos rfl]
          have hB2 : Linked s.sq.next l2.head? l2 none := by
            rw [← hit]
            exact hB'
          apply linked_congr s.sq.next _ l2 _ _ _ hB2
          intro a ha
          exact hnext a (fun h => hx2 (h ▸ ha)) (fun h => ht2 (h ▸ ha))

end ACV
/-! ## `stopTimer` and `startTimer` on the queue as a list -/

theorem erase_mid {α : Type} [DecidableEq α] (l1 l2 : List α) (t : α) (h : t ∉ l1) :
    (l1 ++ t :: l2).erase t = l1 ++ l2 := by
  induction l1 with
  | nil => simp
  | cons a l1 ih =>
    have h1 : a ≠ t := fun h' => h (by simp [h'])
    have h2 : t ∉ l1 := fun h' => h (by simp [h'])
    simp [List.erase_cons, h1, ih h2]

/-- The two branches of `stopTimer` on a single link queue that ends in
`NULL` and holds `t`: the entry is unlinked. -/
theorem sq_unlink {N : Nat} (q : SQ (Fin N)) (t : Fin N) (l : List (Fin N))
    (hq : Linked q.next q.head l none) (ht : t ∈ l) :
    ∃ q', Linked q'.next q'.head (l.erase t) none ∧ q'.next t = none ∧
      ((q.head = some t ∧ RemoveEntryFromQ q none (some t) = some q') ∨
       (q.head ≠ some t ∧ ∃ prev, findPrevEntry q.next (N + 1) q.head (some t) =
          some (some prev) ∧ RemoveEntryFromQ q (some prev) (some t) = some q')) := by
  have hnd := linked_nodup _ _ _ hq
  have hlen := fin_nodup_length l hnd
  obtain ⟨l1, l2, hl⟩ := List.append_of_mem ht
  subst hl
  have ht1 : t ∉ l1 := fun h => (List.nodup_append.mp hnd).2.2 h (by simp)
  rw [erase_mid l1 l2 t ht1]
  rcases List.eq_nil_or_concat l1 with h1 | ⟨l0, x, h1⟩
  · subst h1
    obtain ⟨q', h1, h2, h3, _⟩ := removeEntry_head q t l2 none hq
    exact ⟨q', h2, h3, Or.inl ⟨hq.1, h1⟩⟩
  · rw [List.concat_eq_append] at h1
    subst h1
    have hq' : Linked q.next q.head (l0 ++ x :: t :: l2) none := by
      simpa using hq
    obtain ⟨q', h1, h2, _, h3, _⟩ := removeEntry_inner q t x l0 l2 hq'
    refine ⟨q', by simpa using h2, h3, Or.inr ⟨?_, x, ?_, h1⟩⟩
    · intro hh
      have := linked_head q.next _ _ hq
      rw [hh] at this
      cases l0 with
      | nil =>
        simp at this
        subst this
        simp at ht1
      | cons b l0 =>
        simp at this
        subst this
        simp at ht1
    · apply findPrevEntry_found q.next t x l0 l2 _ _ hq'
      have : (l0 ++ x :: t :: l2).length = (l0 ++ [x] ++ t :: l2).length := by simp
      omega

/-- The failing branch of `stopTimer`: the entry is not in the queue. -/
theorem sq_unlink_notin {N : Nat} (q : SQ (Fin N)) (t : Fin N) (l : List (Fin N))
    (hq : Linked q.next q.head l none) (ht : t ∉ l) :
    q.head ≠ some t ∧ findPrevEntry q.next (N + 1) q.head (some t) = some none := by
  have hnd := linked_nodup _ _ _ hq
  have hlen := fin_nodup_length l hnd
  refine ⟨?_, findPrevEntry_notin q.next t l _ _ hq ht (by omega)⟩
  intro hh
  have := linked_head q.next _ _ hq
  rw [hh] at this
  cases l with
  | nil => simp at this
  | cons b l =>
    simp at this
    subst this
    simp at ht

namespace ACV

theorem stopTimer_notin {N : Nat} (s : State N) (t : Fin N) (l : List (Fin N))
    (hq : s.queue = some l) (ht : t ∉ l) : stopTimer s (some t) = some (s, -1) := by
  rw [queue_iff] at hq
  obtain ⟨h1, h2⟩ := sq_unlink_notin s.sq t l hq ht
  have h1' : s.sysTimerQhead ≠ some t := h1
  have h2' : findPrevEntry s.sq.next (N + 1) s.sysTimerQhead (some t) = some none := h2
  simp only [stopTimer, h1', ne_eq, not_false_eq_true, if_true, h2']

theorem stopTimer_mem {N : Nat} (s : State N) (t : Fin N) (l : List (Fin N))
    (hq : s.queue = some l) (ht : t ∈ l) :
    ∃ s', stopTimer s (some t) = some (s', 0) ∧ s'.queue = some (l.erase t) ∧
      (s'.timers t).next = none ∧ SameData s s' := by
  rw [queue_iff] at hq
  obtain ⟨q', h1, h2, h3⟩ := sq_unlink s.sq t l hq ht
  refine ⟨s.putSq q', ?_, ?_, h2, putSq_sameData s q'⟩
  · rcases h3 with ⟨h4, h5⟩ | ⟨h4, prev, h5, h6⟩
    · have h4' : s.sysTimerQhead = some t := h4
      simp only [stopTimer, h4', ne_eq, not_true_eq_false, if_false, h5]
    · have h4' : s.sysTimerQhead ≠ some t := h4
      have h5' : findPrevEntry s.sq.next (N + 1) s.sysTimerQhead (some t) = some (some prev) := h5
      simp only [stopTimer, h4', ne_eq, not_false_eq_true, if_true, h5', h6]
  · rw [queue_iff]
    exact h1

end ACV
theorem queued_of_mem {α : Type} (next : α → Option α) (p : Option α) (l : List α) (t : α)
    (h : Linked next p l none) (ht : t ∈ l) : Queued next p t := by
  obtain ⟨l1, l2, hl⟩ := List.append_of_mem ht
  subst hl
  rw [linked_append] at h
  obtain ⟨m, h1, h2, _⟩ := h
  exact ⟨l1, h2 ▸ h1⟩

/-- A queued entry is found by `isAlreadyInQueue`, whatever the shape of the
queue. -/
theorem isAlreadyInQueue_of_queued {N : Nat} (next : Fin N → Option (Fin N))
    (p : Option (Fin N)) (t : Fin N) (h : Queued next p t) :
    isAlreadyInQueue next (N + 1) p (some t) = some true := by
  obtain ⟨path, hp⟩ := h
  obtain ⟨l', h1, h2, h3⟩ := linked_shorten next t path p hp
  have hnd : (t :: l').Nodup := List.nodup_cons.mpr ⟨h2, h3⟩
  have := fin_nodup_length _ hnd
  exact isAlreadyInQueue_of_path next t l' _ p h1 h2 (by simp at this; omega)

theorem isAlreadyInQueue_fresh {N : Nat} (next : Fin N → Option (Fin N))
    (p : Option (Fin N)) (t : Fin N) (l : List (Fin N)) (h : Linked next p l none)
    (ht : t ∉ l) : isAlreadyInQueue next (N + 1) p (some t) = some false := by
  have := fin_nodup_length l (linked_nodup next l p h)
  rw [isAlreadyInQueue_of_list next t l _ p h (by omega)]
  simp [ht]

namespace ACV

theorem setLabel_next {N : Nat} (s : State N) (t : Fin N) (v : Nat) (i : Fin N) :
    ((s.setLabel t v).timers i).next = (s.timers i).next := by
  unfold State.setLabel
  by_cases h : i = t
  · subst h
    simp
  · simp [Function.update, h]

theorem setLabel_label {N : Nat} (s : State N) (t : Fin N) (v : Nat) (i : Fin N) :
    ((s.setLabel t v).timers i).sysTimeLabel = if i = t then v else (s.timers i).sysTimeLabel := by
  unfold State.setLabel
  by_cases h : i = t
  · subst h
    simp
  · simp [Function.update, h]

theorem setLabel_fields {N : Nat} (s : State N) (t : Fin N) (v : Nat) (i : Fin N) :
    ((s.setLabel t v).timers i).interval = (s.timers i).interval ∧
    ((s.setLabel t v).timers i).callback = (s.timers i).callback ∧
    ((s.setLabel t v).timers i).cb_data = (s.timers i).cb_data ∧
    ((s.setLabel t v).timers i).mode = (s.timers i).mode := by
  unfold State.setLabel
  by_cases h : i = t
  · subst h
    simp
  · simp [Function.update, h]

theorem stopsAt_congr {N : Nat} (s s' : State N) (t : Fin N) (now : Nat) (x : Fin N)
    (h1 : (s'.timers x).sysTimeLabel = (s.timers x).sysTimeLabel)
    (h2 : (s'.timers x).interval = (s.timers x).interval)
    (h3 : (s'.timers t).interval = (s.timers t).interval) :
    stopsAt s' t now x ↔ stopsAt s t now x := by
  unfold stopsAt
  rw [h1, h2, h3]

theorem startTimer_queued {N : Nat} (s : State N) (t : Fin N)
    (h : Queued s.sq.next s.sysTimerQhead t) : startTimer s (some t) = some (s, 0) := by
  simp only [startTimer, isAlreadyInQueue_of_queued _ _ t h]

/-- The state in which `startTimer` calls `AddTimer`. -/
theorem startTimer_prep {N : Nat} (s : State N) (t : Fin N) (v : Nat) (l : List (Fin N))
    (hq : s.queue = some l) (ht : t ∉ l) :
    ((s.setNext t none).setLabel t v).queue = some l ∧
      (((s.setNext t none).setLabel t v).timers t).next = none ∧
      SameData (s.setLabel t v) ((s.setNext t none).setLabel t v) := by
  refine ⟨?_, ?_, ?_⟩
  · rw [queue_iff] at hq ⊢
    apply linked_congr s.sq.next _ l _ _ _ hq
    intro a ha
    have : a ≠ t := fun h => ht (h ▸ ha)
    show (((s.setNext t none).setLabel t v).timers a).next = (s.timers a).next
    rw [setLabel_next, setNext_next, if_neg this]
  · rw [setLabel_next, setNext_next, if_pos rfl]
  · refine ⟨rfl, fun i => ?_⟩
    have h1 := setLabel_fields (s.setNext t none) t v i
    have h2 := setLabel_fields s t v i
    have h3 := (setNext_sameData s t none).2 i
    refine ⟨?_, ?_, ?_, ?_, ?_⟩
    · rw [setLabel_label, setLabel_label, h3.1]
    · rw [h1.1, h2.1, h3.2.1]
    · rw [h1.2.1, h2.2.1, h3.2.2.1]
    · rw [h1.2.2.1, h2.2.2.1, h3.2.2.2.1]
    · rw [h1.2.2.2, h2.2.2.2, h3.2.2.2.2]

/-- Effect of `startTimer` on a timer outside a queue that ends in `NULL`. -/
theorem startTimer_fresh {N : Nat} (s : State N) (t : Fin N) (l : List (Fin N))
    (hq : s.queue = some l) (ht : t ∉ l) :
    ∃ s' l1 l2, startTimer s (some t) = some (s', 0) ∧ l = l1 ++ l2 ∧
      s'.queue = some (l1 ++ t :: l2) ∧
      (∀ x ∈ l1, ¬ stopsAt s t s.sysAbsTime x) ∧
      (∀ x, l2.head? = some x → stopsAt s t s.sysAbsTime x) ∧
      SameData (s.setLabel t s.sysAbsTime) s' := by
  obtain ⟨h1, h2, h3⟩ := startTimer_prep s t s.sysAbsTime l hq ht
  obtain ⟨s', l1, l2, h4, h5, h6, h7, h8, h9⟩ :=
    AddTimer_spec _ t s.sysAbsTime l h1 ht h2
  have hnd := linked_nodup _ _ _ ((queue_iff s l).mp hq)
  have hcong : ∀ x ∈ l, (stopsAt ((s.setNext t none).setLabel t s.sysAbsTime) t s.sysAbsTime x ↔
      stopsAt s t s.sysAbsTime x) := by
    intro x hx
    have hxt : x ≠ t := fun h => ht (h ▸ hx)
    have a1 := setLabel_fields (s.setNext t none) t s.sysAbsTime
    have a3 := (setNext_sameData s t none).2
    apply stopsAt_congr
    · rw [setLabel_label, if_neg hxt, (a3 x).1]
    · rw [(a1 x).1, (a3 x).2.1]
    · rw [(a1 t).1, (a3 t).2.1]
  refine ⟨s', l1, l2, ?_, h5, h6, ?_, ?_, sameData_trans h3 h9⟩
  · have hf := isAlreadyInQueue_fresh s.sq.next s.sysTimerQhead t l ((queue_iff s l).mp hq) ht
    simp only [startTimer, hf, GetSysTime, h4]
  · intro x hx
    rw [← hcong x (by rw [h5]; simp [hx])]
    exact h7 x hx
  · intro x hx
    rw [← hcong x (by
      rw [h5]
      cases l2 with
      | nil => simp at hx
      | cons b l2 =>
        simp at hx
        subst hx
        simp)]
    exact h8 x hx

end ACV

namespace RCV

theorem rcv_queue_iff {N : Nat} (s : State N) (l : List (Fin N)) :
    s.queue = some l ↔ Linked s.sq.next s.sysTimerQhead l none :=
  linkList_iff_linked _ _ _

theorem rcv_setNext_next {N : Nat} (s : State N) (t : Fin N) (p : Option (Fin N)) (i : Fin N) :
    ((s.setNext t p).timers i).next = if i = t then p else (s.timers i).next := by
  unfold State.setNext
  by_cases h : i = t
  · subst h
    simp
  · simp [Function.update, h]

theorem rcv_setNext_sameData {N : Nat} (s : State N) (t : Fin N) (p : Option (Fin N)) :
    SameData s (s.setNext t p) := by
  intro i
  unfold State.setNext
  by_cases h : i = t
  · subst h
    simp
  · simp [Function.update, h]

theorem rcv_stopTimer_notin {N : Nat} (s : State N) (t : Fin N) (l : List (Fin N))
    (hq : s.queue = some l) (ht : t ∉ l) : stopTimer s (some t) = some (s, -1) := by
  rw [rcv_queue_iff] at hq
  obtain ⟨h1, h2⟩ := sq_unlink_notin s.sq t l hq ht
  have h1' : s.sysTimerQhead ≠ some t := h1
  have h2' : findPrevEntry s.sq.next (N + 1) s.sysTimerQhead (some t) = some none := h2
  simp only [stopTimer, h1', ne_eq, not_false_eq_true, if_true, h2']

theorem rcv_stopTimer_mem {N : Nat} (s : State N) (t : Fin N) (l : List (Fin N))
    (hq : s.queue = some l) (ht : t ∈ l) :
    ∃ s', stopTimer s (some t) = some (s', 0) ∧ s'.queue = some (l.erase t) ∧
      (s'.timers t).next = none ∧ SameData s s' := by
  rw [rcv_queue_iff] at hq
  obtain ⟨q', h1, h2, h3⟩ := sq_unlink s.sq t l hq ht
  refine ⟨s.putSq q', ?_, ?_, h2, fun _ => ⟨rfl, rfl, rfl, rfl⟩⟩
  · rcases h3 with ⟨h4, h5⟩ | ⟨h4, prev, h5, h6⟩
    · have h4' : s.sysTimerQhead = some t := h4
      simp only [stopTimer, h4', ne_eq, not_true_eq_false, if_false, h5]
    · have h4' : s.sysTimerQhead ≠ some t := h4
      have h5' : findPrevEntry s.sq.next (N + 1) s.sysTimerQhead (some t) = some (some prev) := h5
      simp only [stopTimer, h4', ne_eq, not_false_eq_true, if_true, h5', h6]
  · rw [rcv_queue_iff]
    exact h1

theorem rcv_startTimer_queued {N : Nat} (s : State N) (t : Fin N)
    (h : Queued s.sq.next s.sysTimerQhead t) : startTimer s (some t) = some (s, 0) := by
  simp only [startTimer, isAlreadyInQueue_of_queued _ _ t h]

/-- Effect of `startTimer` on a timer outside a queue that ends in `NULL`:
the timer becomes the head. -/
theorem rcv_startTimer_fresh {N : Nat} (s : State N) (t : Fin N) (l : List (Fin N))
    (hq : s.queue = some l) (ht : t ∉ l) :
    ∃ s', startTimer s (some t) = some (s', 0) ∧ s'.queue = some (t :: l) ∧
      SameData s s' := by
  have hf := isAlreadyInQueue_fresh s.sq.next s.sysTimerQhead t l ((rcv_queue_iff s l).mp hq) ht
  refine ⟨{ s.setNext t s.sysTimerQhead with sysTimerQhead := some t }, ?_, ?_,
    rcv_setNext_sameData s t _⟩
  · simp only [startTimer, hf]
  · rw [rcv_queue_iff] at hq ⊢
    refine ⟨rfl, ?_⟩
    show Linked _ ((s.setNext t s.sysTimerQhead).timers t).next l none
    rw [rcv_setNext_next, if_pos rfl]
    apply linked_congr s.sq.next _ l _ _ _ hq
    intro a ha
    have : a ≠ t := fun h => ht (h ▸ ha)
    show ((s.setNext t s.sysTimerQhead).timers a).next = _
    rw [rcv_setNext_next, if_neg this]
    rfl

end RCV
/-! ## ACV: the loop of `timerService` -/

namespace ACV

theorem timerService_exit {N : Nat} (fuel : Nat) (s : State N)
    (h : ∀ p, s.sysTimerQhead = some p → ¬ s.due p) :
    timerService (fuel + 1) s = some (s, []) := by
  unfold timerService
  cases hh : s.sysTimerQhead with
  | none => rfl
  | some p =>
    have := h p hh
    unfold State.due at this
    simp only [GetSysTime, this, if_false]

theorem timerService_fire {N : Nat} (fuel : Nat) (s s2 : State N) (p : Fin N)
    (hh : s.sysTimerQhead = some p) (hd : s.due p) (hf : fireHead s p = some s2) :
    timerService (fuel + 1) s =
      match timerService fuel s2 with
      | none => none
      | some (s3, calls) => some (s3, (p, s2) :: calls) := by
  unfold State.due at hd
  unfold fireHead at hf
  rw [timerService]
  simp only [hh, GetSysTime, hd, if_true]
  cases hr : RemoveEntryFromQ s.sq none (some p) with
  | none => simp [hr] at hf
  | some q =>
    simp only [hr] at hf
    simp only [hf]

theorem timerService_fire_none {N : Nat} (fuel : Nat) (s : State N) (p : Fin N)
    (hh : s.sysTimerQhead = some p) (hd : s.due p) (hf : fireHead s p = none) :
    timerService (fuel + 1) s = none := by
  unfold State.due at hd
  unfold fireHead at hf
  rw [timerService]
  simp only [hh, GetSysTime, hd, if_true]
  cases hr : RemoveEntryFromQ s.sq none (some p) with
  | none => rfl
  | some q =>
    simp only [hr] at hf
    simp only [hf]

theorem setLabel_sameQueue {N : Nat} (s : State N) (t : Fin N) (v : Nat) :
    (s.setLabel t v).queue = s.queue := by
  unfold State.queue
  have : (s.setLabel t v).sq.next = s.sq.next := by
    funext i
    exact setLabel_next s t v i
  rw [this]
  rfl

/-- Effect of the loop body on a queue `p :: l` that ends in `NULL`. -/
theorem fireHead_spec {N : Nat} (s : State N) (p : Fin N) (l : List (Fin N))
    (hq : s.queue = some (p :: l)) :
    (¬ (s.timers p).mode = TIMER_REPEAT_MODE →
      ∃ s2, fireHead s p = some s2 ∧ s2.queue = some l ∧ SameData s s2) ∧
    ((s.timers p).mode = TIMER_REPEAT_MODE →
      ∃ s2 l1 l2, fireHead s p = some s2 ∧ l = l1 ++ l2 ∧ s2.queue = some (l1 ++ p :: l2) ∧
        (∀ x ∈ l1, ¬ stopsAt s p s.sysAbsTime x) ∧
        (∀ x, l2.head? = some x → stopsAt s p s.sysAbsTime x) ∧
        SameData (s.setLabel p s.sysAbsTime) s2) := by
  have hlk := (queue_iff s _).mp hq
  have hnd := linked_nodup _ _ _ hlk
  have hp : p ∉ l := (List.nodup_cons.mp hnd).1
  obtain ⟨q, h1, h2, h3, h4⟩ := removeEntry_head s.sq p l none hlk
  have hq1 : (s.putSq q).queue = some l := (queue_iff _ _).mpr h2
  constructor
  · intro hm
    refine ⟨s.putSq q, ?_, hq1, putSq_sameData s q⟩
    unfold fireHead
    simp only [h1]
    have : ¬ ((s.putSq q).timers p).mode = TIMER_REPEAT_MODE := hm
    simp only [this, if_false]
  · intro hm
    have hq2 : ((s.putSq q).setLabel p s.sysAbsTime).queue = some l := by
      rw [setLabel_sameQueue]
      exact hq1
    have hn2 : ((((s.putSq q).setLabel p s.sysAbsTime)).timers p).next = none := by
      rw [setLabel_next]
      exact h3
    obtain ⟨s2, l1, l2, a1, a2, a3, a4, a5, a6⟩ :=
      AddTimer_spec _ p s.sysAbsTime l hq2 hp hn2
    have hcong : ∀ x ∈ l, (stopsAt ((s.putSq q).setLabel p s.sysAbsTime) p s.sysAbsTime x ↔
        stopsAt s p s.sysAbsTime x) := by
      intro x hx
      have hxp : x ≠ p := fun h => hp (h ▸ hx)
      have b1 := setLabel_fields (s.putSq q) p s.sysAbsTime
      apply stopsAt_congr
      · rw [setLabel_label, if_neg hxp]
        rfl
      · rw [(b1 x).1]
        rfl
      · rw [(b1 p).1]
        rfl
    refine ⟨s2, l1, l2, ?_, a2, a3, ?_, ?_, ?_⟩
    · unfold fireHead
      simp only [h1]
      have : ((s.putSq q).timers p).mode = TIMER_REPEAT_MODE := hm
      simp only [this, if_true]
      exact a1
    · intro x hx
      rw [← hcong x (by rw [a2]; simp [hx])]
      exact a4 x hx
    · intro x hx
      rw [← hcong x (by
        rw [a2]
        cases l2 with
        | nil => simp at hx
        | cons b l2 =>
          simp at hx
          subst hx
          simp)]
      exact a5 x hx
    · refine sameData_trans ?_ a6
      refine ⟨rfl, fun i => ?_⟩
      have b1 := setLabel_fields (s.putSq q) p s.sysAbsTime i
      have b2 := setLabel_fields s p s.sysAbsTime i
      refine ⟨?_, ?_, ?_, ?_, ?_⟩
      · rw [setLabel_label, setLabel_label]
        rfl
      · rw [b1.1, b2.1]
        rfl
      · rw [b1.2.1, b2.2.1]
        rfl
      · rw [b1.2.2.1, b2.2.2.1]
        rfl
      · rw [b1.2.2.2, b2.2.2.2]
        rfl

end ACV
namespace ACV

theorem due_of_sameData {N : Nat} {a b : State N} (h : SameData a b) (x : Fin N) :
    b.due x ↔ a.due x := by
  unfold State.due
  rw [h.1, (h.2 x).1, (h.2 x).2.1]

theorem typed_of_sameData {N : Nat} {a b : State N} (h : SameData a b) (ha : a.Typed) :
    b.Typed := by
  refine ⟨h.1 ▸ ha.1, fun i => ?_⟩
  rw [(h.2 i).1, (h.2 i).2.1]
  exact ha.2 i

theorem setLabel_typed {N : Nat} (s : State N) (p : Fin N) (v : Nat) (hs : s.Typed)
    (hv : v < 4294967296) : (s.setLabel p v).Typed := by
  refine ⟨hs.1, fun i => ?_⟩
  rw [setLabel_label, (setLabel_fields s p v i).1]
  refine ⟨?_, (hs.2 i).2⟩
  split
  · exact hv
  · exact (hs.2 i).1

theorem setLabel_due_other {N : Nat} (s : State N) (p x : Fin N) (h : x ≠ p) :
    (s.setLabel p s.sysAbsTime).due x ↔ s.due x := by
  unfold State.due
  rw [setLabel_label, if_neg h, (setLabel_fields s p _ x).1]
  rfl

theorem setLabel_not_due {N : Nat} (s : State N) (p : Fin N)
    (h : 0 < (s.timers p).interval) : ¬ (s.setLabel p s.sysAbsTime).due p := by
  unfold State.due
  rw [setLabel_label, if_pos rfl, (setLabel_fields s p _ p).1]
  have : (s.setLabel p s.sysAbsTime).sysAbsTime = s.sysAbsTime := rfl
  rw [this]
  unfold u32
  omega

theorem dueCount_eq {N : Nat} (s : State N) (l : List (Fin N)) (hq : s.queue = some l) :
    s.dueCount = (l.filter (fun x => decide (s.due x))).length := by
  unfold State.dueCount
  rw [hq]
  rfl

theorem dueCount_lt {N : Nat} (s : State N) (hs : s.WF) : s.dueCount < N + 1 := by
  obtain ⟨l0, hq0, _⟩ := hs.2
  rw [dueCount_eq s l0 hq0]
  have h1 := List.length_filter_le (fun x => decide (s.due x)) l0
  have h2 := fin_nodup_length l0 (linked_nodup _ _ _ ((queue_iff s l0).mp hq0))
  omega

/-- One iteration of the loop of `timerService` on a well-formed state with an
expired head returns a well-formed state with fewer expired timers. -/
theorem fireHead_wf {N : Nat} (s : State N) (p : Fin N) (l : List (Fin N)) (hs : s.WF)
    (hq : s.queue = some (p :: l)) (hd : s.due p) :
    ∃ s2, fireHead s p = some s2 ∧ s2.WF ∧ s2.dueCount < s.dueCount ∧
      s2.sysAbsTime = s.sysAbsTime := by
  obtain ⟨hty, l0, hq0, hpos⟩ := hs
  rw [hq] at hq0
  injection hq0 with hq0
  subst hq0
  have hlk := (queue_iff s _).mp hq
  have hnd := linked_nodup _ _ _ hlk
  have hp : p ∉ l := (List.nodup_cons.mp hnd).1
  have hcount : s.dueCount = (l.filter (fun x => decide (s.due x))).length + 1 := by
    rw [dueCount_eq s _ hq]
    simp [List.filter_cons, hd]
  by_cases hm : (s.timers p).mode = TIMER_REPEAT_MODE
  · obtain ⟨s2, l1, l2, h1, h2, h3, _, _, h6⟩ := (fireHead_spec s p l hq).2 hm
    have hI := hpos p (List.mem_cons_self _ _) hm
    have hdue : ∀ x, x ≠ p → (s2.due x ↔ s.due x) := fun x hx =>
      (due_of_sameData h6 x).trans (setLabel_due_other s p x hx)
    have hndue : ¬ s2.due p := fun h =>
      setLabel_not_due s p hI ((due_of_sameData h6 p).mp h)
    refine ⟨s2, h1, ⟨typed_of_sameData h6 (setLabel_typed s p _ hty hty.1), _, h3, ?_⟩, ?_,
      h6.1⟩
    · intro x hx hmx
      have hx' : x ∈ p :: l := by
        rw [h2]
        simp at hx ⊢
        tauto
      have := hpos x hx'
      have e1 := (h6.2 x).2.1
      have e2 := (h6.2 x).2.2.2.2
      rw [(setLabel_fields s p _ x).2.2.2] at e2
      rw [(setLabel_fields s p _ x).1] at e1
      rw [e1]
      exact this (e2 ▸ hmx)
    · rw [hcount, dueCount_eq s2 _ h3, h2]
      have hf : ∀ l' : List (Fin N), p ∉ l' → l'.filter (fun x => decide (s2.due x)) =
          l'.filter (fun x => decide (s.due x)) := by
        intro l' hl'
        apply List.filter_congr
        intro x hx
        have : x ≠ p := fun h => hl' (h ▸ hx)
        simp [hdue x this]
      have hp1 : p ∉ l1 := fun h => hp (by rw [h2]; simp [h])
      have hp2 : p ∉ l2 := fun h => hp (by rw [h2]; simp [h])
      simp only [List.filter_append, List.filter_cons, hndue, decide_False, List.length_append]
      rw [hf l1 hp1, hf l2 hp2]
      simp
  · obtain ⟨s2, h1, h2, h3⟩ := (fireHead_spec s p l hq).1 hm
    refine ⟨s2, h1, ⟨typed_of_sameData h3 hty, l, h2, ?_⟩, ?_, h3.1⟩
    · intro x hx hmx
      have := hpos x (List.mem_cons_of_mem _ hx)
      rw [(h3.2 x).2.1]
      exact this ((h3.2 x).2.2.2.2 ▸ hmx)
    · rw [hcount, dueCount_eq s2 _ h2]
      have : l.filter (fun x => decide (s2.due x)) = l.filter (fun x => decide (s.due x)) := by
        apply List.filter_congr
        intro x _
        simp [due_of_sameData h3 x]
      rw [this]
      omega

/-- Induction principle for the loop of `timerService`: a property `P` of the
recorded callback invocations and the state that every iteration keeps holds
when the loop is left, and the loop is left once the fuel exceeds the number
of expired timers. -/
theorem timerService_loop {N : Nat} (P : List (Fin N × State N) → State N → Prop)
    (hstep : ∀ acc s p s2, s.WF → P acc s → s.sysTimerQhead = some p → s.due p →
      fireHead s p = some s2 → P (acc ++ [(p, s2)]) s2) :
    ∀ (fuel : Nat) (s : State N) (acc : List (Fin N × State N)), s.WF → P acc s →
      s.dueCount < fuel →
      ∃ s' calls, timerService fuel s = some (s', calls) ∧ s'.WF ∧ P (acc ++ calls) s' ∧
        (∀ p, s'.sysTimerQhead = some p → ¬ s'.due p) ∧ s'.sysAbsTime = s.sysAbsTime := by
  intro fuel
  induction fuel with
  | zero =>
    intro s acc _ _ h
    exact absurd h (by omega)
  | succ fuel ih =>
    intro s acc hs hP hf
    by_cases hex : ∀ p, s.sysTimerQhead = some p → ¬ s.due p
    · exact ⟨s, [], timerService_exit fuel s hex, hs, by simpa using hP, hex, rfl⟩
    · push_neg at hex
      obtain ⟨p, hh, hd⟩ := hex
      obtain ⟨l0, hq0, _⟩ := hs.2
      have hlk := (queue_iff s _).mp hq0
      have hhd := linked_head _ _ _ hlk
      rw [hh] at hhd
      cases l0 with
      | nil => simp at hhd
      | cons a l =>
        simp at hhd
        subst hhd
        obtain ⟨s2, h1, h2, h3, h4⟩ := fireHead_wf s p l hs hq0 hd
        obtain ⟨s', calls, h5, h6, h7, h8, h9⟩ :=
          ih s2 (acc ++ [(p, s2)]) h2 (hstep acc s p s2 hs hP hh hd h1) (by omega)
        refine ⟨s', (p, s2) :: calls, ?_, h6, ?_, h8, h9.trans h4⟩
        · rw [timerService_fire fuel s s2 p hh hd h1, h5]
        · simpa using h7

end ACV
namespace ACV

/-- The property of the recorded callback invocations `acc` and the current
state `st` kept by the loop of `timerService` started in state `s`. -/
theorem service_step_props {N : Nat} (s : State N) (l0 : List (Fin N))
    (acc : List (Fin N × State N)) (st : State N) (p : Fin N) (s2 : State N) (hst : st.WF)
    (hh : st.sysTimerQhead = some p) (hd : st.due p) (hf : fireHead st p = some s2)
    (hP : (st.sysAbsTime = s.sysAbsTime ∧
        ∀ i, (st.timers i).mode = (s.timers i).mode ∧
          (st.timers i).interval = (s.timers i).interval ∧
          ((st.timers i).sysTimeLabel = (s.timers i).sysTimeLabel ∨ ¬ st.due i)) ∧
      (∀ c ∈ acc, ¬ (s.timers c.1).mode = TIMER_REPEAT_MODE →
        (∃ l, c.2.queue = some l ∧ c.1 ∉ l) ∧ ∃ l, st.queue = some l ∧ c.1 ∉ l) ∧
      (∀ c ∈ acc, (s.timers c.1).mode = TIMER_REPEAT_MODE →
        ∃ l, c.2.queue = some l ∧ c.1 ∈ l ∧ (c.2.timers c.1).sysTimeLabel = s.sysAbsTime) ∧
      (∀ x ∈ l0, ¬ s.due x →
        (∃ l, st.queue = some l ∧ x ∈ l) ∧ ¬ st.due x ∧ ∀ c ∈ acc, c.1 ≠ x) ∧
      (∀ c ∈ acc, s.due c.1)) :
    (s2.sysAbsTime = s.sysAbsTime ∧
        ∀ i, (s2.timers i).mode = (s.timers i).mode ∧
          (s2.timers i).interval = (s.timers i).interval ∧
          ((s2.timers i).sysTimeLabel = (s.timers i).sysTimeLabel ∨ ¬ s2.due i)) ∧
      (∀ c ∈ acc ++ [(p, s2)], ¬ (s.timers c.1).mode = TIMER_REPEAT_MODE →
        (∃ l, c.2.queue = some l ∧ c.1 ∉ l) ∧ ∃ l, s2.queue = some l ∧ c.1 ∉ l) ∧
      (∀ c ∈ acc ++ [(p, s2)], (s.timers c.1).mode = TIMER_REPEAT_MODE →
        ∃ l, c.2.queue = some l ∧ c.1 ∈ l ∧ (c.2.timers c.1).sysTimeLabel = s.sysAbsTime) ∧
      (∀ x ∈ l0, ¬ s.due x →
        (∃ l, s2.queue = some l ∧ x ∈ l) ∧ ¬ s2.due x ∧ ∀ c ∈ acc ++ [(p, s2)], c.1 ≠ x) ∧
      (∀ c ∈ acc ++ [(p, s2)], s.due c.1) := by
  obtain ⟨⟨hT, hA⟩, hB, hC, hD, hF⟩ := hP
  obtain ⟨hty, lq, hq, hpos⟩ := hst
  have hlk := (queue_iff st _).mp hq
  have hhd := linked_head _ _ _ hlk
  rw [hh] at hhd
  cases lq with
  | nil => simp at hhd
  | cons a l =>
  simp at hhd
  subst hhd
  have hnd := linked_nodup _ _ _ hlk
  have hpl : p ∉ l := (List.nodup_cons.mp hnd).1
  -- `p` was expired when the loop was entered
  have hdp : s.due p := by
    rcases (hA p).2.2 with h | h
    · unfold State.due at hd ⊢
      rw [← hT, ← h, ← (hA p).2.1]
      exact hd
    · exact absurd hd h
  by_cases hm : (st.timers p).mode = TIMER_REPEAT_MODE
  · obtain ⟨s2', l1, l2, h1, h2, h3, _, _, h6⟩ := (fireHead_spec st p l hq).2 hm
    rw [hf] at h1
    injection h1 with h1
    subst h1
    have hms : (s.timers p).mode = TIMER_REPEAT_MODE := (hA p).1 ▸ hm
    have hI := hpos p (List.mem_cons_self _ _) hm
    have hsub : ∀ x, x ∈ l1 ++ p :: l2 ↔ x ∈ p :: l := by
      intro x
      rw [h2]
      simp
      tauto
    have hndue : ¬ s2.due p := fun h =>
      setLabel_not_due st p hI ((due_of_sameData h6 p).mp h)
    have hdue : ∀ x, x ≠ p → (s2.due x ↔ st.due x) := fun x hx =>
      (due_of_sameData h6 x).trans (setLabel_due_other st p x hx)
    refine ⟨⟨h6.1.trans hT, fun i => ⟨?_, ?_, ?_⟩⟩, ?_, ?_, ?_, ?_⟩
    · rw [(h6.2 i).2.2.2.2, (setLabel_fields st p _ i).2.2.2]
      exact (hA i).1
    · rw [(h6.2 i).2.1, (setLabel_fields st p _ i).1]
      exact (hA i).2.1
    · by_cases hip : i = p
      · subst hip
        exact Or.inr hndue
      · rcases (hA i).2.2 with h | h
        · left
          rw [(h6.2 i).1, setLabel_label, if_neg hip]
          exact h
        · right
          rw [hdue i hip]
          exact h
    · intro c hc hmc
      rcases List.mem_append.mp hc with hc | hc
      · obtain ⟨b1, lq', b2, b3⟩ := hB c hc hmc
        rw [hq] at b2
        injection b2 with b2
        subst b2
        exact ⟨b1, _, h3, fun h => b3 ((hsub c.1).mp h)⟩
      · simp at hc
        subst hc
        exact absurd hms hmc
    · intro c hc hmc
      rcases List.mem_append.mp hc with hc | hc
      · exact hC c hc hmc
      · simp at hc
        subst hc
        refine ⟨_, h3, by simp, ?_⟩
        show (s2.timers p).sysTimeLabel = s.sysAbsTime
        rw [(h6.2 p).1, setLabel_label, if_pos rfl]
        exact hT
    · intro x hx hxd
      obtain ⟨⟨lq', b1, b2⟩, b3, b4⟩ := hD x hx hxd
      rw [hq] at b1
      injection b1 with b1
      subst b1
      have hxp : x ≠ p := fun h => b3 (h ▸ hd)
      refine ⟨⟨_, h3, (hsub x).mpr b2⟩, fun h => b3 ((hdue x hxp).mp h), ?_⟩
      intro c hc
      rcases List.mem_append.mp hc with hc | hc
      · exact b4 c hc
      · simp at hc
        subst hc
        exact fun h => hxp h.symm
    · intro c hc
      rcases List.mem_append.mp hc with hc | hc
      · exact hF c hc
      · simp at hc
        subst hc
        exact hdp
  · obtain ⟨s2', h1, h2, h3⟩ := (fireHead_spec st p l hq).1 hm
    rw [hf] at h1
    injection h1 with h1
    subst h1
    have hms : ¬ (s.timers p).mode = TIMER_REPEAT_MODE := (hA p).1 ▸ hm
    refine ⟨⟨h3.1.trans hT, fun i => ⟨?_, ?_, ?_⟩⟩, ?_, ?_, ?_, ?_⟩
    · rw [(h3.2 i).2.2.2.2]
      exact (hA i).1
    · rw [(h3.2 i).2.1]
      exact (hA i).2.1
    · rcases (hA i).2.2 with h | h
      · left
        rw [(h3.2 i).1]
        exact h
      · right
        rw [due_of_sameData h3 i]
        exact h
    · intro c hc hmc
      rcases List.mem_append.mp hc with hc | hc
      · obtain ⟨b1, lq', b2, b3⟩ := hB c hc hmc
        rw [hq] at b2
        injection b2 with b2
        subst b2
        exact ⟨b1, _, h2, fun h => b3 (List.mem_cons_of_mem _ h)⟩
      · simp at hc
        subst hc
        exact ⟨⟨_, h2, hpl⟩, _, h2, hpl⟩
    · intro c hc hmc
      rcases List.mem_append.mp hc with hc | hc
      · exact hC c hc hmc
      · simp at hc
        subst hc
        exact absurd hmc hms
    · intro x hx hxd
      obtain ⟨⟨lq', b1, b2⟩, b3, b4⟩ := hD x hx hxd
      rw [hq] at b1
      injection b1 with b1
      subst b1
      have hxp : x ≠ p := fun h => b3 (h ▸ hd)
      refine ⟨⟨_, h2, ?_⟩, fun h => b3 ((due_of_sameData h3 x).mp h), ?_⟩
      · rcases List.mem_cons.mp b2 with h | h
        · exact absurd h hxp
        · exact h
      · intro c hc
        rcases List.mem_append.mp hc with hc | hc
        · exact b4 c hc
        · simp at hc
          subst hc
          exact fun h => hxp h.symm
    · intro c hc
      rcases List.mem_append.mp hc with hc | hc
      · exact hF c hc
      · simp at hc
        subst hc
        exact hdp

end ACV
/-! ## ACV: the queue stays sorted -/

namespace ACV

theorem remaining_of_sameData {N : Nat} {a b : State N} (h : SameData a b) (x : Fin N) :
    b.remaining b.sysAbsTime x = a.remaining a.sysAbsTime x := by
  unfold State.remaining State.elapsed
  rw [h.1, (h.2 x).1, (h.2 x).2.1]

theorem elapsed_of_sameData {N : Nat} {a b : State N} (h : SameData a b) (x : Fin N) :
    b.elapsed b.sysAbsTime x = a.elapsed a.sysAbsTime x := by
  unfold State.elapsed
  rw [h.1, (h.2 x).1]

theorem setLabel_elapsed_other {N : Nat} (s : State N) (p x : Fin N) (h : x ≠ p) :
    (s.setLabel p s.sysAbsTime).elapsed s.sysAbsTime x = s.elapsed s.sysAbsTime x := by
  unfold State.elapsed
  rw [setLabel_label, if_neg h]

theorem setLabel_elapsed_self {N : Nat} (s : State N) (p : Fin N) :
    (s.setLabel p s.sysAbsTime).elapsed s.sysAbsTime p = 0 := by
  unfold State.elapsed
  rw [setLabel_label, if_pos rfl]
  unfold u32
  omega

theorem setLabel_remaining_other {N : Nat} (s : State N) (p x : Fin N) (h : x ≠ p) :
    (s.setLabel p s.sysAbsTime).remaining s.sysAbsTime x = s.remaining s.sysAbsTime x := by
  unfold State.remaining
  rw [setLabel_elapsed_other s p x h, (setLabel_fields s p _ x).1]

theorem setLabel_remaining_self {N : Nat} (s : State N) (p : Fin N) :
    (s.setLabel p s.sysAbsTime).remaining s.sysAbsTime p = (s.timers p).interval := by
  unfold State.remaining
  rw [setLabel_elapsed_self s p, (setLabel_fields s p _ p).1]
  simp

/-- Inserting a timer that has just been armed at the position chosen by
`AddTimer` keeps the queue sorted. -/
theorem sorted_insert {N : Nat} (st s' : State N) (t : Fin N) (l l1 l2 : List (Fin N))
    (hty : st.Typed) (hl : l = l1 ++ l2) (ht : t ∉ l) (hsorted : l.Pairwise st.sooner)
    (h4 : ∀ x ∈ l1, ¬ stopsAt st t st.sysAbsTime x)
    (h5 : ∀ x, l2.head? = some x → stopsAt st t st.sysAbsTime x)
    (h6 : SameData (st.setLabel t st.sysAbsTime) s') :
    (l1 ++ t :: l2).Pairwise s'.sooner := by
  subst hl
  have hrem : ∀ x, x ≠ t → s'.remaining s'.sysAbsTime x = st.remaining st.sysAbsTime x := by
    intro x hx
    rw [remaining_of_sameData h6 x]
    exact setLabel_remaining_other st t x hx
  have hremt : s'.remaining s'.sysAbsTime t = (st.timers t).interval := by
    rw [remaining_of_sameData h6 t]
    exact setLabel_remaining_self st t
  have ht1 : ∀ x ∈ l1, x ≠ t := fun x hx h => ht (by simp [← h, hx])
  have ht2 : ∀ x ∈ l2, x ≠ t := fun x hx h => ht (by simp [← h, hx])
  obtain ⟨p1, p2, p3⟩ := List.pairwise_append.mp hsorted
  have hstop : ∀ x, stopsAt st t st.sysAbsTime x ↔
      ((st.timers t).interval : Int) ≤ st.remaining st.sysAbsTime x := by
    intro x
    rw [stopsAt_iff st t _ x hty hty.1]
    unfold State.remaining
    omega
  have hl2 : ∀ y ∈ l2, ((st.timers t).interval : Int) ≤ st.remaining st.sysAbsTime y := by
    intro y hy
    cases l2 with
    | nil => simp at hy
    | cons x0 l2 =>
      have h0 := (hstop x0).mp (h5 x0 rfl)
      rcases List.mem_cons.mp hy with h | h
      · subst h
        exact h0
      · have := (List.pairwise_cons.mp p2).1 y h
        unfold State.sooner at this
        omega
  rw [List.pairwise_append]
  refine ⟨?_, ?_, ?_⟩
  · apply List.Pairwise.imp_of_mem _ p1
    intro a b ha hb hab
    unfold State.sooner at hab ⊢
    rw [hrem a (ht1 a ha), hrem b (ht1 b hb)]
    exact hab
  · rw [List.pairwise_cons]
    refine ⟨?_, ?_⟩
    · intro y hy
      unfold State.sooner
      rw [hremt, hrem y (ht2 y hy)]
      exact hl2 y hy
    · apply List.Pairwise.imp_of_mem _ p2
      intro a b ha hb hab
      unfold State.sooner at hab ⊢
      rw [hrem a (ht2 a ha), hrem b (ht2 b hb)]
      exact hab
  · intro a ha b hb
    unfold State.sooner
    rcases List.mem_cons.mp hb with h | h
    · subst h
      rw [hremt, hrem a (ht1 a ha)]
      have := h4 a ha
      rw [hstop a] at this
      omega
    · rw [hrem a (ht1 a ha), hrem b (ht2 b h)]
      exact p3 a ha b h

theorem sorted_of_sameData {N : Nat} {a b : State N} (h : SameData a b) (l : List (Fin N))
    (hs : l.Pairwise a.sooner) : l.Pairwise b.sooner := by
  apply List.Pairwise.imp _ hs
  intro x y hxy
  unfold State.sooner at hxy ⊢
  rw [remaining_of_sameData h x, remaining_of_sameData h y]
  exact hxy

end ACV
namespace ACV

theorem inv_wf {N : Nat} (APP : Nat) (s : State N) (h : Inv APP s) : s.WF := by
  obtain ⟨hty, hI, l, hq, _, _⟩ := h
  exact ⟨hty, l, hq, fun x _ _ => (hI x).1⟩

theorem invService_wf {N : Nat} (APP : Nat) (s : State N) (h : InvService APP s) : s.WF := by
  obtain ⟨hty, hI, l, hq, _, _⟩ := h
  exact ⟨hty, l, hq, fun x _ _ => (hI x).1⟩

theorem inv_start {N : Nat} (APP : Nat) (s : State N) (h : Inv APP s)
    (Timer : Option (Fin N)) :
    ∃ s' r, startTimer s Timer = some (s', r) ∧ Inv APP s' := by
  cases Timer with
  | none => exact ⟨s, -1, rfl, h⟩
  | some t =>
    obtain ⟨hty, hI, l, hq, hsort, hel⟩ := h
    have hlk := (queue_iff s l).mp hq
    by_cases ht : t ∈ l
    · exact ⟨s, 0, startTimer_queued s t (queued_of_mem _ _ l t hlk ht),
        hty, hI, l, hq, hsort, hel⟩
    · obtain ⟨s', l1, l2, h1, h2, h3, h4, h5, h6⟩ := startTimer_fresh s t l hq ht
      refine ⟨s', 0, h1, typed_of_sameData h6 (setLabel_typed s t _ hty hty.1), ?_,
        l1 ++ t :: l2, h3, sorted_insert s s' t l l1 l2 hty h2 ht hsort h4 h5 h6, ?_⟩
      · intro i
        rw [(h6.2 i).2.1, (setLabel_fields s t _ i).1]
        exact hI i
      · intro x hx
        rw [h6.1]
        have e1 := elapsed_of_sameData h6 x
        rw [h6.1] at e1
        rw [e1]
        by_cases hxt : x = t
        · subst hxt
          have : (s.setLabel x s.sysAbsTime).sysAbsTime = s.sysAbsTime := rfl
          rw [this, setLabel_elapsed_self]
          omega
        · have : (s.setLabel t s.sysAbsTime).sysAbsTime = s.sysAbsTime := rfl
          rw [this, setLabel_elapsed_other s t x hxt]
          apply hel x
          rw [h2]
          simp at hx ⊢
          tauto

theorem inv_stop {N : Nat} (APP : Nat) (s : State N) (h : Inv APP s)
    (Timer : Option (Fin N)) :
    ∃ s' r, stopTimer s Timer = some (s', r) ∧ Inv APP s' := by
  cases Timer with
  | none => exact ⟨s, -1, rfl, h⟩
  | some t =>
    obtain ⟨hty, hI, l, hq, hsort, hel⟩ := h
    by_cases ht : t ∈ l
    · obtain ⟨s', h1, h2, _, h4⟩ := stopTimer_mem s t l hq ht
      refine ⟨s', 0, h1, typed_of_sameData h4 hty, ?_, l.erase t, h2,
        sorted_of_sameData h4 _ (hsort.sublist (List.erase_sublist t l)), ?_⟩
      · intro i
        rw [(h4.2 i).2.1]
        exact hI i
      · intro x hx
        rw [elapsed_of_sameData h4 x]
        exact hel x (List.mem_of_mem_erase hx)
    · exact ⟨s, -1, stopTimer_notin s t l hq ht, hty, hI, l, hq, hsort, hel⟩

theorem invService_step {N : Nat} (APP : Nat) (st s2 : State N) (p : Fin N)
    (h : InvService APP st) (hh : st.sysTimerQhead = some p)
    (hf : fireHead st p = some s2) : InvService APP s2 := by
  obtain ⟨hty, hI, lq, hq, hsort, hel⟩ := h
  have hlk := (queue_iff st _).mp hq
  have hhd := linked_head _ _ _ hlk
  rw [hh] at hhd
  cases lq with
  | nil => simp at hhd
  | cons a l =>
  simp at hhd
  subst hhd
  have hnd := linked_nodup _ _ _ hlk
  have hpl : p ∉ l := (List.nodup_cons.mp hnd).1
  by_cases hm : (st.timers p).mode = TIMER_REPEAT_MODE
  · obtain ⟨s2', l1, l2, h1, h2, h3, h4, h5, h6⟩ := (fireHead_spec st p l hq).2 hm
    rw [hf] at h1
    injection h1 with h1
    subst h1
    refine ⟨typed_of_sameData h6 (setLabel_typed st p _ hty hty.1), ?_,
      l1 ++ p :: l2, h3,
      sorted_insert st s2 p l l1 l2 hty h2 hpl (List.pairwise_cons.mp hsort).2 h4 h5 h6, ?_⟩
    · intro i
      rw [(h6.2 i).2.1, (setLabel_fields st p _ i).1]
      exact hI i
    · intro x hx
      rw [h6.1]
      have e1 := elapsed_of_sameData h6 x
      rw [h6.1] at e1
      rw [e1]
      have : (st.setLabel p st.sysAbsTime).sysAbsTime = st.sysAbsTime := rfl
      rw [this]
      by_cases hxp : x = p
      · subst hxp
        left
        exact setLabel_elapsed_self st x
      · rw [setLabel_elapsed_other st p x hxp]
        apply hel x
        have : x ∈ l := by
          rw [h2]
          simp at hx ⊢
          tauto
        exact List.mem_cons_of_mem _ this
  · obtain ⟨s2', h1, h2, h3⟩ := (fireHead_spec st p l hq).1 hm
    rw [hf] at h1
    injection h1 with h1
    subst h1
    refine ⟨typed_of_sameData h3 hty, ?_, l, h2,
      sorted_of_sameData h3 _ (List.pairwise_cons.mp hsort).2, ?_⟩
    · intro i
      rw [(h3.2 i).2.1]
      exact hI i
    · intro x hx
      rw [elapsed_of_sameData h3 x]
      exact hel x (List.mem_cons_of_mem _ hx)

/-- A tick of the hardware timer on a state that satisfies the invariant:
the interrupt handler returns and the invariant holds again. -/
theorem inv_tick {N : Nat} (APP : Nat) (s : State N) (h : Inv APP s) :
    ∃ s' calls, timerISR APP (N + 1) s = some (s', calls) ∧ Inv APP s' := by
  obtain ⟨hty, hI, l, hq, hsort, hel⟩ := h
  have hel' : ∀ x ∈ l,
      State.elapsed { s with sysAbsTime := u32 ((s.sysAbsTime : Int) + APP) }
        (u32 ((s.sysAbsTime : Int) + APP)) x =
      s.elapsed s.sysAbsTime x + APP % 4294967296 := by
    intro x hx
    have h1 := hel x hx
    have h2 := (hty.2 x).1
    have h3 := hty.1
    unfold State.elapsed at h1 ⊢
    show u32 ((u32 ((s.sysAbsTime : Int) + APP) : Int) - (s.timers x).sysTimeLabel) = _
    unfold u32 at h1 ⊢
    omega
  have hK : InvService APP { s with sysAbsTime := u32 ((s.sysAbsTime : Int) + APP) } := by
    refine ⟨⟨?_, hty.2⟩, hI, l, hq, ?_, ?_⟩
    · show u32 ((s.sysAbsTime : Int) + APP) < 4294967296
      unfold u32
      omega
    · apply List.Pairwise.imp_of_mem _ hsort
      intro a b ha hb hab
      unfold State.sooner State.remaining at hab ⊢
      have ea := hel' a ha
      have eb := hel' b hb
      show ((s.timers a).interval : Int) - _ ≤ ((s.timers b).interval : Int) - _
      have ea' : State.elapsed { s with sysAbsTime := u32 ((s.sysAbsTime : Int) + APP) }
          ({ s with sysAbsTime := u32 ((s.sysAbsTime : Int) + APP) } : State N).sysAbsTime a =
          s.elapsed s.sysAbsTime a + APP % 4294967296 := ea
      have eb' : State.elapsed { s with sysAbsTime := u32 ((s.sysAbsTime : Int) + APP) }
          ({ s with sysAbsTime := u32 ((s.sysAbsTime : Int) + APP) } : State N).sysAbsTime b =
          s.elapsed s.sysAbsTime b + APP % 4294967296 := eb
      rw [ea', eb']
      push_cast
      omega
    · intro x hx
      right
      have := hel' x hx
      show _ ≤ State.elapsed { s with sysAbsTime := u32 ((s.sysAbsTime : Int) + APP) }
        (u32 ((s.sysAbsTime : Int) + APP)) x
      omega
  have hlen := dueCount_lt _ (invService_wf APP _ hK)
  obtain ⟨s', calls, h1, _, h3, h4, _⟩ := timerService_loop
    (fun _ st => InvService APP st)
    (fun _ st p s2 _ hP hh _ hf => invService_step APP st s2 p hP hh hf)
    (N + 1) _ [] (invService_wf APP _ hK) hK hlen
  refine ⟨s', calls, h1, ?_⟩
  obtain ⟨hty', hI', l', hq', hsort', helS⟩ := h3
  refine ⟨hty', hI', l', hq', hsort', ?_⟩
  intro x hx
  cases l' with
  | nil => simp at hx
  | cons hd l' =>
    have hlk := (queue_iff s' _).mp hq'
    have hnd := h4 hd hlk.1
    have hrx : s'.sooner hd x := by
      rcases List.mem_cons.mp hx with h | h
      · subst h
        unfold State.sooner
        exact le_refl _
      · exact (List.pairwise_cons.mp hsort').1 x h
    unfold State.sooner State.remaining at hrx
    unfold State.due at hnd
    have hhd : s'.elapsed s'.sysAbsTime hd =
        u32 ((s'.sysAbsTime : Int) - (s'.timers hd).sysTimeLabel) := rfl
    have hIx := (hI' x).2
    rcases helS x hx with h | h
    · omega
    · omega

/-- Every reachable state satisfies the invariant. -/
theorem reach_inv {N : Nat} (APP : Nat) (s : State N) (h : Reach APP s) : Inv APP s := by
  induction h with
  | init s hty hhead hI =>
    refine ⟨hty, hI, [], ?_, List.Pairwise.nil, by simp⟩
    rw [queue_iff]
    exact hhead
  | start s s' Timer r _ hst ih =>
    obtain ⟨s1, r1, h1, h2⟩ := inv_start APP s ih Timer
    rw [hst] at h1
    injection h1 with h1
    injection h1 with h1 _
    subst h1
    exact h2
  | stop s s' Timer r _ hst ih =>
    obtain ⟨s1, r1, h1, h2⟩ := inv_stop APP s ih Timer
    rw [hst] at h1
    injection h1 with h1
    injection h1 with h1 _
    subst h1
    exact h2
  | tick s s' calls _ hst ih =>
    obtain ⟨s1, c1, h1, h2⟩ := inv_tick APP s ih
    rw [hst] at h1
    injection h1 with h1
    injection h1 with h1 _
    subst h1
    exact h2

end ACV
/-! ## ACV: timers armed at the same tick -/

namespace ACV

theorem good_trans {N : Nat} (s : State N) (x y z : Fin N) (h1 : s.Good x y)
    (h2 : s.Good y z) : s.Good x z := by
  unfold State.Good u32 at *
  omega

theorem good_due {N : Nat} (s : State N) (x y : Fin N) (h : s.Good x y) (hd : s.due y) :
    s.due x := by
  unfold State.Good State.due u32 at *
  omega

theorem good_congr {N : Nat} (a b : State N) (x y : Fin N)
    (hx : (b.timers x).sysTimeLabel = (a.timers x).sysTimeLabel)
    (hy : (b.timers y).sysTimeLabel = (a.timers y).sysTimeLabel)
    (hx' : (b.timers x).interval = (a.timers x).interval)
    (hy' : (b.timers y).interval = (a.timers y).interval) : b.Good x y ↔ a.Good x y := by
  unfold State.Good
  rw [hx, hy, hx', hy']

/-- The loop of `AddTimer` stops at `x` exactly when the new timer, labelled
with the current time, expires no later than `x`. -/
theorem stopsAt_iff_good {N : Nat} (st s2 : State N) (p x : Fin N) (hty : st.Typed)
    (hxp : x ≠ p) (h6 : SameData (st.setLabel p st.sysAbsTime) s2) :
    stopsAt st p st.sysAbsTime x ↔ s2.Good p x := by
  rw [stopsAt_iff st p _ x hty hty.1]
  unfold State.Good State.elapsed
  rw [(h6.2 p).1, (h6.2 x).1, (h6.2 p).2.1, (h6.2 x).2.1, setLabel_label, setLabel_label,
    if_pos rfl, if_neg hxp, (setLabel_fields st p _ p).1, (setLabel_fields st p _ x).1]
  omega

end ACV
namespace ACV

theorem armedService_step {N : Nat} (T : Nat) (U : Fin N → Prop) (s : State N)
    (acc : List (Fin N × State N)) (st : State N) (p : Fin N) (s2 : State N) (hst : st.WF)
    (hP : ArmedService T U s acc st) (hh : st.sysTimerQhead = some p) (hd : st.due p)
    (hf : fireHead st p = some s2) : ArmedService T U s (acc ++ [(p, s2)]) s2 := by
  obtain ⟨⟨hT, hA⟩, ⟨lq, hq, hU, hpw⟩, hP3, hP4⟩ := hP
  have hty := hst.1
  have hlk := (queue_iff st _).mp hq
  have hhd := linked_head _ _ _ hlk
  rw [hh] at hhd
  cases lq with
  | nil => simp at hhd
  | cons a l =>
  simp at hhd
  subst hhd
  have hnd := linked_nodup _ _ _ hlk
  have hpl : p ∉ l := (List.nodup_cons.mp hnd).1
  have hmap : (acc ++ [(p, s2)]).map Prod.fst = acc.map Prod.fst ++ [p] := by simp
  rw [List.pairwise_cons] at hpw
  obtain ⟨hpw1, hpw2⟩ := hpw
  -- the callbacks invoked so far, in order
  have hP3' : ∀ x, U x → x ∈ (acc ++ [(p, s2)]).map Prod.fst →
      (s.timers x).interval ≤ u32 ((s.sysAbsTime : Int) - T) := by
    intro x hx hmem
    by_cases hxa : x ∈ acc.map Prod.fst
    · exact hP3 x hx hxa
    · rw [hmap] at hmem
      have hxp : x = p := by
        rcases List.mem_append.mp hmem with h | h
        · exact absurd h hxa
        · simpa using h
      subst hxp
      have hl := (hU x hx hxa).2
      unfold State.due at hd
      rw [hl, hT, (hA x).2] at hd
      exact hd
  have hP4' : ∀ x y, U x → U y → (s.timers x).interval < (s.timers y).interval →
      ∀ pre suf, (acc ++ [(p, s2)]).map Prod.fst = pre ++ suf → y ∈ pre → x ∈ pre := by
    intro x y hx hy hxy pre suf hsplit hypre
    rw [hmap] at hsplit
    rcases List.eq_nil_or_concat suf with h | ⟨suf', z, h⟩
    · subst h
      rw [List.append_nil] at hsplit
      subst hsplit
      by_cases hxa : x ∈ acc.map Prod.fst
      · exact List.mem_append_left _ hxa
      · by_cases hxp : x = p
        · subst hxp
          simp
        · exfalso
          have hya : y ∉ acc.map Prod.fst := fun h =>
            hxa (hP4 x y hx hy hxy (acc.map Prod.fst) [] (by simp) h)
          have hyp : y = p := by
            rcases List.mem_append.mp hypre with h | h
            · exact absurd h hya
            · simpa using h
          subst hyp
          obtain ⟨hxl, hxT⟩ := hU x hx hxa
          obtain ⟨_, hyT⟩ := hU y hy hya
          have hxl' : x ∈ l := by
            rcases List.mem_cons.mp hxl with h | h
            · exact absurd h hxp
            · exact h
          have hg := hpw1 x hxl' ⟨hx, hxa⟩
          unfold State.Good at hg
          rw [hxT, hyT, (hA x).2, (hA y).2] at hg
          omega
    · rw [List.concat_eq_append] at h
      subst h
      rw [← List.append_assoc] at hsplit
      have := (List.append_inj' hsplit rfl).1
      exact hP4 x y hx hy hxy pre suf' this hypre
  have hfresh : ∀ x, x ∉ (acc ++ [(p, s2)]).map Prod.fst → x ≠ p ∧ x ∉ acc.map Prod.fst := by
    intro x hx
    rw [hmap] at hx
    simp at hx
    exact ⟨hx.2, by simpa using hx.1⟩
  by_cases hm : (st.timers p).mode = TIMER_REPEAT_MODE
  · obtain ⟨s2', l1, l2, h1, h2, h3, h4, h5, h6⟩ := (fireHead_spec st p l hq).2 hm
    rw [hf] at h1
    injection h1 with h1
    subst h1
    have hlab : ∀ x, x ≠ p → (s2.timers x).sysTimeLabel = (st.timers x).sysTimeLabel := by
      intro x hx
      rw [(h6.2 x).1, setLabel_label, if_neg hx]
    have hint : ∀ x, (s2.timers x).interval = (st.timers x).interval := by
      intro x
      rw [(h6.2 x).2.1, (setLabel_fields st p _ x).1]
    have hgood : ∀ x y, x ≠ p → y ≠ p → (s2.Good x y ↔ st.Good x y) := fun x y hx hy =>
      good_congr st s2 x y (hlab x hx) (hlab y hy) (hint x) (hint y)
    have hp1 : ∀ x ∈ l1, x ≠ p := fun x hx h => hpl (by rw [h2]; simp [← h, hx])
    have hp2 : ∀ x ∈ l2, x ≠ p := fun x hx h => hpl (by rw [h2]; simp [← h, hx])
    rw [h2, List.pairwise_append] at hpw2
    obtain ⟨q1, q2, q3⟩ := hpw2
    refine ⟨⟨h6.1.trans hT, fun i => ⟨?_, ?_⟩⟩, ⟨l1 ++ p :: l2, h3, ?_, ?_⟩, hP3', hP4'⟩
    · rw [(h6.2 i).2.2.2.2, (setLabel_fields st p _ i).2.2.2]
      exact (hA i).1
    · rw [hint i]
      exact (hA i).2
    · intro x hx hxn
      obtain ⟨hxp, hxa⟩ := hfresh x hxn
      obtain ⟨b1, b2⟩ := hU x hx hxa
      refine ⟨?_, (hlab x hxp).trans b2⟩
      rcases List.mem_cons.mp b1 with h | h
      · exact absurd h hxp
      · rw [h2] at h
        simp at h ⊢
        tauto
    · rw [List.pairwise_append]
      refine ⟨?_, ?_, ?_⟩
      · apply List.Pairwise.imp_of_mem _ q1
        intro a b ha hb hab hb'
        rw [hgood a b (hp1 a ha) (hp1 b hb)]
        exact hab ⟨hb'.1, (hfresh b hb'.2).2⟩
      · rw [List.pairwise_cons]
        refine ⟨?_, ?_⟩
        · intro y hy hy'
          cases l2 with
          | nil => simp at hy
          | cons x0 l2 =>
            have hx0 : x0 ≠ p := hp2 x0 (List.mem_cons_self _ _)
            have h0 := (stopsAt_iff_good st s2 p x0 hty hx0 h6).mp (h5 x0 rfl)
            rcases List.mem_cons.mp hy with h | h
            · subst h
              exact h0
            · have hyp := hp2 y (List.mem_cons_of_mem _ h)
              have := (List.pairwise_cons.mp q2).1 y h ⟨hy'.1, (hfresh y hy'.2).2⟩
              exact good_trans s2 p x0 y h0 ((hgood x0 y hx0 hyp).mpr this)
        · apply List.Pairwise.imp_of_mem _ q2
          intro a b ha hb hab hb'
          rw [hgood a b (hp2 a ha) (hp2 b hb)]
          exact hab ⟨hb'.1, (hfresh b hb'.2).2⟩
      · intro a ha b hb hb'
        rcases List.mem_cons.mp hb with h | h
        · subst h
          exact absurd rfl (hfresh b hb'.2).1
        · rw [hgood a b (hp1 a ha) (hp2 b h)]
          exact q3 a ha b h ⟨hb'.1, (hfresh b hb'.2).2⟩
  · obtain ⟨s2', h1, h2, h3⟩ := (fireHead_spec st p l hq).1 hm
    rw [hf] at h1
    injection h1 with h1
    subst h1
    refine ⟨⟨h3.1.trans hT, fun i => ⟨?_, ?_⟩⟩, ⟨l, h2, ?_, ?_⟩, hP3', hP4'⟩
    · rw [(h3.2 i).2.2.2.2]
      exact (hA i).1
    · rw [(h3.2 i).2.1]
      exact (hA i).2
    · intro x hx hxn
      obtain ⟨hxp, hxa⟩ := hfresh x hxn
      obtain ⟨b1, b2⟩ := hU x hx hxa
      refine ⟨?_, ((h3.2 x).1).trans b2⟩
      rcases List.mem_cons.mp b1 with h | h
      · exact absurd h hxp
      · exact h
    · apply List.Pairwise.imp _ hpw2
      intro a b hab hb'
      rw [good_congr st s2 a b (h3.2 a).1 (h3.2 b).1 (h3.2 a).2.1 (h3.2 b).2.1]
      exact hab ⟨hb'.1, (hfresh b hb'.2).2⟩

end ACV
namespace ACV

/-- One tick on a state whose timers selected by `U` are armed at tick `T`
and have not fired: the interrupt handler returns; a selected timer fires in
this call exactly when its interval has elapsed since `T`; selected timers
fire in the order of their intervals; the selected timers that did not fire
are still armed. -/
theorem armed_tick {N : Nat} (APP T : Nat) (U : Fin N → Prop) (s : State N)
    (hA : Armed T U s) :
    ∃ s' calls, timerISR APP (N + 1) s = some (s', calls) ∧
      s'.sysAbsTime = u32 ((s.sysAbsTime : Int) + APP) ∧
      (∀ i, (s'.timers i).mode = (s.timers i).mode ∧
        (s'.timers i).interval = (s.timers i).interval) ∧
      Armed T (fun x => U x ∧ x ∉ calls.map Prod.fst) s' ∧
      (∀ x, U x → (x ∈ calls.map Prod.fst ↔
        (s.timers x).interval ≤ u32 ((u32 ((s.sysAbsTime : Int) + APP) : Int) - T))) ∧
      (∀ x y, U x → U y → (s.timers x).interval < (s.timers y).interval →
        ∀ pre suf, calls.map Prod.fst = pre ++ suf → y ∈ pre → x ∈ pre) := by
  obtain ⟨⟨hty, l0, hq0, hpos⟩, l, hq, hU, hpw⟩ := hA
  have hwf0 : State.WF { s with sysAbsTime := u32 ((s.sysAbsTime : Int) + APP) } := by
    refine ⟨⟨?_, hty.2⟩, l0, hq0, hpos⟩
    show u32 ((s.sysAbsTime : Int) + APP) < 4294967296
    unfold u32
    omega
  have hP0 : ArmedService T U { s with sysAbsTime := u32 ((s.sysAbsTime : Int) + APP) } []
      { s with sysAbsTime := u32 ((s.sysAbsTime : Int) + APP) } := by
    refine ⟨⟨rfl, fun i => ⟨rfl, rfl⟩⟩, ⟨l, hq, fun x hx _ => hU x hx, ?_⟩, ?_, ?_⟩
    · apply List.Pairwise.imp _ hpw
      intro a b hab hb
      exact hab hb.1
    · intro x _ hx
      simp at hx
    · intro x y _ _ _ pre suf hsplit hy
      simp at hsplit
      rw [hsplit.1] at hy
      simp at hy
  obtain ⟨s', calls, h1, h2, h3, h4, h5⟩ := timerService_loop
    (ArmedService T U { s with sysAbsTime := u32 ((s.sysAbsTime : Int) + APP) })
    (fun acc st p s2 hst hP hh hd hf => armedService_step T U _ acc st p s2 hst hP hh hd hf)
    (N + 1) _ [] hwf0 hP0 (dueCount_lt _ hwf0)
  simp only [List.nil_append] at h3
  obtain ⟨⟨hT, hD⟩, ⟨l', hq', hU', hpw'⟩, hP3, hP4⟩ := h3
  refine ⟨s', calls, h1, h5, hD, ⟨h2, l', hq', fun x hx => hU' x hx.1 hx.2, ?_⟩, ?_, hP4⟩
  · apply List.Pairwise.imp _ hpw'
    intro a b hab hb
    exact hab hb
  · intro x hx
    refine ⟨hP3 x hx, fun hdue => ?_⟩
    by_contra hxn
    obtain ⟨hxl, hxT⟩ := hU' x hx hxn
    have hxd : s'.due x := by
      unfold State.due
      rw [hxT, hT, (hD x).2]
      exact hdue
    cases l' with
    | nil => simp at hxl
    | cons hd l' =>
      have hlk := (queue_iff s' _).mp hq'
      have hnd := h4 hd hlk.1
      rcases List.mem_cons.mp hxl with h | h
      · subst h
        exact hnd hxd
      · have hg := (List.pairwise_cons.mp hpw').1 x h ⟨hx, hxn⟩
        exact hnd (good_due s' hd x hg hxd)

theorem armed_mono {N : Nat} (T : Nat) (U V : Fin N → Prop) (s : State N)
    (h : ∀ x, V x → U x) (hA : Armed T U s) : Armed T V s := by
  obtain ⟨hwf, l, hq, hU, hpw⟩ := hA
  refine ⟨hwf, l, hq, fun x hx => hU x (h x hx), ?_⟩
  apply List.Pairwise.imp _ hpw
  intro a b hab hb
  exact hab (h b hb)

end ACV
namespace ACV

theorem insertByInterval_split {N : Nat} (I : Fin N → Nat) (t : Fin N) (l1 l2 : List (Fin N))
    (h1 : ∀ x ∈ l1, ¬ I t ≤ I x) (h2 : ∀ x, l2.head? = some x → I t ≤ I x) :
    insertByInterval I t (l1 ++ l2) = l1 ++ t :: l2 := by
  induction l1 with
  | nil =>
    cases l2 with
    | nil => rfl
    | cons x0 l2 =>
      have := h2 x0 rfl
      simp [insertByInterval, this]
  | cons a l1 ih =>
    have ha := h1 a (List.mem_cons_self _ _)
    have := ih (fun x hx => h1 x (List.mem_cons_of_mem _ hx))
    simp [insertByInterval, ha, this]

/-- Effect of `startTimer` on a queue whose timers all carry the current time
as label: the timer is inserted by interval. -/
theorem startTimer_same_tick {N : Nat} (s : State N) (t : Fin N) (l : List (Fin N))
    (I : Fin N → Nat) (hI : ∀ x, (s.timers x).interval = I x) (hty : s.Typed)
    (hq : s.queue = some l) (ht : t ∉ l)
    (hlab : ∀ x ∈ l, (s.timers x).sysTimeLabel = s.sysAbsTime) :
    ∃ s', startTimer s (some t) = some (s', 0) ∧
      s'.queue = some (insertByInterval I t l) ∧ s'.Typed ∧
      s'.sysAbsTime = s.sysAbsTime ∧
      (∀ x, (s'.timers x).interval = I x ∧ (s'.timers x).mode = (s.timers x).mode) ∧
      (s'.timers t).sysTimeLabel = s.sysAbsTime ∧
      (∀ x, x ≠ t → (s'.timers x).sysTimeLabel = (s.timers x).sysTimeLabel) := by
  obtain ⟨s', l1, l2, h1, h2, h3, h4, h5, h6⟩ := startTimer_fresh s t l hq ht
  have hstop : ∀ x ∈ l, (stopsAt s t s.sysAbsTime x ↔ I t ≤ I x) := by
    intro x hx
    rw [stopsAt_iff s t _ x hty hty.1]
    have hl := hlab x hx
    have h0 : s.elapsed s.sysAbsTime x = 0 := by
      unfold State.elapsed
      rw [hl]
      unfold u32
      omega
    rw [h0, hI x, hI t]
    omega
  refine ⟨s', h1, ?_, typed_of_sameData h6 (setLabel_typed s t _ hty hty.1), h6.1, ?_, ?_, ?_⟩
  · rw [h3, h2, insertByInterval_split I t l1 l2]
    · intro x hx
      rw [← hstop x (by rw [h2]; simp [hx])]
      exact h4 x hx
    · intro x hx
      rw [← hstop x (by
        rw [h2]
        cases l2 with
        | nil => simp at hx
        | cons b l2 =>
          simp at hx
          subst hx
          simp)]
      exact h5 x hx
  · intro x
    rw [(h6.2 x).2.1, (h6.2 x).2.2.2.2, (setLabel_fields s t _ x).1,
      (setLabel_fields s t _ x).2.2.2]
    exact ⟨hI x, rfl⟩
  · rw [(h6.2 t).1, setLabel_label, if_pos rfl]
  · intro x hx
    rw [(h6.2 x).1, setLabel_label, if_neg hx]

/-- The state after `k` ticks, for timers armed at tick `T`: the timers
selected by `V` whose interval has not elapsed at any of the `k` service
calls are still armed. -/
theorem armed_afterTicks {N : Nat} (APP T : Nat) (V : Fin N → Prop) (s3 : State N)
    (hT : s3.sysAbsTime = T) (hA : Armed T V s3) :
    ∀ k, ∃ sk, afterTicks APP k s3 = some sk ∧
      sk.sysAbsTime = u32 ((T : Int) + k * APP) ∧
      (∀ i, (sk.timers i).mode = (s3.timers i).mode ∧
        (sk.timers i).interval = (s3.timers i).interval) ∧
      Armed T (fun x => V x ∧
        ∀ j, j < k → ¬ (s3.timers x).interval ≤ u32 (((j + 1) * APP : Nat) : Int)) sk := by
  have hT32 : T < 4294967296 := hT ▸ hA.1.1.1
  intro k
  induction k with
  | zero =>
    refine ⟨s3, rfl, ?_, fun i => ⟨rfl, rfl⟩, armed_mono T V _ s3 (fun x hx => hx.1) hA⟩
    rw [hT]
    unfold u32
    omega
  | succ k ih =>
    obtain ⟨sk, h1, h2, h3, h4⟩ := ih
    obtain ⟨s', calls, a1, a2, a3, a4, a5, _⟩ := armed_tick APP T _ sk h4
    have htime : u32 ((u32 ((sk.sysAbsTime : Int) + APP) : Int) - T) =
        u32 (((k + 1) * APP : Nat) : Int) := by
      rw [h2]
      have : (k + 1) * APP = k * APP + APP := by ring
      rw [this]
      unfold u32
      push_cast
      omega
    refine ⟨s', ?_, ?_, ?_, ?_⟩
    · simp only [afterTicks, h1, a1, Option.map_some']
    · rw [a2, h2]
      unfold u32
      push_cast
      have : ((k : Int) + 1) * APP = k * APP + APP := by ring
      rw [this]
      omega
    · intro i
      exact ⟨(a3 i).1.trans (h3 i).1, (a3 i).2.trans (h3 i).2⟩
    · apply armed_mono T _ _ s' _ a4
      intro x hx
      have hUk : V x ∧ ∀ j, j < k →
          ¬ (s3.timers x).interval ≤ u32 (((j + 1) * APP : Nat) : Int) :=
        ⟨hx.1, fun j hj => hx.2 j (by omega)⟩
      refine ⟨hUk, fun hmem => ?_⟩
      have := (a5 x hUk).mp hmem
      rw [htime, (h3 x).2] at this
      exact hx.2 k (by omega) this

end ACV
namespace ACV

theorem insert_three {N : Nat} (I : Fin N → Nat) (a b c t1 t2 t3 : Fin N) (hab : I a < I b)
    (hbc : I b < I c) (hperm : List.Perm [t1, t2, t3] [a, b, c]) :
    insertByInterval I t3 (insertByInterval I t2 [t1]) = [a, b, c] := by
  have hnd0 : [a, b, c].Nodup := by
    have h1 : a ≠ b := fun h => by rw [h] at hab; omega
    have h2 : b ≠ c := fun h => by rw [h] at hbc; omega
    have h3 : a ≠ c := fun h => by rw [h] at hab; omega
    simp [h1, h2, h3]
  have hnd : [t1, t2, t3].Nodup := hperm.nodup_iff.mpr hnd0
  have m1 : t1 ∈ [a, b, c] := hperm.subset (by simp)
  have m2 : t2 ∈ [a, b, c] := hperm.subset (by simp)
  have m3 : t3 ∈ [a, b, c] := hperm.subset (by simp)
  have f1 : I a ≤ I b := by omega
  have f2 : I a ≤ I c := by omega
  have f3 : I b ≤ I c := by omega
  have f4 : ¬ I b ≤ I a := by omega
  have f5 : ¬ I c ≤ I a := by omega
  have f6 : ¬ I c ≤ I b := by omega
  simp only [List.mem_cons, List.mem_singleton, List.not_mem_nil, or_false] at m1 m2 m3
  rcases m1 with rfl | rfl | rfl <;> rcases m2 with rfl | rfl | rfl <;>
    rcases m3 with rfl | rfl | rfl <;>
    first
    | (exfalso; simp at hnd; done)
    | simp [insertByInterval, f1, f2, f3, f4, f5, f6]

/-- A repeating timer with interval 0 at the head of the queue, re-inserted
at the head by `AddTimer`, keeps the loop of `timerService` running. -/
theorem timerService_zero_interval_loops {N : Nat} (a : Fin N) :
    ∀ (fuel : Nat) (st : State N) (l : List (Fin N)), st.Typed → st.queue = some (a :: l) →
      (∀ x, l.head? = some x → stopsAt st a st.sysAbsTime x) →
      (st.timers a).interval = 0 → (st.timers a).mode = TIMER_REPEAT_MODE →
      timerService fuel st = none := by
  intro fuel
  induction fuel with
  | zero =>
    intro st l _ _ _ _ _
    rfl
  | succ fuel ih =>
    intro st l hty hq hstop hI hm
    have hlk := (queue_iff st _).mp hq
    have hh : st.sysTimerQhead = some a := hlk.1
    have hnd := linked_nodup _ _ _ hlk
    have hal : a ∉ l := (List.nodup_cons.mp hnd).1
    have hd : st.due a := by
      unfold State.due
      rw [hI]
      exact Nat.zero_le _
    obtain ⟨s2, l1, l2, h1, h2, h3, h4, h5, h6⟩ := (fireHead_spec st a l hq).2 hm
    have hl1 : l1 = [] := by
      cases l1 with
      | nil => rfl
      | cons x l1 =>
        exfalso
        exact h4 x (List.mem_cons_self _ _) (hstop x (by rw [h2]; rfl))
    subst hl1
    simp only [List.nil_append] at h2 h3
    subst h2
    rw [timerService_fire fuel st s2 a hh hd h1]
    have hint : ∀ x, (s2.timers x).interval = (st.timers x).interval := by
      intro x
      rw [(h6.2 x).2.1, (setLabel_fields st a _ x).1]
    have := ih s2 l (typed_of_sameData h6 (setLabel_typed st a _ hty hty.1)) h3 (by
      intro x hx
      have hxa : x ≠ a := by
        intro h
        apply hal
        cases l with
        | nil => simp at hx
        | cons y l =>
          simp at hx
          rw [← h, hx]
          simp
      rw [h6.1]
      have : (st.setLabel a st.sysAbsTime).sysAbsTime = st.sysAbsTime := rfl
      rw [this]
      rw [stopsAt_congr st s2 a _ x (by rw [(h6.2 x).1, setLabel_label, if_neg hxa])
        (hint x) (hint a)]
      exact hstop x hx)
      ((hint a).trans hI) (by
        rw [(h6.2 a).2.2.2.2, (setLabel_fields st a _ a).2.2.2]
        exact hm)
    rw [this]

end ACV
/-! ## Rings of the double link queue -/

theorem linked_start {α : Type} (f : α → Option α) (p q : Option α) (a : α) (l : List α)
    (h : Linked f p (a :: l) q) : p = some a := h.1

theorem cyc_rotate {α : Type} (f : α → Option α) (l1 l2 : List α) (h : Cyc f (l1 ++ l2)) :
    Cyc f (l2 ++ l1) := by
  cases l1 with
  | nil => simpa using h
  | cons a l1 =>
    cases l2 with
    | nil => simpa using h
    | cons b l2 =>
      intro c hc
      simp at hc
      subst hc
      have h1 := h a (by simp)
      rw [linked_append] at h1 ⊢
      obtain ⟨m, h2, h3⟩ := h1
      have hm := linked_start f m _ b l2 h3
      subst hm
      exact ⟨some a, h3, h2⟩

/-- Unlinking the first entry `x` of a cycle: the link of the last entry is
redirected to the successor of `x`. -/
theorem cyc_drop_front {α : Type} [DecidableEq α] (f : α → Option α) (x p : α) (m : List α)
    (hc : Cyc f (x :: m)) (hnd : (x :: m).Nodup) (hp : m.getLast? = some p) :
    Cyc (Function.update f p (f x)) m ∧ f x = m.head? := by
  obtain ⟨m0, rfl⟩ : ∃ m0, m = m0 ++ [p] := by
    rcases List.eq_nil_or_concat m with h | ⟨m0, z, h⟩
    · subst h
      simp at hp
    · rw [List.concat_eq_append] at h
      subst h
      simp at hp
      subst hp
      exact ⟨m0, rfl⟩
  have h1 := hc x rfl
  obtain ⟨_, h2⟩ := h1
  rw [linked_append] at h2
  obtain ⟨mid, h3, h4, h5⟩ := h2
  subst h4
  have hx : f x = (m0 ++ [p]).head? := by
    cases m0 with
    | nil => exact h3
    | cons b m0 => exact h3.1
  refine ⟨?_, hx⟩
  intro a ha
  rw [← hx] at ha
  rw [linked_append]
  have hpm : p ∉ m0 := by
    have := (List.nodup_cons.mp hnd).2
    rw [List.nodup_append] at this
    exact fun h => this.2.2 h (by simp)
  refine ⟨some p, ?_, rfl, ?_⟩
  · rw [← ha]
    apply linked_congr f _ m0 _ _ _ h3
    intro b hb
    have : b ≠ p := fun h => hpm (h ▸ hb)
    simp [Function.update, this]
  · show Function.update f p (f x) p = some a
    simp [ha]


/-- Effect of `dlst_del` on a well-formed ring `l` and a member `x`. -/
theorem dlst_del_ring {α : Type} [DecidableEq α] (q : DQ α) (l : List α) (x : α)
    (hr : Ring q l) (hx : x ∈ l) :
    ∃ q', dlst_del q (some x) = some q' ∧ Ring q' (l.erase x) ∧ q'.size = q.size ∧
      (l = [x] → q'.head = none) ∧
      (l ≠ [x] → q.head = some x → q'.head = q.next x) ∧
      (q.head ≠ some x → q'.head = q.head) := by
  obtain ⟨hnd, hhead, hnext, hprev⟩ := hr
  obtain ⟨l1, l2, hl⟩ := List.append_of_mem hx
  subst hl
  have hnd' := List.nodup_append.mp hnd
  have hx1 : x ∉ l1 := fun h => hnd'.2.2 h (by simp)
  have hx2 : x ∉ l2 := (List.nodup_cons.mp hnd'.2.1).1
  rw [erase_mid l1 l2 x hx1]
  have hcn : Cyc q.next (x :: (l2 ++ l1)) := by
    have := cyc_rotate q.next l1 (x :: l2) hnext
    simpa using this
  have hcp : Cyc q.prev (x :: (l2 ++ l1).reverse) := by
    have h0 : (l1 ++ x :: l2).reverse = l2.reverse ++ (x :: l1.reverse) := by simp
    rw [h0] at hprev
    have := cyc_rotate q.prev l2.reverse (x :: l1.reverse) hprev
    simpa using this
  have hndm : (x :: (l2 ++ l1)).Nodup := by
    rw [List.nodup_cons]
    refine ⟨by simp [hx1, hx2], ?_⟩
    rw [List.nodup_append] at hnd ⊢
    refine ⟨(List.nodup_cons.mp hnd.2.1).2, hnd.1, ?_⟩
    intro a ha1 ha2
    exact hnd.2.2 ha2 (List.mem_cons_of_mem _ ha1)
  have hndr : (x :: (l2 ++ l1).reverse).Nodup := by
    rw [List.nodup_cons] at hndm ⊢
    exact ⟨by simp [hx1, hx2], List.nodup_reverse.mpr hndm.2⟩
  by_cases hm : l2 ++ l1 = []
  · -- `x` is the only entry
    have h1 : l1 = [] := (List.append_eq_nil.mp hm).2
    have h2 : l2 = [] := (List.append_eq_nil.mp hm).1
    subst h1 h2
    have hself : q.next x = some x := (hnext x rfl).2
    refine ⟨{ q with head := none }, ?_, ⟨List.nodup_nil, rfl, ?_, ?_⟩, rfl, fun _ => rfl,
      fun h => absurd rfl h, fun h => absurd hhead h⟩
    · simp [dlst_del, hself]
    · intro a ha
      simp at ha
    · intro a ha
      simp at ha
  · -- at least two entries
    obtain ⟨p, hp⟩ : ∃ p, (l2 ++ l1).getLast? = some p := by
      cases h : (l2 ++ l1).getLast? with
      | none => exact absurd (List.getLast?_eq_none_iff.mp h) hm
      | some p => exact ⟨p, rfl⟩
    obtain ⟨n, hn⟩ : ∃ n, (l2 ++ l1).head? = some n := by
      cases h : (l2 ++ l1).head? with
      | none => exact absurd (List.head?_eq_none_iff.mp h) hm
      | some n => exact ⟨n, rfl⟩
    have hpr : (l2 ++ l1).reverse.getLast? = some n := by
      rw [List.getLast?_reverse]
      exact hn
    obtain ⟨c1, c2⟩ := cyc_drop_front q.next x p (l2 ++ l1) hcn hndm hp
    obtain ⟨d1, d2⟩ := cyc_drop_front q.prev x n (l2 ++ l1).reverse hcp hndr hpr
    rw [hn] at c2
    rw [List.head?_reverse, hp] at d2
    have hnm : n ∈ l2 ++ l1 := List.mem_of_mem_head? hn
    have hpm : p ∈ l2 ++ l1 := List.mem_of_mem_getLast? hp
    have hxn : x ≠ n := fun h => (List.nodup_cons.mp hndm).1 (h ▸ hnm)
    have hxp : x ≠ p := fun h => (List.nodup_cons.mp hndm).1 (h ▸ hpm)
    have hne : ¬ q.next x = some x := by
      rw [c2]
      intro h
      exact hxn (Option.some.inj h).symm
    have hq1 : Function.update q.next p (q.next x) x = some n := by
      simp [Function.update, hxp, c2]
    have hnextList : Cyc (Function.update q.next p (q.next x)) (l1 ++ l2) :=
      cyc_rotate _ l2 l1 c1
    have hprevList : Cyc (Function.update q.prev n (q.prev x)) (l1 ++ l2).reverse := by
      have h0 : (l2 ++ l1).reverse = l1.reverse ++ l2.reverse := by simp
      rw [h0] at d1
      have := cyc_rotate _ l1.reverse l2.reverse d1
      simpa using this
    have hndE : (l1 ++ l2).Nodup := by
      rw [List.nodup_append] at hnd ⊢
      refine ⟨hnd.1, (List.nodup_cons.mp hnd.2.1).2, ?_⟩
      intro a ha1 ha2
      exact hnd.2.2 ha1 (List.mem_cons_of_mem _ ha2)
    have hlne : l1 ++ x :: l2 ≠ [x] := by
      intro h
      cases l1 with
      | nil =>
        simp at h
        subst h
        simp at hm
      | cons b l1 =>
        simp at h
    by_cases hh : q.head = some x
    · -- `x` is the head
      have hl1 : l1 = [] := by
        cases l1 with
        | nil => rfl
        | cons b l1 =>
          rw [hhead] at hh
          simp at hh
          subst hh
          simp at hx1
      subst hl1
      simp only [List.nil_append, List.append_nil] at *
      refine ⟨{ head := some n, prev := Function.update q.prev n (q.prev x),
                next := Function.update q.next p (q.next x), size := q.size }, ?_,
        ⟨hndE, hn.symm, hnextList, hprevList⟩, rfl, fun h => absurd h hlne,
        fun _ _ => c2.symm, fun h => absurd hh h⟩
      simp only [dlst_del, hne, if_false, d2, hq1, hh, if_true]
    · have hl1 : (l1 ++ l2).head? = (l1 ++ x :: l2).head? := by
        cases l1 with
        | nil =>
          rw [hhead] at hh
          simp at hh
        | cons b l1 => rfl
      refine ⟨{ head := q.head, prev := Function.update q.prev n (q.prev x),
                next := Function.update q.next p (q.next x), size := q.size }, ?_,
        ⟨hndE, ?_, hnextList, hprevList⟩, rfl, fun h => absurd h hlne,
        fun _ h => absurd h hh, fun _ => rfl⟩
      · simp only [dlst_del, hne, if_false, d2, hq1, hh]
      · rw [hl1]
        exact hhead


theorem sum_update_notin {α : Type} [DecidableEq α] (f : α → Nat) (a : α) (v : Nat)
    (l : List α) (ha : a ∉ l) : (l.map (Function.update f a v)).sum = (l.map f).sum := by
  induction l with
  | nil => rfl
  | cons b l ih =>
    have h1 : b ≠ a := fun h => ha (by simp [h])
    have h2 : a ∉ l := fun h => ha (by simp [h])
    simp [Function.update, h1, ih h2]

theorem sum_update_mem {α : Type} [DecidableEq α] (f : α → Nat) (a : α) (v : Nat)
    (l : List α) (hnd : l.Nodup) (ha : a ∈ l) :
    (l.map (Function.update f a v)).sum + f a = (l.map f).sum + v := by
  induction l with
  | nil => simp at ha
  | cons b l ih =>
    rw [List.nodup_cons] at hnd
    by_cases hba : b = a
    · subst hba
      have := sum_update_notin f b v l hnd.1
      simp only [List.map_cons, List.sum_cons, Function.update_same, this]
      omega
    · have hal : a ∈ l := by
        rcases List.mem_cons.mp ha with h | h
        · exact absurd h.symm hba
        · exact h
      have := ih hnd.2 hal
      simp only [List.map_cons, List.sum_cons, Function.update_noteq hba]
      omega

/-- Effect of `dlst_merge` on a well-formed ring with distinct members `a`
and `b`, in the 16-bit arithmetic of the code. -/
theorem dlst_merge_spec {α : Type} [DecidableEq α] (addr : α → Nat) (q : DQ α) (l : List α)
    (a b : α) (hr : Ring q l) (ha : a ∈ l) (hb : b ∈ l) (hab : a ≠ b) :
    ((addr a + q.size a) % 65536 = addr b →
      ∃ q', dlst_merge addr q (some a) (some b) = some q' ∧ Ring q' (l.erase b) ∧
        q'.size a = (q.size a + q.size b) % 65536 ∧ (∀ x, x ≠ a → q'.size x = q.size x) ∧
        ((l.erase b).map q'.size).sum + q.size a + q.size b =
          (l.map q.size).sum + (q.size a + q.size b) % 65536) ∧
    (¬ (addr a + q.size a) % 65536 = addr b →
      dlst_merge addr q (some a) (some b) = some q) := by
  constructor
  · intro hadj
    obtain ⟨q1, h1, h2, h3, _, _, _⟩ := dlst_del_ring q l b hr hb
    refine ⟨{ q1 with size := Function.update q1.size a ((q1.size a + q1.size b) % 65536) },
      ?_, ⟨h2.1, h2.2.1, h2.2.2.1, h2.2.2.2⟩, ?_, ?_, ?_⟩
    · simp only [dlst_merge, ptrAddr, hadj, if_true, h1]
    · simp [h3]
    · intro x hx
      simp [Function.update, hx, h3]
    · show ((l.erase b).map (Function.update q1.size a ((q1.size a + q1.size b) % 65536))).sum +
        q.size a + q.size b = _
      rw [h3]
      have hae : a ∈ l.erase b := (List.mem_erase_of_ne hab).mpr ha
      have s1 := sum_update_mem q.size a ((q.size a + q.size b) % 65536) (l.erase b)
        (hr.1.erase b) hae
      have s2 : ((l.erase b).map q.size).sum + q.size b = (l.map q.size).sum := by
        obtain ⟨l1, l2, hl⟩ := List.append_of_mem hb
        subst hl
        have hb1 : b ∉ l1 := fun h => (List.nodup_append.mp hr.1).2.2 h (by simp)
        rw [erase_mid l1 l2 b hb1]
        simp
        omega
      omega
  · intro hadj
    simp only [dlst_merge, ptrAddr, hadj, if_false]

theorem exRing_ring : Ring exRing [0, 1, 2] := by
  refine ⟨by decide, rfl, ?_, ?_⟩
  · intro a ha
    simp at ha
    subst ha
    exact ⟨rfl, rfl, rfl, rfl⟩
  · intro a ha
    simp at ha
    subst ha
    exact ⟨rfl, rfl, rfl, rfl⟩


/-! ## The thread pool scan and the effect of `thrd_contextPrep` on statuses -/

theorem scanUnused_min (tcb : Fin MAX_THREAD_NUM → thrd_tcb_t) (fuel id n : Nat)
    (h : scanUnused tcb fuel id = n) :
    ∀ j : Fin MAX_THREAD_NUM, id ≤ j.val → j.val < n → (tcb j).status ≠ THRD_UNUSED := by
  induction fuel generalizing id with
  | zero =>
    simp only [scanUnused] at h
    intro j h1 h2
    omega
  | succ fuel ih =>
    simp only [scanUnused] at h
    split at h
    · rename_i hid
      split at h
      · intro j h1 h2
        omega
      · rename_i hs
        intro j h1 h2
        by_cases hj : j.val = id
        · have : j = ⟨id, hid⟩ := Fin.ext hj
          rw [this]
          exact hs
        · exact ih (id + 1) h j (by omega) h2
    · intro j h1 h2
      omega

theorem scanUnused_full (tcb : Fin MAX_THREAD_NUM → thrd_tcb_t)
    (h : ∀ i, (tcb i).status ≠ THRD_UNUSED) :
    ¬ scanUnused tcb MAX_THREAD_NUM 0 < MAX_THREAD_NUM := by
  intro hn
  exact h _ (scanUnused_spec tcb MAX_THREAD_NUM 0 _ hn rfl (by simp))

theorem linkTCB_frame (k k' : Kernel) (id : Fin MAX_THREAD_NUM) (h : linkTCB k id = some k') :
    FrameNext k k' := by
  unfold linkTCB at h
  split at h
  · injection h with h
    subst h
    exact frameNext_setHead _ _
  · exact insertWalk_frame id _ _ _ _ _ h

/-- The cases of a returning `thrd_contextPrep`: either the pool is full and
only the diagnostic byte is sent, or the lowest-indexed Unused TCB `id` is
initialised; then no other TCB changes status, period or wait link, and the
call returns `&thrd_TCB[id]` unless `curThrd` is null. -/
theorem thrd_contextPrep_frame (k k' : Kernel) (tsk per : Nat) (r : Option ThrdRef)
    (h : thrd_contextPrep k tsk per = some (k', r)) :
    ((∀ i, (k.thrd_TCB i).status ≠ THRD_UNUSED) ∧ r = none ∧
      k' = { k with usart := k.usart ++ [77] }) ∨
    ∃ id : Fin MAX_THREAD_NUM, (k.thrd_TCB id).status = THRD_UNUSED ∧
      (∀ j : Fin MAX_THREAD_NUM, j < id → (k.thrd_TCB j).status ≠ THRD_UNUSED) ∧
      (∀ r', r' ≠ ThrdRef.slot id → (k'.deref r').status = (k.deref r').status ∧
        (k'.deref r').thrd_period = (k.deref r').thrd_period ∧
        (k'.deref r').semQ_next = (k.deref r').semQ_next) ∧
      (k'.deref (.slot id)).status = THRD_ACTIVE ∧
      ((r = some (.slot id) ∧ k'.curThrd = k.curThrd ∧ k.curThrd ≠ none) ∨
        (r = none ∧ k'.curThrd = none)) := by
  unfold thrd_contextPrep at h
  split at h
  · rename_i hn
    right
    have hmin := scanUnused_min k.thrd_TCB MAX_THREAD_NUM 0 _ rfl
    generalize hid : (⟨scanUnused k.thrd_TCB MAX_THREAD_NUM 0, hn⟩ : Fin MAX_THREAD_NUM) = id
      at h
    have hun : (k.thrd_TCB id).status = THRD_UNUSED := by
      rw [← hid]
      exact scanUnused_spec _ MAX_THREAD_NUM 0 _ hn rfl (by simp)
    have hlow : ∀ j : Fin MAX_THREAD_NUM, j < id → (k.thrd_TCB j).status ≠ THRD_UNUSED := by
      intro j hj
      apply hmin j (Nat.zero_le _)
      rw [← hid] at hj
      exact hj
    have hg := initTCB_globals k id tsk per
    have hsame := deref_initTCB_same k id tsk per
    cases hk3 : linkTCB (initTCB k id tsk per) id with
    | none =>
      rw [hk3] at h
      simp at h
    | some k3 =>
      rw [hk3] at h
      simp only at h
      have hfr := linkTCB_frame _ _ _ hk3
      have hcur3 : k3.curThrd = k.curThrd := hfr.2.1.trans hg.2.1
      have hother3 : ∀ r', r' ≠ ThrdRef.slot id → (k3.deref r').status = (k.deref r').status ∧
          (k3.deref r').thrd_period = (k.deref r').thrd_period ∧
          (k3.deref r').semQ_next = (k.deref r').semQ_next := by
        intro r' hr'
        obtain ⟨b1, b2, b3, _, _⟩ := hfr.1 r'
        rw [b1, b2, b3, deref_initTCB_ne k id tsk per r' hr']
        exact ⟨rfl, rfl, rfl⟩
      have hnew3 : (k3.deref (.slot id)).status = THRD_ACTIVE := by
        rw [(hfr.1 _).1]
        exact hsame.1
      split at h
      · rename_i hcur
        injection h with h
        injection h with h1 h2
        subst h1 h2
        refine ⟨id, hun, hlow, ?_, ?_, Or.inr ⟨rfl, hcur⟩⟩
        · intro r' hr'
          have := hother3 r' hr'
          cases r' <;> exact this
        · exact hnew3
      · rename_i cur hcur
        injection h with h
        injection h with h1 h2
        subst h1 h2
        have hic := initContext_globals k3 id cur
        refine ⟨id, hun, hlow, ?_, ?_, Or.inl ⟨rfl, ?_, ?_⟩⟩
        · intro r' hr'
          obtain ⟨a1, a2, _, a4, _⟩ := deref_initContext k3 id cur r'
          rw [a1, a2, a4]
          exact hother3 r' hr'
        · rw [(deref_initContext k3 id cur _).1]
          exact hnew3
        · rw [hic.2.1, hcur3]
        · rw [← hcur3, hcur]
          simp
  · rename_i hn
    left
    injection h with h
    injection h with h1 h2
    subst h1 h2
    refine ⟨?_, rfl, rfl⟩
    intro i hi
    exact hn (scanUnused_lt k.thrd_TCB MAX_THREAD_NUM 0 ⟨i, Nat.zero_le _, by simp, hi⟩)


/-! ## Steps that keep the priority list -/

theorem seg_iff_linked (nxt : ThrdRef → Option ThrdRef) (l : List ThrdRef)
    (p q : Option ThrdRef) : Seg nxt p l q ↔ Linked nxt p l q := by
  induction l generalizing p with
  | nil => rfl
  | cons a l ih =>
    show (p = some a ∧ Seg nxt (nxt a) l q) ↔ (p = some a ∧ Linked nxt (nxt a) l q)
    rw [ih]

theorem seg_nodup (nxt : ThrdRef → Option ThrdRef) (l : List ThrdRef) (p : Option ThrdRef)
    (h : Seg nxt p l none) : l.Nodup :=
  linked_nodup nxt l p ((seg_iff_linked nxt l p none).mp h)

theorem slots_length_le (l : List ThrdRef) (hnd : l.Nodup)
    (hs : ∀ r ∈ l, ∃ i, r = ThrdRef.slot i) : l.length ≤ MAX_THREAD_NUM := by
  have hsub : l ⊆ (List.finRange MAX_THREAD_NUM).map ThrdRef.slot := by
    intro r hr
    obtain ⟨i, hi⟩ := hs r hr
    rw [hi]
    exact List.mem_map.mpr ⟨i, List.mem_finRange i, rfl⟩
  have := (List.Nodup.subperm hnd hsub).length_le
  simpa using this

theorem statusStep_refl (k : Kernel) : StatusStep k k :=
  ⟨rfl, fun _ => ⟨rfl, Or.inl rfl⟩⟩

theorem statusStep_trans (k1 k2 k3 : Kernel) (h12 : StatusStep k1 k2)
    (h23 : StatusStep k2 k3) : StatusStep k1 k3 := by
  refine ⟨h23.1.trans h12.1, fun r => ⟨(h23.2 r).1.trans (h12.2 r).1, ?_⟩⟩
  rcases (h23.2 r).2 with h | h | h
  · rw [h]
    exact (h12.2 r).2
  · exact Or.inr (Or.inl h)
  · exact Or.inr (Or.inr h)

theorem statusStep_dispatcher (k k' : Kernel) (h : thread_dispatcher k = some k') :
    StatusStep k k' :=
  ⟨thread_dispatcher_thrd_lstQ k k' h, fun r =>
    ⟨(thread_dispatcher_deref k k' h r).2.1, Or.inl (thread_dispatcher_deref k k' h r).1⟩⟩

theorem statusStep_setStatus (k : Kernel) (t : ThrdRef) (st : thrd_status_t)
    (hst : st = THRD_ACTIVE ∨ st = THRD_SUSPENDED) : StatusStep k (k.setStatus t st) := by
  refine ⟨by simp [Kernel.setStatus], fun r => ?_⟩
  rw [deref_setStatus]
  split
  · rename_i h
    subst h
    exact ⟨rfl, Or.inr hst⟩
  · exact ⟨rfl, Or.inl rfl⟩

theorem statusStep_setSemQNext (k : Kernel) (t : ThrdRef) (p : Option ThrdRef) :
    StatusStep k (k.setSemQNext t p) := by
  refine ⟨by simp [Kernel.setSemQNext], fun r => ?_⟩
  rw [deref_setSemQNext]
  split
  · rename_i h
    subst h
    exact ⟨rfl, Or.inl rfl⟩
  · exact ⟨rfl, Or.inl rfl⟩

theorem statusStep_active (k k' : Kernel) (thrd : Option ThrdRef)
    (h : active_Thread k thrd = some k') : StatusStep k k' := by
  cases thrd with
  | none => exact statusStep_dispatcher k k' h
  | some t =>
    exact statusStep_trans _ _ _ (statusStep_setStatus k t _ (Or.inl rfl))
      (statusStep_dispatcher _ k' h)

theorem statusStep_yield (k k' : Kernel) (thrd : Option ThrdRef)
    (h : yield_Thread k thrd = some k') : StatusStep k k' := by
  cases thrd with
  | none => exact statusStep_dispatcher k k' h
  | some t =>
    exact statusStep_trans _ _ _ (statusStep_setStatus k t _ (Or.inr rfl))
      (statusStep_dispatcher _ k' h)

theorem statusStep_post (k : Kernel) (s : Option semaphore_t) (action : Nat) (o : SemOut)
    (h : sem_post k s action = some o) : StatusStep k o.k := by
  unfold sem_post at h
  cases s with
  | none => simp at h
  | some s =>
    simp only at h
    split at h
    · injection h with h
      subst h
      exact statusStep_refl k
    · rename_i thrd _
      split at h
      · split at h
        · split at h
          · simp at h
          · rename_i k2 hk2
            injection h with h
            subst h
            exact statusStep_trans _ _ _ (statusStep_setStatus k thrd _ (Or.inl rfl))
              (statusStep_dispatcher _ k2 hk2)
        · injection h with h
          subst h
          exact statusStep_setStatus k thrd _ (Or.inl rfl)
      · injection h with h
        subst h
        exact statusStep_refl k

theorem statusStep_acquire (k : Kernel) (s : Option semaphore_t) (o : SemOut)
    (h : sem_acquire k s = some o) : StatusStep k o.k := by
  unfold sem_acquire at h
  cases s with
  | none => simp at h
  | some s =>
    simp only at h
    split at h
    · injection h with h
      subst h
      exact statusStep_refl k
    · have key : ∀ k1 s1, (match s.semQ_hdr with
          | none => some (k, { s with semQ_hdr := k.curThrd })
          | some hd =>
            match semQ_walk k WALK_FUEL (some hd) with
            | none => none
            | some thrd => some (k.setSemQNext thrd k.curThrd, s)) = some (k1, s1) →
          StatusStep k k1 := by
        intro k1 s1 hq
        split at hq
        · injection hq with hq
          injection hq with hq _
          subst hq
          exact statusStep_refl k
        · split at hq
          · simp at hq
          · injection hq with hq
            injection hq with hq _
            subst hq
            exact statusStep_setSemQNext k _ _
      split at h
      · simp at h
      · rename_i k1 s1 hq
        have hk1 := key k1 s1 hq
        split at h
        · simp at h
        · rename_i cur _
          split at h
          · simp at h
          · rename_i k2 hk2
            injection h with h
            subst h
            exact statusStep_trans _ _ _ hk1
              (statusStep_trans _ _ _ (statusStep_setStatus k1 cur _ (Or.inr rfl))
                (statusStep_dispatcher _ k2 hk2))

theorem listOK_step (k k' : Kernel) (h : StatusStep k k') (hk : ListOK k) : ListOK k' := by
  obtain ⟨l, hseg, hmem⟩ := hk
  refine ⟨l, ?_, ?_⟩
  · rw [h.1]
    apply seg_congr k.links _ l _ _ _ hseg
    intro a _
    exact (h.2 a).1
  · intro r hr
    obtain ⟨h1, h2⟩ := hmem r hr
    refine ⟨h1, ?_⟩
    rcases (h.2 r).2 with e | e | e
    · rw [e]
      exact h2
    · exact Or.inl e
    · exact Or.inr e

theorem listOK_create (k k' : Kernel) (tsk per : Nat) (r : Option ThrdRef)
    (h : thread_create k tsk per = some (k', r)) (hk : ListOK k) : ListOK k' := by
  unfold thread_create at h
  cases h1 : thrd_contextPrep k tsk per with
  | none => simp [h1] at h
  | some res =>
    obtain ⟨k1, r1⟩ := res
    simp only [h1] at h
    cases h2 : thread_dispatcher k1 with
    | none => simp [h2] at h
    | some k2 =>
      simp only [h2] at h
      injection h with h
      injection h with h3 h4
      subst h3 h4
      apply listOK_step k1 k2 (statusStep_dispatcher k1 k2 h2)
      obtain ⟨l, hseg, hmem⟩ := hk
      have hnd := seg_nodup _ _ _ hseg
      have hused : ∀ r ∈ l, ∃ i, r = ThrdRef.slot i ∧ (k.thrd_TCB i).status ≠ THRD_UNUSED := by
        intro r hr
        obtain ⟨⟨i, hi⟩, hs⟩ := hmem r hr
        subst hi
        refine ⟨i, rfl, ?_⟩
        intro hu
        have : (k.deref (.slot i)).status = THRD_UNUSED := hu
        rw [this] at hs
        rcases hs with hs | hs <;> cases hs
      cases r1 with
      | some t =>
        obtain ⟨⟨i, hi, _⟩, hseg', hother, hact, _⟩ :=
          thrd_contextPrep_spec k k1 tsk per t l hseg hnd hused h1
        refine ⟨_, hseg', ?_⟩
        intro r hr
        by_cases hrt : r = t
        · subst hrt
          exact ⟨⟨i, hi⟩, Or.inl hact⟩
        · have hrl : r ∈ l := by
            rcases List.mem_append.mp hr with hm | hm
            · exact (List.takeWhile_sublist _).subset hm
            · rcases List.mem_cons.mp hm with hm | hm
              · exact absurd hm hrt
              · exact (List.dropWhile_sublist _).subset hm
          rw [(hother r hrt).1]
          exact hmem r hrl
      | none =>
        rcases thrd_contextPrep_frame k k1 tsk per none h1 with
          ⟨_, _, h5⟩ | ⟨id, _, _, _, _, h5⟩
        · subst h5
          refine ⟨l, ?_, ?_⟩
          · apply seg_congr k.links _ l _ _ _ hseg
            intro a _
            cases a <;> rfl
          · intro r hr
            have := hmem r hr
            cases r <;> exact this
        · rcases h5 with ⟨h6, _⟩ | ⟨_, h6⟩
          · cases h6
          · unfold thread_dispatcher at h2
            rw [h6] at h2
            simp at h2

/-- Every reachable state of the thread kernel has a well-formed priority
list. -/
theorem kreach_listOK (k : Kernel) (h : KReach k) : ListOK k := by
  induction h with
  | init k hq _ => exact ⟨[], hq, by simp⟩
  | create k k' tsk per r _ hc ih => exact listOK_create k k' tsk per r hc ih
  | active k k' thrd _ ha ih => exact listOK_step k k' (statusStep_active k k' thrd ha) ih
  | yield k k' thrd _ hy ih => exact listOK_step k k' (statusStep_yield k k' thrd hy) ih
  | acquire k s o _ ha ih => exact listOK_step k o.k (statusStep_acquire k s o ha) ih
  | post k s a o _ hp ih => exact listOK_step k o.k (statusStep_post k s a o hp) ih


/-! ## The thread selected after a creation -/

theorem takeWhile_sorted_mem {α : Type} (f : α → Nat) (P : Nat) (l : List α)
    (hs : l.Pairwise (fun a b => f a ≤ f b)) (r : α) :
    r ∈ l.takeWhile (fun x => decide (f x ≤ P)) ↔ r ∈ l ∧ f r ≤ P := by
  induction l with
  | nil => simp
  | cons a l ih =>
    rw [List.pairwise_cons] at hs
    by_cases ha : f a ≤ P
    · simp only [List.takeWhile_cons, ha, decide_True, if_true, List.mem_cons, ih hs.2]
      constructor
      · rintro (h | h)
        · exact ⟨Or.inl h, h ▸ ha⟩
        · exact ⟨Or.inr h.1, h.2⟩
      · rintro ⟨h | h, h2⟩
        · exact Or.inl h
        · exact Or.inr ⟨h, h2⟩
    · simp only [List.takeWhile_cons, ha, decide_False, Bool.false_eq_true, if_false,
        List.not_mem_nil, false_iff, not_and, List.mem_cons]
      rintro (h | h) h2
      · exact ha (h ▸ h2)
      · have := hs.1 r h
        omega

theorem firstActive_insert (k : Kernel) (t : ThrdRef) (tw dw : List ThrdRef) (ht : t ∉ tw)
    (hact : (k.deref t).status = THRD_ACTIVE) :
    firstActive k (tw ++ t :: dw) = t ↔ ∀ r ∈ tw, (k.deref r).status ≠ THRD_ACTIVE := by
  induction tw with
  | nil =>
    simp [firstActive, List.find?, hact]
  | cons a tw ih =>
    have hat : a ≠ t := fun h => ht (by simp [h])
    have ht' : t ∉ tw := fun h => ht (by simp [h])
    by_cases ha : (k.deref a).status = THRD_ACTIVE
    · have : firstActive k (a :: tw ++ t :: dw) = a := by
        simp [firstActive, List.find?, ha]
      rw [this]
      constructor
      · intro h
        exact absurd h hat
      · intro h
        exact absurd ha (h a (List.mem_cons_self _ _))
    · have : firstActive k (a :: tw ++ t :: dw) = firstActive k (tw ++ t :: dw) := by
        simp [firstActive, List.find?, ha]
      rw [this, ih ht']
      constructor
      · intro h r hr
        rcases List.mem_cons.mp hr with e | e
        · rw [e]
          exact ha
        · exact h r e
      · intro h r hr
        exact h r (List.mem_cons_of_mem _ hr)

theorem firstActive_congr (k k' : Kernel) (l : List ThrdRef)
    (h : ∀ r, (k'.deref r).status = (k.deref r).status) :
    firstActive k' l = firstActive k l := by
  unfold firstActive
  have : (fun r => decide ((k'.deref r).status = THRD_ACTIVE)) =
      (fun r => decide ((k.deref r).status = THRD_ACTIVE)) := by
    funext r
    rw [h r]
  rw [this]

/-- After `thread_create` has returned a TCB in a state built by thread
creation, the running thread is the first Active TCB of the priority list,
and it is the new TCB exactly when no TCB created before with a period not
above the new period is Active. -/
theorem thread_create_selected (k k' : Kernel) (ts : List ThrdRef) (tsk per : Nat)
    (t : ThrdRef) (hb : Built k ts) (h : thread_create k tsk per = some (k', some t)) :
    (∃ l', k'.prioList = some l' ∧ t ∈ l' ∧ k'.curThrd = some (firstActive k' l')) ∧
    (k'.curThrd = some t ↔
      ∀ r ∈ ts, (k.deref r).thrd_period ≤ per % 65536 → (k.deref r).status ≠ THRD_ACTIVE) := by
  unfold thread_create at h
  cases h1 : thrd_contextPrep k tsk per with
  | none => simp [h1] at h
  | some res =>
    obtain ⟨k1, r1⟩ := res
    simp only [h1] at h
    cases h2 : thread_dispatcher k1 with
    | none => simp [h2] at h
    | some k2 =>
      simp only [h2] at h
      injection h with h
      injection h with h3 h4
      subst h3 h4
      obtain ⟨⟨l, hseg, hperm, hndts, hused, hpw⟩, _, _⟩ := built_inv k ts hb
      have hndl : l.Nodup := hperm.nodup_iff.mpr hndts
      have husedl : ∀ r ∈ l, ∃ i, r = ThrdRef.slot i ∧ (k.thrd_TCB i).status ≠ THRD_UNUSED :=
        fun r hr => hused r (hperm.subset hr)
      obtain ⟨⟨i, hi, hun⟩, hseg', hother, hact, _, _, hcur, hcurne⟩ :=
        thrd_contextPrep_spec k k1 tsk per t l hseg hndl husedl h1
      have htl : t ∉ l := by
        intro hm
        obtain ⟨j, hj, hs⟩ := husedl t hm
        rw [hi] at hj
        injection hj with hj
        subst hj
        exact hs hun
      have hlen : l.length ≤ MAX_THREAD_NUM :=
        slots_length_le l hndl (fun r hr => by
          obtain ⟨j, hj, _⟩ := husedl r hr
          exact ⟨j, hj⟩)
      have hnewlen : (l.takeWhile (fun r => decide (k.period r ≤ per % 65536)) ++
          t :: l.dropWhile (fun r => decide (k.period r ≤ per % 65536))).length =
          l.length + 1 := by
        have := congrArg List.length
          (List.takeWhile_append_dropWhile (fun r => decide (k.period r ≤ per % 65536)) l)
        simp only [List.length_append, List.length_cons] at this ⊢
        omega
      have hprio1 : k1.prioList = some (l.takeWhile (fun r => decide (k.period r ≤ per % 65536)) ++
          t :: l.dropWhile (fun r => decide (k.period r ≤ per % 65536))) := by
        apply chainFrom_of_seg _ _ _ _ hseg'
        rw [hnewlen]
        show l.length + 1 < MAX_THREAD_NUM + 2
        omega
      obtain ⟨cur, hc⟩ := Option.ne_none_iff_exists'.mp (hcur ▸ hcurne)
      obtain ⟨k2', hd1, hd2⟩ := thread_dispatcher_some k1 cur _ hc hprio1
      rw [h2] at hd1
      injection hd1 with hd1
      subst hd1
      have hst : ∀ r, (k2.deref r).status = (k1.deref r).status :=
        fun r => (thread_dispatcher_deref k1 k2 h2 r).1
      have hprio2 : k2.prioList = k1.prioList :=
        prioList_congr k1 k2 (fun r => (thread_dispatcher_deref k1 k2 h2 r).2.1)
          (thread_dispatcher_thrd_lstQ k1 k2 h2)
      have httw : t ∉ l.takeWhile (fun r => decide (k.period r ≤ per % 65536)) :=
        fun hm => htl ((List.takeWhile_sublist _).subset hm)
      refine ⟨⟨_, hprio2.trans hprio1, by simp, ?_⟩, ?_⟩
      · rw [hd2, firstActive_congr k1 k2 _ hst]
      · rw [hd2]
        have hsorted : l.Pairwise (fun a b => k.period a ≤ k.period b) :=
          hpw.imp (fun hab => hab.1)
        constructor
        · intro hsel r hr hper hact'
          injection hsel with hsel
          have hall := (firstActive_insert k1 t _ _ httw hact).mp hsel
          have hrl : r ∈ l := hperm.mem_iff.mpr hr
          have hrtw := (takeWhile_sorted_mem k.period (per % 65536) l hsorted r).mpr ⟨hrl, hper⟩
          have hrt : r ≠ t := fun e => htl (e ▸ hrl)
          apply hall r hrtw
          rw [(hother r hrt).1]
          exact hact'
        · intro hall
          congr 1
          apply (firstActive_insert k1 t _ _ httw hact).mpr
          intro r hr
          obtain ⟨hrl, hper⟩ := (takeWhile_sorted_mem k.period (per % 65536) l hsorted r).mp hr
          have hrt : r ≠ t := fun e => htl (e ▸ hrl)
          rw [(hother r hrt).1]
          exact hall r (hperm.subset hrl) hper


/-- In a state built by thread creation with a non-null `curThrd` and an
Unused TCB, `thread_create` returns a TCB. -/
theorem thread_create_total (k : Kernel) (ts : List ThrdRef) (tsk per : Nat)
    (hb : Built k ts) (hun : ∃ i, (k.thrd_TCB i).status = THRD_UNUSED)
    (hcur : k.curThrd ≠ none) :
    ∃ k' t, thread_create k tsk per = some (k', some t) := by
  obtain ⟨⟨l, hinv⟩, _, _⟩ := built_inv k ts hb
  obtain ⟨k1, t, h1⟩ := (thrd_contextPrep_total k ts l tsk per hinv).2 hun hcur
  obtain ⟨_, l1, l2, _, hinv1⟩ := prioInv_create k k1 ts l tsk per t hinv h1
  have hprio := prioInv_prioList k1 _ _ hinv1
  obtain ⟨hseg, hperm, hndts, hused, _⟩ := hinv
  obtain ⟨_, _, _, _, _, _, hc, hcne⟩ := thrd_contextPrep_spec k k1 tsk per t l hseg
    (hperm.nodup_iff.mpr hndts) (fun r hr => hused r (hperm.subset hr)) h1
  obtain ⟨cur, hcur1⟩ := Option.ne_none_iff_exists'.mp (hc ▸ hcne)
  obtain ⟨k2, h2, _⟩ := thread_dispatcher_some k1 cur _ hcur1 hprio
  exact ⟨k2, t, by simp only [thread_create, h1, h2]⟩


/-! ## Wait queues of the semaphores -/

/-- With every `semQ_next` link null, the wait queue of a semaphore is empty
or holds the queue head only. -/
theorem waitQueue_null (k : Kernel) (s : semaphore_t)
    (hnull : ∀ r, (k.deref r).semQ_next = none) :
    k.waitQueue s = some (match s.semQ_hdr with | none => [] | some t => [t]) := by
  unfold Kernel.waitQueue
  show chainFrom _ (9 + 1) _ = _
  cases h : s.semQ_hdr with
  | none => rfl
  | some t => simp [chainFrom, hnull]

/-- With every `semQ_next` link null, the waiting threads are the queue
heads. -/
theorem waiting_iff {ι : Type} (S : SemSys ι) (hnull : ∀ r, (S.k.deref r).semQ_next = none)
    (t : ThrdRef) : S.waiting t ↔ ∃ i, (S.sem i).semQ_hdr = some t := by
  constructor
  · rintro ⟨i, l, hl, hm⟩
    rw [waitQueue_null S.k _ hnull] at hl
    injection hl with hl
    subst hl
    refine ⟨i, ?_⟩
    cases h : (S.sem i).semQ_hdr with
    | none => rw [h] at hm; simp at hm
    | some t' =>
      rw [h] at hm
      simp at hm
      rw [hm]
  · rintro ⟨i, hi⟩
    refine ⟨i, [t], ?_, by simp⟩
    rw [waitQueue_null S.k _ hnull, hi]

/-- What `sem_post` leaves when every `semQ_next` link is null: the wait queue
is empty afterwards, and only the status of the former queue head may have
changed. -/
theorem sem_post_out (k : Kernel) (s : semaphore_t) (action : Nat) (o : SemOut)
    (hnull : ∀ r, (k.deref r).semQ_next = none)
    (h : sem_post k (some s) action = some o) :
    o.s.semQ_hdr = none ∧
      ∀ r, s.semQ_hdr ≠ some r → (o.k.deref r).status = (k.deref r).status := by
  unfold sem_post at h
  simp only at h
  split at h
  · rename_i hq
    injection h with h
    subst h
    exact ⟨hq, fun _ _ => rfl⟩
  · rename_i thrd hq
    have hq : s.semQ_hdr = some thrd := hq
    have hst : ∀ r, s.semQ_hdr ≠ some r →
        ((k.setStatus thrd THRD_ACTIVE).deref r).status = (k.deref r).status := by
      intro r hr
      rw [deref_setStatus, if_neg]
      intro he
      exact hr (he ▸ hq)
    split at h
    · split at h
      · split at h
        · simp at h
        · rename_i k2 hk2
          injection h with h
          subst h
          refine ⟨hnull thrd, fun r hr => ?_⟩
          show (k2.deref r).status = _
          rw [(thread_dispatcher_deref _ k2 hk2 r).1]
          exact hst r hr
      · injection h with h
        subst h
        exact ⟨hnull thrd, hst⟩
    · injection h with h
      subst h
      exact ⟨hnull thrd, fun _ _ => rfl⟩

/-- What `sem_acquire` leaves when every `semQ_next` link is null: either the
value was taken and neither the queue nor a status has changed, or the queue
was empty and now holds the caller, which is Suspended, no other status
having changed. -/
theorem sem_acquire_out (k : Kernel) (s : semaphore_t) (o : SemOut)
    (hnull : ∀ r, (k.deref r).semQ_next = none)
    (h : sem_acquire k (some s) = some o) :
    (o.s.semQ_hdr = s.semQ_hdr ∧ ∀ r, (o.k.deref r).status = (k.deref r).status) ∨
    (s.semQ_hdr = none ∧ ∃ cur, k.curThrd = some cur ∧ o.s.semQ_hdr = some cur ∧
      (o.k.deref cur).status = THRD_SUSPENDED ∧
      ∀ r, r ≠ cur → (o.k.deref r).status = (k.deref r).status) := by
  by_cases hv : s.val ≥ 1
  · left
    simp only [sem_acquire, hv, if_true] at h
    injection h with h
    subst h
    exact ⟨rfl, fun _ => rfl⟩
  · cases hq : s.semQ_hdr with
    | some hd =>
      rw [sem_acquire_nonempty_none k s hd (by omega) hq (hnull hd)] at h
      simp at h
    | none =>
      right
      refine ⟨rfl, ?_⟩
      simp only [sem_acquire, hv, if_false, hq] at h
      split at h
      · simp at h
      · rename_i cur hcur
        split at h
        · simp at h
        · rename_i k2 hk2
          injection h with h
          subst h
          refine ⟨cur, hcur, hcur, ?_, fun r hr => ?_⟩
          · show (k2.deref cur).status = _
            rw [(thread_dispatcher_deref _ k2 hk2 cur).1, deref_setStatus, if_pos rfl]
          · show (k2.deref r).status = _
            rw [(thread_dispatcher_deref _ k2 hk2 r).1, deref_setStatus, if_neg hr]

/-- The status and `semQ_next` fields after `thread_create`: only the status
of a TCB that was Unused may have changed. -/
theorem thread_create_frame (k k' : Kernel) (tsk per : Nat) (r : Option ThrdRef)
    (hnull : ∀ r, (k.deref r).semQ_next = none)
    (h : thread_create k tsk per = some (k', r)) :
    (∀ r, (k'.deref r).semQ_next = none) ∧
      ∀ t, (k.deref t).status = THRD_SUSPENDED → (k'.deref t).status = THRD_SUSPENDED := by
  unfold thread_create at h
  split at h
  · simp at h
  · rename_i k1 thrd h1
    split at h
    · simp at h
    · rename_i k2 h2
      injection h with h
      injection h with h _
      subst h
      have hn1 := (semQ_next_stays_null k hnull).1 tsk per k1 thrd h1
      refine ⟨fun r => ?_, fun t ht => ?_⟩
      · rw [(thread_dispatcher_deref k1 k2 h2 r).2.2.1]
        exact hn1 r
      · rw [(thread_dispatcher_deref k1 k2 h2 t).1]
        rcases thrd_contextPrep_frame k k1 tsk per thrd h1 with ⟨_, _, hk⟩ | ⟨id, hun, _, hfr, _⟩
        · subst hk
          have : ({ k with usart := k.usart ++ [77] } : Kernel).deref t = k.deref t := by
            cases t <;> rfl
          rw [this]
          exact ht
        · have hne : t ≠ ThrdRef.slot id := by
            intro he
            subst he
            have : (k.deref (.slot id)).status = THRD_UNUSED := hun
            rw [this] at ht
            exact absurd ht (by decide)
          rw [(hfr t hne).1]
          exact ht

/-- The invariant `SemInv` holds in every state of `SemReach`. -/
theorem semReach_inv {ι : Type} [DecidableEq ι] (S : SemSys ι) (h : SemReach S) : SemInv S := by
  induction h with
  | init S _ _ hn hq =>
    exact ⟨hn, fun i t ht => by rw [hq i] at ht; simp at ht,
      fun i j t ht => by rw [hq i] at ht; simp at ht⟩
  | create S k' tsk per r _ hc ih =>
    obtain ⟨hn, hs, hu⟩ := ih
    obtain ⟨hn', hst⟩ := thread_create_frame S.k k' tsk per r hn hc
    exact ⟨hn', fun i t ht => hst t (hs i t ht), hu⟩
  | active S k' thrd _ hnw ha ih =>
    obtain ⟨hn, hs, hu⟩ := ih
    cases thrd with
    | none =>
      refine ⟨fun r => ?_, fun i t ht => ?_, hu⟩
      · show (k'.deref r).semQ_next = none
        rw [(thread_dispatcher_deref _ k' ha r).2.2.1]
        exact hn r
      · show (k'.deref t).status = _
        rw [(thread_dispatcher_deref _ k' ha t).1]
        exact hs i t ht
    | some c =>
      refine ⟨fun r => ?_, fun i t ht => ?_, hu⟩
      · show (k'.deref r).semQ_next = none
        rw [(thread_dispatcher_deref _ k' ha r).2.2.1, deref_setStatus]
        split
        · exact hn c
        · exact hn r
      · show (k'.deref t).status = _
        have hne : t ≠ c := by
          intro he
          subst he
          exact hnw t rfl ((waiting_iff S hn t).mpr ⟨i, ht⟩)
        rw [(thread_dispatcher_deref _ k' ha t).1, deref_setStatus, if_neg hne]
        exact hs i t ht
  | yield S k' thrd _ hy ih =>
    obtain ⟨hn, hs, hu⟩ := ih
    cases thrd with
    | none =>
      refine ⟨fun r => ?_, fun i t ht => ?_, hu⟩
      · show (k'.deref r).semQ_next = none
        rw [(thread_dispatcher_deref _ k' hy r).2.2.1]
        exact hn r
      · show (k'.deref t).status = _
        rw [(thread_dispatcher_deref _ k' hy t).1]
        exact hs i t ht
    | some c =>
      refine ⟨fun r => ?_, fun i t ht => ?_, hu⟩
      · show (k'.deref r).semQ_next = none
        rw [(thread_dispatcher_deref _ k' hy r).2.2.1, deref_setStatus]
        split
        · exact hn c
        · exact hn r
      · show (k'.deref t).status = _
        rw [(thread_dispatcher_deref _ k' hy t).1, deref_setStatus]
        split
        · rfl
        · exact hs i t ht
  | seminit S i value s' _ hi ih =>
    obtain ⟨hn, hs, hu⟩ := ih
    have hs' : s'.semQ_hdr = none := by
      simp only [sem_init] at hi
      injection hi with hi
      subst hi
      rfl
    have hupd : ∀ j t, (Function.update S.sem i s' j).semQ_hdr = some t →
        j ≠ i ∧ (S.sem j).semQ_hdr = some t := by
      intro j t ht
      by_cases hj : j = i
      · subst hj
        rw [Function.update_same, hs'] at ht
        simp at ht
      · rw [Function.update_noteq hj] at ht
        exact ⟨hj, ht⟩
    exact ⟨hn, fun j t ht => hs j t (hupd j t ht).2,
      fun j j' t ht ht' => hu j j' t (hupd j t ht).2 (hupd j' t ht').2⟩
  | acquire S i o _ hnw ha ih =>
    obtain ⟨hn, hs, hu⟩ := ih
    have hn' := (semQ_next_stays_null S.k hn).2.2.2 _ o ha
    rcases sem_acquire_out S.k (S.sem i) o hn ha with ⟨hq, hst⟩ | ⟨hq, cur, hcur, hq', hsc, hst⟩
    · have hupd : ∀ j t, (Function.update S.sem i o.s j).semQ_hdr = some t →
          (S.sem j).semQ_hdr = some t := by
        intro j t ht
        by_cases hj : j = i
        · subst hj
          rw [Function.update_same, hq] at ht
          exact ht
        · rw [Function.update_noteq hj] at ht
          exact ht
      exact ⟨hn', fun j t ht => by
          show (o.k.deref t).status = _
          rw [hst t]
          exact hs j t (hupd j t ht),
        fun j j' t ht ht' => hu j j' t (hupd j t ht) (hupd j' t ht')⟩
    · have hcw : ∀ j, (S.sem j).semQ_hdr ≠ some cur := fun j hj =>
        hnw cur hcur ((waiting_iff S hn cur).mpr ⟨j, hj⟩)
      have hupd : ∀ j t, (Function.update S.sem i o.s j).semQ_hdr = some t →
          (j = i ∧ t = cur) ∨ (j ≠ i ∧ t ≠ cur ∧ (S.sem j).semQ_hdr = some t) := by
        intro j t ht
        by_cases hj : j = i
        · subst hj
          rw [Function.update_same, hq'] at ht
          injection ht with ht
          exact Or.inl ⟨rfl, ht.symm⟩
        · rw [Function.update_noteq hj] at ht
          refine Or.inr ⟨hj, ?_, ht⟩
          intro he
          subst he
          exact hcw j ht
      refine ⟨hn', fun j t ht => ?_, fun j j' t ht ht' => ?_⟩
      · show (o.k.deref t).status = _
        rcases hupd j t ht with ⟨_, he⟩ | ⟨_, hne, hj⟩
        · rw [he]
          exact hsc
        · rw [hst t hne]
          exact hs j t hj
      · rcases hupd j t ht with ⟨hj, he⟩ | ⟨_, hne, hj⟩ <;>
          rcases hupd j' t ht' with ⟨hj', he'⟩ | ⟨_, hne', hj'⟩
        · rw [hj, hj']
        · exact absurd he hne'
        · exact absurd he' hne
        · exact hu j j' t hj hj'
  | post S i action o _ hp ih =>
    obtain ⟨hn, hs, hu⟩ := ih
    have hn' := (semQ_next_stays_null S.k hn).2.2.1 _ action o hp
    obtain ⟨hq, hst⟩ := sem_post_out S.k (S.sem i) action o hn hp
    have hupd : ∀ j t, (Function.update S.sem i o.s j).semQ_hdr = some t →
        j ≠ i ∧ (S.sem j).semQ_hdr = some t := by
      intro j t ht
      by_cases hj : j = i
      · subst hj
        rw [Function.update_same, hq] at ht
        simp at ht
      · rw [Function.update_noteq hj] at ht
        exact ⟨hj, ht⟩
    refine ⟨hn', fun j t ht => ?_, fun j j' t ht ht' => hu j j' t (hupd j t ht).2 (hupd j' t ht').2⟩
    show (o.k.deref t).status = _
    obtain ⟨hj, hjt⟩ := hupd j t ht
    rw [hst t (fun he => hj (hu j i t hjt he))]
    exact hs j t hjt


/-! ## Activation and yield -/

/-- After `thread_dispatcher`, `curThrd` is what `getNextThread` selects in
the resulting state. -/
theorem thread_dispatcher_selects (k k' : Kernel) (h : thread_dispatcher k = some k') :
    getNextThread k' = k'.curThrd := by
  have hd := thread_dispatcher_deref k k' h
  have hq := thread_dispatcher_thrd_lstQ k k' h
  unfold thread_dispatcher at h
  split at h
  · exact absurd h (by simp)
  · rename_i cur hcur
    simp only at h
    split at h
    · exact absurd h (by simp)
    · rename_i nxt hn
      injection h with h
      have hc : k'.curThrd = some nxt := by rw [← h]
      rw [hc, ← hn]
      unfold getNextThread
      have hq1 : (k.setSp cur (ptr16 ((k.SP : Int) - 33))).thrd_lstQ = k.thrd_lstQ := by
        simp [Kernel.setSp]
      rw [hq, hq1]
      have e1 := getNextThread_walk_congr k k' (fun r => ⟨(hd r).1, (hd r).2.1⟩) WALK_FUEL
        k.thrd_lstQ
      have e2 := getNextThread_walk_congr k (k.setSp cur (ptr16 ((k.SP : Int) - 33)))
        (fun r => by
          rw [deref_setSp]
          split <;> simp_all) WALK_FUEL k.thrd_lstQ
      rw [e1, e2]

/-- A status assignment leaves the priority list as it is. -/
theorem prioList_setStatus (k : Kernel) (t : ThrdRef) (st : thrd_status_t) :
    (k.setStatus t st).prioList = k.prioList := by
  apply prioList_congr
  · intro r
    rw [deref_setStatus]
    split
    · rename_i h
      rw [h]
    · rfl
  · cases t <;> rfl

/-- Effect of a status assignment followed by `thread_dispatcher`, the body
of `active_Thread` and `yield_Thread` for a non-null argument. -/
theorem setStatus_dispatch (k k' : Kernel) (t : ThrdRef) (st : thrd_status_t)
    (h : thread_dispatcher (k.setStatus t st) = some k') :
    (k'.deref t).status = st ∧ (∀ r, r ≠ t → (k'.deref r).status = (k.deref r).status) ∧
      k'.prioList = k.prioList ∧ getNextThread k' = k'.curThrd := by
  have hd := thread_dispatcher_deref _ k' h
  refine ⟨?_, fun r hr => ?_, ?_, thread_dispatcher_selects _ k' h⟩
  · rw [(hd t).1, deref_setStatus, if_pos rfl]
  · rw [(hd r).1, deref_setStatus, if_neg hr]
  · rw [prioList_congr _ k' (fun r => (hd r).2.1) (thread_dispatcher_thrd_lstQ _ k' h)]
    exact prioList_setStatus k t st

/-! ## Context save and restore -/

/-- The state left by the frame-building instructions of
`thrd_contextPrep`. -/
theorem initFrame_exec (c : Cpu) (wrapper : Nat) :
    exec (initFrame wrapper) c =
      some { c with stack := List.replicate 33 (c.reg 1) ++
        [wrapper / 256 % 256, wrapper % 256] ++ c.stack } :=
  rfl

/-- Restoring from a frame of 33 zero bytes leaves every register 0 and the
status register with the interrupt flag only. -/
theorem restore_zero_frame (c : Cpu) (rest : List Nat) :
    ∃ c2, exec thrdContextRestore { c with stack := List.replicate 33 0 ++ rest } = some c2 ∧
      (∀ r, c2.reg r = 0) ∧ c2.sreg = 128 ∧ c2.stack = rest :=
  ⟨_, rfl, fun r => by fin_cases r <;> rfl, rfl, rfl⟩

/-! ## The heap-start pointer -/

/-- The cases of a returning `thrd_contextPrep`, for `heapSaddr` and
`curThrd`: with a full pool nothing but the USART output changes; otherwise
`heapSaddr` advances by `THREAD_CONTEXT_SIZE`, and either `curThrd` is null
and null is returned, or the returned TCB holds the stack pointer 35 bytes
below the last byte of the new region. -/
theorem thrd_contextPrep_heap (k k' : Kernel) (tsk per : Nat) (r : Option ThrdRef)
    (h : thrd_contextPrep k tsk per = some (k', r)) :
    k'.curThrd = k.curThrd ∧
    (((∀ i, (k.thrd_TCB i).status ≠ THRD_UNUSED) ∧ r = none ∧
        k' = { k with usart := k.usart ++ [77] }) ∨
      ((∃ i, (k.thrd_TCB i).status = THRD_UNUSED) ∧
        k'.heapSaddr = ptr16 (k.heapSaddr + THREAD_CONTEXT_SIZE) ∧
        ((r = none ∧ k.curThrd = none) ∨
          (∃ id, r = some (.slot id) ∧ (k.thrd_TCB id).status = THRD_UNUSED ∧
            k.curThrd ≠ none ∧
            (k.curThrd ≠ some (.slot id) →
              (k'.deref (.slot id)).thrd_sp =
                ptr16 ((ptr16 ((k'.heapSaddr : Int) - 1) : Int) - 2 - 33)))))) := by
  unfold thrd_contextPrep at h
  split at h
  · rename_i hn
    have hun : (k.thrd_TCB ⟨_, hn⟩).status = THRD_UNUSED :=
      scanUnused_spec _ MAX_THREAD_NUM 0 _ hn rfl (by simp)
    generalize (⟨scanUnused k.thrd_TCB MAX_THREAD_NUM 0, hn⟩ : Fin MAX_THREAD_NUM) = id
      at h hun
    obtain ⟨_, g2, _, _, g5⟩ := initTCB_globals k id tsk per
    split at h
    · exact absurd h (by simp)
    · rename_i k3 hk3
      obtain ⟨hfr, f2, f3, _, _⟩ := linkTCB_frame _ k3 id hk3
      have hsp3 : (k3.thrd_TCB id).thrd_sp = ptr16 ((k3.heapSaddr : Int) - 1) := by
        have := (hfr (.slot id)).2.2.2.1
        have e : (k3.deref (.slot id)).thrd_sp = (k3.thrd_TCB id).thrd_sp := rfl
        rw [← e, this, f3, g5]
        unfold initTCB
        simp
      split at h
      · rename_i hc
        injection h with h
        injection h with h1 h2
        subst h1
        subst h2
        refine ⟨?_, Or.inr ⟨⟨id, hun⟩, ?_, Or.inl ⟨rfl, ?_⟩⟩⟩
        · show k3.curThrd = _
          rw [f2, g2]
        · show k3.heapSaddr = _
          rw [f3, g5]
        · rw [← g2, ← f2]
          exact hc
      · rename_i cur hc
        injection h with h
        injection h with h1 h2
        subst h1
        subst h2
        obtain ⟨_, i2, _, i4⟩ := initContext_globals k3 id cur
        have hkc : k.curThrd = some cur := by rw [← g2, ← f2]; exact hc
        refine ⟨?_, Or.inr ⟨⟨id, hun⟩, ?_, Or.inr ⟨id, rfl, hun, ?_, ?_⟩⟩⟩
        · rw [i2, f2, g2]
        · rw [i4, f3, g5]
        · rw [hkc]
          exact fun h => Option.noConfusion h
        · intro hne
          have hne' : ThrdRef.slot id ≠ cur := by
            intro he
            apply hne
            rw [hkc, he]
          rw [i4, ← hsp3]
          unfold initContext
          have h0 : ∀ (k0 : Kernel) (sp : Nat) (r : ThrdRef),
              ({ k0 with SP := sp } : Kernel).deref r = k0.deref r := by
            intro k0 sp r; cases r <;> rfl
          simp only [h0, deref_setSp, if_true]
          have : ((k3.setSp cur k3.SP).thrd_TCB id).thrd_sp =
              ((k3.setSp cur k3.SP).deref (.slot id)).thrd_sp := rfl
          rw [this, deref_setSp, if_neg hne']
          rfl
  · rename_i hn
    injection h with h
    injection h with h1 h2
    subst h1
    subst h2
    refine ⟨rfl, Or.inl ⟨?_, rfl, rfl⟩⟩
    intro i hi
    exact hn (scanUnused_lt _ _ _ ⟨i, by omega, by have := i.isLt; omega, hi⟩)

/-- `thread_dispatcher` leaves `heapSaddr` as it is. -/
theorem thread_dispatcher_heapSaddr (k k' : Kernel) (h : thread_dispatcher k = some k') :
    k'.heapSaddr = k.heapSaddr := by
  unfold thread_dispatcher at h
  split at h
  · exact absurd h (by simp)
  · simp only at h
    split at h
    · exact absurd h (by simp)
    · injection h with h
      subst h
      simp [Kernel.setSp]

theorem singleton_getElem {α : Type} (a c : α) (n : Nat) (h : [a][n]? = some c) :
    n = 0 ∧ c = a := by
  cases n with
  | zero =>
    simp at h
    exact ⟨rfl, h.symm⟩
  | succ n => simp at h

/-- Invariant of `HeapRun` from a state whose current thread is in use:
the current thread stays in use, `heapSaddr` has advanced by
`THREAD_CONTEXT_SIZE` per recorded creation (modulo `2^16`), and while the
regions fit below `2^16` every recorded creation got the next region. -/
theorem heapRun_inv (k0 k : Kernel) (log : List Creation) (h : HeapRun k0 k log)
    (h0 : CurInUse k0) :
    CurInUse k ∧
    k.heapSaddr % 65536 = (k0.heapSaddr + THREAD_CONTEXT_SIZE * log.length) % 65536 ∧
    (k0.heapSaddr + THREAD_CONTEXT_SIZE * log.length < 65536 →
      k.heapSaddr = k0.heapSaddr + THREAD_CONTEXT_SIZE * log.length ∧
      ∀ j c, log[j]? = some c →
        c.base = k0.heapSaddr + THREAD_CONTEXT_SIZE * j ∧
        c.heap = k0.heapSaddr + THREAD_CONTEXT_SIZE * (j + 1) ∧
        c.sp + 2 + 33 = k0.heapSaddr + THREAD_CONTEXT_SIZE * (j + 1) - 1) := by
  induction h with
  | start =>
    refine ⟨h0, by simp, fun _ => ⟨by simp, ?_⟩⟩
    intro j c hc
    simp at hc
  | created k k' log tsk per t _ hcp ih =>
    obtain ⟨hcur, hmod, hfit⟩ := ih
    have hcn : k.curThrd ≠ none := by
      rcases hcur with h | ⟨i, h, _⟩ <;> rw [h] <;> exact fun h => Option.noConfusion h
    obtain ⟨hc', hcases⟩ := thrd_contextPrep_heap k k' tsk per (some t) hcp
    rcases hcases with ⟨_, hr, _⟩ | ⟨_, hheap, hr⟩
    · cases hr
    · rcases hr with ⟨hr, _⟩ | ⟨id, hr, hun, _, hsp⟩
      · cases hr
      · injection hr with hr
        subst hr
        have hne : k.curThrd ≠ some (.slot id) := by
          rcases hcur with h | ⟨i, h, hi⟩
          · rw [h]
            exact fun h => by cases h
          · rw [h]
            intro he
            injection he with he
            injection he with he
            subst he
            exact hi hun
        have hsp := hsp hne
        have hframe := thrd_contextPrep_frame k k' tsk per _ hcp
        refine ⟨?_, ?_, ?_⟩
        · rcases hcur with h | ⟨i, h, hi⟩
          · exact Or.inl (hc'.trans h)
          · right
            refine ⟨i, hc'.trans h, ?_⟩
            rcases hframe with ⟨hfull, _⟩ | ⟨id', _, _, hfr, hact, _⟩
            · exact absurd hun (hfull id)
            · by_cases hi' : ThrdRef.slot i = ThrdRef.slot id'
              · injection hi' with hi'
                subst hi'
                have : (k'.thrd_TCB i).status = THRD_ACTIVE := hact
                rw [this]
                decide
              · have := (hfr (.slot i) hi').1
                have e : (k'.thrd_TCB i).status = (k'.deref (.slot i)).status := rfl
                rw [e, this]
                exact hi
        · rw [hheap]
          simp only [List.length_append, List.length_singleton]
          unfold ptr16 THREAD_CONTEXT_SIZE at *
          omega
        · intro hlt
          simp only [List.length_append, List.length_singleton] at hlt
          obtain ⟨hk, hent⟩ := hfit (by unfold THREAD_CONTEXT_SIZE at *; omega)
          have hk' : k'.heapSaddr = k0.heapSaddr + THREAD_CONTEXT_SIZE * (log.length + 1) := by
            rw [hheap, hk]
            unfold ptr16 THREAD_CONTEXT_SIZE at *
            omega
          refine ⟨by simpa using hk', ?_⟩
          intro j c hc
          by_cases hj : j < log.length
          · rw [List.getElem?_append_left hj] at hc
            exact hent j c hc
          · have hj' : log.length ≤ j := by omega
            rw [List.getElem?_append_right hj'] at hc
            obtain ⟨hj0, hc⟩ := singleton_getElem _ _ _ hc
            subst hc
            have hjl : j = log.length := by omega
            subst hjl
            refine ⟨hk, hk', ?_⟩
            show (k'.deref (.slot id)).thrd_sp + 2 + 33 = _
            rw [hsp, hk']
            unfold ptr16 THREAD_CONTEXT_SIZE at *
            omega
  | failed k k' log tsk per _ hcp ih =>
    obtain ⟨hcur, hmod, hfit⟩ := ih
    have hcn : k.curThrd ≠ none := by
      rcases hcur with h | ⟨i, h, _⟩ <;> rw [h] <;> exact fun h => Option.noConfusion h
    obtain ⟨hc', hcases⟩ := thrd_contextPrep_heap k k' tsk per none hcp
    rcases hcases with ⟨_, _, hk⟩ | ⟨_, _, hr⟩
    · subst hk
      exact ⟨hcur, hmod, hfit⟩
    · rcases hr with ⟨_, hr⟩ | ⟨id, hr, _⟩
      · exact absurd hr hcn
      · cases hr
  | dispatch k k' log _ hd ih =>
    obtain ⟨_, hmod, hfit⟩ := ih
    have hh := thread_dispatcher_heapSaddr k k' hd
    refine ⟨?_, by rw [hh]; exact hmod, by rw [hh]; exact hfit⟩
    obtain ⟨nxt, h1, h2⟩ := thread_dispatcher_curThrd k k' hd
    cases nxt with
    | common => exact Or.inl h1
    | slot i =>
      right
      refine ⟨i, h1, ?_⟩
      rcases h2 with h2 | h2
      · have e : (k'.thrd_TCB i).status = (k'.deref (.slot i)).status := rfl
        rw [e, (thread_dispatcher_deref k k' hd (.slot i)).1, h2]
        decide
      · cases h2
  | status k log r st _ hst ih =>
    obtain ⟨hcur, hmod, hfit⟩ := ih
    have hh : (k.setStatus r st).heapSaddr = k.heapSaddr := by
      cases r <;> rfl
    have hc : (k.setStatus r st).curThrd = k.curThrd := by
      cases r <;> rfl
    refine ⟨?_, by rw [hh]; exact hmod, by rw [hh]; exact hfit⟩
    rcases hcur with h | ⟨i, h, hi⟩
    · exact Or.inl (hc.trans h)
    · right
      refine ⟨i, hc.trans h, ?_⟩
      have e : ((k.setStatus r st).thrd_TCB i).status =
          ((k.setStatus r st).deref (.slot i)).status := rfl
      rw [e, deref_setStatus]
      split
      · exact hst
      · exact hi
  | semq k log r p _ ih =>
    obtain ⟨hcur, hmod, hfit⟩ := ih
    have hh : (k.setSemQNext r p).heapSaddr = k.heapSaddr := by
      cases r <;> rfl
    have hc : (k.setSemQNext r p).curThrd = k.curThrd := by
      cases r <;> rfl
    refine ⟨?_, by rw [hh]; exact hmod, by rw [hh]; exact hfit⟩
    rcases hcur with h | ⟨i, h, hi⟩
    · exact Or.inl (hc.trans h)
    · right
      refine ⟨i, hc.trans h, ?_⟩
      have e : ((k.setSemQNext r p).thrd_TCB i).status =
          ((k.setSemQNext r p).deref (.slot i)).status := rfl
      rw [e, deref_setSemQNext]
      split
      · rename_i he
        subst he
        exact hi
      · exact hi

/-! ## The ACV queue after a service call -/

namespace ACV

/-- While the head of the queue, armed at time 0, is not expired, a tick
only advances the system time. -/
theorem ticks_idle {N : Nat} (APP : Nat) (s : State N) (p : Fin N)
    (hh : s.sysTimerQhead = some p) (hl : (s.timers p).sysTimeLabel = 0)
    (h0 : s.sysAbsTime = 0) (hI : (s.timers p).interval < 4294967296) (n : Nat)
    (h : APP * n < (s.timers p).interval) :
    afterTicks APP n s = some { s with sysAbsTime := APP * n } := by
  induction n with
  | zero =>
    show some s = _
    congr 1
    cases s
    simp only at h0
    subst h0
    rfl
  | succ n ih =>
    have hlt : APP * n < (s.timers p).interval := by
      have : APP * n ≤ APP * (n + 1) := Nat.mul_le_mul_left _ (Nat.le_succ n)
      omega
    rw [afterTicks, ih hlt]
    have hmul : APP * (n + 1) = APP * n + APP := Nat.mul_succ APP n
    have ht : u32 (((APP * n : Nat) : Int) + (APP : Nat)) = APP * (n + 1) := by
      unfold u32
      omega
    show (timerService (N + 1)
      { s with sysAbsTime := u32 (((APP * n : Nat) : Int) + (APP : Nat)) }).map Prod.fst = _
    rw [ht, timerService_exit]
    · rfl
    · intro q hq
      have hq' : s.sysTimerQhead = some q := hq
      rw [hh] at hq'
      injection hq' with hq'
      subst hq'
      unfold State.due
      show ¬ (u32 (((APP * (n + 1) : Nat) : Int) - (s.timers p).sysTimeLabel) ≥
        (s.timers p).interval)
      rw [hl]
      unfold u32
      omega

/-- The state a tick starts the service in is well formed when the invariant
holds before the tick. -/
theorem inv_tick_wf {N : Nat} (APP : Nat) (s : State N) (h : Inv APP s) :
    State.WF { s with sysAbsTime := u32 ((s.sysAbsTime : Int) + APP) } := by
  obtain ⟨hty, hI, l, hq, _, _⟩ := h
  refine ⟨⟨?_, hty.2⟩, l, hq, fun x _ _ => (hI x).1⟩
  show u32 ((s.sysAbsTime : Int) + APP) < 4294967296
  unfold u32
  omega

/-- On a well-formed state `timerService` returns with fuel `N + 1`, and
every callback it invokes belongs to a timer that was expired when the
service was entered. -/
theorem timerService_calls_due {N : Nat} (s : State N) (hs : s.WF) :
    ∃ s' calls, timerService (N + 1) s = some (s', calls) ∧
      (∀ c ∈ calls, s.due c.1) ∧ (∀ p, s'.sysTimerQhead = some p → ¬ s'.due p) := by
  obtain ⟨l0, hq0, _⟩ := hs.2
  obtain ⟨s', calls, h1, _, h3, h4, _⟩ := timerService_loop
    (fun acc st => (st.sysAbsTime = s.sysAbsTime ∧
        ∀ i, (st.timers i).mode = (s.timers i).mode ∧
          (st.timers i).interval = (s.timers i).interval ∧
          ((st.timers i).sysTimeLabel = (s.timers i).sysTimeLabel ∨ ¬ st.due i)) ∧
      (∀ c ∈ acc, ¬ (s.timers c.1).mode = TIMER_REPEAT_MODE →
        (∃ l, c.2.queue = some l ∧ c.1 ∉ l) ∧ ∃ l, st.queue = some l ∧ c.1 ∉ l) ∧
      (∀ c ∈ acc, (s.timers c.1).mode = TIMER_REPEAT_MODE →
        ∃ l, c.2.queue = some l ∧ c.1 ∈ l ∧ (c.2.timers c.1).sysTimeLabel = s.sysAbsTime) ∧
      (∀ x ∈ l0, ¬ s.due x →
        (∃ l, st.queue = some l ∧ x ∈ l) ∧ ¬ st.due x ∧ ∀ c ∈ acc, c.1 ≠ x) ∧
      (∀ c ∈ acc, s.due c.1))
    (fun acc st p s2 hst hP hh hd hf => service_step_props s l0 acc st p s2 hst hh hd hf hP)
    (N + 1) s [] hs
    ⟨⟨rfl, fun i => ⟨rfl, rfl, Or.inl rfl⟩⟩, by simp, by simp,
      fun x hx hxd => ⟨⟨l0, hq0, hx⟩, hxd, by simp⟩, by simp⟩
    (dueCount_lt s hs)
  simp only [List.nil_append] at h3
  exact ⟨s', calls, h1, h3.2.2.2.2, h4⟩

/-- In a state that satisfies the invariant and whose head is not expired,
no queued timer is expired. -/
theorem inv_none_due {N : Nat} (APP : Nat) (s : State N) (h : Inv APP s)
    (hh : ∀ p, s.sysTimerQhead = some p → ¬ s.due p) :
    ∃ l, s.queue = some l ∧ ∀ x ∈ l, ¬ s.due x := by
  obtain ⟨_, _, l, hq, hsort, _⟩ := h
  refine ⟨l, hq, ?_⟩
  cases l with
  | nil =>
    intro x hx
    simp at hx
  | cons hd l =>
    have hlk := (queue_iff s _).mp hq
    have hnd := hh hd hlk.1
    intro x hx
    have hrx : s.sooner hd x := by
      rcases List.mem_cons.mp hx with h | h
      · subst h
        unfold State.sooner
        exact le_refl _
      · exact (List.pairwise_cons.mp hsort).1 x h
    unfold State.sooner State.remaining State.elapsed at hrx
    unfold State.due at hnd ⊢
    omega

end ACV

/-! ## The RCV service walk on two expired Repeating timers -/

namespace RCV

/-- One step of the service walk at the tail `t` of the queue `[h, t]` when
`t` is a Repeating timer below the tick period: `t` fires, is unlinked and
put back at the head, and the walk goes on at `h`, now the tail of the
queue `[t, h]`. -/
theorem rcv_walk_two_step {N : Nat} (APP : Nat) (st : State N) (h t : Fin N)
    (hq : st.queue = some [h, t]) (hI : (st.timers t).interval < APP)
    (hm : (st.timers t).mode = TIMER_REPEAT_MODE) (fuel : Nat) :
    ∃ s2, s2.queue = some [t, h] ∧ SameData st s2 ∧
      serviceWalk APP (fuel + 1) st (some t) =
        match serviceWalk APP fuel s2 (some h) with
        | none => none
        | some (s3, calls) => some (s3, (t, s2) :: calls) := by
  have hnd := linked_nodup _ _ _ ((rcv_queue_iff st _).mp hq)
  have hne : h ≠ t := by
    intro he
    subst he
    simp at hnd
  obtain ⟨s1, a1, a2, a3, a4⟩ := rcv_stopTimer_mem st t [h, t] hq (by simp)
  have he : [h, t].erase t = [h] := by
    simp [List.erase_cons, hne]
  rw [he] at a2
  obtain ⟨s2, b1, b2, b3⟩ := rcv_startTimer_fresh s1 t [h] a2 (by simpa using hne.symm)
  have hm1 : (s1.timers t).mode = TIMER_REPEAT_MODE := by
    rw [(a4 t).2.2.2]
    exact hm
  have hnext : (s2.timers t).next = some h := by
    have hlk := (rcv_queue_iff s2 _).mp b2
    exact hlk.2.1
  refine ⟨s2, b2, fun i => ?_, ?_⟩
  · obtain ⟨c1, c2, c3, c4⟩ := a4 i
    obtain ⟨d1, d2, d3, d4⟩ := b3 i
    exact ⟨d1.trans c1, d2.trans c2, d3.trans c3, d4.trans c4⟩
  · rw [serviceWalk]
    simp only [hI, if_true, a1, hm1, b1, hnext]

/-- With two Repeating timers below the tick period in the queue, the
service walk, once at the tail, never ends: it has no result whatever the
fuel. -/
theorem rcv_walk_two_loops {N : Nat} (APP : Nat) (fuel : Nat) :
    ∀ (st : State N) (h t : Fin N), st.queue = some [h, t] →
      (st.timers h).interval < APP → (st.timers t).interval < APP →
      (st.timers h).mode = TIMER_REPEAT_MODE → (st.timers t).mode = TIMER_REPEAT_MODE →
      serviceWalk APP fuel st (some t) = none := by
  induction fuel with
  | zero =>
    intro st h t _ _ _ _ _
    rfl
  | succ fuel ih =>
    intro st h t hq hIh hIt hmh hmt
    obtain ⟨s2, g1, g2, g3⟩ := rcv_walk_two_step APP st h t hq hIt hmt fuel
    rw [g3, ih s2 t h g1 (by rw [(g2 t).1]; exact hIt) (by rw [(g2 h).1]; exact hIh)
      (by rw [(g2 t).2.2.2]; exact hmt) (by rw [(g2 h).2.2.2]; exact hmh)]

/-- The service on a queue of two Repeating timers whose countdowns are both
below the tick period has no result, whatever the fuel. -/
theorem rcv_service_two_loops {N : Nat} (APP : Nat) (s : State N) (a b : Fin N)
    (hq : s.queue = some [a, b]) (hIa : (s.timers a).interval < APP)
    (hIb : (s.timers b).interval < APP) (hma : (s.timers a).mode = TIMER_REPEAT_MODE)
    (hmb : (s.timers b).mode = TIMER_REPEAT_MODE) (fuel : Nat) :
    timerService APP fuel s = none := by
  have hlk := (rcv_queue_iff s _).mp hq
  have hh : s.sysTimerQhead = some a := hlk.1
  have hnd := linked_nodup _ _ _ hlk
  have hne : a ≠ b := by
    intro he
    subst he
    simp at hnd
  unfold timerService
  rw [hh]
  cases fuel with
  | zero => rfl
  | succ fuel =>
    obtain ⟨s1, a1, a2, a3, a4⟩ := rcv_stopTimer_mem s a [a, b] hq (by simp)
    have he : [a, b].erase a = [b] := by simp
    rw [he] at a2
    obtain ⟨s2, b1, b2, b3⟩ := rcv_startTimer_fresh s1 a [b] a2 (by simpa using hne)
    have hm1 : (s1.timers a).mode = TIMER_REPEAT_MODE := by
      rw [(a4 a).2.2.2]
      exact hma
    have hnext : (s2.timers a).next = some b := ((rcv_queue_iff s2 _).mp b2).2.1
    have hsd : ∀ i, (s2.timers i).interval = (s.timers i).interval ∧
        (s2.timers i).mode = (s.timers i).mode := fun i =>
      ⟨((b3 i).1).trans (a4 i).1, ((b3 i).2.2.2).trans (a4 i).2.2.2⟩
    rw [serviceWalk]
    simp only [hIa, if_true, a1, hm1, b1, hnext]
    rw [rcv_walk_two_loops APP fuel s2 a b b2 (by rw [(hsd a).1]; exact hIa)
      (by rw [(hsd b).1]; exact hIb) (by rw [(hsd a).2]; exact hma)
      (by rw [(hsd b).2]; exact hmb)]

end RCV

/-! ## Termination of the ACV `timerService` -/

namespace ACV

/-- A result of `timerService` does not depend on the fuel left over. -/
theorem timerService_fuel_mono {N : Nat} (fuel : Nat) :
    ∀ (s : State N) (r : State N × List (Fin N × State N)),
      timerService fuel s = some r → ∀ fuel', fuel ≤ fuel' → timerService fuel' s = some r := by
  induction fuel with
  | zero =>
    intro s r h
    simp [timerService] at h
  | succ fuel ih =>
    intro s r h fuel' hle
    obtain ⟨f, rfl⟩ : ∃ f, fuel' = f + 1 := ⟨fuel' - 1, by omega⟩
    by_cases hex : ∀ p, s.sysTimerQhead = some p → ¬ s.due p
    · rw [timerService_exit fuel s hex] at h
      rw [timerService_exit f s hex]
      exact h
    · push_neg at hex
      obtain ⟨p, hh, hd⟩ := hex
      cases hf : fireHead s p with
      | none =>
        rw [timerService_fire_none fuel s p hh hd hf] at h
        simp at h
      | some s2 =>
        rw [timerService_fire fuel s s2 p hh hd hf] at h
        rw [timerService_fire f s s2 p hh hd hf]
        cases hr : timerService fuel s2 with
        | none =>
          rw [hr] at h
          simp at h
        | some r2 =>
          rw [ih s2 r2 hr f (by omega)]
          rw [hr] at h
          exact h

/-- On a well-formed state the loop of `timerService` makes at most as many
iterations as there are expired timers in the queue, and returns with any
fuel above that number. -/
theorem timerService_bounded {N : Nat} (s : State N) (hs : s.WF) :
    ∃ s' calls, (∀ fuel, s.dueCount < fuel → timerService fuel s = some (s', calls)) ∧
      calls.length + s'.dueCount ≤ s.dueCount ∧ s'.WF ∧
      (∀ p, s'.sysTimerQhead = some p → ¬ s'.due p) := by
  obtain ⟨s', calls, h1, h2, h3, h4, _⟩ := timerService_loop
    (fun acc st => acc.length + st.dueCount ≤ s.dueCount)
    (fun acc st p s2 hst hP hh hd hf => by
      obtain ⟨l0, hq0, _⟩ := hst.2
      have hlk := (queue_iff st _).mp hq0
      have hhd := linked_head _ _ _ hlk
      rw [hh] at hhd
      cases l0 with
      | nil => simp at hhd
      | cons a l =>
        simp at hhd
        subst hhd
        obtain ⟨s2', g1, _, g3, _⟩ := fireHead_wf st p l hst hq0 hd
        rw [hf] at g1
        injection g1 with g1
        subst g1
        simp only [List.length_append, List.length_singleton]
        omega)
    (s.dueCount + 1) s [] hs (by simp) (by omega)
  refine ⟨s', calls, fun fuel hf => ?_, by simpa using h3, h2, h4⟩
  exact timerService_fuel_mono _ s _ h1 fuel (by omega)

end ACV

/-! ## Return value and written field of the semaphore calls -/

/-- On the cyclic list of `cycK` the scan of `getNextThread` never ends: it
has no result, whatever the fuel. -/
theorem getNextThread_walk_cycK (fuel : Nat) :
    getNextThread_walk cycK fuel (some (.slot 0)) = none := by
  induction fuel with
  | zero => rfl
  | succ fuel ih =>
    rw [getNextThread_walk]
    have h1 : (cycK.deref (.slot 0)).status = THRD_SUSPENDED := rfl
    have h2 : (cycK.deref (.slot 0)).next = some (.slot 0) := rfl
    rw [h1, h2, if_neg (by decide)]
    exact ih

/-! ## Claims -/

/-- C1: starting from an empty priority list, after every sequence of
successful `thrd_contextPrep` calls (returning the TCBs `ts`, in order of
creation) the priority list `l` is a permutation of `ts` in which each node
precedes only nodes of equal or larger period and, among equal periods, only
nodes created later.  In such a state a further `thrd_contextPrep` always
returns, with a TCB when some TCB is Unused and `curThrd` is not null; when
it returns a TCB `t`, `t` is outside `l` and the new list is `l1 ++ t :: l2`
with `l = l1 ++ l2`, again in that order. -/
theorem creation_keeps_priority_order (k0 k : Kernel) (reqs : List (Nat × Nat))
    (ts : List ThrdRef) (h0 : k0.thrd_lstQ = none) (h : createAll k0 reqs = some (k, ts)) :
    ∃ l, k.prioList = some l ∧ l.Perm ts ∧ l.Pairwise (PrioOrder k.period ts) ∧
      (∀ tsk per, (∃ res, thrd_contextPrep k tsk per = some res) ∧
        ((∃ i, (k.thrd_TCB i).status = THRD_UNUSED) → k.curThrd ≠ none →
          ∃ k' t, thrd_contextPrep k tsk per = some (k', some t))) ∧
      ∀ tsk per k' t, thrd_contextPrep k tsk per = some (k', some t) →
        t ∉ l ∧ ∃ l1 l2, l = l1 ++ l2 ∧ k'.prioList = some (l1 ++ t :: l2) ∧
          (l1 ++ t :: l2).Pairwise (PrioOrder k'.period (ts ++ [t])) := by
  have hinv0 : PrioInv k0 [] [] :=
    ⟨h0, List.Perm.refl _, List.nodup_nil, fun r hr => by simp at hr, List.Pairwise.nil⟩
  obtain ⟨l, hinv⟩ := createAll_inv reqs k0 k [] ts [] hinv0 h
  rw [List.nil_append] at hinv
  refine ⟨l, prioInv_prioList k ts l hinv, hinv.2.1, hinv.2.2.2.2,
    fun tsk per => thrd_contextPrep_total k ts l tsk per hinv, ?_⟩
  intro tsk per k' t hcp
  obtain ⟨htn, l1, l2, hl, hinv'⟩ := prioInv_create k k' ts l tsk per t hinv hcp
  exact ⟨fun hm => htn (hinv.2.1.subset hm), l1, l2, hl, prioInv_prioList _ _ _ hinv',
    hinv'.2.2.2.2⟩

/-- Witness of `creation_keeps_priority_order`: the three demo threads created
from the boot state; their priority list is
`[thrd_TCB[1], thrd_TCB[2], thrd_TCB[0]]` (periods 12000, 16000, 48000). -/
theorem creation_keeps_priority_order_witness :
    ((Kernel.boot 0x0200 0x10FF).thrd_lstQ = none ∧
      createAll (Kernel.boot 0x0200 0x10FF) demoReqs = some (demoCreated.1, demoCreated.2) ∧
      demoCreated.1.prioList = some [.slot 1, .slot 2, .slot 0]) ∧
    ∃ l, demoCreated.1.prioList = some l ∧ l.Perm demoCreated.2 ∧
      l.Pairwise (PrioOrder demoCreated.1.period demoCreated.2) :=
  ⟨⟨rfl, rfl, by decide⟩,
    (creation_keeps_priority_order (Kernel.boot 0x0200 0x10FF) demoCreated.1 demoReqs
      demoCreated.2 rfl rfl).imp (fun _ hl => ⟨hl.1, hl.2.1, hl.2.2.1⟩)⟩

/-- C2 (as stated, refuted): two states of the thread table and priority
list in which the claimed equivalence fails.  In the first, a thread has
been created from the boot state, `active_Thread` has been applied to
`thrd_TCB[1]`, which is not in the priority list, and the created thread has
yielded: `getNextThread` returns the common thread although `thrd_TCB[1]`
has status Active.  In the second, `cycK`, no TCB has status Active, but the
priority list is a cycle and the scan never ends, whatever the fuel:
`getNextThread` does not return the common thread. -/
theorem getNextThread_iff_fails :
    (∃ k2 k3, active_Thread prioK1 (some (.slot 1)) = some k2 ∧
      yield_Thread k2 (some (.slot 0)) = some k3 ∧
      k3.prioList = some [.slot 0] ∧ (k3.thrd_TCB 1).status = THRD_ACTIVE ∧
      getNextThread k3 = some .common) ∧
    ((∀ i, (cycK.thrd_TCB i).status ≠ THRD_ACTIVE) ∧ cycK.thrd_lstQ = some (.slot 0) ∧
      (∀ fuel, getNextThread_walk cycK fuel cycK.thrd_lstQ = none) ∧
      getNextThread cycK ≠ some .common) :=
  ⟨⟨_, _, rfl, rfl, rfl, rfl, rfl⟩,
    ⟨by decide, rfl, fun fuel => getNextThread_walk_cycK fuel, by decide⟩⟩

/-- C2 (amended): in every state a TCB of the thread table returned by
`getNextThread` is Active (never Suspended or Unused).  When the priority
list is a finite chain `l` of table TCBs, `getNextThread` returns, and it
returns the common thread iff no TCB of `l` is Active; when moreover every
Active TCB is in `l`, iff no TCB is Active. -/
theorem getNextThread_spec (k : Kernel) :
    (∀ i, getNextThread k = some (.slot i) → (k.thrd_TCB i).status = THRD_ACTIVE) ∧
    (∀ l, k.prioList = some l → ThrdRef.common ∉ l →
      (∃ r, getNextThread k = some r) ∧
      (getNextThread k = some .common ↔ ∀ r ∈ l, (k.deref r).status ≠ THRD_ACTIVE) ∧
      ((∀ i, (k.thrd_TCB i).status = THRD_ACTIVE → ThrdRef.slot i ∈ l) →
        (getNextThread k = some .common ↔ ∀ i, (k.thrd_TCB i).status ≠ THRD_ACTIVE))) := by
  refine ⟨?_, ?_⟩
  · intro i hi
    rcases getNextThread_walk_sound k _ _ _ hi with h | h
    · exact h
    · cases h
  · intro l hl hc
    have hg : getNextThread k = some (firstActive k l) := getNextThread_walk_chain k _ _ l hl
    have hiff : getNextThread k = some .common ↔ ∀ r ∈ l, (k.deref r).status ≠ THRD_ACTIVE := by
      rw [hg]
      unfold firstActive
      constructor
      · intro h r hr hact
        split at h
        · rename_i t hf
          injection h with h
          subst h
          exact hc (List.mem_of_find?_eq_some hf)
        · rename_i hf
          rw [List.find?_eq_none] at hf
          exact hf r hr (by simpa using hact)
      · intro h
        split
        · rename_i t hf
          have h1 := List.find?_some hf
          have h2 := List.mem_of_find?_eq_some hf
          exact absurd (by simpa using h1) (h t h2)
        · rfl
    refine ⟨⟨_, hg⟩, hiff, ?_⟩
    intro hall
    rw [hiff]
    constructor
    · intro h i hact
      exact h _ (hall i hact) hact
    · intro h r hr
      cases r with
      | common => exact absurd hr hc
      | slot i => exact h i

/-- Witness of `getNextThread_spec`: the demo state, whose priority list is
`[thrd_TCB[1], thrd_TCB[2], thrd_TCB[0]]`. -/
theorem getNextThread_spec_witness :
    (demoCreated.1.prioList = some [.slot 1, .slot 2, .slot 0] ∧
      ThrdRef.common ∉ [ThrdRef.slot 1, .slot 2, .slot 0]) ∧
    ∃ r, getNextThread demoCreated.1 = some r :=
  ⟨⟨by decide, by decide⟩,
    ((getNextThread_spec demoCreated.1).2 [.slot 1, .slot 2, .slot 0] (by decide)
      (by decide)).1⟩

/-- C3: in every state built by thread creation in which some TCB is Active,
`getNextThread` returns an Active created TCB `t` such that every other Active
TCB has a period at least that of `t` and, when the periods are equal, was
created after `t`; `thread_dispatcher` returns and installs `t` as `curThrd`. -/
theorem getNextThread_highest_priority (k : Kernel) (ts : List ThrdRef) (hb : Built k ts)
    (i0 : Fin MAX_THREAD_NUM) (hact : (k.thrd_TCB i0).status = THRD_ACTIVE) :
    ∃ t, getNextThread k = some t ∧ t ∈ ts ∧ (k.deref t).status = THRD_ACTIVE ∧
      (∀ i, (k.thrd_TCB i).status = THRD_ACTIVE → ThrdRef.slot i ≠ t →
        PrioOrder k.period ts t (.slot i)) ∧
      ∃ k', thread_dispatcher k = some k' ∧ k'.curThrd = some t := by
  obtain ⟨⟨l, hinv⟩, hall, hcur⟩ := built_inv k ts hb
  have hl := prioInv_prioList k ts l hinv
  obtain ⟨_, hperm, _, _, hpw⟩ := hinv
  have hmem : ∀ i, (k.thrd_TCB i).status = THRD_ACTIVE → ThrdRef.slot i ∈ l := by
    intro i hi
    apply hperm.symm.subset
    apply hall i
    rw [hi]
    decide
  have hg : getNextThread k = some (firstActive k l) := getNextThread_walk_chain k _ _ l hl
  -- the scan finds a node
  cases hf : l.find? (fun r => decide ((k.deref r).status = THRD_ACTIVE)) with
  | none =>
    rw [List.find?_eq_none] at hf
    exact absurd (by simpa using hact) (hf _ (hmem i0 hact))
  | some t =>
    have hfa : firstActive k l = t := by
      unfold firstActive
      rw [hf]
    rw [hfa] at hg
    have htact : (k.deref t).status = THRD_ACTIVE := by simpa using List.find?_some hf
    have htl : t ∈ l := List.mem_of_find?_eq_some hf
    have hts : ts ≠ [] := by
      intro h
      have := hperm.subset htl
      rw [h] at this
      simp at this
    obtain ⟨cur, hc⟩ := Option.ne_none_iff_exists'.mp (hcur hts)
    obtain ⟨k', hk', hk'c⟩ := thread_dispatcher_some k cur l hc hl
    rw [hfa] at hk'c
    refine ⟨t, hg, hperm.subset htl, htact, ?_, k', hk', hk'c⟩
    intro i hi hne
    rw [List.find?_eq_some] at hf
    obtain ⟨_, pre, post, hsplit, hpre⟩ := hf
    have him := hmem i hi
    rw [hsplit] at him hpw
    rcases List.mem_append.mp him with h1 | h1
    · have := hpre _ h1
      simp [show (k.deref (.slot i)).status = THRD_ACTIVE from hi] at this
    · rcases List.mem_cons.mp h1 with h2 | h2
      · exact absurd h2 hne
      · rw [List.pairwise_append] at hpw
        exact (List.pairwise_cons.mp hpw.2.1).1 _ h2

/-- Witness of `getNextThread_highest_priority`: two threads of equal period
created from the boot state. -/
theorem getNextThread_highest_priority_witness :
    (Built tieK2 [.slot 0, .slot 1] ∧ (tieK2.thrd_TCB 1).status = THRD_ACTIVE) ∧
    ∃ t, getNextThread tieK2 = some t ∧ t ∈ [ThrdRef.slot 0, .slot 1] ∧
      (tieK2.deref t).status = THRD_ACTIVE ∧
      (∀ i, (tieK2.thrd_TCB i).status = THRD_ACTIVE → ThrdRef.slot i ≠ t →
        PrioOrder tieK2.period [.slot 0, .slot 1] t (.slot i)) ∧
      ∃ k', thread_dispatcher tieK2 = some k' ∧ k'.curThrd = some t :=
  ⟨⟨Built.create tieK1 tieK2 [.slot 0] 2 500 (.slot 1)
      (Built.create (Kernel.boot 0x0200 0x10FF) tieK1 [] 1 500 (.slot 0)
        (Built.boot _ rfl (fun _ => rfl)) rfl) rfl, by decide⟩,
    getNextThread_highest_priority tieK2 [.slot 0, .slot 1]
      (Built.create tieK1 tieK2 [.slot 0] 2 500 (.slot 1)
        (Built.create (Kernel.boot 0x0200 0x10FF) tieK1 [] 1 500 (.slot 0)
          (Built.boot _ rfl (fun _ => rfl)) rfl) rfl) 1 (by decide)⟩

/-- C4 (evaluation of the scenario): after `sem_init(s, 1)` the first thread's
`sem_acquire` takes the non-blocking branch and leaves the count at 0; the
second thread's `sem_acquire` takes the blocking branch, the thread is
Suspended and alone in the wait queue; after `sem_post(s, DISPATCHER)` the
second thread is Active and running again, the wait queue is empty and the
count is 1; the third thread's `sem_acquire` then takes the non-blocking
branch and returns at once with the count back at 0. -/
theorem sem_scenario_third_acquire_immediate :
    semScenario2.map (fun x => x.2.2) = some (some (.slot 0), some (.slot 1), some (.slot 2)) ∧
    semScenario2.map (fun x => (x.1.blocked, x.1.s.val, x.2.1.blocked, x.2.1.s.val)) =
      some (false, 0, true, 0) ∧
    semScenario2.map (fun x => (x.2.1.k.waitQueue x.2.1.s, (x.2.1.k.deref (.slot 1)).status)) =
      some (some [.slot 1], THRD_SUSPENDED) ∧
    semScenario4.map (fun x => (x.1.s.val, x.1.k.waitQueue x.1.s)) = some (1, some []) ∧
    semScenario4.map (fun x => ((x.1.k.deref (.slot 1)).status, x.1.k.curThrd)) =
      some (THRD_ACTIVE, some (.slot 1)) ∧
    semScenario4.map (fun x => (x.2.blocked, x.2.s.val, x.2.k.curThrd)) =
      some (false, 0, some (.slot 2)) :=
  ⟨by decide, by decide, by decide, by decide, by decide, by decide⟩

/-- C5 (evaluation at the failing inputs): with one thread queued, the tail
walk of `sem_acquire` follows the null `semQ_next` link and the call has no
defined result; with two threads queued, `[thrd_TCB[0], thrd_TCB[1]]`, the
walk stops at the head and the queue becomes `[thrd_TCB[0], thrd_TCB[2]]`:
the second waiter is lost. -/
theorem sem_acquire_tail_walk_defect :
    semScenario3 = some (some [.slot 1], false) ∧
    twoWaitersK.waitQueue ⟨0, some (.slot 0)⟩ = some [.slot 0, .slot 1] ∧
    (sem_acquire twoWaitersK (some ⟨0, some (.slot 0)⟩)).map (fun r => r.k.waitQueue r.s) =
      some (some [.slot 0, .slot 2]) := by
  decide

/-- C6: for a semaphore with count `N`, `0 < N ≤ 127` (the `int8_t` range) and
an empty wait queue, the first `i ≤ N` consecutive `sem_acquire` calls all
take the non-blocking branch, leave the kernel state and the empty queue
untouched and the count at `N - i` (0 after `N` calls); the call after them,
made by a current thread `cur` whose `semQ_next` is null in a state with a
finite priority list, takes the blocking branch: the count stays 0, `cur`
is Suspended and the wait queue is exactly `[cur]`. -/
theorem sem_acquire_counts (k : Kernel) (N : Nat) (hN : 0 < N) (h127 : N ≤ 127)
    (cur : ThrdRef) (l : List ThrdRef) (hcur : k.curThrd = some cur)
    (hfree : (k.deref cur).semQ_next = none) (hl : k.prioList = some l) :
    (∀ i, i ≤ N →
      sem_acquire_n i k ⟨N, none⟩ = some (k, ⟨(N : Int) - i, none⟩, List.replicate i false)) ∧
    sem_acquire_n N k ⟨N, none⟩ = some (k, ⟨0, none⟩, List.replicate N false) ∧
    ∃ r, sem_acquire k (some ⟨0, none⟩) = some r ∧ r.blocked = true ∧ r.s.val = 0 ∧
      (r.k.deref cur).status = THRD_SUSPENDED ∧ r.k.waitQueue r.s = some [cur] := by
  refine ⟨?_, ?_, ?_⟩
  · intro i hi
    exact sem_acquire_n_immediate k none i N (by omega) (by omega)
  · rw [sem_acquire_n_immediate k none N N (by omega) (by omega)]
    simp
  · obtain ⟨k', hk', hr⟩ := sem_acquire_block_empty k ⟨0, none⟩ cur l (by decide) rfl hcur hl
    refine ⟨_, hr, rfl, rfl, ?_, ?_⟩
    · have h := (thread_dispatcher_deref _ _ hk' cur).1
      simp only
      rw [h, deref_setStatus]
      simp
    · have h := (thread_dispatcher_deref _ _ hk' cur).2.2.1
      rw [deref_setStatus] at h
      simp only [if_true] at h
      simp only [Kernel.waitQueue, chainFrom, h, hfree]

/-- Witness of `sem_acquire_counts`: count 3, caller `thrd_TCB[1]`. -/
theorem sem_acquire_counts_witness :
    (0 < 3 ∧ 3 ≤ 127 ∧ runningK.curThrd = some (.slot 1) ∧
      (runningK.deref (.slot 1)).semQ_next = none ∧ runningK.prioList = some []) ∧
    sem_acquire_n 3 runningK ⟨3, none⟩ = some (runningK, ⟨0, none⟩, List.replicate 3 false) :=
  ⟨⟨by decide, by decide, rfl, rfl, rfl⟩,
    (sem_acquire_counts runningK 3 (by decide) (by decide) (.slot 1) [] rfl rfl rfl).2.1⟩

/-- C7 (as stated, refuted): at count 127 with an empty wait queue `sem_post`
leaves the count at -128 (`val` is an `int8_t`), not at 128. -/
theorem sem_post_127_wraps :
    (sem_post (Kernel.boot 0x0200 0x10FF) (some ⟨127, none⟩) NO_DISPATCHER).map
      (fun r => r.s.val) = some (-128) := by
  decide

/-- C7 (amended): for a semaphore whose count is below 127, the `int8_t`
maximum.  With a wait queue `h :: rest` whose head `h` is Suspended,
`sem_post` returns (given, when dispatch is requested, a current thread and
a finite priority list), the count is one more, the wait queue is `rest`,
`h` is Active and every other thread keeps its status.  With an empty wait
queue `sem_post` only increments the count. -/
theorem sem_post_wakes_head (k : Kernel) (s : semaphore_t) (action : Nat)
    (hlo : -128 ≤ s.val) (hhi : s.val < 127) :
    (∀ h rest, k.waitQueue s = some (h :: rest) → (k.deref h).status = THRD_SUSPENDED →
      (action = DISPATCHER → ∃ cur l, k.curThrd = some cur ∧ k.prioList = some l) →
      ∃ r, sem_post k (some s) action = some r ∧ r.s.val = s.val + 1 ∧
        r.k.waitQueue r.s = some rest ∧ (r.k.deref h).status = THRD_ACTIVE ∧
        ∀ t, t ≠ h → (r.k.deref t).status = (k.deref t).status) ∧
    (s.semQ_hdr = none →
      sem_post k (some s) action =
        some { k := k, s := { s with val := s.val + 1 }, ret := 0, blocked := false }) := by
  have hv : toInt8 (s.val + 1) = s.val + 1 := toInt8_id _ (by omega) (by omega)
  refine ⟨?_, ?_⟩
  · intro h rest hq hs hd
    -- the head pointer and the rest of the chain
    have hhd : s.semQ_hdr = some h ∧
        chainFrom (fun r => (k.deref r).semQ_next) (MAX_THREAD_NUM + 1) (k.deref h).semQ_next
          = some rest := by
      unfold Kernel.waitQueue at hq
      cases hh : s.semQ_hdr with
      | none => rw [hh] at hq; simp [chainFrom] at hq
      | some h' =>
        rw [hh] at hq
        simp only [chainFrom] at hq
        split at hq
        · exact absurd hq (by simp)
        · rename_i l' hl'
          injection hq with hq
          injection hq with h1 h2
          subst h1; subst h2
          exact ⟨rfl, hl'⟩
    obtain ⟨hh, hrest⟩ := hhd
    have hrest' := chainFrom_mono _ _ _ _ hrest
    -- effect of the status change
    have hst : ∀ t, ((k.setStatus h THRD_ACTIVE).deref t).semQ_next = (k.deref t).semQ_next ∧
        ((k.setStatus h THRD_ACTIVE).deref t).next = (k.deref t).next := by
      intro t
      rw [deref_setStatus]
      split <;> simp_all
    by_cases ha : action = DISPATCHER
    · obtain ⟨cur, l, hcur, hl⟩ := hd ha
      have hl' : (k.setStatus h THRD_ACTIVE).prioList = some l := by
        rw [prioList_congr k _ (fun t => (hst t).2) (by simp [Kernel.setStatus])]
        exact hl
      have hc' : (k.setStatus h THRD_ACTIVE).curThrd = some cur := by
        simp [Kernel.setStatus, hcur]
      obtain ⟨k', hk', _⟩ := thread_dispatcher_some _ cur l hc' hl'
      refine ⟨SemOut.mk k' ⟨s.val + 1, (k.deref h).semQ_next⟩ 0 false, ?_, rfl, ?_, ?_, ?_⟩
      · simp [sem_post, hh, hs, ha, hk', hv]
      · have : k'.waitQueue { val := s.val + 1, semQ_hdr := (k.deref h).semQ_next } =
            k.waitQueue { val := s.val + 1, semQ_hdr := (k.deref h).semQ_next } := by
          apply waitQueue_congr
          intro t
          rw [(thread_dispatcher_deref _ _ hk' t).2.2.1, (hst t).1]
        simp only
        rw [this]
        exact hrest'
      · simp only
        rw [(thread_dispatcher_deref _ _ hk' h).1, deref_setStatus]
        simp
      · intro t ht
        simp only
        rw [(thread_dispatcher_deref _ _ hk' t).1, deref_setStatus]
        simp [ht]
    · refine ⟨SemOut.mk (k.setStatus h THRD_ACTIVE) ⟨s.val + 1, (k.deref h).semQ_next⟩ 0 false,
        ?_, rfl, ?_, ?_, ?_⟩
      · simp [sem_post, hh, hs, ha, hv]
      · have : (k.setStatus h THRD_ACTIVE).waitQueue
              { val := s.val + 1, semQ_hdr := (k.deref h).semQ_next } =
            k.waitQueue { val := s.val + 1, semQ_hdr := (k.deref h).semQ_next } :=
          waitQueue_congr _ _ _ (fun t => (hst t).1)
        simp only
        rw [this]
        exact hrest'
      · simp only
        rw [deref_setStatus]
        simp
      · intro t ht
        simp only
        rw [deref_setStatus]
        simp [ht]
  · intro hq
    simp [sem_post, hq, hv]

/-- Witness of `sem_post_wakes_head`: count 0, queue `[thrd_TCB[0], thrd_TCB[1]]`,
dispatch requested by the running `thrd_TCB[2]`. -/
theorem sem_post_wakes_head_witness :
    ((-128 : Int) ≤ 0 ∧ (0 : Int) < 127 ∧
      twoWaitersK.waitQueue ⟨0, some (.slot 0)⟩ = some [.slot 0, .slot 1] ∧
      (twoWaitersK.deref (.slot 0)).status = THRD_SUSPENDED ∧
      twoWaitersK.curThrd = some (.slot 2) ∧ twoWaitersK.prioList = some []) ∧
    ∃ r, sem_post twoWaitersK (some ⟨0, some (.slot 0)⟩) DISPATCHER = some r ∧
      r.s.val = 0 + 1 ∧ r.k.waitQueue r.s = some [.slot 1] ∧
      (r.k.deref (.slot 0)).status = THRD_ACTIVE ∧
      ∀ t, t ≠ .slot 0 → (r.k.deref t).status = (twoWaitersK.deref t).status :=
  ⟨⟨by decide, by decide, by decide, by decide, rfl, by decide⟩,
    (sem_post_wakes_head twoWaitersK ⟨0, some (.slot 0)⟩ DISPATCHER (by decide) (by decide)).1
      (.slot 0) [.slot 1] (by decide) (by decide) (fun _ => ⟨.slot 2, [], rfl, by decide⟩)⟩

/-- C8 (as stated, refuted): the common thread calls `sem_acquire` on a
semaphore with count 0 while no thread is Active; the blocking branch runs
and the dispatcher selects the common thread, the caller, again. -/
theorem sem_acquire_common_thread_reselected :
    (Kernel.boot 0x0200 0x10FF).curThrd = some .common ∧
    (sem_acquire (Kernel.boot 0x0200 0x10FF) (some ⟨0, none⟩)).map
      (fun r => (r.blocked, r.k.curThrd, (r.k.deref .common).status)) =
      some (true, some .common, THRD_SUSPENDED) := by
  decide

/-- C8 (amended): when the caller of a blocking `sem_acquire` (count below 1)
is a TCB of the thread table, every outcome of the call has passed through
the dispatcher and the thread selected as `curThrd` is not the caller; the
call has an outcome when the wait queue is empty and the priority list is
finite.  When the caller is the common thread, in such a state, the
dispatcher selects the common thread again exactly when no node of the
priority list is Active. -/
theorem sem_acquire_switches_away (k : Kernel) (s : semaphore_t) (hv : s.val < 1) :
    (∀ i, k.curThrd = some (.slot i) →
      (∀ r, sem_acquire k (some s) = some r →
        r.blocked = true ∧ r.k.curThrd ≠ some (.slot i)) ∧
      (∀ l, s.semQ_hdr = none → k.prioList = some l →
        ∃ r, sem_acquire k (some s) = some r)) ∧
    (∀ l, k.curThrd = some .common → s.semQ_hdr = none → k.prioList = some l → .common ∉ l →
      ∃ r, sem_acquire k (some s) = some r ∧
        (r.k.curThrd = some .common ↔ ∀ t ∈ l, (k.deref t).status ≠ THRD_ACTIVE)) := by
  have hn : ¬ s.val ≥ 1 := by omega
  refine ⟨?_, ?_⟩
  · intro i hcur
    refine ⟨?_, ?_⟩
    · intro r hr
      refine ⟨(sem_acquire_blocked k s hv r hr).1, ?_⟩
      simp only [sem_acquire, hn, if_false] at hr
      split at hr
      · exact absurd hr (by simp)
      · rename_i k1 s1 hq
        have hk1 : k1.curThrd = some (.slot i) := by
          split at hq
          · injection hq with hq
            injection hq with hq _
            rw [← hq]; exact hcur
          · split at hq
            · exact absurd hq (by simp)
            · injection hq with hq
              injection hq with hq _
              rw [← hq]
              simpa [Kernel.setSemQNext] using hcur
        rw [hk1] at hr
        simp only at hr
        split at hr
        · exact absurd hr (by simp)
        · rename_i k2 hk2
          injection hr with hr
          subst hr
          obtain ⟨nxt, hnxt, hst⟩ := thread_dispatcher_curThrd _ _ hk2
          simp only
          rw [hnxt]
          intro heq
          injection heq with heq
          subst heq
          rcases hst with hst | hst
          · rw [deref_setStatus] at hst
            simp at hst
          · exact absurd hst (by simp)
    · intro l hq hl
      obtain ⟨k', _, hr⟩ := sem_acquire_block_empty k s (.slot i) l hv hq hcur hl
      exact ⟨_, hr⟩
  · intro l hcur hq hl hcl
    obtain ⟨k', hk', hr⟩ := sem_acquire_block_empty k s .common l hv hq hcur hl
    refine ⟨_, hr, ?_⟩
    have hl' : (k.setStatus .common THRD_SUSPENDED).prioList = some l := by
      rw [prioList_congr k _ _ (by simp [Kernel.setStatus])]
      · exact hl
      · intro r
        rw [deref_setStatus]
        split <;> simp_all
    have hc' : (k.setStatus .common THRD_SUSPENDED).curThrd = some .common := by
      simp [Kernel.setStatus, hcur]
    obtain ⟨k'', hk'', hsel⟩ := thread_dispatcher_some _ .common l hc' hl'
    rw [hk'] at hk''
    injection hk'' with hk''
    subst hk''
    simp only
    rw [hsel]
    unfold firstActive
    constructor
    · intro h t ht hact
      split at h
      · rename_i r hf
        injection h with h
        subst h
        exact hcl (List.mem_of_find?_eq_some hf)
      · rename_i hf
        rw [List.find?_eq_none] at hf
        have := hf t ht
        have hne : t ≠ .common := fun h => hcl (h ▸ ht)
        rw [deref_setStatus] at this
        simp [hne, hact] at this
    · intro h
      split
      · rename_i r hf
        have hr1 := List.find?_some hf
        have hr2 := List.mem_of_find?_eq_some hf
        have hne : r ≠ .common := fun h => hcl (h ▸ hr2)
        rw [deref_setStatus] at hr1
        simp [hne] at hr1
        exact absurd hr1 (h r hr2)
      · rfl

/-- Witness of `sem_acquire_switches_away`: `thrd_TCB[1]` blocks on a
semaphore with count 0 and an empty queue. -/
theorem sem_acquire_switches_away_witness :
    ((0 : Int) < 1 ∧ runningK.curThrd = some (.slot 1)) ∧
    ∃ r, sem_acquire runningK (some ⟨0, none⟩) = some r :=
  ⟨⟨by decide, rfl⟩,
    ((sem_acquire_switches_away runningK ⟨0, none⟩ (by decide)).1 1 rfl).2 [] rfl rfl⟩

/-- C9 (as stated, refuted): `sem_init(s, 128)` leaves the count at -128 and
`sem_init(s, 200)` at -56, because `val` is an `int8_t`; the first
`sem_acquire` after `sem_init(s, 128)` takes the blocking branch. -/
theorem sem_init_128_wraps :
    sem_init (some ⟨0, none⟩) 128 = some ⟨-128, none⟩ ∧
    sem_init (some ⟨0, none⟩) 200 = some ⟨-56, none⟩ ∧
    (sem_acquire (Kernel.boot 0x0200 0x10FF) (sem_init (some ⟨0, none⟩) 128)).map
      (fun r => r.blocked) = some true := by
  decide

/-- C9 (amended): for every value `v` in the `int8_t` range, after
`sem_init(s, v)` the count is `v` and the wait queue is empty; for
`0 ≤ v ≤ 127` the next `v` calls of `sem_acquire` all take the non-blocking
branch and leave the count at 0, and the call after them does not take it;
for `v < 1` already the first call does not take it. -/
theorem sem_init_int8 (s0 : semaphore_t) (v : Int) (hlo : -128 ≤ v) (hhi : v ≤ 127) :
    sem_init (some s0) v = some ⟨v, none⟩ ∧
    (∀ (n : Nat) (k : Kernel), v = n →
      sem_acquire_n n k ⟨v, none⟩ = some (k, ⟨0, none⟩, List.replicate n false) ∧
      ∀ r, sem_acquire k (some ⟨0, none⟩) = some r → r.blocked = true) ∧
    (v < 1 → ∀ (k : Kernel) r, sem_acquire k (some ⟨v, none⟩) = some r → r.blocked = true) := by
  refine ⟨?_, ?_, ?_⟩
  · simp [sem_init, toInt8_id v hlo hhi]
  · intro n k hn
    refine ⟨?_, ?_⟩
    · rw [sem_acquire_n_immediate k none n v (by omega) hhi]
      simp [hn]
    · intro r hr
      exact (sem_acquire_blocked k ⟨0, none⟩ (by decide) r hr).1
  · intro hv k r hr
    exact (sem_acquire_blocked k ⟨v, none⟩ hv r hr).1

/-- Witness of `sem_init_int8` at `v = 5`. -/
theorem sem_init_int8_witness :
    ((-128 : Int) ≤ 5 ∧ (5 : Int) ≤ 127) ∧
    sem_init (some ⟨-3, some .common⟩) 5 = some ⟨5, none⟩ ∧
    sem_acquire_n 5 (Kernel.boot 0x0200 0x10FF) ⟨5, none⟩ =
      some (Kernel.boot 0x0200 0x10FF, ⟨0, none⟩, List.replicate 5 false) :=
  ⟨⟨by decide, by decide⟩,
    (sem_init_int8 ⟨-3, some .common⟩ 5 (by decide) (by decide)).1,
    ((sem_init_int8 ⟨-3, some .common⟩ 5 (by decide) (by decide)).2.1 5
      (Kernel.boot 0x0200 0x10FF) rfl).1⟩

/-- C10: for a task id below 16 and a 16-bit flags word whose bit `task_ID`
is clear, after `n` calls of `taskPost(task_ID)` that bit is set iff `n` is
odd, every other bit is unchanged, and two consecutive calls restore the
word exactly. -/
theorem taskPost_toggle (task_ID task_flags n : Nat) (hid : task_ID < 16)
    (hf : task_flags < 65536) (hclear : task_flags.testBit task_ID = false) :
    ((taskPost_n task_ID n task_flags).testBit task_ID = decide (n % 2 = 1)) ∧
    (∀ j, j ≠ task_ID →
      (taskPost_n task_ID n task_flags).testBit j = task_flags.testBit j) ∧
    taskPost (taskPost task_flags task_ID) task_ID = task_flags := by
  refine ⟨?_, ?_, ?_⟩
  · induction n with
    | zero => simpa [taskPost_n] using hclear
    | succ n ih =>
      rw [taskPost_n, taskPost_testBit _ _ _ hid (taskPost_n_lt _ _ _ hf), ih]
      rcases Nat.mod_two_eq_zero_or_one n with h | h <;> simp [Nat.succ_mod_two_eq_one_iff, h]
  · intro j hj
    induction n with
    | zero => rfl
    | succ n ih =>
      rw [taskPost_n, taskPost_testBit _ _ _ hid (taskPost_n_lt _ _ _ hf), ih]
      have : ¬ task_ID = j := fun h => hj h.symm
      simp [this]
  · apply Nat.eq_of_testBit_eq
    intro j
    rw [taskPost_testBit _ _ _ hid (taskPost_lt _ _), taskPost_testBit _ _ _ hid hf]
    cases task_flags.testBit j <;> cases decide (task_ID = j) <;> rfl

/-- Witness of `taskPost_toggle` at flags `0x0105`, task 3, five posts. -/
theorem taskPost_toggle_witness :
    ((taskPost_n 3 5 0x0105).testBit 3 = decide (5 % 2 = 1)) ∧
    (∀ j, j ≠ 3 → (taskPost_n 3 5 0x0105).testBit j = (0x0105 : Nat).testBit j) ∧
    taskPost (taskPost 0x0105 3) 3 = 0x0105 :=
  taskPost_toggle 3 0x0105 5 (by decide) (by decide) (by decide)

/-- C12 (evaluation at the failing input): task 0 is pending (`task_flags = 1`)
and the code run for it re-posts itself with `taskPost(0)`: the toggle clears
the bit, which is still set while the handler runs, and the scheduler's own
clear leaves it clear, so `task_flags` is 0 when `event_driven_scheduling`
returns and the next call runs nothing.  With task 1 pending as well
(`task_flags = 3`) only bit 1 is left and the next call runs task 1. -/
theorem event_driven_scheduling_repost_lost :
    event_driven_scheduling 0x0300 (fun _ f => taskPost f 0) 1 =
      { task_flags := 0, calls := [0x0300], slept := false } ∧
    event_driven_scheduling 0x0300 (fun _ f => taskPost f 0) 0 =
      { task_flags := 0, calls := [], slept := true } ∧
    event_driven_scheduling 0x0300 (fun _ f => taskPost f 0) 3 =
      { task_flags := 2, calls := [0x0300], slept := false } ∧
    (event_driven_scheduling 0x0300 (fun _ f => taskPost f 0) 2).calls = [0x0304] := by
  decide

/-- C13: for both timer strategies and every timer queue, `startTimer` on a
timer that is already queued returns 0 and leaves the whole state (queue and
timer fields) unchanged; on a queue that ends in `NULL`, a first `startTimer`
returns 0 and leaves exactly one entry for the timer in the queue, and a
second `startTimer` on the same timer changes nothing. -/
theorem startTimer_idempotent :
    (∀ (N : Nat) (s : ACV.State N) (t : Fin N),
      (Queued s.sq.next s.sysTimerQhead t → ACV.startTimer s (some t) = some (s, 0)) ∧
      (∀ l, s.queue = some l →
        ∃ s1 l1, ACV.startTimer s (some t) = some (s1, 0) ∧ s1.queue = some l1 ∧
          l1.count t = 1 ∧ ACV.startTimer s1 (some t) = some (s1, 0))) ∧
    (∀ (N : Nat) (s : RCV.State N) (t : Fin N),
      (Queued s.sq.next s.sysTimerQhead t → RCV.startTimer s (some t) = some (s, 0)) ∧
      (∀ l, s.queue = some l →
        ∃ s1 l1, RCV.startTimer s (some t) = some (s1, 0) ∧ s1.queue = some l1 ∧
          l1.count t = 1 ∧ RCV.startTimer s1 (some t) = some (s1, 0))) := by
  constructor
  · intro N s t
    refine ⟨ACV.startTimer_queued s t, fun l hq => ?_⟩
    have hlk := (ACV.queue_iff s l).mp hq
    have hnd := linked_nodup _ _ _ hlk
    by_cases ht : t ∈ l
    · have hQ := queued_of_mem _ _ l t hlk ht
      exact ⟨s, l, ACV.startTimer_queued s t hQ, hq, List.count_eq_one_of_mem hnd ht,
        ACV.startTimer_queued s t hQ⟩
    · obtain ⟨s1, l1, l2, h1, h2, h3, _, _, _⟩ := ACV.startTimer_fresh s t l hq ht
      have hlk1 := (ACV.queue_iff s1 _).mp h3
      have hmem : t ∈ l1 ++ t :: l2 := by simp
      exact ⟨s1, _, h1, h3, List.count_eq_one_of_mem (linked_nodup _ _ _ hlk1) hmem,
        ACV.startTimer_queued s1 t (queued_of_mem _ _ _ t hlk1 hmem)⟩
  · intro N s t
    refine ⟨RCV.rcv_startTimer_queued s t, fun l hq => ?_⟩
    have hlk := (RCV.rcv_queue_iff s l).mp hq
    have hnd := linked_nodup _ _ _ hlk
    by_cases ht : t ∈ l
    · have hQ := queued_of_mem _ _ l t hlk ht
      exact ⟨s, l, RCV.rcv_startTimer_queued s t hQ, hq, List.count_eq_one_of_mem hnd ht,
        RCV.rcv_startTimer_queued s t hQ⟩
    · obtain ⟨s1, h1, h3, _⟩ := RCV.rcv_startTimer_fresh s t l hq ht
      have hlk1 := (RCV.rcv_queue_iff s1 _).mp h3
      have hmem : t ∈ t :: l := by simp
      exact ⟨s1, _, h1, h3, List.count_eq_one_of_mem (linked_nodup _ _ _ hlk1) hmem,
        RCV.rcv_startTimer_queued s1 t (queued_of_mem _ _ _ t hlk1 hmem)⟩

/-- Witness of `startTimer_idempotent`: in the example queues, timer 0 is queued behind other
timers and `startTimer` on it changes nothing. -/
theorem startTimer_idempotent_witness :
    (Queued ACV.exQueue.sq.next ACV.exQueue.sysTimerQhead 0 ∧
      ACV.startTimer ACV.exQueue (some 0) = some (ACV.exQueue, 0)) ∧
    (Queued RCV.exQueue.sq.next RCV.exQueue.sysTimerQhead 0 ∧
      RCV.startTimer RCV.exQueue (some 0) = some (RCV.exQueue, 0)) :=
  ⟨⟨⟨[1, 2], rfl, rfl, rfl⟩,
      (startTimer_idempotent.1 3 ACV.exQueue 0).1 ⟨[1, 2], rfl, rfl, rfl⟩⟩,
    ⟨⟨[1], rfl, rfl⟩, (startTimer_idempotent.2 3 RCV.exQueue 0).1 ⟨[1], rfl, rfl⟩⟩⟩

/-- C14: for both timer strategies and every queue that ends in `NULL`,
`stopTimer` returns; it returns a negative value with the state unchanged
exactly when the timer pointer is null or the timer is not in the queue;
otherwise it returns 0, the queue afterwards is the previous queue with the
timer removed (the others keeping their order), the `next` link of the timer
is cleared and no other timer field changes. -/
theorem stopTimer_removes :
    (∀ (N : Nat) (s : ACV.State N) (l : List (Fin N)) (Timer : Option (Fin N)),
      s.queue = some l →
      ∃ s' r, ACV.stopTimer s Timer = some (s', r) ∧
        ((r < 0 ∧ s' = s) ↔ (Timer = none ∨ ∃ t, Timer = some t ∧ t ∉ l)) ∧
        (∀ t, Timer = some t → t ∈ l →
          r = 0 ∧ s'.queue = some (l.erase t) ∧ (s'.timers t).next = none ∧
            ACV.SameData s s')) ∧
    (∀ (N : Nat) (s : RCV.State N) (l : List (Fin N)) (Timer : Option (Fin N)),
      s.queue = some l →
      ∃ s' r, RCV.stopTimer s Timer = some (s', r) ∧
        ((r < 0 ∧ s' = s) ↔ (Timer = none ∨ ∃ t, Timer = some t ∧ t ∉ l)) ∧
        (∀ t, Timer = some t → t ∈ l →
          r = 0 ∧ s'.queue = some (l.erase t) ∧ (s'.timers t).next = none ∧
            RCV.SameData s s')) := by
  constructor
  · intro N s l Timer hq
    cases Timer with
    | none =>
      exact ⟨s, -1, rfl, ⟨fun _ => Or.inl rfl, fun _ => ⟨by decide, rfl⟩⟩,
        fun t ht => by cases ht⟩
    | some t =>
      by_cases ht : t ∈ l
      · obtain ⟨s', h1, h2, h3, h4⟩ := ACV.stopTimer_mem s t l hq ht
        refine ⟨s', 0, h1, ⟨fun h => absurd h.1 (by decide), ?_⟩, ?_⟩
        · rintro (h | ⟨t', h5, h6⟩)
          · cases h
          · injection h5 with h5
            exact absurd (h5 ▸ ht) h6
        · intro t' h5 _
          injection h5 with h5
          subst h5
          exact ⟨rfl, h2, h3, h4⟩
      · refine ⟨s, -1, ACV.stopTimer_notin s t l hq ht,
          ⟨fun _ => Or.inr ⟨t, rfl, ht⟩, fun _ => ⟨by decide, rfl⟩⟩, ?_⟩
        intro t' h5 h6
        injection h5 with h5
        exact absurd (h5 ▸ h6) ht
  · intro N s l Timer hq
    cases Timer with
    | none =>
      exact ⟨s, -1, rfl, ⟨fun _ => Or.inl rfl, fun _ => ⟨by decide, rfl⟩⟩,
        fun t ht => by cases ht⟩
    | some t =>
      by_cases ht : t ∈ l
      · obtain ⟨s', h1, h2, h3, h4⟩ := RCV.rcv_stopTimer_mem s t l hq ht
        refine ⟨s', 0, h1, ⟨fun h => absurd h.1 (by decide), ?_⟩, ?_⟩
        · rintro (h | ⟨t', h5, h6⟩)
          · cases h
          · injection h5 with h5
            exact absurd (h5 ▸ ht) h6
        · intro t' h5 _
          injection h5 with h5
          subst h5
          exact ⟨rfl, h2, h3, h4⟩
      · refine ⟨s, -1, RCV.rcv_stopTimer_notin s t l hq ht,
          ⟨fun _ => Or.inr ⟨t, rfl, ht⟩, fun _ => ⟨by decide, rfl⟩⟩, ?_⟩
        intro t' h5 h6
        injection h5 with h5
        exact absurd (h5 ▸ h6) ht

/-- Witness of `stopTimer_removes`: stopping timer 2 of the example ACV queue `[1, 2, 0]`
leaves `[1, 0]`; stopping timer 0 of the example RCV queue `[1, 0]` leaves
`[1]`. -/
theorem stopTimer_removes_witness :
    (ACV.exQueue.queue = some [1, 2, 0] ∧
      ∃ s', ACV.stopTimer ACV.exQueue (some 2) = some (s', 0) ∧ s'.queue = some [1, 0]) ∧
    (RCV.exQueue.queue = some [1, 0] ∧
      ∃ s', RCV.stopTimer RCV.exQueue (some 0) = some (s', 0) ∧ s'.queue = some [1]) := by
  refine ⟨⟨by decide, ?_⟩, ⟨by decide, ?_⟩⟩
  · obtain ⟨s', r, h1, _, h3⟩ :=
      stopTimer_removes.1 3 ACV.exQueue [1, 2, 0] (some 2) (by decide)
    obtain ⟨h4, h5, _⟩ := h3 2 rfl (by decide)
    subst h4
    exact ⟨s', h1, h5⟩
  · obtain ⟨s', r, h1, _, h3⟩ :=
      stopTimer_removes.2 3 RCV.exQueue [1, 0] (some 0) (by decide)
    obtain ⟨h4, h5, _⟩ := h3 0 rfl (by decide)
    subst h4
    exact ⟨s', h1, h5⟩

/-- C15 (as stated, refuted): timers with intervals 0 < 10 < 20 are started at
tick `4294967290`, the one with interval 0 being a Repeating timer.  The
queue holds them in increasing order of interval, but the first service call
never returns, whatever the fuel: the timer with interval 0 is expired again
as soon as it has been re-armed, so the callbacks of the other two timers are
never invoked. -/
theorem zero_interval_repeating_timer_blocks_service :
    ∃ s1 s2 s3, ACV.startTimer ACV.exZeroInit (some 2) = some (s1, 0) ∧
      ACV.startTimer s1 (some 0) = some (s2, 0) ∧
      ACV.startTimer s2 (some 1) = some (s3, 0) ∧
      s3.queue = some [0, 1, 2] ∧
      ∀ fuel, ACV.timerISR 10 fuel s3 = none := by
  refine ⟨_, _, _, rfl, rfl, rfl, by decide, fun fuel => ?_⟩
  apply ACV.timerService_zero_interval_loops 0 fuel _ [1, 2]
  · unfold ACV.State.Typed
    decide
  · decide
  · intro x hx
    simp only [List.head?_cons, Option.some.injEq] at hx
    subst hx
    unfold ACV.stopsAt
    decide
  · rfl
  · rfl

/-- C15 (amended): three timers `a`, `b`, `c` with intervals `I_a < I_b < I_c`,
none of them a Repeating timer with interval 0, are started in any order at
tick `T` on an empty queue.  Then the three calls of `startTimer` return and
the queue is `[a, b, c]`.  For every `k`, the state after `k` ticks exists
and the next service call returns; a timer whose interval had not elapsed at
any earlier service call fires in this call exactly when
`(now - T) mod 2^32` is at least its interval; and within the call the
callbacks of such timers are invoked in the order of their intervals. -/
theorem three_timers_fire_in_interval_order {N : Nat} (APPTIMERINTERVAL T : Nat)
    (s0 : ACV.State N) (a b c t1 t2 t3 : Fin N) (hty : s0.Typed)
    (hempty : s0.sysTimerQhead = none) (hT : s0.sysAbsTime = T)
    (hab : (s0.timers a).interval < (s0.timers b).interval)
    (hbc : (s0.timers b).interval < (s0.timers c).interval)
    (hpos : ∀ x ∈ [a, b, c], (s0.timers x).mode = TIMER_REPEAT_MODE →
      0 < (s0.timers x).interval)
    (hperm : List.Perm [t1, t2, t3] [a, b, c]) :
    ∃ s1 s2 s3, ACV.startTimer s0 (some t1) = some (s1, 0) ∧
      ACV.startTimer s1 (some t2) = some (s2, 0) ∧
      ACV.startTimer s2 (some t3) = some (s3, 0) ∧
      s3.queue = some [a, b, c] ∧
      ∀ k, ∃ sk s' calls, ACV.afterTicks APPTIMERINTERVAL k s3 = some sk ∧
        ACV.timerISR APPTIMERINTERVAL (N + 1) sk = some (s', calls) ∧
        s'.sysAbsTime = ACV.tickTime APPTIMERINTERVAL T (k + 1) ∧
        (∀ x ∈ [a, b, c],
          (∀ j, j < k → ¬ (s0.timers x).interval ≤
            u32 ((ACV.tickTime APPTIMERINTERVAL T (j + 1) : Int) - T)) →
          (x ∈ calls.map Prod.fst ↔
            (s0.timers x).interval ≤
              u32 ((ACV.tickTime APPTIMERINTERVAL T (k + 1) : Int) - T))) ∧
        (∀ x ∈ [a, b, c], ∀ y ∈ [a, b, c],
          (s0.timers x).interval < (s0.timers y).interval →
          (∀ j, j < k → ¬ (s0.timers x).interval ≤
            u32 ((ACV.tickTime APPTIMERINTERVAL T (j + 1) : Int) - T)) →
          ∀ pre suf, calls.map Prod.fst = pre ++ suf → y ∈ pre → x ∈ pre) := by
  have hnd0 : [a, b, c].Nodup := by
    have h1 : a ≠ b := fun h => by rw [h] at hab; omega
    have h2 : b ≠ c := fun h => by rw [h] at hbc; omega
    have h3 : a ≠ c := fun h => by rw [h] at hab; omega
    simp [h1, h2, h3]
  have hnd : [t1, t2, t3].Nodup := hperm.nodup_iff.mpr hnd0
  simp only [List.nodup_cons, List.mem_cons, List.mem_singleton, not_or, List.not_mem_nil,
    not_false_eq_true, List.nodup_nil, and_true] at hnd
  obtain ⟨⟨h12, h13⟩, h23⟩ := hnd
  have hT32 : T < 4294967296 := hT ▸ hty.1
  -- the three calls of `startTimer`
  obtain ⟨s1, a1, a2, a3, a4, a5, a6, a7⟩ := ACV.startTimer_same_tick s0 t1 []
    (fun x => (s0.timers x).interval) (fun _ => rfl) hty
    ((ACV.queue_iff s0 []).mpr hempty) (by simp) (by simp)
  obtain ⟨s2, b1, b2, b3, b4, b5, b6, b7⟩ := ACV.startTimer_same_tick s1 t2 [t1]
    (fun x => (s0.timers x).interval) (fun x => (a5 x).1) a3 a2 (by simpa using Ne.symm h12)
    (by
      intro x hx
      simp at hx
      subst hx
      rw [a6, a4])
  have hq2 : ∀ x ∈ insertByInterval (fun x => (s0.timers x).interval) t2 [t1],
      x = t1 ∨ x = t2 := by
    intro x hx
    unfold insertByInterval at hx
    split at hx
    · simp at hx
      tauto
    · simp [insertByInterval] at hx
      tauto
  obtain ⟨s3, c1, c2, c3, c4, c5, c6, c7⟩ := ACV.startTimer_same_tick s2 t3 _
    (fun x => (s0.timers x).interval) (fun x => (b5 x).1) b3 b2
    (by
      intro h
      rcases hq2 t3 h with h | h
      · exact h13 h.symm
      · exact h23 h.symm)
    (by
      intro x hx
      rcases hq2 x hx with h | h
      · subst h
        rw [b7 x h12, a6, b4, a4]
      · subst h
        rw [b6, b4])
  rw [ACV.insert_three (fun x => (s0.timers x).interval) a b c t1 t2 t3 hab hbc hperm] at c2
  have hT3 : s3.sysAbsTime = T := by rw [c4, b4, a4, hT]
  have hlab : ∀ x ∈ [a, b, c], (s3.timers x).sysTimeLabel = T := by
    intro x hx
    have hx' : x ∈ [t1, t2, t3] := hperm.symm.subset hx
    simp only [List.mem_cons, List.mem_singleton, List.not_mem_nil, or_false] at hx'
    by_cases e3 : x = t3
    · subst e3
      rw [c6, b4, a4, hT]
    · rw [c7 x e3]
      by_cases e2 : x = t2
      · subst e2
        rw [b6, a4, hT]
      · rw [b7 x e2]
        have e1 : x = t1 := by tauto
        subst e1
        rw [a6, hT]
  have hint : ∀ x, (s3.timers x).interval = (s0.timers x).interval := fun x => (c5 x).1
  have hmode : ∀ x, (s3.timers x).mode = (s0.timers x).mode := fun x =>
    (c5 x).2.trans ((b5 x).2.trans (a5 x).2)
  have hA : ACV.Armed T (fun x => x ∈ [a, b, c]) s3 := by
    refine ⟨⟨c3, [a, b, c], c2, ?_⟩, [a, b, c], c2, fun x hx => ⟨hx, hlab x hx⟩, ?_⟩
    · intro x hx hm
      rw [hint x]
      exact hpos x hx (hmode x ▸ hm)
    · have la := hlab a (by simp)
      have lb := hlab b (by simp)
      have lc := hlab c (by simp)
      have g : ∀ x y, (s3.timers x).sysTimeLabel = T → (s3.timers y).sysTimeLabel = T →
          (s0.timers x).interval < (s0.timers y).interval → s3.Good x y := by
        intro x y hx hy hxy
        unfold ACV.State.Good
        rw [hx, hy, hint x, hint y]
        unfold u32
        omega
      simp only [List.pairwise_cons, List.mem_cons, List.mem_singleton, List.not_mem_nil,
        or_false, false_implies, implies_true, List.Pairwise.nil, and_true]
      refine ⟨?_, ?_⟩
      · intro y hy _
        rcases hy with h | h
        · subst h
          exact g a y la lb hab
        · subst h
          exact g a y la lc (by omega)
      · intro y hy _
        subst hy
        exact g b y lb lc hbc
  refine ⟨s1, s2, s3, a1, b1, c1, c2, fun k => ?_⟩
  obtain ⟨sk, d1, d2, d3, d4⟩ := ACV.armed_afterTicks APPTIMERINTERVAL T _ s3 hT3 hA k
  obtain ⟨s', calls, e1, e2, _, _, e5, e6⟩ := ACV.armed_tick APPTIMERINTERVAL T _ sk d4
  have htick : ∀ j : Nat, u32 ((ACV.tickTime APPTIMERINTERVAL T j : Int) - T) =
      u32 ((j * APPTIMERINTERVAL : Nat) : Int) := by
    intro j
    unfold ACV.tickTime u32
    push_cast
    omega
  have hnow : u32 ((sk.sysAbsTime : Int) + APPTIMERINTERVAL) =
      ACV.tickTime APPTIMERINTERVAL T (k + 1) := by
    rw [d2]
    unfold ACV.tickTime u32
    push_cast
    have : ((k : Int) + 1) * APPTIMERINTERVAL = k * APPTIMERINTERVAL + APPTIMERINTERVAL := by
      ring
    rw [this]
    omega
  have hUk : ∀ x ∈ [a, b, c],
      (∀ j, j < k → ¬ (s0.timers x).interval ≤
        u32 ((ACV.tickTime APPTIMERINTERVAL T (j + 1) : Int) - T)) →
      (x ∈ [a, b, c] ∧ ∀ j, j < k →
        ¬ (s3.timers x).interval ≤ u32 (((j + 1) * APPTIMERINTERVAL : Nat) : Int)) := by
    intro x hx h
    refine ⟨hx, fun j hj => ?_⟩
    rw [hint x, ← htick (j + 1)]
    exact h j hj
  refine ⟨sk, s', calls, d1, e1, e2.trans hnow, ?_, ?_⟩
  · intro x hx hnot
    rw [e5 x (hUk x hx hnot), hnow, (d3 x).2, hint x]
  · intro x hx y hy hxy hnot pre suf hsplit hypre
    have hnoty : ∀ j, j < k → ¬ (s0.timers y).interval ≤
        u32 ((ACV.tickTime APPTIMERINTERVAL T (j + 1) : Int) - T) := by
      intro j hj h
      exact hnot j hj (by omega)
    refine e6 x y (hUk x hx hnot) (hUk y hy hnoty) ?_ pre suf hsplit hypre
    rw [(d3 x).2, (d3 y).2, hint x, hint y]
    exact hxy

/-- Witness of `three_timers_fire_in_interval_order`: the timers of the example state (intervals
10 < 20 < 30) are started in the order 0, 1, 2 at tick `4294967290`, six
ticks before the counter wraps; the tick length is 10. -/
theorem three_timers_fire_in_interval_order_witness :
    ∃ s1 s2 s3, ACV.startTimer ACV.exInit (some 0) = some (s1, 0) ∧
      ACV.startTimer s1 (some 1) = some (s2, 0) ∧
      ACV.startTimer s2 (some 2) = some (s3, 0) ∧
      s3.queue = some [1, 2, 0] ∧
      ∀ k, ∃ sk s' calls, ACV.afterTicks 10 k s3 = some sk ∧
        ACV.timerISR 10 4 sk = some (s', calls) ∧
        s'.sysAbsTime = ACV.tickTime 10 4294967290 (k + 1) ∧
        (∀ x ∈ [(1 : Fin 3), 2, 0],
          (∀ j, j < k → ¬ (ACV.exInit.timers x).interval ≤
            u32 ((ACV.tickTime 10 4294967290 (j + 1) : Int) - (4294967290 : Nat))) →
          (x ∈ calls.map Prod.fst ↔
            (ACV.exInit.timers x).interval ≤
              u32 ((ACV.tickTime 10 4294967290 (k + 1) : Int) - (4294967290 : Nat)))) ∧
        (∀ x ∈ [(1 : Fin 3), 2, 0], ∀ y ∈ [(1 : Fin 3), 2, 0],
          (ACV.exInit.timers x).interval < (ACV.exInit.timers y).interval →
          (∀ j, j < k → ¬ (ACV.exInit.timers x).interval ≤
            u32 ((ACV.tickTime 10 4294967290 (j + 1) : Int) - (4294967290 : Nat))) →
          ∀ pre suf, calls.map Prod.fst = pre ++ suf → y ∈ pre → x ∈ pre) :=
  three_timers_fire_in_interval_order 10 4294967290 ACV.exInit 1 2 0 0 1 2
    (by unfold ACV.State.Typed; decide) rfl rfl (by decide) (by decide) (by decide)
    (List.Perm.trans (List.Perm.swap 1 0 [2]) (List.Perm.cons 1 (List.Perm.swap 2 0 [])))

/-- C16 (as stated, refuted): timer 0 (remaining time 100) is queued and timer 1
with interval 50 is added.  No queued timer has a remaining time below 50, so
the claimed position is the tail; `AddTimer` puts timer 1 at the head. -/
theorem AddTimer_before_longer_remaining :
    ACV.exSingle.queue = some [0] ∧
    ACV.exSingle.remaining 0 0 = 100 ∧ (ACV.exSingle.timers 1).interval = 50 ∧
    ACV.insertBeforeFirstShorter ACV.exSingle 1 0 [0] = [0, 1] ∧
    (ACV.AddTimer ACV.exSingle 1 0).bind ACV.State.queue = some [1, 0] := by
  refine ⟨by decide, by decide, by decide, by decide, by decide⟩

/-- C16 (amended): on a queue that ends in `NULL`, for a new timer outside the
queue whose `next` link is `NULL`, `AddTimer` returns and inserts the new
timer immediately before the first queued timer whose signed remaining time
`interval - ((now - label) mod 2^32)` is at least the interval of the new
timer, and at the tail when there is no such timer; no other field changes. -/
theorem AddTimer_position {N : Nat} (s : ACV.State N) (t : Fin N) (now : Nat)
    (l : List (Fin N)) (hs : s.Typed) (hnow : now < 4294967296) (hq : s.queue = some l)
    (ht : t ∉ l) (hn : (s.timers t).next = none) :
    ∃ s' l1 l2, ACV.AddTimer s t now = some s' ∧ l = l1 ++ l2 ∧
      s'.queue = some (l1 ++ t :: l2) ∧
      (∀ x ∈ l1, s.remaining now x < (s.timers t).interval) ∧
      (∀ x, l2.head? = some x → (s.timers t).interval ≤ s.remaining now x) ∧
      ACV.SameData s s' := by
  obtain ⟨s', l1, l2, h1, h2, h3, h4, h5, h6⟩ := ACV.AddTimer_spec s t now l hq ht hn
  refine ⟨s', l1, l2, h1, h2, h3, ?_, ?_, h6⟩
  · intro x hx
    have := h4 x hx
    rw [ACV.stopsAt_iff s t now x hs hnow] at this
    unfold ACV.State.remaining
    omega
  · intro x hx
    have := h5 x hx
    rw [ACV.stopsAt_iff s t now x hs hnow] at this
    unfold ACV.State.remaining
    omega

/-- Witness of `AddTimer_position`: adding timer 1 (interval 50) to the example
queue `[0]` (remaining time 100). -/
theorem AddTimer_position_witness :
    ACV.exSingle.queue = some [0] ∧
    ∃ s' l1 l2, ACV.AddTimer ACV.exSingle 1 0 = some s' ∧ [0] = l1 ++ l2 ∧
      s'.queue = some (l1 ++ 1 :: l2) ∧
      (∀ x ∈ l1, ACV.exSingle.remaining 0 x < (ACV.exSingle.timers 1).interval) ∧
      (∀ x, l2.head? = some x →
        (ACV.exSingle.timers 1).interval ≤ ACV.exSingle.remaining 0 x) ∧
      ACV.SameData ACV.exSingle s' :=
  ⟨by decide, AddTimer_position ACV.exSingle 1 0 [0]
    ⟨by decide, fun i => ⟨by
      show (0 : Nat) < 4294967296
      decide, by
      show (if i = 0 then 100 else 50) < 4294967296
      split <;> decide⟩⟩
    (by decide) (by decide) (by decide) rfl⟩

/-- C17: in every state of the ACV timer module reachable from an empty
queue by `startTimer`, `stopTimer` and ticks with `timerService` (timer
intervals positive and below `2^31`, any tick length `APPTIMERINTERVAL`), the
queue ends in `NULL` and the signed remaining times to fire
`interval - ((now - label) mod 2^32)` are non-decreasing from head to tail;
moreover `startTimer`, `stopTimer` and the interrupt handler return in such a
state. -/
theorem queue_sorted_by_remaining_time {N : Nat} (APPTIMERINTERVAL : Nat) (s : ACV.State N)
    (h : ACV.Reach APPTIMERINTERVAL s) :
    s.Sorted ∧
      (∀ Timer, ∃ s' r, ACV.startTimer s Timer = some (s', r)) ∧
      (∀ Timer, ∃ s' r, ACV.stopTimer s Timer = some (s', r)) ∧
      ∃ s' calls, ACV.timerISR APPTIMERINTERVAL (N + 1) s = some (s', calls) := by
  have hinv := ACV.reach_inv APPTIMERINTERVAL s h
  refine ⟨?_, ?_, ?_, ?_⟩
  · obtain ⟨_, _, l, hq, hsort, _⟩ := hinv
    exact ⟨l, hq, hsort⟩
  · intro Timer
    obtain ⟨s', r, h1, _⟩ := ACV.inv_start APPTIMERINTERVAL s hinv Timer
    exact ⟨s', r, h1⟩
  · intro Timer
    obtain ⟨s', r, h1, _⟩ := ACV.inv_stop APPTIMERINTERVAL s hinv Timer
    exact ⟨s', r, h1⟩
  · obtain ⟨s', calls, h1, _⟩ := ACV.inv_tick APPTIMERINTERVAL s hinv
    exact ⟨s', calls, h1⟩

/-- Witness of `queue_sorted_by_remaining_time`: starting timers 0 and 1 of the example state and one
tick of length 10 (across the wraparound of the counter) lead to a sorted
queue. -/
theorem queue_sorted_by_remaining_time_witness :
    ∃ s1 s2 s3 calls, ACV.startTimer ACV.exInit (some 0) = some (s1, 0) ∧
      ACV.startTimer s1 (some 1) = some (s2, 0) ∧
      ACV.timerISR 10 4 s2 = some (s3, calls) ∧ ACV.Reach 10 s3 ∧ s3.Sorted := by
  have h0 : ACV.Reach 10 ACV.exInit :=
    ACV.Reach.init _ (by unfold ACV.State.Typed; decide) rfl (by decide)
  refine ⟨_, _, _, _, rfl, rfl, rfl, ?_⟩
  have h3 := ACV.Reach.tick _ _ _
    (ACV.Reach.start _ _ (some 1) 0 (ACV.Reach.start _ _ (some 0) 0 h0 rfl) rfl) rfl
  exact ⟨h3, (queue_sorted_by_remaining_time 10 _ h3).1⟩

/-- C18: for a timer with label `L` and interval `I` (32-bit values) and a
current time `now` such that the elapsed time `e = (now - L) mod 2^32` does
not exceed `I`, the value `remain` computed in the loop of `AddTimer` is
exactly `I - e`, both when `L ≤ now` and when the counter has wrapped
(`L > now`). -/
theorem remain_is_interval_minus_elapsed (L I now : Nat) (hL : L < 4294967296)
    (hI : I < 4294967296) (hn : now < 4294967296) (he : u32 ((now : Int) - L) ≤ I) :
    ACV.remain L I now = I - u32 ((now : Int) - L) ∧
      (L ≤ now → u32 ((now : Int) - L) = now - L) ∧
      (now < L → u32 ((now : Int) - L) = now + 4294967296 - L) := by
  refine ⟨ACV.remain_exact L I now hL hI hn he, ?_, ?_⟩ <;> intro h <;> unfold u32 <;> omega

/-- Witness of `remain_is_interval_minus_elapsed`: label `4294967290`, interval 30, current time 4 after
the counter has wrapped; the elapsed time is 10 and 20 remain. -/
theorem remain_is_interval_minus_elapsed_witness :
    u32 ((4 : Int) - 4294967290) ≤ 30 ∧ ACV.remain 4294967290 30 4 = 30 - 10 :=
  ⟨by decide, (remain_is_interval_minus_elapsed 4294967290 30 4 (by decide) (by decide)
    (by decide) (by decide)).1⟩

/-- C19: the loop of the ACV `timerService` on a queue that ends in `NULL`.
When the head `p` of the queue `p :: l` is expired, the loop body runs up to
the callback of `p` and the loop goes on from the state `s2` in which the
callback is entered: if `p` is not repeating (a OneShot timer) the queue of
`s2` is `l`, without `p`; if `p` is Repeating, `p` is back in the queue of `s2`
with its label set to the current time.  When the head is not expired (or the
queue is empty) the service returns at once, removing and firing nothing.
On a well-formed state the service returns, and for every callback invocation
it makes: the timer was expired when the service was entered; a timer that is
not repeating is not in the queue when the service returns; a queued timer
that is not expired stays in the queue and its callback is not invoked. -/
theorem timerService_fires_expired {N : Nat} (s : ACV.State N) :
    (∀ p l, s.queue = some (p :: l) → s.due p →
      ∃ s2, ACV.fireHead s p = some s2 ∧
        (∀ fuel, ACV.timerService (fuel + 1) s =
          (ACV.timerService fuel s2).map (fun r => (r.1, (p, s2) :: r.2))) ∧
        (¬ (s.timers p).mode = TIMER_REPEAT_MODE → s2.queue = some l ∧ p ∉ l) ∧
        ((s.timers p).mode = TIMER_REPEAT_MODE →
          ∃ l1 l2, l = l1 ++ l2 ∧ s2.queue = some (l1 ++ p :: l2) ∧
            (s2.timers p).sysTimeLabel = s.sysAbsTime)) ∧
    ((∀ p, s.sysTimerQhead = some p → ¬ s.due p) →
      ∀ fuel, ACV.timerService (fuel + 1) s = some (s, [])) ∧
    (s.WF →
      ∃ s' calls, ACV.timerService (N + 1) s = some (s', calls) ∧
        (∀ c ∈ calls, ¬ (s.timers c.1).mode = TIMER_REPEAT_MODE →
          (∃ l, c.2.queue = some l ∧ c.1 ∉ l) ∧ ∃ l, s'.queue = some l ∧ c.1 ∉ l) ∧
        (∀ c ∈ calls, (s.timers c.1).mode = TIMER_REPEAT_MODE →
          ∃ l, c.2.queue = some l ∧ c.1 ∈ l ∧
            (c.2.timers c.1).sysTimeLabel = s.sysAbsTime) ∧
        (∀ l0, s.queue = some l0 → ∀ x ∈ l0, ¬ s.due x →
          (∃ l, s'.queue = some l ∧ x ∈ l) ∧ ∀ c ∈ calls, c.1 ≠ x) ∧
        (∀ c ∈ calls, s.due c.1)) := by
  refine ⟨?_, fun h fuel => ACV.timerService_exit fuel s h, ?_⟩
  · intro p l hq hd
    have hlk := (ACV.queue_iff s _).mp hq
    have hpl : p ∉ l := (List.nodup_cons.mp (linked_nodup _ _ _ hlk)).1
    have hfire : ∀ s2, ACV.fireHead s p = some s2 →
        ∀ fuel, ACV.timerService (fuel + 1) s =
          (ACV.timerService fuel s2).map (fun r => (r.1, (p, s2) :: r.2)) := by
      intro s2 hf fuel
      rw [ACV.timerService_fire fuel s s2 p hlk.1 hd hf]
      cases ACV.timerService fuel s2 with
      | none => rfl
      | some r => rfl
    by_cases hm : (s.timers p).mode = TIMER_REPEAT_MODE
    · obtain ⟨s2, l1, l2, h1, h2, h3, _, _, h6⟩ := (ACV.fireHead_spec s p l hq).2 hm
      refine ⟨s2, h1, hfire s2 h1, fun h => absurd hm h, fun _ => ⟨l1, l2, h2, h3, ?_⟩⟩
      rw [(h6.2 p).1, ACV.setLabel_label, if_pos rfl]
    · obtain ⟨s2, h1, h2, _⟩ := (ACV.fireHead_spec s p l hq).1 hm
      exact ⟨s2, h1, hfire s2 h1, fun _ => ⟨h2, hpl⟩, fun h => absurd h hm⟩
  intro hs
  obtain ⟨l0, hq0, _⟩ := hs.2
  have hlen := ACV.dueCount_lt s hs
  obtain ⟨s', calls, h1, _, h3, _, _⟩ := ACV.timerService_loop
    (fun acc st => (st.sysAbsTime = s.sysAbsTime ∧
        ∀ i, (st.timers i).mode = (s.timers i).mode ∧
          (st.timers i).interval = (s.timers i).interval ∧
          ((st.timers i).sysTimeLabel = (s.timers i).sysTimeLabel ∨ ¬ st.due i)) ∧
      (∀ c ∈ acc, ¬ (s.timers c.1).mode = TIMER_REPEAT_MODE →
        (∃ l, c.2.queue = some l ∧ c.1 ∉ l) ∧ ∃ l, st.queue = some l ∧ c.1 ∉ l) ∧
      (∀ c ∈ acc, (s.timers c.1).mode = TIMER_REPEAT_MODE →
        ∃ l, c.2.queue = some l ∧ c.1 ∈ l ∧ (c.2.timers c.1).sysTimeLabel = s.sysAbsTime) ∧
      (∀ x ∈ l0, ¬ s.due x →
        (∃ l, st.queue = some l ∧ x ∈ l) ∧ ¬ st.due x ∧ ∀ c ∈ acc, c.1 ≠ x) ∧
      (∀ c ∈ acc, s.due c.1))
    (fun acc st p s2 hst hP hh hd hf => ACV.service_step_props s l0 acc st p s2 hst hh hd hf hP)
    (N + 1) s [] hs
    ⟨⟨rfl, fun i => ⟨rfl, rfl, Or.inl rfl⟩⟩, by simp, by simp,
      fun x hx hxd => ⟨⟨l0, hq0, hx⟩, hxd, by simp⟩, by simp⟩
    hlen
  simp only [List.nil_append] at h3
  obtain ⟨_, hB, hC, hD, hF⟩ := h3
  refine ⟨s', calls, h1, hB, hC, ?_, hF⟩
  intro l hl x hx hxd
  rw [hq0] at hl
  injection hl with hl
  subst hl
  exact ⟨(hD x hx hxd).1, (hD x hx hxd).2.2⟩

/-- Witness of `timerService_fires_expired`: the example state in which the
head, the Repeating timer 1, is expired is well formed; the loop body re-arms
and re-inserts timer 1, and `timerService` returns, invoking only callbacks
of timers that were expired. -/
theorem timerService_fires_expired_witness :
    (ACV.exDue.queue = some [1, 2, 0] ∧ ACV.exDue.due 1 ∧ ACV.exDue.WF) ∧
    (∃ s2, ACV.fireHead ACV.exDue 1 = some s2 ∧
      ∃ l1 l2, [2, 0] = l1 ++ l2 ∧ s2.queue = some (l1 ++ 1 :: l2) ∧
        (s2.timers 1).sysTimeLabel = ACV.exDue.sysAbsTime) ∧
    ∃ s' calls, ACV.timerService 4 ACV.exDue = some (s', calls) ∧
      ∀ c ∈ calls, ACV.exDue.due c.1 := by
  have hwf : ACV.exDue.WF := by
    refine ⟨?_, [1, 2, 0], by decide, by decide⟩
    unfold ACV.State.Typed
    decide
  have hq : ACV.exDue.queue = some [1, 2, 0] := by decide
  have hd : ACV.exDue.due 1 := by decide
  obtain ⟨s2, h1, _, _, h4⟩ := (timerService_fires_expired ACV.exDue).1 1 [2, 0] hq hd
  obtain ⟨s', calls, h5, _, _, _, h9⟩ := (timerService_fires_expired ACV.exDue).2.2 hwf
  exact ⟨⟨hq, hd, hwf⟩, ⟨s2, h1, h4 rfl⟩, s', calls, h5, h9⟩

/-- C20 (evaluation at the failing input): the RCV `timerService` with a tick
period of 10 on one queued Repeating timer with interval 25.  The third service call fires the
timer with a countdown of 5; the timer is back in the queue but its countdown
is still 5, not 25, and the fourth service call, one tick later, fires it
again. -/
theorem rcv_repeating_timer_not_rearmed :
    ∃ s1 s2 s3 s4 c3 c4,
      RCV.timerService 10 2 RCV.exRepeat = some (s1, []) ∧
      RCV.timerService 10 2 s1 = some (s2, []) ∧
      (s2.timers 0).interval = 5 ∧
      RCV.timerService 10 2 s2 = some (s3, c3) ∧ c3.map Prod.fst = [0] ∧
      s3.queue = some [0] ∧ (s3.timers 0).mode = TIMER_REPEAT_MODE ∧
      (s3.timers 0).interval = 5 ∧
      RCV.timerService 10 2 s3 = some (s4, c4) ∧ c4.map Prod.fst = [0] ∧
      (s4.timers 0).interval = 5 :=
  ⟨_, _, _, _, _, _, rfl, rfl, rfl, rfl, rfl, rfl, rfl, rfl, rfl, rfl, rfl⟩

/-- C21 (evaluation at the failing inputs): the RCV `timerService` with a
tick period of 10.  On the queue `[0, 1, 2]` of one-shot timers with
countdowns 5, 25, 35, timer 0 fires and the walk stops there, because
`RemoveEntryFromQ` has cleared its `next` link: timers 1 and 2 keep their
countdowns 25 and 35.  On the queue `[0, 1, 2]` of repeating timers with
countdowns 25, 5, 35, timer 1 fires and is put back at the head, so the walk
goes on from the old head: the countdown of timer 0 is reduced twice, to 5,
that of timer 2 once, to 25. -/
theorem rcv_timerService_walk_broken :
    (RCV.exOneShotHead.queue = some [0, 1, 2] ∧
      ∃ s' calls, RCV.timerService 10 8 RCV.exOneShotHead = some (s', calls) ∧
        calls.map Prod.fst = [0] ∧ s'.queue = some [1, 2] ∧
        (s'.timers 1).interval = 25 ∧ (s'.timers 2).interval = 35) ∧
    (RCV.exRepeatMiddle.queue = some [0, 1, 2] ∧
      ∃ s' calls, RCV.timerService 10 8 RCV.exRepeatMiddle = some (s', calls) ∧
        calls.map Prod.fst = [1] ∧ s'.queue = some [1, 0, 2] ∧
        (s'.timers 0).interval = 5 ∧ (s'.timers 1).interval = 5 ∧
        (s'.timers 2).interval = 25) :=
  ⟨⟨by decide, _, _, rfl, rfl, by decide, rfl, rfl⟩,
    ⟨by decide, _, _, rfl, rfl, by decide, rfl, rfl, rfl⟩⟩


/-- C22: when no TCB of the table is Unused, `thrd_contextPrep` sends the
byte 'M' to the USART, returns null and changes nothing else (TCB table,
priority list and `heapSaddr` are the same).  When it returns a TCB, that TCB
is the lowest-indexed one that was Unused; it is now Active and no other TCB
of the table has changed status.  In a state whose priority list is in order,
with a non-null `curThrd` and some Unused TCB, it does return a TCB. -/
theorem thrd_contextPrep_pool (k : Kernel) (tsk per : Nat) :
    ((∀ i, (k.thrd_TCB i).status ≠ THRD_UNUSED) →
      thrd_contextPrep k tsk per = some ({ k with usart := k.usart ++ [77] }, none)) ∧
    (∀ k' t, thrd_contextPrep k tsk per = some (k', some t) →
      ∃ i, t = ThrdRef.slot i ∧ (k.thrd_TCB i).status = THRD_UNUSED ∧
        (∀ j, j < i → (k.thrd_TCB j).status ≠ THRD_UNUSED) ∧
        (k'.thrd_TCB i).status = THRD_ACTIVE ∧
        ∀ j, j ≠ i → (k'.thrd_TCB j).status = (k.thrd_TCB j).status) ∧
    (∀ ts l, PrioInv k ts l → k.curThrd ≠ none →
      (∃ i, (k.thrd_TCB i).status = THRD_UNUSED) →
      ∃ k' t, thrd_contextPrep k tsk per = some (k', some t)) := by
  refine ⟨?_, ?_, ?_⟩
  · intro hfull
    unfold thrd_contextPrep
    rw [dif_neg (scanUnused_full k.thrd_TCB hfull)]
  · intro k' t h
    rcases thrd_contextPrep_frame k k' tsk per (some t) h with
      ⟨_, h2, _⟩ | ⟨id, h1, h2, h3, h4, h5⟩
    · cases h2
    · rcases h5 with ⟨h6, _, _⟩ | ⟨h6, _⟩
      · injection h6 with h6
        refine ⟨id, h6, h1, h2, h4, ?_⟩
        intro j hj
        have hne : ThrdRef.slot j ≠ ThrdRef.slot id := fun h => hj (ThrdRef.slot.inj h)
        exact (h3 (.slot j) hne).1
      · cases h6
  · intro ts l hinv hcur hun
    exact (thrd_contextPrep_total k ts l tsk per hinv).2 hun hcur

/-- Witness of `thrd_contextPrep_pool`: with every TCB in use the call only
sends 'M'; in the boot state slot 0 is the lowest-indexed Unused TCB and the
first creation returns it. -/
theorem thrd_contextPrep_pool_witness :
    ((∀ i, (poolFullK.thrd_TCB i).status ≠ THRD_UNUSED) ∧
      thrd_contextPrep poolFullK 1 48000 =
        some ({ poolFullK with usart := poolFullK.usart ++ [77] }, none)) ∧
    ∃ k', thrd_contextPrep (Kernel.boot 0x0200 0x10FF) 1 48000 = some (k', some (.slot 0)) ∧
      (k'.thrd_TCB 0).status = THRD_ACTIVE ∧
      ∀ j, j ≠ 0 → (k'.thrd_TCB j).status = ((Kernel.boot 0x0200 0x10FF).thrd_TCB j).status := by
  refine ⟨⟨by decide, (thrd_contextPrep_pool poolFullK 1 48000).1 (by decide)⟩, ?_⟩
  obtain ⟨i, h1, _, _, h4, h5⟩ :=
    (thrd_contextPrep_pool (Kernel.boot 0x0200 0x10FF) 1 48000).2.1 _ (.slot 0) rfl
  injection h1 with h1
  subst h1
  exact ⟨_, rfl, h4, h5⟩


/-- C23 (as stated, refuted): a thread with period 100 has been created from
the boot state and is running (`curThrd = &thrd_TCB[0]`); it creates a thread
with period 200.  `thread_create` succeeds and returns `&thrd_TCB[1]`, which
is Active, but after the forced dispatch `curThrd` is still `&thrd_TCB[0]`:
the creator has the shorter period and stays the running thread. -/
theorem thread_create_creator_keeps_running :
    prioK1.curThrd = some (.slot 0) ∧
    ∃ k2, thread_create prioK1 2 200 = some (k2, some (.slot 1)) ∧
      (k2.deref (.slot 1)).status = THRD_ACTIVE ∧ k2.curThrd = some (.slot 0) :=
  ⟨rfl, _, rfl, rfl, rfl⟩

/-- C23 (amended): in a state built by thread creation with a non-null
`curThrd` and an Unused TCB, `thread_create` returns a TCB.  Whenever it
returns a TCB `t`, `t` is in the priority list and the thread running
afterwards is the first Active TCB of the priority list; it is the new TCB
`t` exactly when no TCB created before whose period does not exceed the new
period is Active. -/
theorem thread_create_runs_first_active (k : Kernel) (ts : List ThrdRef) (tsk per : Nat)
    (hb : Built k ts) :
    ((∃ i, (k.thrd_TCB i).status = THRD_UNUSED) → k.curThrd ≠ none →
      ∃ k' t, thread_create k tsk per = some (k', some t)) ∧
    (∀ k' t, thread_create k tsk per = some (k', some t) →
      (∃ l', k'.prioList = some l' ∧ t ∈ l' ∧ k'.curThrd = some (firstActive k' l')) ∧
      (k'.curThrd = some t ↔
        ∀ r ∈ ts, (k.deref r).thrd_period ≤ per % 65536 →
          (k.deref r).status ≠ THRD_ACTIVE)) :=
  ⟨fun hun hcur => thread_create_total k ts tsk per hb hun hcur,
    fun k' t h => thread_create_selected k k' ts tsk per t hb h⟩

/-- Witness of `thread_create_runs_first_active`: the first creation in the
boot state; no TCB was created before, so the new thread runs. -/
theorem thread_create_runs_first_active_witness :
    Built (Kernel.boot 0x0200 0x10FF) [] ∧
    thread_create (Kernel.boot 0x0200 0x10FF) 1 100 = some (prioK1, some (.slot 0)) ∧
    prioK1.curThrd = some (.slot 0) := by
  have hb : Built (Kernel.boot 0x0200 0x10FF) [] := Built.boot _ rfl (fun _ => rfl)
  have h : thread_create (Kernel.boot 0x0200 0x10FF) 1 100 = some (prioK1, some (.slot 0)) :=
    rfl
  exact ⟨hb, h,
    ((thread_create_runs_first_active _ [] 1 100 hb).2 prioK1 (.slot 0) h).2.mpr
      (fun r hr => absurd hr (List.not_mem_nil r))⟩


/-- C24: the end-to-end scenario, from the boot state.  Three threads with
periods 48000, 12000 and 16000 are created in this order with
`thread_create`; the priority list then holds the TCBs with periods 12000,
16000, 48000, in this order.  After `yield_Thread` has been applied to each
of the three, every TCB of the list is Suspended, `getNextThread` returns the
common thread, and the common thread is the running thread. -/
theorem demo_three_threads_scenario :
    ∃ k1 k2 k3 k4 k5 k6 t1 t2 t3,
      thread_create (Kernel.boot 0x0200 0x10FF) 1 48000 = some (k1, some t1) ∧
      thread_create k1 2 12000 = some (k2, some t2) ∧
      thread_create k2 3 16000 = some (k3, some t3) ∧
      k3.prioList = some [t2, t3, t1] ∧
      [t2, t3, t1].map k3.period = [12000, 16000, 48000] ∧
      yield_Thread k3 (some t1) = some k4 ∧ yield_Thread k4 (some t2) = some k5 ∧
      yield_Thread k5 (some t3) = some k6 ∧
      k6.prioList = some [t2, t3, t1] ∧
      [t2, t3, t1].map (fun r => (k6.deref r).status) =
        [THRD_SUSPENDED, THRD_SUSPENDED, THRD_SUSPENDED] ∧
      getNextThread k6 = some .common ∧ k6.curThrd = some .common :=
  ⟨_, _, _, _, _, _, _, _, _, rfl, rfl, rfl, rfl, rfl, rfl, rfl, rfl, rfl, rfl, rfl, rfl⟩


/-- C25: in every state reachable from an initial state (every TCB Unused,
empty priority list) by `thread_create`, `active_Thread`, `yield_Thread`,
`sem_acquire` and `sem_post`, the priority list is a `NULL`-terminated chain
(acyclic) without duplicates of at most `MAX_THREAD_NUM` TCBs, and every TCB
in it has status Active or Suspended. -/
theorem priority_list_well_formed (k : Kernel) (h : KReach k) :
    ∃ l, k.prioList = some l ∧ l.Nodup ∧ l.length ≤ MAX_THREAD_NUM ∧
      ∀ r ∈ l, (k.deref r).status = THRD_ACTIVE ∨ (k.deref r).status = THRD_SUSPENDED := by
  obtain ⟨l, hseg, hmem⟩ := kreach_listOK k h
  have hnd := seg_nodup _ _ _ hseg
  have hlen := slots_length_le l hnd (fun r hr => (hmem r hr).1)
  refine ⟨l, chainFrom_of_seg _ l _ _ hseg ?_, hnd, hlen, fun r hr => (hmem r hr).2⟩
  show l.length < MAX_THREAD_NUM + 2
  omega

/-- Witness of `priority_list_well_formed`: the state after two threads have
been created from the boot state and the running one has yielded. -/
theorem priority_list_well_formed_witness :
    KReach runK3 ∧
    ∃ l, runK3.prioList = some l ∧ l.Nodup ∧ l.length ≤ MAX_THREAD_NUM ∧
      ∀ r ∈ l, (runK3.deref r).status = THRD_ACTIVE ∨
        (runK3.deref r).status = THRD_SUSPENDED := by
  have h0 : KReach (Kernel.boot 0x0200 0x10FF) := KReach.init _ rfl (fun _ => rfl)
  have h1 : KReach runK1 :=
    KReach.create (Kernel.boot 0x0200 0x10FF) runK1 1 48000 (some (.slot 0)) h0 rfl
  have h2 : KReach runK2 := KReach.create runK1 runK2 2 12000 (some (.slot 1)) h1 rfl
  have h3 : KReach runK3 := KReach.yield runK2 runK3 runK2.curThrd h2 rfl
  exact ⟨h3, priority_list_well_formed runK3 h3⟩


/-- C26 (as stated, refuted): a thread is created in the boot state and
calls `sem_acquire` on a semaphore initialised to 0: it is blocked, the wait
queue holds its TCB.  `active_Thread` is then applied to that TCB: its status
is Active and it is still in the wait queue of the semaphore. -/
theorem active_Thread_leaves_waiter_queued :
    ∃ s0 o k3,
      sem_init (some { val := 0, semQ_hdr := none }) 0 = some s0 ∧
      sem_acquire prioK1 (some s0) = some o ∧
      o.k.waitQueue o.s = some [.slot 0] ∧
      (o.k.deref (.slot 0)).status = THRD_SUSPENDED ∧
      active_Thread o.k (some (.slot 0)) = some k3 ∧
      k3.waitQueue o.s = some [.slot 0] ∧
      (k3.deref (.slot 0)).status = THRD_ACTIVE :=
  ⟨_, _, _, rfl, rfl, rfl, rfl, rfl, rfl, rfl⟩

/-- C26 (amended): in every state reachable from an initial state (empty
priority list, every TCB Unused, every `semQ_next` link and every wait queue
head null) by `thread_create`, `yield_Thread`, `sem_init`, `sem_post`, by
`active_Thread` applied to a thread that is in no wait queue and by
`sem_acquire` called by a thread that is in no wait queue, the wait queue of
every semaphore is a finite list and every thread in it has status
Suspended. -/
theorem wait_queue_members_suspended {ι : Type} [DecidableEq ι] (S : SemSys ι)
    (h : SemReach S) :
    ∀ i, ∃ l, S.k.waitQueue (S.sem i) = some l ∧
      ∀ t ∈ l, (S.k.deref t).status = THRD_SUSPENDED := by
  obtain ⟨hn, hs, _⟩ := semReach_inv S h
  intro i
  refine ⟨_, waitQueue_null S.k (S.sem i) hn, fun t ht => ?_⟩
  cases hq : (S.sem i).semQ_hdr with
  | none => rw [hq] at ht; simp at ht
  | some t' =>
    rw [hq] at ht
    simp at ht
    rw [ht]
    exact hs i t' hq

/-- Witness of `wait_queue_members_suspended`: a thread is created from the
boot state and blocks in `sem_acquire`; it is in the wait queue and
Suspended. -/
theorem wait_queue_members_suspended_witness :
    SemReach semS2 ∧ semS2.k.waitQueue (semS2.sem ()) = some [.slot 0] ∧
      (semS2.k.deref (.slot 0)).status = THRD_SUSPENDED := by
  have h0 : SemReach semS0 :=
    SemReach.init semS0 rfl (fun _ => rfl) (fun r => by cases r <;> rfl) (fun _ => rfl)
  have h1 : SemReach semS1 :=
    SemReach.create semS0 semS1.k 1 100 (some (.slot 0)) h0 rfl
  have hq1 : semS1.k.waitQueue (semS1.sem ()) = some [] := rfl
  have h2 : SemReach semS2 := by
    refine SemReach.acquire semS1 ()
      { k := semS2.k, s := semS2.sem (), ret := 0, blocked := true } h1 ?_ rfl
    rintro cur _ ⟨i, l, hl, hm⟩
    cases i
    rw [hq1] at hl
    injection hl with hl
    subst hl
    simp at hm
  have hq2 : semS2.k.waitQueue (semS2.sem ()) = some [.slot 0] := rfl
  obtain ⟨l, hl, hall⟩ := wait_queue_members_suspended semS2 h2 ()
  rw [hq2] at hl
  injection hl with hl
  subst hl
  exact ⟨h2, hq2, hall _ (by simp)⟩


/-- C27: for both timer strategies, `startTimer` and `stopTimer` called with
a null timer pointer return -1 and leave the whole state (the timer queue,
every timer and, in the ACV strategy, the system time) unchanged. -/
theorem timer_null_pointer_rejected :
    (∀ (N : Nat) (s : ACV.State N),
      ACV.startTimer s none = some (s, -1) ∧ ACV.stopTimer s none = some (s, -1)) ∧
    (∀ (N : Nat) (s : RCV.State N),
      RCV.startTimer s none = some (s, -1) ∧ RCV.stopTimer s none = some (s, -1)) :=
  ⟨fun _ _ => ⟨rfl, rfl⟩, fun _ _ => ⟨rfl, rfl⟩⟩


/-- C29: for every well-formed ring `l` with head `q.head` and every member
`x`, `dlst_del` returns and leaves a well-formed ring of the other members in
the same cyclic order (`l` with `x` erased, head first); the sizes are
untouched; the head becomes null when `x` was the only entry, becomes the
successor of `x` when `x` was the head of a longer ring, and is unchanged
otherwise. -/
theorem dlst_del_keeps_ring {α : Type} [DecidableEq α] (q : DQ α) (l : List α) (x : α)
    (hr : Ring q l) (hx : x ∈ l) :
    ∃ q', dlst_del q (some x) = some q' ∧ Ring q' (l.erase x) ∧ q'.size = q.size ∧
      (l = [x] → q'.head = none) ∧
      (l ≠ [x] → q.head = some x → q'.head = q.next x) ∧
      (q.head ≠ some x → q'.head = q.head) :=
  dlst_del_ring q l x hr hx

/-- Witness of `dlst_del_keeps_ring`: entry 1 is deleted from the example
ring `[0, 1, 2]`. -/
theorem dlst_del_keeps_ring_witness :
    Ring exRing [0, 1, 2] ∧
    ∃ q', dlst_del exRing (some 1) = some q' ∧ Ring q' [0, 2] ∧ q'.head = some 0 := by
  obtain ⟨q', h1, h2, _, _, _, h6⟩ :=
    dlst_del_keeps_ring exRing [0, 1, 2] 1 exRing_ring (by decide)
  exact ⟨exRing_ring, q', h1, h2, h6 (by decide)⟩


/-- C30: for every well-formed ring containing distinct chunks `a` and `b`.
In the 16-bit arithmetic of the code, `dlst_merge` removes `b` from the ring
and sets the size of `a` to `(size a + size b) mod 2^16` when
`(address a + size a) mod 2^16 = address b`, and leaves everything unchanged
otherwise.  When both chunks lie inside the 16-bit address space (addresses
not null, `address + size ≤ 2^16`), the test is `address a + size a =
address b`, the new size of `a` is `size a + size b`, no other size changes
and the sum of the sizes of the chunks in the queue is preserved. -/
theorem dlst_merge_adjacent {α : Type} [DecidableEq α] (addr : α → Nat) (q : DQ α)
    (l : List α) (a b : α) (hr : Ring q l) (ha : a ∈ l) (hb : b ∈ l) (hab : a ≠ b) :
    (((addr a + q.size a) % 65536 = addr b →
        ∃ q', dlst_merge addr q (some a) (some b) = some q' ∧ Ring q' (l.erase b) ∧
          q'.size a = (q.size a + q.size b) % 65536 ∧ ∀ x, x ≠ a → q'.size x = q.size x) ∧
      (¬ (addr a + q.size a) % 65536 = addr b →
        dlst_merge addr q (some a) (some b) = some q)) ∧
    (0 < addr a → 0 < addr b → addr b < 65536 → addr a + q.size a ≤ 65536 →
      addr b + q.size b ≤ 65536 →
      (addr a + q.size a = addr b →
        ∃ q', dlst_merge addr q (some a) (some b) = some q' ∧ Ring q' (l.erase b) ∧
          q'.size a = q.size a + q.size b ∧ (∀ x, x ≠ a → q'.size x = q.size x) ∧
          ((l.erase b).map q'.size).sum = (l.map q.size).sum) ∧
      (addr a + q.size a ≠ addr b → dlst_merge addr q (some a) (some b) = some q)) := by
  obtain ⟨m1, m2⟩ := dlst_merge_spec addr q l a b hr ha hb hab
  refine ⟨⟨?_, m2⟩, ?_⟩
  · intro h
    obtain ⟨q', h1, h2, h3, h4, _⟩ := m1 h
    exact ⟨q', h1, h2, h3, h4⟩
  · intro ha0 hb0 hb16 hA hB
    constructor
    · intro hadj
      have hmod : (addr a + q.size a) % 65536 = addr b := by
        rw [hadj]
        exact Nat.mod_eq_of_lt hb16
      obtain ⟨q', h1, h2, h3, h4, h5⟩ := m1 hmod
      have hsum : (q.size a + q.size b) % 65536 = q.size a + q.size b :=
        Nat.mod_eq_of_lt (by omega)
      rw [hsum] at h3 h5
      exact ⟨q', h1, h2, h3, h4, by omega⟩
    · intro hadj
      apply m2
      intro h
      apply hadj
      by_cases h16 : addr a + q.size a < 65536
      · rw [Nat.mod_eq_of_lt h16] at h
        exact h
      · have : addr a + q.size a = 65536 := by omega
        rw [this] at h
        simp at h
        omega

/-- Witness of `dlst_merge_adjacent`: in the example ring chunk 0 (address
256, size 64) ends where chunk 1 (address 320, size 100) starts; the merge
leaves the ring `[0, 2]` with size 164 for chunk 0 and the same total. -/
theorem dlst_merge_adjacent_witness :
    Ring exRing [0, 1, 2] ∧ exAddr 0 + exRing.size 0 = exAddr 1 ∧
    ∃ q', dlst_merge exAddr exRing (some 0) (some 1) = some q' ∧ Ring q' [0, 2] ∧
      q'.size 0 = 164 ∧ (([0, 2] : List (Fin 3)).map q'.size).sum = 196 := by
  obtain ⟨q', h1, h2, h3, _, h5⟩ :=
    ((dlst_merge_adjacent exAddr exRing [0, 1, 2] 0 1 exRing_ring (by decide) (by decide)
      (by decide)).2 (by decide) (by decide) (by decide) (by decide) (by decide)).1 (by decide)
  exact ⟨exRing_ring, by decide, q', h1, h2, h3, h5⟩


/-- C31: in a state with a non-null `curThrd` and a finite priority list `l`,
for every TCB `t`: `active_Thread(t)` returns, `t` is Active afterwards, no
other TCB has changed status, the priority list is still `l`, and `curThrd`
is what `getNextThread` selects in the resulting state, the first Active TCB
of `l` or the common thread; the same holds for `yield_Thread(t)` with status
Suspended.  With a null argument both functions return, no status changes,
the list is still `l` and `curThrd` is again what `getNextThread` selects. -/
theorem active_yield_frame (k : Kernel) (cur : ThrdRef) (l : List ThrdRef)
    (hcur : k.curThrd = some cur) (hl : k.prioList = some l) :
    (∀ t, ∃ k', active_Thread k (some t) = some k' ∧
      (k'.deref t).status = THRD_ACTIVE ∧
      (∀ r, r ≠ t → (k'.deref r).status = (k.deref r).status) ∧
      k'.prioList = some l ∧ getNextThread k' = k'.curThrd ∧
      k'.curThrd = some (firstActive k' l)) ∧
    (∀ t, ∃ k', yield_Thread k (some t) = some k' ∧
      (k'.deref t).status = THRD_SUSPENDED ∧
      (∀ r, r ≠ t → (k'.deref r).status = (k.deref r).status) ∧
      k'.prioList = some l ∧ getNextThread k' = k'.curThrd ∧
      k'.curThrd = some (firstActive k' l)) ∧
    (∃ k', active_Thread k none = some k' ∧ yield_Thread k none = some k' ∧
      (∀ r, (k'.deref r).status = (k.deref r).status) ∧
      k'.prioList = some l ∧ getNextThread k' = k'.curThrd ∧
      k'.curThrd = some (firstActive k' l)) := by
  have key : ∀ (t : ThrdRef) (st : thrd_status_t),
      ∃ k', thread_dispatcher (k.setStatus t st) = some k' ∧
        (k'.deref t).status = st ∧
        (∀ r, r ≠ t → (k'.deref r).status = (k.deref r).status) ∧
        k'.prioList = some l ∧ getNextThread k' = k'.curThrd ∧
        k'.curThrd = some (firstActive k' l) := by
    intro t st
    have hc : (k.setStatus t st).curThrd = some cur := by
      rw [← hcur]
      cases t <;> rfl
    have hp : (k.setStatus t st).prioList = some l := by
      rw [prioList_setStatus, hl]
    obtain ⟨k', h1, h2⟩ := thread_dispatcher_some _ cur l hc hp
    obtain ⟨a1, a2, a3, a4⟩ := setStatus_dispatch k k' t st h1
    refine ⟨k', h1, a1, a2, a3.trans hl, a4, ?_⟩
    rw [h2]
    congr 1
    unfold firstActive
    have : ∀ r, (k'.deref r).status = ((k.setStatus t st).deref r).status :=
      fun r => (thread_dispatcher_deref _ k' h1 r).1
    simp only [this]
  refine ⟨fun t => key t THRD_ACTIVE, fun t => key t THRD_SUSPENDED, ?_⟩
  obtain ⟨k', h1, h2⟩ := thread_dispatcher_some k cur l hcur hl
  have hd := thread_dispatcher_deref k k' h1
  refine ⟨k', h1, h1, fun r => (hd r).1, ?_, thread_dispatcher_selects k k' h1, ?_⟩
  · rw [prioList_congr k k' (fun r => (hd r).2.1) (thread_dispatcher_thrd_lstQ k k' h1)]
    exact hl
  · rw [h2]
    congr 1
    unfold firstActive
    simp only [fun r => (hd r).1]

/-- Witness of `active_yield_frame`: in the state with two threads created
from the boot state, the second (period 12000, `thrd_TCB[1]`) is running;
when it yields, the first (`thrd_TCB[0]`) is selected. -/
theorem active_yield_frame_witness :
    runK2.curThrd = some (.slot 1) ∧ runK2.prioList = some [.slot 1, .slot 0] ∧
    ∃ k', yield_Thread runK2 (some (.slot 1)) = some k' ∧
      (k'.deref (.slot 1)).status = THRD_SUSPENDED ∧
      k'.prioList = some [.slot 1, .slot 0] ∧ k'.curThrd = some (.slot 0) := by
  have hc : runK2.curThrd = some (.slot 1) := rfl
  have hl : runK2.prioList = some [.slot 1, .slot 0] := rfl
  obtain ⟨k', h1, h2, _, h4, _, _⟩ := (active_yield_frame runK2 _ _ hc hl).2.1 (.slot 1)
  refine ⟨hc, hl, k', h1, h2, h4, ?_⟩
  have h1' : yield_Thread runK2 (some (.slot 1)) = some runK3 := rfl
  rw [h1] at h1'
  injection h1' with h1'
  rw [h1']
  rfl

/-- C32 (evaluation at the failing input): the dispatch table
`exTaskTable` is at address `0x0300`; its entries hold the handler addresses
`0x1234` and `0x2345`.  With task 0 pending (`task_flags = 1`) the address
called is `0x0300`, the address of entry 0, not the handler `0x1234` stored
in it; with task 1 pending (`task_flags = 2`) the address called is `0x0304`,
the address of entry 1, not the handler `0x2345`. -/
theorem event_driven_scheduling_calls_entry_address :
    (exTaskTable.map task_TCB_t.tsk = [0x1234, 0x2345]) ∧
    ((event_driven_scheduling 0x0300 (fun _ f => f) 1).calls = [entryAddr 0x0300 0] ∧
      entryAddr 0x0300 0 = 0x0300 ∧
      (event_driven_scheduling 0x0300 (fun _ f => f) 1).calls ≠
        (exTaskTable.get? 0).toList.map task_TCB_t.tsk) ∧
    ((event_driven_scheduling 0x0300 (fun _ f => f) 2).calls = [entryAddr 0x0300 1] ∧
      entryAddr 0x0300 1 = 0x0304 ∧
      (event_driven_scheduling 0x0300 (fun _ f => f) 2).calls ≠
        (exTaskTable.get? 1).toList.map task_TCB_t.tsk) := by
  decide

/-- C33: with the stack as a list of bytes.  `thrdContextSave` pushes 33
bytes; on the stack they are, from the top, `r0` to `r23`, `r25` to `r31`,
`SREG` and `r24`, which is the order in which `thrdContextRestore` pops
them, so that restore after save gives back every register, the stack and
the status register, the latter with the global interrupt flag set by the
final `sei`.  The first frame built by `thrd_contextPrep` when
`__zero_reg__` (`r1`) holds 0 is 33 zero bytes on top of the two bytes of the
address of `thrd_start_wrapper`, 35 bytes in all: restoring from it leaves
every register 0, `SREG` with the interrupt flag only, and `RET` continues at
`thrd_start_wrapper` with the frame consumed. -/
theorem context_save_restore (c : Cpu) :
    (∃ c1, exec thrdContextSave c = some c1 ∧ c1.stack = contextBytes c ++ c.stack ∧
      (contextBytes c).length = 33 ∧
      ∃ c2, exec thrdContextRestore c1 = some c2 ∧ c2.reg = c.reg ∧
        c2.stack = c.stack ∧ c2.sreg = c.sreg % 128 + 128) ∧
    (∀ wrapper, wrapper < 65536 → c.reg 1 = 0 →
      ∃ c1, exec (initFrame wrapper) c = some c1 ∧
        c1.stack = List.replicate 33 0 ++ [wrapper / 256, wrapper % 256] ++ c.stack ∧
        c1.stack.length = c.stack.length + 2 + 33 ∧
        ∃ c2 c3 pc, exec thrdContextRestore c1 = some c2 ∧ (∀ r, c2.reg r = 0) ∧
          c2.sreg = 128 ∧ ret c2 = some (c3, pc) ∧ pc = wrapper ∧
          c3.stack = c.stack ∧ (∀ r, c3.reg r = 0)) := by
  refine ⟨⟨_, rfl, rfl, rfl, _, rfl, ?_, rfl, rfl⟩, ?_⟩
  · funext r
    fin_cases r <;> rfl
  · intro wrapper hw h1
    have hhi : wrapper / 256 % 256 = wrapper / 256 := Nat.mod_eq_of_lt (by omega)
    have hf := initFrame_exec c wrapper
    rw [h1, hhi, List.append_assoc] at hf
    obtain ⟨c2, h2, h3, h4, h5⟩ :=
      restore_zero_frame c ([wrapper / 256, wrapper % 256] ++ c.stack)
    refine ⟨_, hf, (List.append_assoc _ _ _).symm, ?_, c2, { c2 with stack := c.stack },
      wrapper, h2, h3, h4, ?_, rfl, rfl, h3⟩
    · simp
    · unfold ret
      rw [h5]
      show some _ = some _
      have : wrapper / 256 * 256 + wrapper % 256 = wrapper := by omega
      rw [this]
      rfl

/-- Witness of `context_save_restore`: a new thread's frame is built with the
wrapper at address `0x1A2B` in a state where `r1` is 0; the first resume
continues at `0x1A2B` with all registers 0. -/
theorem context_save_restore_witness :
    exCpuNew.reg 1 = 0 ∧
    ∃ c1 c2 c3, exec (initFrame 0x1A2B) exCpuNew = some c1 ∧
      c1.stack = List.replicate 33 0 ++ [0x1A, 0x2B] ∧
      exec thrdContextRestore c1 = some c2 ∧ ret c2 = some (c3, 0x1A2B) ∧
      (∀ r, c3.reg r = 0) ∧ c3.stack = [] := by
  obtain ⟨c1, h1, h2, _, c2, c3, pc, h4, _, _, h7, h8, h9, h10⟩ :=
    (context_save_restore exCpuNew).2 0x1A2B (by decide) rfl
  subst h8
  exact ⟨rfl, c1, c2, c3, h1, h2, h4, h7, h10, h9⟩

/-- C34: a run from a state `k0` whose current thread is the common thread
or a TCB in use, by calls of `thrd_contextPrep` interleaved with dispatches
and status and wait-link writes; `log` records the calls that returned a TCB,
and the recorded stacks fit below `2^16`.  Then `heapSaddr` has advanced by
`THREAD_CONTEXT_SIZE` per recorded creation; the creation number `j + 1`
found `heapSaddr` at `heap0 + 128 * j`, left it at `heap0 + 128 * (j + 1)`,
and the stack pointer saved for the first resume is 35 bytes (the first
frame) below the stack top `heap0 + 128 * (j + 1) - 1`; the regions
`[base, heap - 1]` of two recorded creations are disjoint; and a call that
returns null leaves `heapSaddr` as it is, the pool being exhausted. -/
theorem stack_regions_disjoint (k0 k : Kernel) (log : List Creation)
    (h : HeapRun k0 k log) (h0 : CurInUse k0)
    (hfit : k0.heapSaddr + THREAD_CONTEXT_SIZE * log.length < 65536) :
    k.heapSaddr = k0.heapSaddr + THREAD_CONTEXT_SIZE * log.length ∧
    (∀ j c, log[j]? = some c →
      c.base = k0.heapSaddr + THREAD_CONTEXT_SIZE * j ∧
      c.heap = c.base + THREAD_CONTEXT_SIZE ∧
      c.sp + 2 + 33 = k0.heapSaddr + THREAD_CONTEXT_SIZE * (j + 1) - 1) ∧
    (∀ (i j : Nat) (ci cj : Creation), i < j → log[i]? = some ci → log[j]? = some cj →
      ci.heap - 1 < cj.base) ∧
    (∀ tsk per k', thrd_contextPrep k tsk per = some (k', none) →
      (∀ i, (k.thrd_TCB i).status ≠ THRD_UNUSED) ∧ k'.heapSaddr = k.heapSaddr) := by
  obtain ⟨hcur, _, hfit'⟩ := heapRun_inv k0 k log h h0
  obtain ⟨hk, hent⟩ := hfit' hfit
  refine ⟨hk, ?_, ?_, ?_⟩
  · intro j c hc
    obtain ⟨a, b, d⟩ := hent j c hc
    refine ⟨a, ?_, d⟩
    rw [a, b]
    unfold THREAD_CONTEXT_SIZE
    omega
  · intro i j ci cj hij hi hj
    obtain ⟨_, b, _⟩ := hent i ci hi
    obtain ⟨a, _, _⟩ := hent j cj hj
    rw [a, b]
    unfold THREAD_CONTEXT_SIZE
    omega
  · intro tsk per k' hcp
    have hcn : k.curThrd ≠ none := by
      rcases hcur with h | ⟨i, h, _⟩ <;> rw [h] <;> exact fun h => Option.noConfusion h
    obtain ⟨_, hcases⟩ := thrd_contextPrep_heap k k' tsk per none hcp
    rcases hcases with ⟨hfull, _, hk'⟩ | ⟨_, _, hr⟩
    · subst hk'
      exact ⟨hfull, rfl⟩
    · rcases hr with ⟨_, hr⟩ | ⟨id, hr, _⟩
      · exact absurd hr hcn
      · cases hr

/-- Witness of `stack_regions_disjoint`: three creations from the boot state
with `heapSaddr = 0x0200`; the pointer ends at `0x0380` and the third thread
has the region from `0x0300` to `0x037F`, its saved stack pointer 35 bytes
below. -/
theorem stack_regions_disjoint_witness :
    HeapRun (Kernel.boot 0x0200 0x10FF) heapK3 heapLog3 ∧
    heapK3.heapSaddr = 0x0380 ∧
    heapLog3.map (fun c => (c.base, c.heap - 1, c.sp)) =
      [(0x0200, 0x027F, 0x025C), (0x0280, 0x02FF, 0x02DC), (0x0300, 0x037F, 0x035C)] := by
  have h1 : HeapRun (Kernel.boot 0x0200 0x10FF) heapK1 _ :=
    HeapRun.created _ heapK1 [] 1 48000 (.slot 0) HeapRun.start rfl
  have h2 : HeapRun (Kernel.boot 0x0200 0x10FF) heapK2 _ :=
    HeapRun.created _ heapK2 _ 2 12000 (.slot 1) h1 rfl
  have h3 : HeapRun (Kernel.boot 0x0200 0x10FF) heapK3 heapLog3 :=
    HeapRun.created _ heapK3 _ 3 16000 (.slot 2) h2 rfl
  exact ⟨h3, (stack_regions_disjoint _ _ _ h3 (Or.inl rfl) (by decide)).1, by decide⟩

/-- C35 (as stated, refuted): tick length 10; timer 0 with interval
`2^32 - 5` is started at time 0 and 429496729 ticks pass, none of which finds
it expired; at time `2^32 - 6` timer 1 with interval 10 is started and goes
behind timer 0, whose remaining time is 1.  At the next tick the counter
wraps to 4: the elapsed time of timer 0 is 4 again, so the head is not
expired and the service returns without a callback, but timer 1, whose
elapsed time is 10, is expired and is left in the queue. -/
theorem expired_timer_left_behind_wrapped_head :
    ∃ s1 s2 s3 s4 calls, ACV.startTimer ACV.exWrapInit (some 0) = some (s1, 0) ∧
      ACV.afterTicks 10 429496729 s1 = some s2 ∧ s2.sysAbsTime = 4294967290 ∧
      ACV.startTimer s2 (some 1) = some (s3, 0) ∧ s3.queue = some [0, 1] ∧
      ACV.timerISR 10 3 s3 = some (s4, calls) ∧ calls = [] ∧
      s4.queue = some [0, 1] ∧ s4.sysAbsTime = 4 ∧ ¬ s4.due 0 ∧ s4.due 1 :=
  ⟨_, _, _, _, _, rfl, ACV.ticks_idle 10 ACV.exWrap1 0 rfl rfl rfl (by decide) 429496729 (by decide), rfl, rfl, by decide, rfl, rfl,
    by decide, rfl, by decide, by decide⟩

/-- C35 (amended): in every state reached from an empty queue by
`startTimer`, `stopTimer` and ticks served by `timerService`, with intervals
positive and below `2^31`, the next tick is served: `timerService` returns,
no timer left in the queue is expired, and every callback invoked during the
call belongs to a timer that was expired when the service was entered. -/
theorem service_leaves_no_expired_timer {N : Nat} (APPTIMERINTERVAL : Nat) (s : ACV.State N)
    (h : ACV.Reach APPTIMERINTERVAL s) :
    ∃ s' calls, ACV.timerISR APPTIMERINTERVAL (N + 1) s = some (s', calls) ∧
      (∃ l, s'.queue = some l ∧ ∀ x ∈ l, ¬ s'.due x) ∧
      ∀ c ∈ calls,
        ACV.State.due { s with sysAbsTime := u32 ((s.sysAbsTime : Int) + APPTIMERINTERVAL) }
          c.1 := by
  have hinv := ACV.reach_inv APPTIMERINTERVAL s h
  obtain ⟨s', calls, h1, h2⟩ := ACV.inv_tick APPTIMERINTERVAL s hinv
  obtain ⟨s'', calls', g1, g2, g3⟩ :=
    ACV.timerService_calls_due _ (ACV.inv_tick_wf APPTIMERINTERVAL s hinv)
  have e : ACV.timerISR APPTIMERINTERVAL (N + 1) s = some (s'', calls') := g1
  rw [h1] at e
  injection e with e
  injection e with e1 e2
  subst e1
  subst e2
  exact ⟨s', calls, h1, ACV.inv_none_due APPTIMERINTERVAL s' h2 g3, g2⟩

/-- Witness of `service_leaves_no_expired_timer`: timers 0 and 1 of the
example state (intervals 30 and 10) are started at time `4294967290`; the
next tick of length 10, across the wraparound of the counter, fires timer 1
and leaves no expired timer in the queue. -/
theorem service_leaves_no_expired_timer_witness :
    ACV.Reach 10 ACV.exArmed2 ∧ ACV.exArmed2.queue = some [1, 0] ∧
    ∃ s3 calls, ACV.timerISR 10 4 ACV.exArmed2 = some (s3, calls) ∧
      calls.map Prod.fst = [1] ∧ ∃ l, s3.queue = some l ∧ ∀ x ∈ l, ¬ s3.due x := by
  have h0 : ACV.Reach 10 ACV.exInit :=
    ACV.Reach.init _ (by unfold ACV.State.Typed; decide) rfl (by decide)
  have h2 : ACV.Reach 10 ACV.exArmed2 :=
    ACV.Reach.start _ _ (some 1) 0 (ACV.Reach.start _ _ (some 0) 0 h0 rfl) rfl
  obtain ⟨s3, calls, g1, g2, _⟩ := service_leaves_no_expired_timer 10 _ h2
  have e : ∃ r, ACV.timerISR 10 4 ACV.exArmed2 = some r ∧ r.2.map Prod.fst = [1] :=
    ⟨_, rfl, rfl⟩
  obtain ⟨r, e1, e2⟩ := e
  rw [g1] at e1
  injection e1 with e1
  subst e1
  exact ⟨h2, by decide, s3, calls, g1, e2, g2⟩

/-- C36 (evaluation at the failing input): the RCV `timerService` with a
tick period of 10 on the queue `[0, 1]` of two Repeating timers with
countdowns 5 and 5.  Each fired timer is put back at the head with its
countdown still below the tick period and the walk goes on from its `next`
link to the other timer: the loop never ends, the service has no result
whatever the fuel. -/
theorem rcv_timerService_two_repeating_never_returns :
    RCV.exTwoRepeat.queue = some [0, 1] ∧
    (RCV.exTwoRepeat.timers 0).mode = TIMER_REPEAT_MODE ∧
    (RCV.exTwoRepeat.timers 1).mode = TIMER_REPEAT_MODE ∧
    (RCV.exTwoRepeat.timers 0).interval = 5 ∧ (RCV.exTwoRepeat.timers 1).interval = 5 ∧
    ∀ fuel, RCV.timerService 10 fuel RCV.exTwoRepeat = none :=
  ⟨by decide, rfl, rfl, rfl, rfl,
    fun fuel => RCV.rcv_service_two_loops 10 RCV.exTwoRepeat 0 1 (by decide) (by decide)
      (by decide) rfl rfl fuel⟩

/-- C37: the ACV `timerService` on a well-formed state (32-bit fields, a
queue that ends in `NULL`, every queued Repeating timer with a positive
interval).  One iteration of the loop on an expired head returns a
well-formed state in which the number of expired timers in the queue is
strictly smaller.  Hence the service returns: with any fuel above the number
of expired timers, and so with fuel `N + 1`, it gives one and the same
result, and the number of callback invocations does not exceed the number of
timers that were expired on entry. -/
theorem timerService_terminates {N : Nat} (s : ACV.State N) (hs : s.WF) :
    (∀ p l, s.queue = some (p :: l) → s.due p →
      ∃ s2, ACV.fireHead s p = some s2 ∧ s2.WF ∧ s2.dueCount < s.dueCount) ∧
    s.dueCount < N + 1 ∧
    ∃ s' calls, (∀ fuel, s.dueCount < fuel → ACV.timerService fuel s = some (s', calls)) ∧
      calls.length ≤ s.dueCount ∧ s'.WF ∧
      (∀ p, s'.sysTimerQhead = some p → ¬ s'.due p) := by
  refine ⟨fun p l hq hd => ?_, ACV.dueCount_lt s hs, ?_⟩
  · obtain ⟨s2, h1, h2, h3, _⟩ := ACV.fireHead_wf s p l hs hq hd
    exact ⟨s2, h1, h2, h3⟩
  · obtain ⟨s', calls, h1, h2, h3, h4⟩ := ACV.timerService_bounded s hs
    exact ⟨s', calls, h1, by omega, h3, h4⟩

/-- Witness of `timerService_terminates`: the example state with one expired
timer, the Repeating timer 1 at the head; the service returns with fuel 2
after one callback invocation. -/
theorem timerService_terminates_witness :
    ACV.exDue.WF ∧ ACV.exDue.dueCount = 1 ∧
    ∃ s' calls, ACV.timerService 2 ACV.exDue = some (s', calls) ∧ calls.length ≤ 1 := by
  have hwf : ACV.exDue.WF := by
    refine ⟨?_, [1, 2, 0], by decide, by decide⟩
    unfold ACV.State.Typed
    decide
  have hc : ACV.exDue.dueCount = 1 := by decide
  obtain ⟨s', calls, h1, h2, _⟩ := (timerService_terminates ACV.exDue hwf).2.2
  exact ⟨hwf, hc, s', calls, h1 2 (by rw [hc]; decide), hc ▸ h2⟩

/-- C38: for both timer strategies, every timer queue that ends in `NULL`
and every timer `t` that is not in it: `startTimer(t)` returns 0,
`stopTimer(t)` called next returns 0, and the queue is then the same list of
timers, in the same order, as before the two calls; the `next` link of `t`
is null and no timer field other than links has changed (in the ACV
strategy, other than the label of `t`, set to the current time). -/
theorem start_then_stop_restores_queue :
    (∀ (N : Nat) (s : ACV.State N) (l : List (Fin N)) (t : Fin N),
      s.queue = some l → t ∉ l →
      ∃ s1 s2, ACV.startTimer s (some t) = some (s1, 0) ∧
        ACV.stopTimer s1 (some t) = some (s2, 0) ∧ s2.queue = some l ∧
        (s2.timers t).next = none ∧ ACV.SameData (s.setLabel t s.sysAbsTime) s2) ∧
    (∀ (N : Nat) (s : RCV.State N) (l : List (Fin N)) (t : Fin N),
      s.queue = some l → t ∉ l →
      ∃ s1 s2, RCV.startTimer s (some t) = some (s1, 0) ∧
        RCV.stopTimer s1 (some t) = some (s2, 0) ∧ s2.queue = some l ∧
        (s2.timers t).next = none ∧ RCV.SameData s s2) := by
  constructor
  · intro N s l t hq ht
    obtain ⟨s1, l1, l2, h1, h2, h3, _, _, h6⟩ := ACV.startTimer_fresh s t l hq ht
    obtain ⟨s2, g1, g2, g3, g4⟩ := ACV.stopTimer_mem s1 t _ h3 (by simp)
    have ht1 : t ∉ l1 := fun h => ht (by rw [h2]; simp [h])
    rw [erase_mid l1 l2 t ht1, ← h2] at g2
    exact ⟨s1, s2, h1, g1, g2, g3, ACV.sameData_trans h6 g4⟩
  · intro N s l t hq ht
    obtain ⟨s1, h1, h3, h6⟩ := RCV.rcv_startTimer_fresh s t l hq ht
    obtain ⟨s2, g1, g2, g3, g4⟩ := RCV.rcv_stopTimer_mem s1 t _ h3 (by simp)
    have e : (t :: l).erase t = l := by simp
    rw [e] at g2
    refine ⟨s1, s2, h1, g1, g2, g3, fun i => ?_⟩
    obtain ⟨a1, a2, a3, a4⟩ := h6 i
    obtain ⟨b1, b2, b3, b4⟩ := g4 i
    exact ⟨b1.trans a1, b2.trans a2, b3.trans a3, b4.trans a4⟩

/-- Witness of `start_then_stop_restores_queue`: timer 1 on the ACV example
queue `[0]` and timer 2 on the RCV example queue `[1, 0]`. -/
theorem start_then_stop_restores_queue_witness :
    (ACV.exSingle.queue = some [0] ∧
      ∃ s1 s2, ACV.startTimer ACV.exSingle (some 1) = some (s1, 0) ∧
        ACV.stopTimer s1 (some 1) = some (s2, 0) ∧ s2.queue = some [0]) ∧
    (RCV.exQueue.queue = some [1, 0] ∧
      ∃ s1 s2, RCV.startTimer RCV.exQueue (some 2) = some (s1, 0) ∧
        RCV.stopTimer s1 (some 2) = some (s2, 0) ∧ s2.queue = some [1, 0]) := by
  have ha : ACV.exSingle.queue = some [0] := by decide
  have hr : RCV.exQueue.queue = some [1, 0] := by decide
  obtain ⟨s1, s2, h1, h2, h3, _⟩ :=
    start_then_stop_restores_queue.1 2 ACV.exSingle [0] 1 ha (by decide)
  obtain ⟨r1, r2, g1, g2, g3, _⟩ :=
    start_then_stop_restores_queue.2 3 RCV.exQueue [1, 0] 2 hr (by decide)
  exact ⟨⟨ha, s1, s2, h1, h2, h3⟩, ⟨hr, r1, r2, g1, g2, g3⟩⟩

/-- C39: whenever `sem_acquire` returns, the returned value is 0, on the
path that takes the semaphore at once (it returns the enumerator `ERROR`,
whose value is 0) as on the path that blocks the caller; both paths occur:
with a value of at least 1 the call returns on the first, and a call that
returns with a value below 1 has taken the second. -/
theorem sem_acquire_returns_zero (k : Kernel) (s : Option semaphore_t) (o : SemOut)
    (h : sem_acquire k s = some o) :
    o.ret = 0 ∧ ERROR = 0 ∧
    (∀ s0, s = some s0 → 1 ≤ s0.val → o.blocked = false ∧ o.ret = ERROR) ∧
    (∀ s0, s = some s0 → s0.val < 1 → o.blocked = true) := by
  unfold sem_acquire at h
  cases s with
  | none => simp at h
  | some s1 =>
    simp only at h
    split at h
    · rename_i hv
      injection h with h
      subst h
      refine ⟨rfl, rfl, fun _ _ _ => ⟨rfl, rfl⟩, fun s0 hs hlt => ?_⟩
      injection hs with hs
      subst hs
      omega
    · rename_i hv
      split at h
      · simp at h
      · split at h
        · simp at h
        · split at h
          · simp at h
          · injection h with h
            subst h
            refine ⟨rfl, rfl, fun s0 hs hge => ?_, fun _ _ _ => rfl⟩
            injection hs with hs
            subst hs
            omega

/-- Witness of `sem_acquire_returns_zero`: in the state where the first
thread runs, `sem_acquire` on a semaphore with value 1 returns 0 without
blocking, and on a semaphore with value 0 it returns 0 after blocking. -/
theorem sem_acquire_returns_zero_witness :
    ∃ o1 o2, sem_acquire prioK1 (some { val := 1, semQ_hdr := none }) = some o1 ∧
      sem_acquire prioK1 (some { val := 0, semQ_hdr := none }) = some o2 ∧
      o1.blocked = false ∧ o2.blocked = true ∧ o1.ret = 0 ∧ o2.ret = 0 := by
  have h1 : sem_acquire prioK1 (some { val := 1, semQ_hdr := none }) =
      some { k := prioK1, s := { val := 0, semQ_hdr := none }, ret := 0, blocked := false } :=
    rfl
  have h2 : ∃ o2, sem_acquire prioK1 (some { val := 0, semQ_hdr := none }) = some o2 ∧
      o2.blocked = true := ⟨_, rfl, rfl⟩
  obtain ⟨o2, h3, h4⟩ := h2
  exact ⟨_, o2, h1, h3, rfl, h4, (sem_acquire_returns_zero _ _ _ h1).1,
    (sem_acquire_returns_zero _ _ _ h3).1⟩

/-- C40 (as stated, refuted): `thrd_contextPrep` is called with `curThrd`
null, in the state of the kernel variables before `software_init` has run,
all TCBs being Unused.  The call sends 'E' and returns null, but
`thrd_TCB[0]` is left Active with the requested period, it is the head of
the priority list, and `heapSaddr` has advanced by `THREAD_CONTEXT_SIZE`; a
second call takes `thrd_TCB[1]` and advances `heapSaddr` again. -/
theorem thrd_contextPrep_null_curThrd_leaves_tcb :
    preInitK.curThrd = none ∧ preInitK.prioList = some [] ∧
    (∀ i, (preInitK.thrd_TCB i).status = THRD_UNUSED) ∧
    ∃ k1 k2, thrd_contextPrep preInitK 1 100 = some (k1, none) ∧
      k1.usart = [69] ∧ (k1.thrd_TCB 0).status = THRD_ACTIVE ∧
      (k1.thrd_TCB 0).thrd_period = 100 ∧ k1.prioList = some [.slot 0] ∧
      k1.heapSaddr = preInitK.heapSaddr + THREAD_CONTEXT_SIZE ∧
      thrd_contextPrep k1 2 50 = some (k2, none) ∧
      k2.prioList = some [.slot 1, .slot 0] ∧
      k2.heapSaddr = preInitK.heapSaddr + 2 * THREAD_CONTEXT_SIZE :=
  ⟨rfl, rfl, fun _ => rfl, _, _, rfl, rfl, rfl, rfl, rfl, rfl, rfl, rfl, rfl⟩

/-- C40 (amended): in a state whose `curThrd` is not null, a call of
`thrd_contextPrep` that returns null found the pool exhausted, and the TCB
table, the common thread, the priority list, the heap-start pointer,
`curThrd` and the stack pointer are the same as before the call; only the
byte 'M' has been sent.  `curThrd` is not null in any state reached, from a
state whose current thread is the common thread or a TCB in use, by calls of
`thrd_contextPrep`, dispatches, status writes and wait-link writes. -/
theorem thrd_contextPrep_null_return_unchanged (k : Kernel) (tsk per : Nat) :
    (∀ k0 log, CurInUse k0 → HeapRun k0 k log → k.curThrd ≠ none) ∧
    (k.curThrd ≠ none → ∀ k', thrd_contextPrep k tsk per = some (k', none) →
      (∀ i, (k.thrd_TCB i).status ≠ THRD_UNUSED) ∧
      k'.thrd_TCB = k.thrd_TCB ∧ k'.common_thread = k.common_thread ∧
      k'.thrd_lstQ = k.thrd_lstQ ∧ k'.prioList = k.prioList ∧
      k'.heapSaddr = k.heapSaddr ∧ k'.curThrd = k.curThrd ∧ k'.SP = k.SP ∧
      k'.usart = k.usart ++ [77]) := by
  constructor
  · intro k0 log h0 hrun
    rcases (heapRun_inv k0 k log hrun h0).1 with h | ⟨i, h, _⟩ <;> rw [h] <;>
      exact fun h => Option.noConfusion h
  · intro hcur k' h
    obtain ⟨_, hcases⟩ := thrd_contextPrep_heap k k' tsk per none h
    rcases hcases with ⟨hfull, _, hk'⟩ | ⟨_, _, hr⟩
    · subst hk'
      exact ⟨hfull, rfl, rfl, rfl, rfl, rfl, rfl, rfl, rfl⟩
    · rcases hr with ⟨_, hr⟩ | ⟨id, hr, _⟩
      · exact absurd hr hcur
      · cases hr

/-- Witness of `thrd_contextPrep_null_return_unchanged`: in the state with
every TCB in use the current thread is the common thread; the call returns
null and the table, the list and the heap-start pointer are unchanged. -/
theorem thrd_contextPrep_null_return_unchanged_witness :
    poolFullK.curThrd ≠ none ∧
    ∃ k', thrd_contextPrep poolFullK 1 100 = some (k', none) ∧
      k'.thrd_TCB = poolFullK.thrd_TCB ∧ k'.prioList = poolFullK.prioList ∧
      k'.heapSaddr = poolFullK.heapSaddr := by
  have hc : poolFullK.curThrd ≠ none := by decide
  have h : thrd_contextPrep poolFullK 1 100 =
      some ({ poolFullK with usart := poolFullK.usart ++ [77] }, none) := rfl
  obtain ⟨_, h2, _, _, h5, h6, _⟩ :=
    (thrd_contextPrep_null_return_unchanged poolFullK 1 100).2 hc _ h
  exact ⟨hc, _, h, h2, h5, h6⟩

end Miros
